import Mathlib

/-! # Catalog manager: scheduler, scanner and viewport prefetch

A shallow embedding of `src/app.cpp` / `src/app.hpp` (namespace `tj`).

* `size_t`, `u64` and `int` values are natural numbers or integers; where the
  source relies on unsigned wrap-around the operation is written with an
  explicit `% 2 ^ 64`.
* `std::chrono::steady_clock::time_point` is an integer count of nanoseconds.
* Calls into the operating system and the rendering library are parameters
  (records of functions) of the definitions that use them.
* A `std::function` closure is a value of `LoadCallback` naming the lambda of
  the source it was built from together with the captured identifier.
-/

namespace tj

/-! ## Data model (`app.hpp`) -/

/-- The type `AppID = std::uint64_t`; structure fields of this type are written `Nat`. -/
abbrev AppID := Nat

/-- A reading of `std::chrono::steady_clock`, in nanoseconds; structure fields of this
type are written `Int`. -/
abbrev time_point := Int

/-- The struct `AppEntry`. Bytes of `cached_icon_data` are numbers below 256. -/
structure AppEntry where
  name : String
  author : String
  display_version : String
  size_nand : Nat
  size_sd : Nat
  size_total : Nat
  id : Nat
  image : Int
  selected : Bool
  own_image : Bool
  cached_icon_data : List Nat
  has_cached_icon : Bool
deriving DecidableEq, Repr

/-- The scoped enumeration `ResourceTaskType`. Its underlying type is `int`; the
only enumerator the header declares is `ICON` (value 0). -/
abbrev ResourceTaskType := Int

/-- The enumerator `ResourceTaskType::ICON`. -/
def ResourceTaskType.ICON : ResourceTaskType := 0

/-- The closures stored in `ResourceLoadTask::load_callback`: the three lambdas of
`app.cpp`, each capturing `application_id`, and `external` for a callable that is
not defined in this repository. -/
inductive LoadCallback where
  | scanIcon (application_id : Nat)
  | listIcon (application_id : Nat)
  | confirmIcon (application_id : Nat)
  | external (tag : Nat)
deriving DecidableEq, Repr

/-- The struct `ResourceLoadTask`; `load_callback = none` is an empty
`std::function`. -/
structure ResourceLoadTask where
  application_id : Nat
  load_callback : Option LoadCallback
  submit_time : Int
  priority : Int
  task_type : ResourceTaskType
deriving DecidableEq, Repr

/-- The functor `ResourceLoadManager::TaskComparator::operator()`. -/
def TaskComparator (a b : ResourceLoadTask) : Bool :=
  if a.priority ≠ b.priority then decide (a.priority > b.priority)
  else decide (a.submit_time > b.submit_time)

/-! ### `std::priority_queue<ResourceLoadTask, std::vector<…>, TaskComparator>`

The standard container is specified through its comparator only: `top()` is an
element that the comparator orders before no other element. The model keeps the
content as a list and `top` scans it from the front, keeping the current best and
replacing it by a later element exactly when the comparator orders the current
best before that element. -/

namespace priority_queue

/-- One comparison of the scan for the top element. -/
def better (best x : ResourceLoadTask) : ResourceLoadTask :=
  if TaskComparator best x then x else best

/-- The member `top()` (none on an empty queue, where the source never calls it). -/
def top : List ResourceLoadTask → Option ResourceLoadTask
  | [] => none
  | t :: ts => some (ts.foldl better t)

/-- The member `pop()`: removes the element `top()` returns. -/
def pop (q : List ResourceLoadTask) : List ResourceLoadTask :=
  match top q with
  | none => q
  | some t => q.erase t

/-- The member `push(task)`. -/
def push (q : List ResourceLoadTask) (task : ResourceLoadTask) : List ResourceLoadTask :=
  q ++ [task]

end priority_queue

/-- The class `ResourceLoadManager` (its mutex is not modelled). -/
structure ResourceLoadManager where
  pending_tasks : List ResourceLoadTask
deriving DecidableEq, Repr

/-- The constant `ResourceLoadManager::MAX_ICON_LOADS_PER_FRAME`. -/
def MAX_ICON_LOADS_PER_FRAME : Nat := 2

/-- The test `task.task_type == ResourceTaskType::ICON`. -/
def isIcon (t : ResourceLoadTask) : Bool := t.task_type == ResourceTaskType.ICON

namespace ResourceLoadManager

/-- `ResourceLoadManager::submitLoadTask`. -/
def submitLoadTask (m : ResourceLoadManager) (task : ResourceLoadTask) : ResourceLoadManager :=
  { pending_tasks := priority_queue.push m.pending_tasks task }

/-- `ResourceLoadManager::hasPendingTasks`. -/
def hasPendingTasks (m : ResourceLoadManager) : Bool := !m.pending_tasks.isEmpty

/-- `ResourceLoadManager::getPendingTaskCount`. -/
def getPendingTaskCount (m : ResourceLoadManager) : Nat := m.pending_tasks.length

/-- The inner `while` loop of `processFrameLoads` (app.cpp 183-194): pops tasks into
`temp_tasks` until a task that is not an icon task is met. Returns the remaining
queue, `temp_tasks` and the task found, if any. `none` only when the iteration
bound is used up, which `fuel = queue length` excludes. -/
def searchNonIcon : Nat → List ResourceLoadTask → List ResourceLoadTask →
    Option (List ResourceLoadTask × List ResourceLoadTask × Option ResourceLoadTask)
  | 0, q, temp_tasks =>
    match priority_queue.top q with
    | none => some (q, temp_tasks, none)
    | some _ => none
  | fuel + 1, q, temp_tasks =>
    match priority_queue.top q with
    | none => some (q, temp_tasks, none)
    | some temp_task =>
      if !isIcon temp_task then
        some (priority_queue.pop q, temp_tasks, some temp_task)
      else
        searchNonIcon fuel (priority_queue.pop q) (temp_tasks ++ [temp_task])

/-- The outer `while` loop of `processFrameLoads` (app.cpp 170-220). The result is the
queue left behind and the tasks executed, in execution order; executing a task
calls its `load_callback` when it is not empty. `none` only when the iteration
bound is used up. -/
def processLoop : Nat → List ResourceLoadTask → Nat →
    Option (List ResourceLoadTask × List ResourceLoadTask)
  | 0, q, _ =>
    match priority_queue.top q with
    | none => some (q, [])
    | some _ => none
  | fuel + 1, q, icon_loads_this_frame =>
    match priority_queue.top q with
    | none => some (q, [])
    | some task =>
      if isIcon task && decide (icon_loads_this_frame ≥ MAX_ICON_LOADS_PER_FRAME) then
        match searchNonIcon q.length q [] with
        | none => none
        | some (rest, temp_tasks, found) =>
          let q1 := temp_tasks.foldl priority_queue.push rest
          match found with
          | none => some (q1, [])
          | some t =>
            (processLoop fuel q1
              (if isIcon t then icon_loads_this_frame + 1 else icon_loads_this_frame)).map
              (fun r => (r.1, t :: r.2))
      else
        (processLoop fuel (priority_queue.pop q)
          (if isIcon task then icon_loads_this_frame + 1 else icon_loads_this_frame)).map
          (fun r => (r.1, task :: r.2))

/-- `ResourceLoadManager::processFrameLoads`: one tick. Returns the manager after the
tick and the tasks executed during it, in order. -/
def processFrameLoads (m : ResourceLoadManager) :
    Option (ResourceLoadManager × List ResourceLoadTask) :=
  (processLoop m.pending_tasks.length m.pending_tasks 0).map
    (fun r => ({ pending_tasks := r.1 }, r.2))

/-- Calls `processFrameLoads` once per tick until `hasPendingTasks` is false; the
result lists the execution sequence of every tick. `none` when the queue is not
empty after `ticks` ticks. -/
def drain : Nat → ResourceLoadManager → Option (List (List ResourceLoadTask))
  | 0, m => if m.hasPendingTasks then none else some []
  | ticks + 1, m =>
    if m.hasPendingTasks then
      match processFrameLoads m with
      | none => none
      | some (m1, executed) => (drain ticks m1).map (fun rest => executed :: rest)
    else some []

end ResourceLoadManager

/-- An icon task as the scheduler sees it. -/
def iconTask (id : Nat) (priority : Int) (t : Int) : ResourceLoadTask :=
  { application_id := id, load_callback := some (LoadCallback.listIcon id),
    submit_time := t, priority := priority, task_type := ResourceTaskType.ICON }

/-- The order the comparator induces: ascending priority value, then ascending
submission timestamp. -/
def keyLe (a b : ResourceLoadTask) : Prop :=
  a.priority < b.priority ∨ (a.priority = b.priority ∧ a.submit_time ≤ b.submit_time)

/-- The strict order of the claim: ascending priority value and, among equal
priorities, ascending submission timestamp. -/
def keyLt (a b : ResourceLoadTask) : Prop :=
  a.priority < b.priority ∨ (a.priority = b.priority ∧ a.submit_time < b.submit_time)

instance (a b : ResourceLoadTask) : Decidable (keyLt a b) := by
  unfold keyLt; infer_instance

/-- A task of another category than `ICON` (category value 1), as in the scenario of
the specification. -/
def configTask (id : Nat) (priority : Int) (t : Int) : ResourceLoadTask :=
  { application_id := id, load_callback := some (LoadCallback.external id),
    submit_time := t, priority := priority, task_type := 1 }

/-! ## The application state (`class App`) -/

/-- The enumeration `MenuMode`. -/
inductive MenuMode where
  | LOAD
  | LIST
  | CONFIRM
deriving DecidableEq, Repr

/-- The constant `SIZE_MAX` of the 64-bit target. -/
def SIZE_MAX : Nat := 2 ^ 64 - 1

/-- The constant `BATCH_SIZE`. -/
def BATCH_SIZE : Nat := 4

/-- The data members of `class App` that the catalog pipeline reads or writes, with the
static atomics of `app.cpp` and the global string `corrupted_install` of
`lang_manager.cpp`. Initial values are the default member initialisers. The `float`
members `yoff`, `ypos` only ever hold `130 + 120 * k` and are integers here; the
`double` byte totals are sums of `size_t` values and are natural numbers here.
`delete_thread_valid` is `delete_thread.valid()`. -/
structure App where
  entries : List AppEntry := []
  delete_entries : List Nat := []
  default_icon_image : Int := 0
  delete_thread_valid : Bool := false
  delete_index : Nat := 0
  finished_scanning : Bool := false
  finished_deleting : Bool := false
  deletion_interrupted : Bool := false
  deleted_nand_bytes : Nat := 0
  deleted_sd_bytes : Nat := 0
  deleted_app_count : Nat := 0
  selected_nand_total_bytes : Nat := 0
  selected_sd_total_bytes : Nat := 0
  initial_batch_loaded : Bool := false
  scanned_count : Nat := 0
  total_count : Nat := 0
  is_scan_running : Bool := true
  resource_manager : ResourceLoadManager := ⟨[]⟩
  yoff : Int := 130
  ypos : Int := 130
  confirm_start : Nat := 0
  start : Nat := 0
  delete_count : Nat := 0
  index : Nat := 0
  confirm_index : Nat := 0
  selected_indices : List Nat := []
  menu_mode : MenuMode := MenuMode.LOAD
  quit : Bool := false
  sort_type : Nat := 0
  last_loaded_range : Nat × Nat := (SIZE_MAX, SIZE_MAX)
  last_load_time : Int := 0
  last_confirm_loaded_range : Nat × Nat := (SIZE_MAX, SIZE_MAX)
  last_confirm_load_time : Int := 0
  corrupted_install : String := "Corrupted"
deriving DecidableEq, Repr

/-! ## Operating-system interface used by the scan -/

/-- The macro `R_FAILED` of libnx: a result code other than 0. -/
def R_FAILED (rc : Nat) : Bool := rc != 0

/-- What one call of `nsListApplicationRecord` leaves behind: the result code, the
value written to `record_count` and the content of `record_list` (the application id
at each buffer index). -/
structure NsListReply where
  rc : Nat
  record_count : Int
  record_list : Nat → Nat

/-- The entry `nxtcGetApplicationMetadataEntryById` returns; `icon_data = none` is a
null pointer, otherwise the byte at each offset. -/
structure NxTitleCacheApplicationMetadata where
  title_id : Nat
  name : String
  icon_size : Nat
  icon_data : Option (Nat → Nat)

/-- The struct `NacpLanguageEntry`, its character arrays read as C strings. -/
structure NacpLanguageEntry where
  name : String
  author : String

/-- What one call of `nsGetApplicationControlData` leaves behind: the result code, the
language table `nacp.lang`, the bytes of `icon` and the size written to `jpeg_size`. -/
structure NsControlReply where
  rc : Nat
  lang : Nat → NacpLanguageEntry
  icon : Nat → Nat
  jpeg_size : Nat

/-- The struct `ApplicationOccupiedSizeEntry`. -/
structure ApplicationOccupiedSizeEntry where
  storageId : Nat
  sizeApplication : Nat
  sizePatch : Nat
  sizeAddOnContent : Nat

/-- What one call of `nsCalculateApplicationOccupiedSize` leaves behind: the result
code and the array `ApplicationOccupiedSize::entry`. -/
structure NsSizeReply where
  rc : Nat
  entry : Nat → ApplicationOccupiedSizeEntry

/-- The collaborators of `FastScanNames`: the operating-system calls as functions of
their arguments, the language `LangManager::getCurrentLanguage` returns, the
answer of `stop_token.stop_requested()` at its k-th call (counted from 0) and the clock
reading taken when the task for the k-th identifier is built. -/
structure ScanEnv where
  nsListApplicationRecord : Int → NsListReply
  nxtcGetApplicationMetadataEntryById : Nat → Option NxTitleCacheApplicationMetadata
  nsGetApplicationControlData : Nat → NsControlReply
  getCurrentLanguage : Nat
  nsCalculateApplicationOccupiedSize : Nat → NsSizeReply
  stop_requested : Nat → Bool
  now : Nat → Int

/-- The constant `NcmStorageId_BuiltInUser` of libnx. -/
def NcmStorageId_BuiltInUser : Nat := 4

/-- The constant `NcmStorageId_SdCard` of libnx. -/
def NcmStorageId_SdCard : Nat := 5

/-- The value `sizeof(NacpStruct)` of libnx. -/
def sizeof_NacpStruct : Nat := 0x4000

/-- The constant `PAGE_SIZE` of `GetAllApplicationIds`. -/
def PAGE_SIZE : Nat := 30

/-- The `do … while` loop of `App::GetAllApplicationIds` (app.cpp 1661-1685), started at
`offset` with `app_ids` collected so far. The result is the returned code and the final
`app_ids`; `none` when `fuel` pages were read without reaching the end. -/
def GetAllApplicationIds.loop (ns : Int → NsListReply) :
    Nat → Int → List Nat → Option (Nat × List Nat)
  | 0, _, _ => none
  | fuel + 1, offset, app_ids =>
    let reply := ns offset
    if R_FAILED reply.rc then some (reply.rc, app_ids)
    else if reply.record_count ≤ 0 then some (0, app_ids)
    else
      let record_count := min reply.record_count (PAGE_SIZE : Int)
      GetAllApplicationIds.loop ns fuel (offset + record_count)
        (app_ids ++ (List.range record_count.toNat).map reply.record_list)

/-- `App::GetAllApplicationIds`: `app_ids.clear()`, then the paging loop from offset 0. -/
def GetAllApplicationIds (ns : Int → NsListReply) (fuel : Nat) : Option (Nat × List Nat) :=
  GetAllApplicationIds.loop ns fuel 0 []

/-- A default-initialised `AppEntry entry;`. The members without initialiser (`size_*`,
`id`, `image`) are indeterminate in the source and are assigned on every path before
the entry is read; they are 0 here. -/
def AppEntry.fresh : AppEntry :=
  { name := "", author := "", display_version := "", size_nand := 0, size_sd := 0,
    size_total := 0, id := 0, image := 0, selected := false, own_image := false,
    cached_icon_data := [], has_cached_icon := false }

/-- The language entry `TryGetAppBasicInfoWithIconCache` takes the name from: the entry
of the current language, or when its name and author are both empty the first of the 16
entries with a non-empty name or author, if there is one. -/
def selectLanguageEntry (lang : Nat → NacpLanguageEntry) (systemlanguage : Nat) :
    NacpLanguageEntry :=
  let language_entry := lang systemlanguage
  if language_entry.name = "" ∧ language_entry.author = "" then
    match (List.range 16).find? (fun i => decide ((lang i).name ≠ "" ∨ (lang i).author ≠ "")) with
    | some i => lang i
    | none => language_entry
  else language_entry

/-- `App::TryGetAppBasicInfoWithIconCache`: the returned flag and `entry` afterwards. -/
def TryGetAppBasicInfoWithIconCache (env : ScanEnv) (default_icon_image : Int)
    (application_id : Nat) (entry : AppEntry) : Bool × AppEntry :=
  match env.nxtcGetApplicationMetadataEntryById application_id with
  | some cached_metadata =>
    let e1 := { entry with
      name := cached_metadata.name, id := cached_metadata.title_id,
      size_total := 0, size_nand := 0, size_sd := 0,
      image := default_icon_image, own_image := false }
    match cached_metadata.icon_data with
    | some bytes =>
      if cached_metadata.icon_size > 0 then
        (true, { e1 with
          cached_icon_data := (List.range cached_metadata.icon_size).map bytes,
          has_cached_icon := true })
      else (true, { e1 with has_cached_icon := false })
    | none => (true, { e1 with has_cached_icon := false })
  | none =>
    let control := env.nsGetApplicationControlData application_id
    if R_FAILED control.rc then (false, entry)
    else
      let language_entry := selectLanguageEntry control.lang env.getCurrentLanguage
      let e1 := { entry with
        name := language_entry.name, id := application_id,
        size_total := 0, size_nand := 0, size_sd := 0,
        image := default_icon_image, own_image := false }
      if control.jpeg_size > sizeof_NacpStruct then
        (true, { e1 with
          cached_icon_data :=
            (List.range (control.jpeg_size - sizeof_NacpStruct)).map control.icon,
          has_cached_icon := true })
      else (true, { e1 with has_cached_icon := false })

/-- The lambda `fill_size` of `GetAppSizeInfo`. -/
def fill_size (e : ApplicationOccupiedSizeEntry) (entry : AppEntry) : AppEntry :=
  if e.storageId = NcmStorageId_BuiltInUser then
    { entry with size_nand := (e.sizeApplication + e.sizeAddOnContent + e.sizePatch) % 2 ^ 64 }
  else if e.storageId = NcmStorageId_SdCard then
    { entry with size_sd := (e.sizeApplication + e.sizeAddOnContent + e.sizePatch) % 2 ^ 64 }
  else { entry with size_total := 0, size_nand := 0, size_sd := 0 }

/-- `App::GetAppSizeInfo`. -/
def GetAppSizeInfo (env : ScanEnv) (application_id : Nat) (entry : AppEntry) : AppEntry :=
  let size := env.nsCalculateApplicationOccupiedSize application_id
  if R_FAILED size.rc then { entry with size_total := 0, size_nand := 0, size_sd := 0 }
  else
    let e2 := fill_size (size.entry 1) (fill_size (size.entry 0) entry)
    { e2 with size_total := (e2.size_nand + e2.size_sd) % 2 ^ 64 }

/-- The entry one iteration of the scan loop builds for `application_id` (app.cpp
1855-1878) together with the flag `is_corrupted`. -/
def scanEntry (env : ScanEnv) (default_icon_image : Int) (corrupted_install : String)
    (application_id : Nat) : AppEntry × Bool :=
  let r := TryGetAppBasicInfoWithIconCache env default_icon_image application_id AppEntry.fresh
  let is_corrupted := !r.1
  let entry := if r.1 then GetAppSizeInfo env application_id r.2 else r.2
  if is_corrupted then
    ({ entry with
        name := corrupted_install, id := application_id,
        image := default_icon_image, own_image := false,
        size_total := 0, size_nand := 0, size_sd := 0 }, is_corrupted)
  else (entry, is_corrupted)

/-- One iteration of the `for` loop of `App::FastScanNames` after the stop check (app.cpp
1855-1949), for the identifier visited when the local counter is `count`. The moved-from
`entry` keeps its `bool` member, so `entry.has_cached_icon` after the `emplace_back` is
the flag of the appended entry. -/
def FastScanNames.body (env : ScanEnv) (application_id : Nat) (count : Nat) (s : App) : App :=
  let r := scanEntry env s.default_icon_image s.corrupted_install application_id
  let entry := r.1
  let is_corrupted := r.2
  let s1 := { s with entries := s.entries ++ [entry], scanned_count := s.scanned_count + 1 }
  let count1 := count + 1
  let s2 :=
    if count1 ≤ BATCH_SIZE ∧ is_corrupted = false ∧ entry.has_cached_icon = true then
      { s1 with
        resource_manager := s1.resource_manager.submitLoadTask
          { application_id := application_id,
            load_callback := some (LoadCallback.scanIcon application_id),
            submit_time := env.now count, priority := 0,
            task_type := ResourceTaskType.ICON } }
    else s1
  if s2.scanned_count = BATCH_SIZE then { s2 with initial_batch_loaded := true } else s2

/-- The `for` loop of `App::FastScanNames` over the identifiers still to visit; `count`
is the local counter, which is also the number of `stop_requested` calls made so far. -/
def FastScanNames.loop (env : ScanEnv) : List Nat → Nat → App → App
  | [], _, s => s
  | application_id :: rest, count, s =>
    if env.stop_requested count then s
    else FastScanNames.loop env rest (count + 1) (FastScanNames.body env application_id count s)

/-- `App::FastScanNames`. `fuel` bounds the number of pages the enumeration reads; the
result is `none` only when that bound is used up. The libnxtc set-up and tear-down calls
and the sleep have no effect on the state modelled. -/
def FastScanNames (env : ScanEnv) (fuel : Nat) (s : App) : Option App :=
  let s0 := { s with is_scan_running := true, scanned_count := 0 }
  match GetAllApplicationIds env.nsListApplicationRecord fuel with
  | none => none
  | some (result, app_ids) =>
    let s1 := { s0 with total_count := app_ids.length }
    let s2 :=
      if R_FAILED result then s1
      else if app_ids.isEmpty then s1
      else FastScanNames.loop env app_ids 0 s1
    some { s2 with is_scan_running := false, finished_scanning := true }

/-- An operating system that holds the application records `ids` and serves
`nsListApplicationRecord` from them: at `offset` it reports the records from that
position on, at most `PAGE_SIZE` per call, always with success. -/
def pagedRecords (ids : List Nat) (offset : Int) : NsListReply :=
  { rc := 0,
    record_count := ((ids.drop offset.toNat).take PAGE_SIZE).length,
    record_list := fun i => (ids.drop offset.toNat).getD i 0 }

/-! ## Concrete collaborators used to evaluate the scan -/

/-- A four-byte stream with the JPEG header and trailer. -/
def demoIcon : Nat → Nat := fun i => [0xFF, 0xD8, 0xFF, 0xD9].getD i 0

/-- A catalog of the ten identifiers 1 … 10 served in pages. Every identifier except 7
is in the title cache with icon bytes; identifier 7 is not cached and its control data
cannot be read. A stop is requested from check `stopAt` on, or never. -/
def demoEnv (stopAt : Option Nat) : ScanEnv :=
  { nsListApplicationRecord := pagedRecords (List.range' 1 10)
    nxtcGetApplicationMetadataEntryById := fun id =>
      if id = 7 then none
      else some { title_id := id, name := "app", icon_size := 4, icon_data := some demoIcon }
    nsGetApplicationControlData := fun _ =>
      { rc := 1, lang := fun _ => ⟨"", ""⟩, icon := fun _ => 0, jpeg_size := 0 }
    getCurrentLanguage := 0
    nsCalculateApplicationOccupiedSize := fun id =>
      { rc := 0
        entry := fun i =>
          if i = 0 then ⟨NcmStorageId_BuiltInUser, 100 * id, 0, 0⟩
          else ⟨NcmStorageId_SdCard, 7, 0, 0⟩ }
    stop_requested := fun k =>
      match stopAt with
      | some n => decide (n ≤ k)
      | none => false
    now := fun k => 1000 + k }

/-- An operating system whose first page holds the two records 1 and 2 and whose
second call of `nsListApplicationRecord` (at offset 2) fails with code 0x1234. -/
def secondPageFails : ScanEnv :=
  { demoEnv none with
    nsListApplicationRecord := fun offset =>
      if offset = 0 then { rc := 0, record_count := 2, record_list := fun i => i + 1 }
      else { rc := 0x1234, record_count := 0, record_list := fun _ => 0 } }

/-! ## Viewport prefetch -/

/-- The debounce interval of 100 ms (`DEBOUNCE_INTERVAL`, `LOAD_DEBOUNCE_MS`) in clock
ticks of one nanosecond. -/
def LOAD_DEBOUNCE_MS : Int := 100000000

/-- The constant `MAX_VISIBLE_ITEMS`. -/
def MAX_VISIBLE_ITEMS : Nat := 4

/-- The constant `PRELOAD_BUFFER` (`preload_buffer` in the confirm view). -/
def PRELOAD_BUFFER : Nat := 2

/-- The constant `FIRST_SCREEN_SIZE`. -/
def FIRST_SCREEN_SIZE : Nat := 4

/-- The local struct `LoadInfo`. -/
structure LoadInfo where
  application_id : Nat
  priority : Int
deriving DecidableEq, Repr

/-- The value `std::vector<LoadInfo>::max_size()` for the 16-byte `LoadInfo` on the 64-bit
target; `reserve` throws `std::length_error` above it. Exhaustion of memory by a
request below this bound is not modelled. -/
def LoadInfo.vector_max_size : Nat := (2 ^ 63 - 1) / 16

/-- `App::GetVisibleRange`. -/
def GetVisibleRange (s : App) : Nat × Nat :=
  if s.entries.isEmpty then (0, 0)
  else
    let visible_start := s.start
    let visible_end := min ((visible_start + MAX_VISIBLE_ITEMS) % 2 ^ 64) s.entries.length
    (visible_start, visible_end)

/-- `App::GetConfirmVisibleRange`. -/
def GetConfirmVisibleRange (s : App) : Nat × Nat :=
  if s.selected_indices.isEmpty then (0, 0)
  else
    let visible_start := s.confirm_start
    let visible_end :=
      min ((visible_start + MAX_VISIBLE_ITEMS) % 2 ^ 64) s.selected_indices.length
    (visible_start, visible_end)

/-- The collecting `for` loop of `LoadVisibleAreaIcons` (app.cpp 2060-2081) with
`remaining` iterations to go from index `i`; the result is `load_infos` extended by the
entries visited. -/
def LoadVisibleAreaIcons.collect (s : App) (visible_start visible_end : Nat) :
    Nat → Nat → List LoadInfo → List LoadInfo
  | 0, _, load_infos => load_infos
  | remaining + 1, i, load_infos =>
    match s.entries[i]? with
    | none => load_infos
    | some entry =>
      if entry.image = s.default_icon_image ∧ entry.name ≠ s.corrupted_install then
        let priority : Int :=
          if i < FIRST_SCREEN_SIZE then 0
          else if i ≥ visible_start ∧ i < visible_end then 1
          else 2
        LoadVisibleAreaIcons.collect s visible_start visible_end remaining (i + 1)
          (load_infos ++ [{ application_id := entry.id, priority := priority }])
      else
        LoadVisibleAreaIcons.collect s visible_start visible_end remaining (i + 1) load_infos

/-- The submitting `for` loop shared by the two prefetch functions (app.cpp 2092-2153,
2234-2287): one icon task per `LoadInfo`, stamped with the clock reading taken when it
is built (`stamps j` for the j-th task of the pass). -/
def submitLoadInfos (callback : Nat → LoadCallback) (stamps : Nat → Int) :
    List LoadInfo → Nat → ResourceLoadManager → ResourceLoadManager
  | [], _, m => m
  | info :: rest, j, m =>
    submitLoadInfos callback stamps rest (j + 1)
      (m.submitLoadTask
        { application_id := info.application_id,
          load_callback := some (callback info.application_id),
          submit_time := stamps j, priority := info.priority,
          task_type := ResourceTaskType.ICON })

/-- The part of `App::LoadVisibleAreaIcons` after the two debounce tests (app.cpp
2032-2153), run on the state in which range and timestamp are already recorded.
`none` is the `std::length_error` that `load_infos.reserve` throws when the unsigned
difference `load_end - load_start` wraps around. -/
def LoadVisibleAreaIcons.pass (stamps : Nat → Int) (visible_start visible_end : Nat)
    (s : App) : Option App :=
  let load_start := if visible_start ≥ PRELOAD_BUFFER then visible_start - PRELOAD_BUFFER else 0
  let load_end := min ((visible_end + PRELOAD_BUFFER) % 2 ^ 64) s.entries.length
  if (load_end + 2 ^ 64 - load_start) % 2 ^ 64 > LoadInfo.vector_max_size then none
  else
    let actual_end := min load_end s.entries.length
    let load_infos := LoadVisibleAreaIcons.collect s visible_start visible_end
      (actual_end - load_start) load_start []
    if load_infos.isEmpty then some s
    else
      some { s with
        resource_manager :=
          submitLoadInfos LoadCallback.listIcon stamps load_infos 0 s.resource_manager }

/-- `App::LoadVisibleAreaIcons`, called when the clock reads `now`. -/
def LoadVisibleAreaIcons (now : Int) (stamps : Nat → Int) (s : App) : Option App :=
  if now - s.last_load_time < LOAD_DEBOUNCE_MS then some s
  else
    let s1 := { s with last_load_time := now }
    let range := GetVisibleRange s1
    if s1.last_loaded_range.1 = range.1 ∧ s1.last_loaded_range.2 = range.2 then some s1
    else
      LoadVisibleAreaIcons.pass stamps range.1 range.2 { s1 with last_loaded_range := range }

/-- The collecting `for` loop of `LoadConfirmVisibleAreaIcons` (app.cpp 2202-2225) with
`remaining` iterations to go from position `i` of `selected_indices`. -/
def LoadConfirmVisibleAreaIcons.collect (s : App) (visible_end : Nat) :
    Nat → Nat → List LoadInfo → List LoadInfo
  | 0, _, load_infos => load_infos
  | remaining + 1, i, load_infos =>
    match s.selected_indices[i]? with
    | none => load_infos
    | some entry_index =>
      match s.entries[entry_index]? with
      | none => LoadConfirmVisibleAreaIcons.collect s visible_end remaining (i + 1) load_infos
      | some entry =>
        if entry.image = s.default_icon_image ∧ entry.name ≠ s.corrupted_install then
          let priority : Int := if i < visible_end then 1 else 2
          LoadConfirmVisibleAreaIcons.collect s visible_end remaining (i + 1)
            (load_infos ++ [{ application_id := entry.id, priority := priority }])
        else
          LoadConfirmVisibleAreaIcons.collect s visible_end remaining (i + 1) load_infos

/-- The part of `App::LoadConfirmVisibleAreaIcons` after the debounce test (app.cpp
2185-2287), run on the state in which range and timestamp are already recorded. `none`
is the `std::length_error` of `load_infos.reserve`. -/
def LoadConfirmVisibleAreaIcons.pass (stamps : Nat → Int) (visible_start visible_end : Nat)
    (s : App) : Option App :=
  let load_end := min ((visible_end + PRELOAD_BUFFER) % 2 ^ 64) s.selected_indices.length
  if (load_end + 2 ^ 64 - visible_start) % 2 ^ 64 > LoadInfo.vector_max_size then none
  else
    let load_infos := LoadConfirmVisibleAreaIcons.collect s visible_end
      (load_end - visible_start) visible_start []
    if load_infos.isEmpty then some s
    else
      some { s with
        resource_manager :=
          submitLoadInfos LoadCallback.confirmIcon stamps load_infos 0 s.resource_manager }

/-- `App::LoadConfirmVisibleAreaIcons`, called when the clock reads `current_time`. -/
def LoadConfirmVisibleAreaIcons (current_time : Int) (stamps : Nat → Int) (s : App) :
    Option App :=
  if s.selected_indices.isEmpty then some s
  else
    let current_range := GetConfirmVisibleRange s
    let time_since_last_load := current_time - s.last_confirm_load_time
    let range_changed := decide (current_range ≠ s.last_confirm_loaded_range)
    if !range_changed && decide (time_since_last_load < LOAD_DEBOUNCE_MS) then some s
    else
      LoadConfirmVisibleAreaIcons.pass stamps current_range.1 current_range.2
        { s with
          last_confirm_loaded_range := current_range,
          last_confirm_load_time := current_time }

/-- An entry that still shows the default icon 0, with icon bytes cached. -/
def placeholderEntry (id : Nat) (name : String) : AppEntry :=
  { AppEntry.fresh with name := name, id := id, has_cached_icon := true,
                        cached_icon_data := [0xFF, 0xD8, 0xFF, 0xD9] }

/-- Six entries with the identifiers 1 … 6, all on the default icon. -/
def sixPlaceholders : List AppEntry :=
  (List.range' 1 6).map (fun id => placeholderEntry id "app")

/-- The list view scrolled to row 1 over six placeholder entries; the last accepted
prefetch, at time 1 s, was for the range (0, 4). -/
def scrolledList : App :=
  { entries := sixPlaceholders, start := 1, index := 1,
    last_loaded_range := (0, 4), last_load_time := 1000000000,
    is_scan_running := false, finished_scanning := true, menu_mode := MenuMode.LIST }

/-- The list view at the top over six placeholder entries; the last accepted prefetch,
at time 1 s, was for the range (0, 4) and the scheduler queue has been drained. -/
def restingList : App :=
  { scrolledList with start := 0, index := 0 }

/-- The confirm view over two selected placeholder entries; the last accepted prefetch,
at time 1 s, was for the range (0, 2) and the scheduler queue has been drained. -/
def restingConfirm : App :=
  { entries := [{ placeholderEntry 1 "app" with selected := true },
                { placeholderEntry 2 "app" with selected := true }],
    selected_indices := [0, 1], delete_entries := [1, 2], delete_count := 2,
    last_confirm_loaded_range := (0, 2), last_confirm_load_time := 1000000000,
    is_scan_running := false, finished_scanning := true, menu_mode := MenuMode.CONFIRM }

/-- The icon task the list view submits for identifier `id`. -/
def listTask (id : Nat) (priority : Int) (t : Int) : ResourceLoadTask :=
  { application_id := id, load_callback := some (LoadCallback.listIcon id),
    submit_time := t, priority := priority, task_type := ResourceTaskType.ICON }

/-- The icon task the confirm view submits for identifier `id`. -/
def confirmTask (id : Nat) (priority : Int) (t : Int) : ResourceLoadTask :=
  { application_id := id, load_callback := some (LoadCallback.confirmIcon id),
    submit_time := t, priority := priority, task_type := ResourceTaskType.ICON }

/-- The state `scrolledList` after a prefetch accepted at time 1.12 s. -/
def scrolledListAfter : App :=
  { scrolledList with
    last_load_time := 1120000000, last_loaded_range := (1, 5),
    resource_manager := ⟨[listTask 1 0 1120000000, listTask 2 0 1120000001,
      listTask 3 0 1120000002, listTask 4 0 1120000003, listTask 5 1 1120000004,
      listTask 6 2 1120000005]⟩ }

/-- The state `restingConfirm` after a prefetch accepted at time 1.12 s. -/
def restingConfirmAfter : App :=
  { restingConfirm with
    last_confirm_load_time := 1120000000,
    resource_manager := ⟨[confirmTask 1 1 1120000000, confirmTask 2 1 1120000001]⟩ }

/-- Four entries: identifier 1 on the default icon, identifier 2 with its own decoded icon
(handle 7), identifier 3 the corrupted placeholder, identifier 4 on the default icon. -/
def mixedEntries : List AppEntry :=
  [ { placeholderEntry 1 "alpha" with selected := true },
    { placeholderEntry 2 "beta" with image := 7, own_image := true, selected := true },
    { AppEntry.fresh with name := "Corrupted", id := 3, selected := true },
    { placeholderEntry 4 "delta" with selected := true } ]

/-- The list view over `mixedEntries` before any prefetch was accepted. -/
def mixedList : App :=
  { entries := mixedEntries, delete_count := 4,
    is_scan_running := false, finished_scanning := true, menu_mode := MenuMode.LIST }

/-- The state `mixedList` after the prefetch accepted at time 1 s. -/
def mixedListAfter : App :=
  { mixedList with
    last_load_time := 1000000000, last_loaded_range := (0, 4),
    resource_manager := ⟨[listTask 1 0 1000000000, listTask 4 0 1000000001]⟩ }

/-- The confirm view over `mixedEntries`, all four selected, before any prefetch was
accepted. -/
def mixedConfirm : App :=
  { mixedList with
    selected_indices := [0, 1, 2, 3], delete_entries := [1, 2, 3, 4],
    menu_mode := MenuMode.CONFIRM }

/-- The state `mixedConfirm` after the prefetch accepted at time 1 s. -/
def mixedConfirmAfter : App :=
  { mixedConfirm with
    last_confirm_load_time := 1000000000, last_confirm_loaded_range := (0, 4),
    resource_manager := ⟨[confirmTask 1 1 1000000000, confirmTask 4 1 1000000001]⟩ }

/-! ## Rendering calls and the icon-load unit of work -/

/-- A call into the rendering library that creates or releases an image handle:
`nvgCreateImageMem` with the bytes passed and the handle returned, `nvgDeleteImage` with
the handle released. -/
inductive NvgCall where
  | createImageMem (data : List Nat) (image_id : Int)
  | deleteImage (image : Int)
deriving DecidableEq, Repr

/-- The application state together with the rendering calls made so far, oldest
first. -/
structure World where
  app : App
  nvg : List NvgCall
deriving DecidableEq, Repr

/-- `IsValidJpegData` (app.cpp 74-82). `none` would be a read outside
`data`; `&&` reads its right operand only when the left one is true. -/
def IsValidJpegData (data : List Nat) : Option Bool :=
  if data.length < 4 then some false
  else do
    let d0 ← data[0]?
    let has_jpeg_header ← if d0 = 0xFF then (data[1]?).map (fun d1 => d1 == 0xD8) else some false
    let t0 ← data[data.length - 2]?
    let has_jpeg_trailer ←
      if t0 = 0xFF then (data[data.length - 1]?).map (fun t1 => t1 == 0xD9) else some false
    pure (has_jpeg_header && has_jpeg_trailer)

/-- The second `find_if` of the icon-load lambdas with the swap that follows it (app.cpp
2134-2147): the first entry whose `id` is `application_id` gets `image_id` and
`own_image = true`; its previous image is released first when the entry owned it and it
is not the default icon. Returns the entries and the rendering calls made. -/
def swapImage (default_icon_image : Int) (application_id : Nat) (image_id : Int) :
    List AppEntry → List AppEntry × List NvgCall
  | [] => ([], [])
  | it :: rest =>
    if it.id = application_id then
      ({ it with image := image_id, own_image := true } :: rest,
        if it.own_image = true ∧ it.image ≠ default_icon_image then
          [NvgCall.deleteImage it.image]
        else [])
    else
      let r := swapImage default_icon_image application_id image_id rest
      (it :: r.1, r.2)

/-- The lambda stored in `icon_task.load_callback` by `FastScanNames` (app.cpp 1899-1940),
`LoadVisibleAreaIcons` (2102-2150) and `LoadConfirmVisibleAreaIcons` (2241-2284) for
`application_id`; the three bodies differ only in the early `return` on missing icon
data, which the test `has_icon_data && …` of the scan variant makes as well. `decode` is
the handle `nvgCreateImageMem` returns for the bytes it is given in this call. `none`
would be a read outside the byte vector. -/
def load_callback (decode : List Nat → Int) (application_id : Nat) (w : World) :
    Option World :=
  match w.app.entries.find? (fun entry => entry.id == application_id && entry.has_cached_icon) with
  | none => some w
  | some it =>
    let icon_data := it.cached_icon_data
    if icon_data.isEmpty then some w
    else
      match IsValidJpegData icon_data with
      | none => none
      | some false => some w
      | some true =>
        let image_id := decode icon_data
        let nvg1 := w.nvg ++ [NvgCall.createImageMem icon_data image_id]
        if image_id > 0 then
          let r := swapImage w.app.default_icon_image application_id image_id w.app.entries
          some { app := { w.app with entries := r.1 }, nvg := nvg1 ++ r.2 }
        else some { w with nvg := nvg1 }

/-! ## The deletion worker (`NsDeleteAppsAsync`) -/

/-- The struct `NsDeleteData`; the callbacks act on a state of type `σ`. -/
structure NsDeleteData (σ : Type) where
  entries : List Nat
  del_cb : Bool → σ → σ
  done_cb : σ → σ

/-- What the worker does that others can observe: a call of
`nsDeleteApplicationCompletely`, a call of `del_cb` with its argument, the call of
`done_cb`. -/
inductive WorkerEvent where
  | removal (id : Nat)
  | del_cb (error : Bool)
  | done_cb
deriving DecidableEq, Repr

/-- Where a worker thread stands inside `NsDeleteAppsAsync`: the identifiers of
`data.entries` it has not visited yet and the number of removal calls it has made. -/
structure Worker where
  remaining : List Nat
  calls : Nat
deriving DecidableEq, Repr

/-- The `for` loop of `NsDeleteAppsAsync` (app.cpp 88-101) over the identifiers still to
visit. `remove k p` is the result code of the k-th call (counted from 0) of
`nsDeleteApplicationCompletely`, made for `p`; `stop k` is the answer of the k-th call of
`stop_token.stop_requested()`. Returns the state, the events in order, and whether the
loop ran to its end (false: it returned at a stop check). -/
def NsDeleteAppsAsync.loop {σ : Type} (remove : Nat → Nat → Nat) (stop : Nat → Bool)
    (data : NsDeleteData σ) : List Nat → Nat → σ → σ × List WorkerEvent × Bool
  | [], _, st => (st, [], true)
  | p :: rest, k, st =>
    let result := remove k p
    let st1 := data.del_cb (R_FAILED result) st
    if stop k then
      (st1, [WorkerEvent.removal p, WorkerEvent.del_cb (R_FAILED result)], false)
    else
      let r := NsDeleteAppsAsync.loop remove stop data rest (k + 1) st1
      (r.1, WorkerEvent.removal p :: WorkerEvent.del_cb (R_FAILED result) :: r.2.1, r.2.2)

/-- `NsDeleteAppsAsync` continued from the position `w`: the rest of the loop, then
`done_cb` when the loop ran to its end. -/
def NsDeleteAppsAsync.resume {σ : Type} (remove : Nat → Nat → Nat) (stop : Nat → Bool)
    (data : NsDeleteData σ) (w : Worker) (st : σ) : σ × List WorkerEvent :=
  let r := NsDeleteAppsAsync.loop remove stop data w.remaining w.calls st
  if r.2.2 then (data.done_cb r.1, r.2.1 ++ [WorkerEvent.done_cb]) else (r.1, r.2.1)

/-- `NsDeleteAppsAsync(stop_token, data)` (app.cpp 86-103). -/
def NsDeleteAppsAsync {σ : Type} (remove : Nat → Nat → Nat) (stop : Nat → Bool)
    (data : NsDeleteData σ) (st : σ) : σ × List WorkerEvent :=
  NsDeleteAppsAsync.resume remove stop data ⟨data.entries, 0⟩ st

/-! ## The confirm view (`App::UpdateConfirm`) and the deletion job -/

/-- Subtraction of two `size_t` values, with the wrap-around of the 64-bit target. -/
def usub (a b : Nat) : Nat := (a + 2 ^ 64 - b) % 2 ^ 64

/-- The `for` loop of `del_cb` (app.cpp 1419-1425): the first entry whose `id` is
`app_id` has its image passed to `nvgDeleteImage` and is erased. Returns the entries
and the rendering calls made. -/
def eraseById (app_id : Nat) : List AppEntry → List AppEntry × List NvgCall
  | [] => ([], [])
  | e :: rest =>
    if e.id = app_id then (rest, [NvgCall.deleteImage e.image])
    else
      let r := eraseById app_id rest
      (e :: r.1, r.2)

/-- The body of `del_cb` once `app_id = delete_entries[delete_index]` has been read (for
`error = true` the identifier is not used). -/
def UpdateConfirm.del_cb_body (error : Bool) (app_id : Nat) (w : World) : World :=
  if error then { w with app := { w.app with delete_index := w.app.delete_index + 1 } }
  else
    let r := eraseById app_id w.app.entries
    { app := { w.app with
        entries := r.1,
        delete_count := usub w.app.delete_count 1,
        total_count := usub w.app.total_count 1,
        delete_index := w.app.delete_index + 1 },
      nvg := w.nvg ++ r.2 }

/-- The lambda `del_cb` of `App::UpdateConfirm` (app.cpp 1412-1431). `none` is the
undefined behaviour of reading `delete_entries[delete_index]` outside the vector. -/
def UpdateConfirm.del_cb (error : Bool) (w : World) : Option World :=
  if error then some (UpdateConfirm.del_cb_body true 0 w)
  else
    (w.app.delete_entries[w.app.delete_index]?).map
      (fun app_id => UpdateConfirm.del_cb_body false app_id w)

/-- The lambda `done_cb` of `App::UpdateConfirm` (app.cpp 1432-1444). -/
def UpdateConfirm.done_cb (w : World) : World :=
  { w with app := { w.app with
      finished_deleting := true, delete_count := 0, ypos := 130, yoff := 130,
      index := 0, start := 0, delete_entries := [] } }

/-- The `NsDeleteData` that `App::UpdateConfirm` hands to the worker; the callbacks act
on `Option World`, `none` being the state after undefined behaviour. -/
def UpdateConfirm.data (delete_entries : List Nat) : NsDeleteData (Option World) :=
  { entries := delete_entries
    del_cb := fun error st => st.bind (UpdateConfirm.del_cb error)
    done_cb := fun st => st.map UpdateConfirm.done_cb }

/-- The byte total the start branch accumulates (app.cpp 1401-1409): for every worklist
identifier the `size` of the first entry with that `id`. -/
def UpdateConfirm.sumSizes (size : AppEntry → Nat) (entries : List AppEntry) :
    List Nat → Nat
  | [] => 0
  | app_id :: rest =>
    (match entries.find? (fun entry => entry.id == app_id) with
      | some entry => size entry
      | none => 0) + UpdateConfirm.sumSizes size entries rest

/-- The assignments of the start branch of `App::UpdateConfirm` (app.cpp 1394-1409). -/
def UpdateConfirm.start (s : App) : App :=
  { s with
    finished_deleting := false, delete_index := 0,
    deleted_nand_bytes := UpdateConfirm.sumSizes (fun e => e.size_nand) s.entries s.delete_entries,
    deleted_sd_bytes := UpdateConfirm.sumSizes (fun e => e.size_sd) s.entries s.delete_entries,
    deleted_app_count := s.delete_entries.length }

/-- The program with its deletion thread: the state shared under the mutex, the
rendering calls made so far, and the position of the worker behind `delete_thread` while
`NsDeleteAppsAsync` has not returned (`none`: no such thread is running). -/
structure Sys where
  world : World
  worker : Option Worker
deriving DecidableEq, Repr

/-- Modelled from the spec: `util::async(NsDeleteAppsAsync, data)` of `async.hpp`, which is
not among the sources. It starts a thread that runs `NsDeleteAppsAsync` on `data` from
the first identifier and yields a valid handle, here stored in `delete_thread`. -/
def Sys.async (entries : List Nat) (w : World) : Sys :=
  { world := { w with app := { w.app with delete_thread_valid := true } },
    worker := some ⟨entries, 0⟩ }

/-- One step of the worker thread while no stop is requested: one iteration of the loop
of `NsDeleteAppsAsync`, or the call of `done_cb` after the last one, after which the
thread function returns. -/
def Sys.workerStep (remove : Nat → Nat → Nat) (sys : Sys) : Option Sys :=
  match sys.worker with
  | none => some sys
  | some w =>
    match w.remaining with
    | [] => some { world := UpdateConfirm.done_cb sys.world, worker := none }
    | p :: rest =>
      (UpdateConfirm.del_cb (R_FAILED (remove w.calls p)) sys.world).map
        (fun w1 => { world := w1, worker := some ⟨rest, w.calls + 1⟩ })

/-- `n` steps of the worker thread. -/
def Sys.workerSteps (remove : Nat → Nat → Nat) : Nat → Sys → Option Sys
  | 0, sys => some sys
  | n + 1, sys => (Sys.workerStep remove sys).bind (Sys.workerSteps remove n)

/-- Modelled from the spec: `request_stop()` followed by `get()` on the
`util::AsyncFurture` handle `delete_thread` (`async.hpp` is not among the sources).
`request_stop()` makes `stop_requested()` answer true in the worker from then on; `get()`
blocks until `NsDeleteAppsAsync` has returned and leaves the handle invalid. -/
def Sys.requestStopAndGet (remove : Nat → Nat → Nat) (sys : Sys) : Option Sys :=
  match sys.worker with
  | none =>
    some { sys with world := { sys.world with
      app := { sys.world.app with delete_thread_valid := false } } }
  | some w =>
    (NsDeleteAppsAsync.resume remove (fun _ => true)
        (UpdateConfirm.data sys.world.app.delete_entries) w (some sys.world)).1.map
      (fun w1 => { world := { w1 with app := { w1.app with delete_thread_valid := false } },
                   worker := none })

/-- The struct `Controller`, its button flags. -/
structure Controller where
  A : Bool := false
  B : Bool := false
  X : Bool := false
  Y : Bool := false
  L : Bool := false
  R : Bool := false
  L2 : Bool := false
  R2 : Bool := false
  START : Bool := false
  SELECT : Bool := false
  LEFT : Bool := false
  RIGHT : Bool := false
  UP : Bool := false
  DOWN : Bool := false
  RIGHT_AND_A : Bool := false
deriving DecidableEq, Repr

/-- The clock readings one frame takes: those of `LoadConfirmVisibleAreaIcons` and those
of `LoadVisibleAreaIcons`, should the frame call it. -/
structure FrameClock where
  confirm_now : Int
  confirm_stamps : Nat → Int
  list_now : Int
  list_stamps : Nat → Int

/-- The branch of `App::UpdateConfirm` for B while a deletion is in progress (app.cpp
1450-1468): stop request, join, then the label. -/
def UpdateConfirm.cancel (remove : Nat → Nat → Nat) (sys : Sys) : Option Sys :=
  (Sys.requestStopAndGet remove sys).map (fun joined =>
    if joined.world.app.finished_deleting then joined
    else
      { joined with world := { joined.world with
        app := { joined.world.app with
          finished_deleting := false, deletion_interrupted := true } } })

/-- The branch of `App::UpdateConfirm` for B when no deletion is in progress (app.cpp
1470-1510): back to the list view. -/
def UpdateConfirm.back (clock : FrameClock) (s : App) : Option App :=
  let s1 := { s with delete_entries := [] }
  let deletion_completed := s1.finished_deleting
  let s2 :=
    if s1.deletion_interrupted ∨ deletion_completed then
      { s1 with
        index := 0, start := 0, ypos := 130, yoff := 130,
        entries := s1.entries.map (fun entry => { entry with selected := false }),
        delete_count := 0, deletion_interrupted := false, finished_deleting := false }
    else
      { s1 with ypos := 130 + (usub s1.index s1.start : Int) * 120, yoff := 130 }
  let s3 := { s2 with
    finished_deleting := false, last_loaded_range := (SIZE_MAX, SIZE_MAX), last_load_time := 0 }
  (LoadVisibleAreaIcons clock.list_now clock.list_stamps s3).map
    (fun s4 => { s4 with menu_mode := MenuMode.LIST })

/-- The branch of `App::UpdateConfirm` for L (app.cpp 1512-1542). -/
def UpdateConfirm.pageUp (clock : FrameClock) (s : App) : Option App :=
  if s.selected_indices.length > 0 then
    let confirm_index := if s.confirm_index ≥ 4 then s.confirm_index - 4 else 0
    let confirm_start := if s.confirm_start ≥ 4 then s.confirm_start - 4 else 0
    let confirm_index := if confirm_index < confirm_start then confirm_start else confirm_index
    let max_index_in_page := confirm_start + 3
    let confirm_index :=
      if confirm_index > max_index_in_page ∧ max_index_in_page < s.selected_indices.length then
        max_index_in_page
      else confirm_index
    LoadVisibleAreaIcons clock.list_now clock.list_stamps
      { s with confirm_index := confirm_index, confirm_start := confirm_start }
  else some s

/-- The branch of `App::UpdateConfirm` for R (app.cpp 1544-1571). -/
def UpdateConfirm.pageDown (clock : FrameClock) (s : App) : Option App :=
  if s.selected_indices.length > 0 then
    let size := s.selected_indices.length
    let confirm_index := s.confirm_index + 4
    let confirm_index := if confirm_index ≥ size then size - 1 else confirm_index
    let confirm_start := s.confirm_start + 4
    let r : Nat × Nat :=
      if size > 4 then
        let max_start := size - 4
        if confirm_start > max_start then (size - 1, max_start) else (confirm_index, confirm_start)
      else (confirm_index, 0)
    LoadVisibleAreaIcons clock.list_now clock.list_stamps
      { s with confirm_index := r.1, confirm_start := r.2 }
  else some s

/-- The branch of `App::UpdateConfirm` for UP (app.cpp 1573-1580). -/
def UpdateConfirm.up (s : App) : App :=
  if s.confirm_index > 0 then
    let confirm_index := s.confirm_index - 1
    { s with
      confirm_index := confirm_index,
      confirm_start := if confirm_index < s.confirm_start then confirm_index else s.confirm_start }
  else s

/-- The branch of `App::UpdateConfirm` for DOWN (app.cpp 1581-1588). -/
def UpdateConfirm.down (s : App) : App :=
  if s.confirm_index < usub s.selected_indices.length 1 then
    let confirm_index := s.confirm_index + 1
    { s with
      confirm_index := confirm_index,
      confirm_start :=
        if usub confirm_index s.confirm_start ≥ 4 then s.confirm_start + 1 else s.confirm_start }
  else s

/-- The branch of `App::UpdateConfirm` for X (app.cpp 1589-1637). `none` would be a read
outside `selected_indices`, which the test before it excludes. -/
def UpdateConfirm.remove (s : App) : Option App :=
  if s.delete_thread_valid = true ∧ s.finished_deleting = false then some s
  else if ¬ s.selected_indices.isEmpty ∧ s.confirm_index < s.selected_indices.length then
    (s.selected_indices[s.confirm_index]?).map (fun app_index =>
      let s1 :=
        match s.entries[app_index]? with
        | some entry =>
          { s with
            entries := s.entries.set app_index { entry with selected := false },
            delete_count := usub s.delete_count 1,
            delete_entries := s.delete_entries.erase entry.id }
        | none => s
      let s2 := { s1 with selected_indices := s1.selected_indices.eraseIdx s1.confirm_index }
      if s2.selected_indices.isEmpty then
        { s2 with menu_mode := MenuMode.LIST, confirm_index := 0, confirm_start := 0 }
      else
        let confirm_index :=
          if s2.confirm_index ≥ s2.selected_indices.length then s2.selected_indices.length - 1
          else s2.confirm_index
        let confirm_start :=
          if confirm_index < s2.confirm_start then confirm_index
          else if confirm_index ≥ s2.confirm_start + 4 then confirm_index - 3
          else s2.confirm_start
        { s2 with confirm_index := confirm_index, confirm_start := confirm_start })
  else some s

/-- `App::UpdateConfirm` (app.cpp 1386-1638), one frame of the confirm view. `none` is an
exception or undefined behaviour in one of the parts. -/
def UpdateConfirm (remove : Nat → Nat → Nat) (controller : Controller) (clock : FrameClock)
    (sys : Sys) : Option Sys :=
  match LoadConfirmVisibleAreaIcons clock.confirm_now clock.confirm_stamps sys.world.app with
  | none => none
  | some s =>
    let lift : Option App → Option Sys := fun r =>
      r.map (fun s1 => { sys with world := { sys.world with app := s1 } })
    if controller.RIGHT_AND_A = true ∧ ¬ s.delete_entries.isEmpty ∧
        (s.delete_thread_valid = false ∨ s.finished_deleting = true) then
      some (Sys.async s.delete_entries { sys.world with app := UpdateConfirm.start s })
    else if controller.B then
      if s.delete_thread_valid = true ∧ s.finished_deleting = false then
        UpdateConfirm.cancel remove { sys with world := { sys.world with app := s } }
      else lift (UpdateConfirm.back clock s)
    else if controller.L then lift (UpdateConfirm.pageUp clock s)
    else if controller.R then lift (UpdateConfirm.pageDown clock s)
    else if controller.UP then lift (some (UpdateConfirm.up s))
    else if controller.DOWN then lift (some (UpdateConfirm.down s))
    else if controller.X then lift (UpdateConfirm.remove s)
    else lift (some s)

/-! ## Concrete states used to evaluate the deletion job -/

/-- A removal primitive that fails (result code 1) exactly for the identifiers in
`ids`, at every call. -/
def removeFailsFor (ids : List Nat) : Nat → Nat → Nat :=
  fun _ id => if id ∈ ids then 1 else 0

/-- The clock readings of a frame at time `t`. -/
def frameAt (t : Int) : FrameClock :=
  { confirm_now := t, confirm_stamps := fun j => t + j,
    list_now := t, list_stamps := fun j => t + j }

/-- Three entries, the default icon being handle 1: A (identifier 1) selected and owning
its decoded icon 5, B (identifier 2) selected and still on the default icon, C
(identifier 3) not selected. -/
def entriesABC : List AppEntry :=
  [ { placeholderEntry 1 "A" with
      image := 5, own_image := true, selected := true, size_nand := 100, size_total := 100 },
    { placeholderEntry 2 "B" with
      image := 1, selected := true, size_sd := 30, size_total := 30 },
    { placeholderEntry 3 "C" with image := 1, size_nand := 7, size_total := 7 } ]

/-- The confirm view over `entriesABC` after a complete scan, with the worklist {A, B}
and no deletion started yet. The prefetch of the view was accepted at time 1 s for the
range (0, 2). -/
def confirmAB : World :=
  { app :=
      { entries := entriesABC, default_icon_image := 1,
        delete_entries := [1, 2], delete_count := 2, selected_indices := [0, 1],
        scanned_count := 3, total_count := 3,
        last_confirm_loaded_range := (0, 2), last_confirm_load_time := 1000000000,
        is_scan_running := false, finished_scanning := true, menu_mode := MenuMode.CONFIRM },
    nvg := [] }

/-- The events of the loop iterations for `items`, the first of them being removal call
number `k`: for each identifier the removal call, then `del_cb` with the outcome. -/
def itemEvents (remove : Nat → Nat → Nat) : List Nat → Nat → List WorkerEvent
  | [], _ => []
  | p :: rest, k =>
    WorkerEvent.removal p :: WorkerEvent.del_cb (R_FAILED (remove k p)) ::
      itemEvents remove rest (k + 1)

/-- The state after the `del_cb` calls of the loop iterations for `items`, the first of
them being removal call number `k`. -/
def itemCallbacks {σ : Type} (remove : Nat → Nat → Nat) (del_cb : Bool → σ → σ) :
    List Nat → Nat → σ → σ
  | [], _, st => st
  | p :: rest, k, st => itemCallbacks remove del_cb rest (k + 1) (del_cb (R_FAILED (remove k p)) st)

/-- The identifiers among `items` whose removal succeeded, the first item being removal
call number `k`. -/
def succeededIds (remove : Nat → Nat → Nat) : List Nat → Nat → List Nat
  | [], _ => []
  | p :: rest, k =>
    if R_FAILED (remove k p) then succeededIds remove rest (k + 1)
    else p :: succeededIds remove rest (k + 1)

/-- The world after the `del_cb` calls for `items` when each call reads its own item from
`delete_entries`, the first of them being removal call number `k`. -/
def afterItems (remove : Nat → Nat → Nat) : List Nat → Nat → World → World
  | [], _, w => w
  | p :: rest, k, w =>
    afterItems remove rest (k + 1) (UpdateConfirm.del_cb_body (R_FAILED (remove k p)) p w)

/-- Two application states agree on the store, on the bookkeeping of the deletion job and
on the counters: what neither the prefetch functions nor the cursor handlers of the
confirm view touch. -/
def sameJobState (s s1 : App) : Prop :=
  s1.entries = s.entries ∧ s1.delete_entries = s.delete_entries ∧
  s1.delete_index = s.delete_index ∧ s1.finished_deleting = s.finished_deleting ∧
  s1.deletion_interrupted = s.deletion_interrupted ∧
  s1.delete_thread_valid = s.delete_thread_valid ∧
  s1.deleted_nand_bytes = s.deleted_nand_bytes ∧ s1.deleted_sd_bytes = s.deleted_sd_bytes ∧
  s1.deleted_app_count = s.deleted_app_count ∧ s1.delete_count = s.delete_count ∧
  s1.total_count = s.total_count ∧ s1.scanned_count = s.scanned_count

/-- The job over {A, B} of `confirmAB` just started: the state the start branch of
`App::UpdateConfirm` leaves, the worker before its first item. -/
def runningAB : Sys :=
  Sys.async confirmAB.app.delete_entries
    { confirmAB with app := UpdateConfirm.start confirmAB.app }

/-- The controller of a frame in which RIGHT and A are held and nothing else is. -/
def holdRightA : Controller := { RIGHT_AND_A := true }

/-- The controller of a frame in which B was pressed and nothing else. -/
def pressB : Controller := { B := true }

/-- A second job on `confirmAB` after an interrupted first one. Frame 1: RIGHT+A starts the
job over {A, B}. Frame 2: B interrupts it; the worker removes A, sees the request and
returns. Frame 3: RIGHT+A starts the job again over the same worklist. Then the worker
runs its two items, the removal of A, already gone, failing and the removal of B
succeeding, and stands before the call of `done_cb`. -/
def restartedAB : Option Sys :=
  (((UpdateConfirm (removeFailsFor []) holdRightA (frameAt 1000000001) ⟨confirmAB, none⟩).bind
    (UpdateConfirm (removeFailsFor []) pressB (frameAt 1000000002))).bind
    (UpdateConfirm (removeFailsFor [1]) holdRightA (frameAt 1000000003))).bind
    (Sys.workerSteps (removeFailsFor [1]) 2)

/-- The catalog after the complete scan of the ten identifiers of `demoEnv`. -/
def scannedCatalog : Option App := FastScanNames (demoEnv none) 11 {}

/-! ## States reachable by scan appends and icon loads -/

/-- The states the catalog reaches from an empty store, with no image created from memory
yet, by iterations of the scan loop and by icon-load units of work. In a load step
`decode` is what `nvgCreateImageMem` answers in that unit of work; the premise on it is
that of the rendering library, which does not hand out the handle of the default icon,
an image still alive, for a new image. -/
inductive CatalogReachable (env : ScanEnv) : World → Prop where
  | init (w : World) (hentries : w.app.entries = []) (hnvg : w.nvg = []) :
      CatalogReachable env w
  | scan (w : World) (application_id count : Nat) (h : CatalogReachable env w) :
      CatalogReachable env
        { w with app := FastScanNames.body env application_id count w.app }
  | load (w w1 : World) (decode : List Nat → Int) (application_id : Nat)
      (h : CatalogReachable env w)
      (hfresh : ∀ data, 0 < decode data → decode data ≠ w.app.default_icon_image)
      (hload : load_callback decode application_id w = some w1) :
      CatalogReachable env w1

/-- The empty catalog whose default icon is handle 1, before the scan. -/
def emptyCatalog : World := { app := { default_icon_image := 1 }, nvg := [] }

/-- The catalog `emptyCatalog` after the scan iteration for identifier 1 of `demoEnv`. -/
def scannedOne : World :=
  { emptyCatalog with app := FastScanNames.body (demoEnv none) 1 0 emptyCatalog.app }

/-- A decoder that answers handle 5 for every byte sequence. -/
def decodeFive : List Nat → Int := fun _ => 5

/-- The catalog `scannedOne` after the icon-load unit of work for identifier 1 in which
the decoder answers handle 5. -/
def loadedOne : World :=
  match load_callback decodeFive 1 scannedOne with
  | some w => w
  | none => scannedOne

/-- The catalog `loadedOne` after its only entry was removed, as a deletion leaves it. -/
def emptiedOne : World := { loadedOne with app := { loadedOne.app with entries := [] } }

/-- The local `load_start` of `App::LoadVisibleAreaIcons` (app.cpp 2036). -/
def LoadVisibleAreaIcons.load_start (visible_start : Nat) : Nat :=
  if visible_start ≥ PRELOAD_BUFFER then visible_start - PRELOAD_BUFFER else 0

/-- The local `load_end` of `App::LoadVisibleAreaIcons` (app.cpp 2037-2041), `size` being
`entries.size()`. -/
def LoadVisibleAreaIcons.load_end (visible_end size : Nat) : Nat :=
  min ((visible_end + PRELOAD_BUFFER) % 2 ^ 64) size

/-- The icon task one iteration of the scan loop submits (app.cpp 1892-1943) for the
identifier visited when the local counter is `count`, if it submits one: the counter
after its increment is at most `BATCH_SIZE`, the entry is not corrupted and it has
cached icon bytes. -/
def FastScanNames.submitted (env : ScanEnv) (default_icon_image : Int)
    (corrupted_install : String) (count : Nat) (application_id : Nat) :
    Option ResourceLoadTask :=
  let r := scanEntry env default_icon_image corrupted_install application_id
  if count + 1 ≤ BATCH_SIZE ∧ r.2 = false ∧ r.1.has_cached_icon = true then
    some { application_id := application_id,
           load_callback := some (LoadCallback.scanIcon application_id),
           submit_time := env.now count, priority := 0,
           task_type := ResourceTaskType.ICON }
  else none

/-- The catalog of `demoEnv` in which the occupied-size computation fails for
identifier 3 with code 0x1234. -/
def sizeFailsForThree : ScanEnv :=
  { demoEnv none with
    nsCalculateApplicationOccupiedSize := fun id =>
      if id = 3 then { rc := 0x1234, entry := fun _ => ⟨0, 0, 0, 0⟩ }
      else (demoEnv none).nsCalculateApplicationOccupiedSize id }

/-! ## `App::Sort` -/

/-- The enumerator `SortType::Size_BigSmall`. -/
def SortType.Size_BigSmall : Nat := 0

/-- The enumerator `SortType::Alphabetical`. -/
def SortType.Alphabetical : Nat := 1

/-- The enumerator `SortType::MAX`. -/
def SortType.MAX : Nat := 2

/-- The requirement of the C++ standard on the comparator handed to a sorting algorithm,
a strict weak ordering: irreflexive, transitive, and with a transitive incomparability. -/
def StrictWeakOrdering {α : Type} (comp : α → α → Bool) : Prop :=
  (∀ a, comp a a = false) ∧
  (∀ a b c, comp a b = true → comp b c = true → comp a c = true) ∧
  (∀ a b c, comp a b = false → comp b a = false → comp b c = false → comp c b = false →
    comp a c = false ∧ comp c a = false)

/-- What the C++ standard promises of `std::ranges::sort(r, comp, proj)`, here with the
projection folded into the comparator: for a strict weak ordering the range afterwards
is a permutation of the range before in which no element is ordered before an earlier
one. The order among equivalent elements is not specified. -/
def SortContract (sort : (AppEntry → AppEntry → Bool) → List AppEntry → List AppEntry) :
    Prop :=
  ∀ comp l, StrictWeakOrdering comp →
    (sort comp l).Perm l ∧ (sort comp l).Pairwise (fun a b => comp b a = false)

/-- `App::Sort` (app.cpp 1132-1148); `sort` is `std::ranges::sort`, called with
`std::ranges::greater` on `size_total` or with the default `std::ranges::less` on
`name`. -/
def App.Sort (sort : (AppEntry → AppEntry → Bool) → List AppEntry → List AppEntry) (s : App) :
    App :=
  if s.sort_type = SortType.Size_BigSmall then
    { s with entries := sort (fun a b => decide (a.size_total > b.size_total)) s.entries }
  else if s.sort_type = SortType.Alphabetical then
    { s with entries := sort (fun a b => decide (a.name < b.name)) s.entries }
  else
    { s with entries := sort (fun a b => decide (a.size_total > b.size_total)) s.entries }

/-- A sorting algorithm that keeps the contract of `std::ranges::sort`, used to evaluate
`Sort`: insertion sort. -/
def insertionSortBy (comp : AppEntry → AppEntry → Bool) (l : List AppEntry) : List AppEntry :=
  l.insertionSort (fun a b => comp b a = false)

/-! ## The list view (`App::UpdateList`) and `App::UpdateLoad` -/

/-- Modelled from the spec: `get()` on the `util::AsyncFurture` handle `delete_thread`
with no stop requested (`async.hpp` is not among the sources). It blocks until
`NsDeleteAppsAsync` has returned and leaves the handle invalid. -/
def Sys.get (remove : Nat → Nat → Nat) (sys : Sys) : Option Sys :=
  match sys.worker with
  | none =>
    some { sys with world := { sys.world with
      app := { sys.world.app with delete_thread_valid := false } } }
  | some w =>
    (NsDeleteAppsAsync.resume remove (fun _ => false)
        (UpdateConfirm.data sys.world.app.delete_entries) w (some sys.world)).1.map
      (fun w1 => { world := { w1 with app := { w1.app with delete_thread_valid := false } },
                   worker := none })

/-- The branch of `App::UpdateList` for A (app.cpp 1194-1202). `none` is the undefined
behaviour of `entries[index]` outside the vector. -/
def UpdateList.toggle (s : App) : Option App :=
  (s.entries[s.index]?).map (fun entry =>
    if entry.selected then
      { s with
        entries := s.entries.set s.index { entry with selected := false },
        delete_count := usub s.delete_count 1 }
    else
      { s with
        entries := s.entries.set s.index { entry with selected := true },
        delete_count := (s.delete_count + 1) % 2 ^ 64 })

/-- The branch of `App::UpdateList` for START outside a scan (app.cpp 1204-1231). -/
def UpdateList.start (remove : Nat → Nat → Nat) (sys : Sys) : Option Sys :=
  let s := sys.world.app
  let s1 : App := { s with
    delete_entries := s.delete_entries ++
      (s.entries.filter (fun (p : AppEntry) => p.selected)).map (fun (p : AppEntry) => p.id) }
  if s1.delete_entries.isEmpty then some { sys with world := { sys.world with app := s1 } }
  else
    let s2 : App := { s1 with
      confirm_index := 0, confirm_start := 0, ypos := 130, yoff := 130,
      finished_deleting := false, deletion_interrupted := false }
    let sys2 : Sys := { sys with world := { sys.world with app := s2 } }
    (if s2.delete_thread_valid then Sys.get remove sys2 else some sys2).map (fun joined =>
      { joined with world := { joined.world with
        app := { joined.world.app with menu_mode := MenuMode.CONFIRM } } })

/-- The branch of `App::UpdateList` for DOWN (app.cpp 1232-1245). `index++` cannot wrap
under its guard. -/
def UpdateList.down (clock : FrameClock) (s : App) : Option App :=
  if s.index < usub s.entries.length 1 then
    let index := s.index + 1
    let ypos := s.ypos + 120
    let s1 := { s with index := index, ypos := ypos }
    let s2 :=
      if ypos + 120 > 646 then
        let ypos := ypos - 120
        { s1 with
          ypos := ypos,
          yoff := ypos - (usub (usub index s.start) 1 : Int) * 120,
          start := (s.start + 1) % 2 ^ 64 }
      else s1
    LoadVisibleAreaIcons clock.list_now clock.list_stamps s2
  else some s

/-- The branch of `App::UpdateList` for UP (app.cpp 1246-1259). -/
def UpdateList.up (clock : FrameClock) (s : App) : Option App :=
  if s.index ≠ 0 ∧ s.entries.length ≠ 0 then
    let index := s.index - 1
    let ypos := s.ypos - 120
    let s1 := { s with index := index, ypos := ypos }
    let s2 :=
      if ypos < 86 then
        let ypos := ypos + 120
        { s1 with ypos := ypos, yoff := ypos, start := usub s.start 1 }
      else s1
    LoadVisibleAreaIcons clock.list_now clock.list_stamps s2
  else some s

/-- The branch of `App::UpdateList` for Y outside a scan (app.cpp 1260-1276);
`sort_type` is a `uint8_t`. -/
def UpdateList.sort (sort : (AppEntry → AppEntry → Bool) → List AppEntry → List AppEntry)
    (clock : FrameClock) (s : App) : Option App :=
  let sort_type := (s.sort_type + 1) % 256
  let sort_type := if sort_type = SortType.MAX then 0 else sort_type
  let s1 := App.Sort sort { s with sort_type := sort_type }
  (LoadVisibleAreaIcons clock.list_now clock.list_stamps
      { s1 with last_loaded_range := (SIZE_MAX, SIZE_MAX) }).map
    (fun s2 => { s2 with index := 0, ypos := 130, yoff := 130, start := 0 })

/-- The branch of `App::UpdateList` for ZL outside a scan (app.cpp 1278-1289). -/
def UpdateList.selectAll (s : App) : App :=
  if s.delete_count = s.entries.length then
    { s with
      entries := s.entries.map (fun a => { a with selected := false }),
      delete_count := 0 }
  else
    { s with
      entries := s.entries.map (fun a => { a with selected := true }),
      delete_count := s.entries.length }

/-- The branch of `App::UpdateList` for ZR outside a scan (app.cpp 1290-1300): every flag
is inverted, then `delete_count` is counted up from 0. -/
def UpdateList.invert (s : App) : App :=
  let entries := s.entries.map (fun a => { a with selected := !a.selected })
  { s with
    entries := entries,
    delete_count := entries.foldl
      (fun delete_count a => if a.selected then (delete_count + 1) % 2 ^ 64 else delete_count) 0 }

/-- The branch of `App::UpdateList` for L (app.cpp 1301-1334). -/
def UpdateList.pageUp (clock : FrameClock) (s : App) : Option App :=
  if s.entries.length > 0 then
    let index := if s.index ≥ 4 then s.index - 4 else 0
    let start := if s.start ≥ 4 then s.start - 4 else 0
    let index := if index < start then start else index
    let max_index_in_page := start + 3
    let index :=
      if index > max_index_in_page ∧ max_index_in_page < s.entries.length then
        max_index_in_page
      else index
    LoadVisibleAreaIcons clock.list_now clock.list_stamps
      { s with
        index := index, start := start,
        ypos := 130 + (usub index start : Int) * 120, yoff := 130 }
  else some s

/-- The branch of `App::UpdateList` for R (app.cpp 1335-1366). -/
def UpdateList.pageDown (clock : FrameClock) (s : App) : Option App :=
  if s.entries.length > 0 then
    let size := s.entries.length
    let index := (s.index + 4) % 2 ^ 64
    let index := if index ≥ size then size - 1 else index
    let start := (s.start + 4) % 2 ^ 64
    let r : Nat × Nat :=
      if size > 4 then
        let max_start := size - 4
        if start > max_start then (size - 1, max_start) else (index, start)
      else (index, 0)
    LoadVisibleAreaIcons clock.list_now clock.list_stamps
      { s with
        index := r.1, start := r.2,
        ypos := 130 + (usub r.1 r.2 : Int) * 120, yoff := 130 }
  else some s

/-- `App::UpdateList` (app.cpp 1190-1384), one frame of the list view. `none` is an
exception or undefined behaviour in one of the parts. -/
def UpdateList (remove : Nat → Nat → Nat)
    (sort : (AppEntry → AppEntry → Bool) → List AppEntry → List AppEntry)
    (controller : Controller) (clock : FrameClock) (sys : Sys) : Option Sys :=
  let s := sys.world.app
  let lift : Option App → Option Sys := fun r =>
    r.map (fun s1 => { sys with world := { sys.world with app := s1 } })
  if controller.B then lift (some { s with quit := true })
  else if controller.A then lift (UpdateList.toggle s)
  else if s.is_scan_running = false ∧ controller.START = true then UpdateList.start remove sys
  else if controller.DOWN then lift (UpdateList.down clock s)
  else if controller.UP then lift (UpdateList.up clock s)
  else if s.is_scan_running = false ∧ controller.Y = true then
    lift (UpdateList.sort sort clock s)
  else if s.is_scan_running = false ∧ controller.L2 = true then
    lift (some (UpdateList.selectAll s))
  else if s.is_scan_running = false ∧ controller.R2 = true then
    lift (some (UpdateList.invert s))
  else if controller.L then lift (UpdateList.pageUp clock s)
  else if controller.R then lift (UpdateList.pageDown clock s)
  else some sys

/-- `App::UpdateLoad` (app.cpp 1164-1188), one frame of the loading view. The scan thread
behind `async_thread` runs `FastScanNames`; what it writes while this function waits for
it in `get()` are steps of the scan, which this frame does not make. -/
def UpdateLoad (sort : (AppEntry → AppEntry → Bool) → List AppEntry → List AppEntry)
    (controller : Controller) (clock : FrameClock) (s : App) : Option App :=
  if controller.B then some { s with quit := true }
  else if s.scanned_count > 0 ∨ s.finished_scanning = true then
    (LoadVisibleAreaIcons clock.list_now clock.list_stamps
        { App.Sort sort s with last_loaded_range := (SIZE_MAX, SIZE_MAX) }).map
      (fun s1 => { s1 with menu_mode := MenuMode.LIST })
  else some s

/-- The loop of `App::DrawConfirm` that rebuilds `selected_indices` (app.cpp 945-957): the
indices of the selected entries, ascending; `i` is the index of the first entry of the
list. -/
def DrawConfirm.selected_indices : List AppEntry → Nat → List Nat
  | [], _ => []
  | entry :: rest, i =>
    if entry.selected then i :: DrawConfirm.selected_indices rest (i + 1)
    else DrawConfirm.selected_indices rest (i + 1)

/-- The four keys that move the cursor of the list view. -/
inductive CursorKey where
  | UP
  | DOWN
  | L
  | R
deriving DecidableEq, Repr

/-- The controller of a frame in which exactly the given cursor key was pressed. -/
def CursorKey.controller : CursorKey → Controller
  | CursorKey.UP => { UP := true }
  | CursorKey.DOWN => { DOWN := true }
  | CursorKey.L => { L := true }
  | CursorKey.R => { R := true }

/-- A sequence of frames of the list view, each with its controller state and its clock
readings. -/
def UpdateList.run (remove : Nat → Nat → Nat)
    (sort : (AppEntry → AppEntry → Bool) → List AppEntry → List AppEntry) :
    List (Controller × FrameClock) → Sys → Option Sys
  | [], sys => some sys
  | frame :: rest, sys =>
    (UpdateList remove sort frame.1 frame.2 sys).bind (UpdateList.run remove sort rest)

/-- An operating system without application records. -/
def emptyEnv : ScanEnv := { demoEnv none with nsListApplicationRecord := pagedRecords [] }

/-- The controller of a frame in which A was pressed and nothing else. -/
def pressA : Controller := { A := true }

/-- The controller of a frame in which DOWN was pressed and nothing else. -/
def pressDown : Controller := { DOWN := true }

/-- The cursor of the list view is on a row of the catalog, within the four rows shown
from `start` on, and `ypos` is the screen position of that row. -/
def cursorInvariant (s : App) : Prop :=
  s.start ≤ s.index ∧ s.index ≤ s.start + 3 ∧ s.index < s.entries.length ∧
  s.ypos = 130 + 120 * ((s.index : Int) - (s.start : Int))

/-- The list view at the top over twelve placeholder entries, with no deletion job. -/
def twelveRows : Sys :=
  { world := { app := { restingList with entries := sixPlaceholders ++ sixPlaceholders },
               nvg := [] },
    worker := none }

/-- The list view the loading view enters after a scan that found no application. -/
def emptyListView : Option App :=
  (FastScanNames emptyEnv 1 {}).bind (UpdateLoad insertionSortBy {} (frameAt 5))

/-- The counter `delete_count` is the number of entries whose `selected` flag is set. -/
def selectionInvariant (s : App) : Prop :=
  s.delete_count = s.entries.countP (fun e => e.selected)

/-- The controller of a frame in which X was pressed and nothing else. -/
def pressX : Controller := { X := true }

/-- The job over {A, B} of `confirmAB` run to its end between two frames. Frame 1:
RIGHT+A starts the job. Then the worker removes A, removes B and calls `done_cb`. -/
def completedAB : Option Sys :=
  (UpdateConfirm (removeFailsFor []) holdRightA (frameAt 2000000000) ⟨confirmAB, none⟩).bind
    (Sys.workerSteps (removeFailsFor []) 3)

/-- The job over {A, B} of `confirmAB` in which the removal of B fails, run to its end
between two frames, and the draw that follows. Frame 1: RIGHT+A starts the job. Then the
worker removes A, fails to remove B and calls `done_cb`. Then `DrawConfirm` rebuilds
`selected_indices`. -/
def completedBFails : Option Sys :=
  ((UpdateConfirm (removeFailsFor [2]) holdRightA (frameAt 2000000000)
      ⟨confirmAB, none⟩).bind (Sys.workerSteps (removeFailsFor [2]) 3)).map
    (fun sys => { sys with world := { sys.world with app := { sys.world.app with
      selected_indices := DrawConfirm.selected_indices sys.world.app.entries 0 } } })

/-! ## The language file parser (`parseSimpleJSON`, lang_manager.cpp) -/

/-- The double quote character. -/
def charQuote : Char := Char.ofNat 34

/-- The backslash character. -/
def charBackslash : Char := Char.ofNat 92

/-- The opening brace. -/
def charLBrace : Char := Char.ofNat 123

/-- The closing brace. -/
def charRBrace : Char := Char.ofNat 125

/-- The character `:`. -/
def charColon : Char := Char.ofNat 58

/-- The character `,`. -/
def charComma : Char := Char.ofNat 44

/-- The space character. -/
def charSpace : Char := Char.ofNat 32

/-- The tab character. -/
def charTab : Char := Char.ofNat 9

/-- The line feed character. -/
def charLF : Char := Char.ofNat 10

/-- The carriage return character. -/
def charCR : Char := Char.ofNat 13

/-- A `std::string`, as the list of its characters. -/
abbrev CString := List Char

/-- A `std::unordered_map<std::string, std::string>`: the stored pairs, no key twice. The
order of the list is that of first insertion and has no counterpart in the code; the map
is read through `TextMap.find`. -/
abbrev TextMap := List (CString × CString)

/-- `textMap[key] = value`: the value of an existing key is replaced, a new key is added. -/
def TextMap.assign : TextMap → CString → CString → TextMap
  | [], key, value => [(key, value)]
  | (k, v) :: rest, key, value =>
    if k = key then (k, value) :: rest else (k, v) :: TextMap.assign rest key value

/-- `textMap.find(key)`, `none` being `end()`. -/
def TextMap.find : TextMap → CString → Option CString
  | [], _ => none
  | (k, v) :: rest, key => if k = key then some v else TextMap.find rest key

/-- `std::string::find(c, pos)` and `find_first_of`, for the characters that satisfy `p`:
the first position at or after `pos` that holds one, `none` being `npos`. The list is the
text from `pos` on. -/
def CString.findFrom (p : Char → Bool) : List Char → Nat → Option Nat
  | [], _ => none
  | c :: rest, pos => if p c then some pos else CString.findFrom p rest (pos + 1)

/-- `jsonStr.find(c, pos)`. -/
def CString.find (jsonStr : CString) (c : Char) (pos : Nat) : Option Nat :=
  CString.findFrom (fun d => d == c) (jsonStr.drop pos) pos

/-- `jsonStr.find_first_of` for the two characters comma and closing brace, from `pos`. -/
def CString.find_first_of_comma_rbrace (jsonStr : CString) (pos : Nat) : Option Nat :=
  CString.findFrom (fun d => d == charComma || d == charRBrace) (jsonStr.drop pos) pos

/-- The test of the loop of `skipWhitespace`. -/
def isWhitespace (c : Char) : Bool :=
  c == charSpace || c == charTab || c == charLF || c == charCR

/-- The `while` loop of the lambda `skipWhitespace` (lang_manager.cpp 59-61); the list is
the text from `start` on. -/
def parseSimpleJSON.skipWhitespace.loop : List Char → Nat → Nat
  | [], start => start
  | c :: rest, start =>
    if isWhitespace c then parseSimpleJSON.skipWhitespace.loop rest (start + 1) else start

/-- The lambda `skipWhitespace` of `parseSimpleJSON` (lang_manager.cpp 58-63). -/
def parseSimpleJSON.skipWhitespace (jsonStr : CString) (start : Nat) : Nat :=
  parseSimpleJSON.skipWhitespace.loop (jsonStr.drop start) start

/-- The loop that looks for the closing quote of a key or of a value (lang_manager.cpp
87-98 and 132-143): the position of the first quote not preceded by an unescaped
backslash, or the size of the text. The list is the text from `keyEnd` on. -/
def parseSimpleJSON.closingQuote : List Char → Bool → Nat → Nat
  | [], _, keyEnd => keyEnd
  | c :: rest, inEscape, keyEnd =>
    if !inEscape && c == charBackslash then
      parseSimpleJSON.closingQuote rest true (keyEnd + 1)
    else if !inEscape && c == charQuote then keyEnd
    else parseSimpleJSON.closingQuote rest false (keyEnd + 1)

/-- The `switch` of the escape processing (lang_manager.cpp 153-160). -/
def parseSimpleJSON.escaped (c : Char) : Char :=
  if c = 'n' then charLF
  else if c = 't' then charTab
  else if c = 'r' then charCR
  else if c = charQuote then charQuote
  else if c = charBackslash then charBackslash
  else c

/-- The `for` loop that builds `processedValue` from `value` (lang_manager.cpp 150-164). -/
def parseSimpleJSON.processedValue : List Char → List Char
  | [] => []
  | [c] => [c]
  | c :: d :: rest =>
    if c = charBackslash then
      parseSimpleJSON.escaped d :: parseSimpleJSON.processedValue rest
    else c :: parseSimpleJSON.processedValue (d :: rest)

/-- `jsonStr.substr(pos, count)`, for `pos` within the text. -/
def CString.substr (jsonStr : CString) (pos count : Nat) : CString :=
  (jsonStr.drop pos).take count

/-- How one pass through the body of the `while` loop of `parseSimpleJSON` ends: with
`break`, or at the end of the body (also through `continue`) with a new `pos`. -/
inductive ParseStep where
  | stop (textMap : TextMap)
  | next (pos : Nat) (textMap : TextMap)
deriving DecidableEq, Repr

/-- The skip of a pair without colon or without quoted value (lang_manager.cpp 112-114
and 124-126): `pos` moves to the next comma or closing brace, and past a comma. When there is
neither, `pos` becomes `npos`, which is not below the size, and the loop ends. -/
def parseSimpleJSON.skipPair (jsonStr : CString) (pos : Nat) (textMap : TextMap) :
    ParseStep :=
  match CString.find_first_of_comma_rbrace jsonStr pos with
  | none => ParseStep.stop textMap
  | some pos =>
    if jsonStr[pos]? = some charComma then ParseStep.next (pos + 1) textMap
    else ParseStep.next pos textMap

/-- The part of the loop body after the key has been extracted (lang_manager.cpp
107-172). -/
def parseSimpleJSON.value (jsonStr : CString) (key : CString) (keyEnd : Nat)
    (textMap : TextMap) : ParseStep :=
  let pos := parseSimpleJSON.skipWhitespace jsonStr (keyEnd + 1)
  if jsonStr[pos]? ≠ some charColon then parseSimpleJSON.skipPair jsonStr pos textMap
  else
    let pos := parseSimpleJSON.skipWhitespace jsonStr (pos + 1)
    if jsonStr[pos]? ≠ some charQuote then parseSimpleJSON.skipPair jsonStr pos textMap
    else
      let valStart := pos + 1
      let valEnd := parseSimpleJSON.closingQuote (jsonStr.drop valStart) false valStart
      if valEnd ≥ jsonStr.length then ParseStep.stop textMap
      else
        let value := CString.substr jsonStr valStart (valEnd - valStart)
        let textMap := TextMap.assign textMap key (parseSimpleJSON.processedValue value)
        let pos := parseSimpleJSON.skipWhitespace jsonStr (valEnd + 1)
        if jsonStr[pos]? = some charComma then ParseStep.next (pos + 1) textMap
        else ParseStep.next pos textMap

/-- One pass through the body of the `while` loop of `parseSimpleJSON` (lang_manager.cpp
68-172), entered with `pos < jsonStr.size()`. A read `jsonStr[pos]` that the code guards
with `pos >= jsonStr.size() ||` is `jsonStr[pos]?`, which is `none` from the size on. -/
def parseSimpleJSON.body (jsonStr : CString) (pos : Nat) (textMap : TextMap) : ParseStep :=
  let pos := parseSimpleJSON.skipWhitespace jsonStr pos
  if jsonStr[pos]? = none ∨ jsonStr[pos]? = some charRBrace then ParseStep.stop textMap
  else
    let found :=
      if jsonStr[pos]? ≠ some charQuote then CString.find jsonStr charQuote pos
      else some pos
    match found with
    | none => ParseStep.stop textMap
    | some pos =>
      let keyStart := pos + 1
      let keyEnd := parseSimpleJSON.closingQuote (jsonStr.drop keyStart) false keyStart
      if keyEnd ≥ jsonStr.length then ParseStep.stop textMap
      else
        let key := CString.substr jsonStr keyStart (keyEnd - keyStart)
        parseSimpleJSON.value jsonStr key keyEnd textMap

/-- The `while (pos < jsonStr.size())` loop of `parseSimpleJSON`, with `fuel` passes
allowed; `none` when they do not suffice. -/
def parseSimpleJSON.loop (jsonStr : CString) (fuel pos : Nat) (textMap : TextMap) :
    Option TextMap :=
  if pos < jsonStr.length then
    match fuel with
    | 0 => none
    | fuel + 1 =>
      match parseSimpleJSON.body jsonStr pos textMap with
      | ParseStep.stop textMap => some textMap
      | ParseStep.next pos textMap => parseSimpleJSON.loop jsonStr fuel pos textMap
  else some textMap

/-- `tj::parseSimpleJSON` (lang_manager.cpp 50-176): the value returned and the map left
in `textMap`, which is cleared first whatever it held. Every pass of the loop moves `pos`
forward, so one pass per character is allowed. Positions stay at or below the size of
the text, so that no `size_t` addition wraps. -/
def parseSimpleJSON (jsonStr : CString) : Option (Bool × TextMap) :=
  match CString.find jsonStr charLBrace 0 with
  | none => some (false, [])
  | some pos =>
    (parseSimpleJSON.loop jsonStr (jsonStr.length + 1) (pos + 1) []).map
      (fun textMap => (!textMap.isEmpty, textMap))

/-- One member of a flat object text: a double-quoted key, a colon and a double-quoted
value, with the whitespace before the key, before the colon, before the value and after
the value. -/
structure Member where
  key : CString
  value : CString
  ws0 : List Char := []
  ws1 : List Char := []
  ws2 : List Char := []
  ws3 : List Char := []
deriving DecidableEq, Repr

/-- The text of a member. -/
def Member.text (m : Member) : List Char :=
  m.ws0 ++ charQuote :: (m.key ++ charQuote :: (m.ws1 ++ charColon :: (m.ws2 ++
    charQuote :: (m.value ++ charQuote :: m.ws3))))

/-- The members separated by commas, followed by `close`. -/
def membersText : List Member → List Char → List Char
  | [], close => close
  | [m], close => m.text ++ close
  | m :: rest, close => m.text ++ charComma :: membersText rest close

/-- A flat object text: whitespace `lead`, the opening brace, the members separated by
commas, whitespace `inner`, the closing brace, and whatever follows it. -/
def objectText (lead : List Char) (members : List Member) (inner tail : List Char) :
    List Char :=
  lead ++ charLBrace :: membersText members (inner ++ charRBrace :: tail)

/-- A string without quote and without backslash. -/
def plainString (s : List Char) : Prop :=
  ∀ c ∈ s, c ≠ charQuote ∧ c ≠ charBackslash

/-- Spaces, tabs and line breaks only. -/
def whitespace (s : List Char) : Prop :=
  ∀ c ∈ s, isWhitespace c = true

/-- The keys and values of a member are plain and its gaps are whitespace. -/
def Member.wellFormed (m : Member) : Prop :=
  plainString m.key ∧ plainString m.value ∧
  whitespace m.ws0 ∧ whitespace m.ws1 ∧ whitespace m.ws2 ∧ whitespace m.ws3

/-- The value of the last member with key `key`, if there is one. -/
def lastValue (members : List Member) (key : CString) : Option CString :=
  (members.reverse.find? (fun m => decide (m.key = key))).map (fun m => m.value)

instance plainString.decidable (s : List Char) : Decidable (plainString s) := by
  unfold plainString
  infer_instance

instance whitespace.decidable (s : List Char) : Decidable (whitespace s) := by
  unfold whitespace
  infer_instance

instance Member.wellFormed.decidable (m : Member) : Decidable m.wellFormed := by
  unfold Member.wellFormed
  infer_instance

/-- The members `a : x`, `b : y`, `a : z`, with line breaks, spaces and a tab between the
tokens. -/
def sampleMembers : List Member :=
  [ { key := ['a'], value := ['x'], ws0 := [charLF, charSpace], ws1 := [charSpace],
      ws2 := [charTab] },
    { key := ['b'], value := ['y'], ws0 := [charCR, charLF], ws3 := [charSpace] },
    { key := ['a'], value := ['z'], ws2 := [charSpace] } ]

/-- The text of the object with the members `sampleMembers`, a line break before the
opening brace, before the closing brace and after it. -/
def sampleObject : List Char :=
  objectText [charLF] sampleMembers [charLF] [charLF]

/-! # Properties -/

/-! ## Order facts about the comparator -/

theorem TaskComparator_eq_false_iff (a b : ResourceLoadTask) :
    TaskComparator a b = false ↔ keyLe a b := by
  unfold TaskComparator keyLe
  by_cases h : a.priority = b.priority
  · simp [h]
  · simp only [ne_eq, h, not_false_eq_true, if_true, decide_eq_false_iff_not, false_and, or_false]
    omega

theorem keyLe_refl (a : ResourceLoadTask) : keyLe a a := by
  unfold keyLe; right; exact ⟨rfl, le_refl _⟩

theorem keyLe_trans {a b c : ResourceLoadTask} (h1 : keyLe a b) (h2 : keyLe b c) : keyLe a c := by
  unfold keyLe at *
  omega

theorem keyLe_better_left (t y : ResourceLoadTask) : keyLe (priority_queue.better t y) t := by
  unfold priority_queue.better
  by_cases h : TaskComparator t y = true
  · rw [if_pos h]
    have h2 : ¬ keyLe t y := by
      intro hk
      rw [(TaskComparator_eq_false_iff t y).mpr hk] at h
      exact Bool.false_ne_true h
    unfold keyLe at *
    omega
  · rw [if_neg h]; exact keyLe_refl t

theorem keyLe_better_right (t y : ResourceLoadTask) : keyLe (priority_queue.better t y) y := by
  unfold priority_queue.better
  by_cases h : TaskComparator t y = true
  · rw [if_pos h]; exact keyLe_refl y
  · rw [if_neg h]
    exact (TaskComparator_eq_false_iff t y).mp (by simpa using h)

theorem better_eq_or (t y : ResourceLoadTask) :
    priority_queue.better t y = t ∨ priority_queue.better t y = y := by
  unfold priority_queue.better
  by_cases h : TaskComparator t y = true
  · right; rw [if_pos h]
  · left; rw [if_neg h]

theorem foldl_better_mem (ts : List ResourceLoadTask) (t : ResourceLoadTask) :
    ts.foldl priority_queue.better t ∈ t :: ts := by
  induction ts generalizing t with
  | nil => simp
  | cons y ys ih =>
    rw [List.foldl_cons]
    have h := ih (priority_queue.better t y)
    rcases better_eq_or t y with e | e
    · rw [e] at h ⊢
      rcases List.mem_cons.mp h with h1 | h1
      · rw [h1]; exact List.mem_cons_self _ _
      · exact List.mem_cons_of_mem _ (List.mem_cons_of_mem _ h1)
    · rw [e] at h ⊢
      exact List.mem_cons_of_mem _ h

theorem foldl_better_le (ts : List ResourceLoadTask) (t : ResourceLoadTask) :
    ∀ x ∈ t :: ts, keyLe (ts.foldl priority_queue.better t) x := by
  induction ts generalizing t with
  | nil =>
    intro x hx
    simp only [List.mem_singleton] at hx
    rw [hx]; exact keyLe_refl _
  | cons y ys ih =>
    intro x hx
    rw [List.foldl_cons]
    have hb := ih (priority_queue.better t y)
    have h0 := hb _ (List.mem_cons_self _ _)
    rcases List.mem_cons.mp hx with h1 | h1
    · rw [h1]; exact keyLe_trans h0 (keyLe_better_left t y)
    · rcases List.mem_cons.mp h1 with h2 | h2
      · rw [h2]; exact keyLe_trans h0 (keyLe_better_right t y)
      · exact hb x (List.mem_cons_of_mem _ h2)

theorem top_eq_none_iff (q : List ResourceLoadTask) : priority_queue.top q = none ↔ q = [] := by
  cases q <;> simp [priority_queue.top]

theorem top_mem {q : List ResourceLoadTask} {t : ResourceLoadTask}
    (h : priority_queue.top q = some t) : t ∈ q := by
  cases q with
  | nil => simp [priority_queue.top] at h
  | cons a as =>
    simp only [priority_queue.top, Option.some.injEq] at h
    rw [← h]; exact foldl_better_mem as a

theorem top_le {q : List ResourceLoadTask} {t : ResourceLoadTask}
    (h : priority_queue.top q = some t) : ∀ x ∈ q, keyLe t x := by
  cases q with
  | nil => simp [priority_queue.top] at h
  | cons a as =>
    simp only [priority_queue.top, Option.some.injEq] at h
    rw [← h]; exact foldl_better_le as a

theorem pop_perm {q : List ResourceLoadTask} {t : ResourceLoadTask}
    (h : priority_queue.top q = some t) : (t :: priority_queue.pop q).Perm q := by
  unfold priority_queue.pop
  rw [h]
  exact (List.perm_cons_erase (top_mem h)).symm

theorem pop_length {q : List ResourceLoadTask} {t : ResourceLoadTask}
    (h : priority_queue.top q = some t) : (priority_queue.pop q).length + 1 = q.length := by
  have := (pop_perm h).length_eq
  simpa using this

theorem foldl_push (temp rest : List ResourceLoadTask) :
    temp.foldl priority_queue.push rest = rest ++ temp := by
  induction temp generalizing rest with
  | nil => simp
  | cons a as ih => rw [List.foldl_cons, ih]; simp [priority_queue.push]

/-! ## The scheduler loops -/

theorem searchNonIcon_spec (fuel : Nat) (q temp : List ResourceLoadTask) (hf : q.length ≤ fuel) :
    ∃ rest temp1 found, ResourceLoadManager.searchNonIcon fuel q temp = some (rest, temp1, found) ∧
      (found.toList ++ (rest ++ temp1)).Perm (q ++ temp) ∧
      (found = none → rest = [] ∧ ∀ x ∈ q, isIcon x = true) ∧
      (∀ t, found = some t → isIcon t = false) := by
  induction fuel generalizing q temp with
  | zero =>
    have hq : q = [] := List.length_eq_zero.mp (Nat.le_zero.mp hf)
    subst hq
    exact ⟨[], temp, none, by simp [ResourceLoadManager.searchNonIcon, priority_queue.top],
      by simp, by simp, by simp⟩
  | succ n ih =>
    cases htop : priority_queue.top q with
    | none =>
      have hq : q = [] := (top_eq_none_iff q).mp htop
      subst hq
      exact ⟨[], temp, none, by simp [ResourceLoadManager.searchNonIcon, priority_queue.top],
        by simp, by simp, by simp⟩
    | some t =>
      have hperm := pop_perm htop
      have hlen := pop_length htop
      by_cases hi : isIcon t = true
      · obtain ⟨rest, temp1, found, he, hp, hn, hs⟩ :=
          ih (priority_queue.pop q) (temp ++ [t]) (by omega)
        refine ⟨rest, temp1, found, ?_, ?_, ?_, hs⟩
        · simp only [ResourceLoadManager.searchNonIcon, htop, hi, Bool.not_true]
          simpa using he
        · refine hp.trans ?_
          have h1 : (priority_queue.pop q ++ (temp ++ [t])).Perm
              ((t :: priority_queue.pop q) ++ temp) := by
            rw [← List.append_assoc]
            exact (List.perm_append_singleton t (priority_queue.pop q ++ temp)).trans
              (by simp)
          exact h1.trans (hperm.append_right temp)
        · intro hfn
          obtain ⟨hr, hall⟩ := hn hfn
          refine ⟨hr, ?_⟩
          intro x hx
          rcases List.mem_cons.mp (hperm.symm.subset hx) with h1 | h1
          · rw [h1]; exact hi
          · exact hall x h1
      · have hi2 : isIcon t = false := by simpa using hi
        refine ⟨priority_queue.pop q, temp, some t, ?_, ?_, ?_, ?_⟩
        · simp [ResourceLoadManager.searchNonIcon, htop, hi2]
        · simpa using hperm.append_right temp
        · intro h; cases h
        · intro t1 h1
          cases h1
          exact hi2

/-- What one run of the outer loop does, for every queue and every value of the icon
counter: it returns; executed and remaining tasks together are the queue; only
icon tasks remain; the number of icon tasks executed is the part of the cap still
open; and on a queue of icon tasks the executed tasks come out in comparator order
and before everything left behind. -/
theorem processLoop_spec (fuel : Nat) (q : List ResourceLoadTask) (icons : Nat)
    (hf : q.length ≤ fuel) :
    ∃ qf ex, ResourceLoadManager.processLoop fuel q icons = some (qf, ex) ∧
      (ex ++ qf).Perm q ∧ (∀ x ∈ qf, isIcon x = true) ∧
      ex.countP isIcon = min (q.countP isIcon) (MAX_ICON_LOADS_PER_FRAME - icons) ∧
      ((∀ x ∈ q, isIcon x = true) →
        ex.Pairwise keyLe ∧ ∀ e ∈ ex, ∀ x ∈ qf, keyLe e x) := by
  induction fuel generalizing q icons with
  | zero =>
    have hq : q = [] := List.length_eq_zero.mp (Nat.le_zero.mp hf)
    subst hq
    exact ⟨[], [], by simp [ResourceLoadManager.processLoop, priority_queue.top],
      by simp, by simp, by simp, by simp⟩
  | succ n ih =>
    cases htop : priority_queue.top q with
    | none =>
      have hq : q = [] := (top_eq_none_iff q).mp htop
      subst hq
      exact ⟨[], [], by simp [ResourceLoadManager.processLoop, priority_queue.top],
        by simp, by simp, by simp, by simp⟩
    | some task =>
      have hperm := pop_perm htop
      have hlen := pop_length htop
      by_cases hc : (isIcon task && decide (icons ≥ MAX_ICON_LOADS_PER_FRAME)) = true
      · obtain ⟨rest, temp1, found, he, hp, hn, hs⟩ := searchNonIcon_spec q.length q [] le_rfl
        have hcap : MAX_ICON_LOADS_PER_FRAME - icons = 0 := by
          simp only [Bool.and_eq_true, decide_eq_true_eq] at hc
          omega
        cases found with
        | none =>
          obtain ⟨hr, hall⟩ := hn rfl
          subst hr
          have hp1 : temp1.Perm q := by simpa using hp
          refine ⟨temp1, [], ?_, ?_, ?_, ?_, ?_⟩
          · simp [ResourceLoadManager.processLoop, htop, hc, he, foldl_push]
          · simpa using hp1
          · intro x hx; exact hall x (hp1.subset hx)
          · rw [hcap]; simp
          · intro _; simp
        | some t =>
          have ht : isIcon t = false := hs t rfl
          have hp1 : (t :: (rest ++ temp1)).Perm q := by simpa using hp
          have hl1 : (rest ++ temp1).length ≤ n := by
            have := hp1.length_eq
            simp only [List.length_cons] at this
            omega
          obtain ⟨qf, ex, hrun, hpe, hic, hcnt, _⟩ := ih (rest ++ temp1) icons hl1
          refine ⟨qf, t :: ex, ?_, ?_, hic, ?_, ?_⟩
          · simp [ResourceLoadManager.processLoop, htop, hc, he, foldl_push, ht, hrun]
          · exact (List.Perm.cons t hpe).trans hp1
          · rw [hcap] at hcnt ⊢
            rw [List.countP_cons_of_neg _ _ (by simp [ht])]
            simpa using hcnt
          · intro hall
            have hmem : t ∈ q := hp1.subset (List.mem_cons_self _ _)
            have := hall t hmem
            rw [ht] at this
            exact absurd this (by simp)
      · obtain ⟨qf, ex, hrun, hpe, hic, hcnt, hsort⟩ :=
          ih (priority_queue.pop q) (if isIcon task then icons + 1 else icons) (by omega)
        have hcq : (task :: priority_queue.pop q).countP isIcon = q.countP isIcon :=
          hperm.countP_eq _
        refine ⟨qf, task :: ex, ?_, ?_, hic, ?_, ?_⟩
        · simp only [Bool.not_eq_true] at hc
          simp [ResourceLoadManager.processLoop, htop, hc, hrun]
        · exact (List.Perm.cons task hpe).trans hperm
        · by_cases hi : isIcon task = true
          · have hlt : icons < MAX_ICON_LOADS_PER_FRAME := by
              simp only [hi, Bool.true_and, decide_eq_true_eq, not_le] at hc
              exact hc
            rw [List.countP_cons_of_pos _ _ hi] at hcq ⊢
            rw [if_pos hi] at hcnt
            rw [hcnt, ← hcq]
            omega
          · rw [List.countP_cons_of_neg _ _ hi] at hcq ⊢
            rw [if_neg hi] at hcnt
            rw [hcnt, hcq]
        · intro hall
          have hall1 : ∀ x ∈ priority_queue.pop q, isIcon x = true := fun x hx =>
            hall x (hperm.subset (List.mem_cons_of_mem _ hx))
          obtain ⟨hpw, hle⟩ := hsort hall1
          have hmin := top_le htop
          have hsub : ∀ x ∈ ex ++ qf, x ∈ q := fun x hx =>
            hperm.subset (List.mem_cons_of_mem _ (hpe.subset hx))
          refine ⟨List.pairwise_cons.mpr ⟨?_, hpw⟩, ?_⟩
          · intro x hx
            exact hmin x (hsub x (List.mem_append_left _ hx))
          · intro e he x hx
            rcases List.mem_cons.mp he with h1 | h1
            · rw [h1]; exact hmin x (hsub x (List.mem_append_right _ hx))
            · exact hle e h1 x hx

theorem foldl_submitLoadTask (tasks : List ResourceLoadTask) (m : ResourceLoadManager) :
    tasks.foldl ResourceLoadManager.submitLoadTask m = ⟨m.pending_tasks ++ tasks⟩ := by
  induction tasks generalizing m with
  | nil => simp
  | cons a as ih =>
    rw [List.foldl_cons, ih]
    simp [ResourceLoadManager.submitLoadTask, priority_queue.push]

theorem countP_isIcon_of_all {q : List ResourceLoadTask} (h : ∀ x ∈ q, isIcon x = true) :
    q.countP isIcon = q.length := by
  rw [List.countP_eq_length]
  exact h

/-- Draining a queue of icon tasks: enough ticks empty it, every task is executed once
and the ticks put end to end are in comparator order. -/
theorem drain_spec (n : Nat) (m : ResourceLoadManager)
    (hall : ∀ x ∈ m.pending_tasks, isIcon x = true) (hn : m.pending_tasks.length ≤ n) :
    ∃ ticks, ResourceLoadManager.drain n m = some ticks ∧
      ticks.flatten.Perm m.pending_tasks ∧ ticks.flatten.Pairwise keyLe := by
  induction n generalizing m with
  | zero =>
    have hq : m.pending_tasks = [] := List.length_eq_zero.mp (Nat.le_zero.mp hn)
    exact ⟨[], by simp [ResourceLoadManager.drain, ResourceLoadManager.hasPendingTasks, hq],
      by simp [hq], by simp⟩
  | succ k ih =>
    by_cases hq : m.pending_tasks = []
    · exact ⟨[], by simp [ResourceLoadManager.drain, ResourceLoadManager.hasPendingTasks, hq],
        by simp [hq], by simp⟩
    · obtain ⟨qf, ex, hrun, hpe, hic, hcnt, hsort⟩ :=
        processLoop_spec m.pending_tasks.length m.pending_tasks 0 le_rfl
      obtain ⟨hpw, hle⟩ := hsort hall
      have hpos : 0 < m.pending_tasks.length := List.length_pos.mpr hq
      have hex : 1 ≤ ex.length := by
        have h1 := List.countP_le_length isIcon (l := ex)
        rw [hcnt, countP_isIcon_of_all hall] at h1
        simp only [MAX_ICON_LOADS_PER_FRAME] at h1
        omega
      have hlen : qf.length ≤ k := by
        have := hpe.length_eq
        simp only [List.length_append] at this
        omega
      obtain ⟨rest, hd, hpr, hsr⟩ := ih ⟨qf⟩ hic hlen
      refine ⟨ex :: rest, ?_, ?_, ?_⟩
      · have hne : m.pending_tasks.isEmpty = false := by
          cases hm : m.pending_tasks with
          | nil => exact absurd hm hq
          | cons a as => rfl
        simp [ResourceLoadManager.drain, ResourceLoadManager.hasPendingTasks, hne,
          ResourceLoadManager.processFrameLoads, hrun, hd]
      · simp only [List.flatten_cons]
        exact (List.Perm.append_left ex hpr).trans hpe
      · simp only [List.flatten_cons]
        refine List.pairwise_append.mpr ⟨hpw, hsr, ?_⟩
        intro a ha b hb
        exact hle a ha b (hpr.subset hb)

/-- C1. Icon tasks submitted with `submitLoadTask` to an empty manager, with strictly
increasing submission timestamps: calling `processFrameLoads` tick after tick empties
the queue (any number of ticks from the number of tasks on is enough), every submitted
task is executed exactly once, and the execution sequences of the ticks put end to end
are ordered by ascending priority value and, among equal priorities, by ascending
submission timestamp. -/
theorem C1_drain_executes_in_priority_order (tasks : List ResourceLoadTask) (n : Nat)
    (hicon : ∀ t ∈ tasks, t.task_type = ResourceTaskType.ICON)
    (htime : tasks.Pairwise (fun a b => a.submit_time < b.submit_time))
    (hn : tasks.length ≤ n) :
    ∃ ticks, ResourceLoadManager.drain n
        (tasks.foldl ResourceLoadManager.submitLoadTask ⟨[]⟩) = some ticks ∧
      ticks.flatten.Perm tasks ∧ ticks.flatten.Nodup ∧ ticks.flatten.Pairwise keyLt := by
  have hall : ∀ x ∈ tasks, isIcon x = true := by
    intro x hx
    simp [isIcon, hicon x hx]
  rw [foldl_submitLoadTask]
  simp only [List.nil_append]
  obtain ⟨ticks, hd, hp, hs⟩ := drain_spec n ⟨tasks⟩ hall hn
  have hne : tasks.Pairwise (fun a b => a.submit_time ≠ b.submit_time) :=
    htime.imp (fun h => ne_of_lt h)
  have hne2 : ticks.flatten.Pairwise (fun a b => a.submit_time ≠ b.submit_time) :=
    (hp.pairwise_iff (fun h => Ne.symm h)).mpr hne
  refine ⟨ticks, hd, hp, ?_, ?_⟩
  · exact hne2.imp (fun h e => h (by rw [e]))
  · refine (hs.and hne2).imp ?_
    intro a b hab
    obtain ⟨h1, h2⟩ := hab
    unfold keyLe at h1
    unfold keyLt
    omega

/-- C1, the example of the specification: priorities 2, 1, 0, 1 submitted in that order
are executed in the order 0, 1, 1, 2 (the two tasks of priority 1 in submission
order), two per tick. -/
theorem C1_witness_2101 :
    (∃ ticks, ResourceLoadManager.drain 4
        ([iconTask 10 2 1, iconTask 11 1 2, iconTask 12 0 3, iconTask 13 1 4].foldl
          ResourceLoadManager.submitLoadTask ⟨[]⟩) = some ticks ∧
      ticks.flatten.Perm [iconTask 10 2 1, iconTask 11 1 2, iconTask 12 0 3, iconTask 13 1 4] ∧
      ticks.flatten.Nodup ∧ ticks.flatten.Pairwise keyLt) ∧
    ResourceLoadManager.drain 4
        ([iconTask 10 2 1, iconTask 11 1 2, iconTask 12 0 3, iconTask 13 1 4].foldl
          ResourceLoadManager.submitLoadTask ⟨[]⟩) =
      some [[iconTask 12 0 3, iconTask 11 1 2], [iconTask 13 1 4, iconTask 10 2 1]] :=
  ⟨C1_drain_executes_in_priority_order
      [iconTask 10 2 1, iconTask 11 1 2, iconTask 12 0 3, iconTask 13 1 4] 4
      (by decide) (by decide) (by decide), by decide⟩

/-- C2. A queue holding `n` icon tasks and `m` tasks of other categories, any priorities
and timestamps: one call of `processFrameLoads` returns, executes exactly `min n 2`
icon tasks and all `m` other tasks, and afterwards `getPendingTaskCount` is
`n - min n 2`, every task still queued is an icon task, and no task was lost or
duplicated. -/
theorem C2_processFrameLoads_icon_cap (mgr : ResourceLoadManager) (n m : Nat)
    (hn : mgr.pending_tasks.countP isIcon = n)
    (hm : mgr.pending_tasks.countP (fun t => !isIcon t) = m) :
    ∃ mgr1 executed, mgr.processFrameLoads = some (mgr1, executed) ∧
      executed.countP isIcon = min n 2 ∧
      executed.countP (fun t => !isIcon t) = m ∧
      (executed.filter (fun t => !isIcon t)).Perm
        (mgr.pending_tasks.filter (fun t => !isIcon t)) ∧
      mgr1.getPendingTaskCount = n - min n 2 ∧
      (∀ t ∈ mgr1.pending_tasks, t.task_type = ResourceTaskType.ICON) ∧
      (executed ++ mgr1.pending_tasks).Perm mgr.pending_tasks := by
  obtain ⟨qf, ex, hrun, hpe, hic, hcnt, _⟩ :=
    processLoop_spec mgr.pending_tasks.length mgr.pending_tasks 0 le_rfl
  have hfil : qf.filter (fun t => !isIcon t) = [] := by
    rw [List.filter_eq_nil_iff]
    intro x hx
    simp [hic x hx]
  have hpf : (ex.filter (fun t => !isIcon t)).Perm
      (mgr.pending_tasks.filter (fun t => !isIcon t)) := by
    have := hpe.filter (fun t => !isIcon t)
    simpa [List.filter_append, hfil] using this
  refine ⟨⟨qf⟩, ex, ?_, ?_, ?_, hpf, ?_, ?_, hpe⟩
  · simp [ResourceLoadManager.processFrameLoads, hrun]
  · rw [hcnt, hn]; simp [MAX_ICON_LOADS_PER_FRAME]
  · rw [← hm, List.countP_eq_length_filter, List.countP_eq_length_filter]
    exact hpf.length_eq
  · have h1 := hpe.countP_eq isIcon
    rw [List.countP_append, hcnt, hn, countP_isIcon_of_all hic] at h1
    simp only [ResourceLoadManager.getPendingTaskCount, MAX_ICON_LOADS_PER_FRAME] at h1 ⊢
    omega
  · intro t ht
    have := hic t ht
    simpa [isIcon] using this

/-- C2, the scenario of the specification: five icon tasks and one config task in one
tick leave three icon tasks queued; two icon tasks and the config task are executed. -/
theorem C2_witness_five_icons_one_config :
    (∃ mgr1 executed, ResourceLoadManager.processFrameLoads
        ⟨[iconTask 1 1 1, iconTask 2 1 2, iconTask 3 1 3, iconTask 4 1 4, iconTask 5 1 5,
          configTask 6 1 6]⟩ = some (mgr1, executed) ∧
      executed.countP isIcon = min 5 2 ∧
      executed.countP (fun t => !isIcon t) = 1 ∧
      (executed.filter (fun t => !isIcon t)).Perm
        ((ResourceLoadManager.mk [iconTask 1 1 1, iconTask 2 1 2, iconTask 3 1 3,
          iconTask 4 1 4, iconTask 5 1 5, configTask 6 1 6]).pending_tasks.filter
            (fun t => !isIcon t)) ∧
      mgr1.getPendingTaskCount = 5 - min 5 2 ∧
      (∀ t ∈ mgr1.pending_tasks, t.task_type = ResourceTaskType.ICON) ∧
      (executed ++ mgr1.pending_tasks).Perm
        (ResourceLoadManager.mk [iconTask 1 1 1, iconTask 2 1 2, iconTask 3 1 3,
          iconTask 4 1 4, iconTask 5 1 5, configTask 6 1 6]).pending_tasks) ∧
    ResourceLoadManager.processFrameLoads
        ⟨[iconTask 1 1 1, iconTask 2 1 2, iconTask 3 1 3, iconTask 4 1 4, iconTask 5 1 5,
          configTask 6 1 6]⟩ =
      some (⟨[iconTask 3 1 3, iconTask 4 1 4, iconTask 5 1 5]⟩,
        [iconTask 1 1 1, iconTask 2 1 2, configTask 6 1 6]) :=
  ⟨C2_processFrameLoads_icon_cap _ 5 1 (by decide) (by decide), by decide⟩

/-! ## The scan -/

theorem range_map_getD_eq_take (l : List Nat) (c : Nat) (hc : c ≤ l.length) :
    (List.range c).map (fun i => l.getD i 0) = l.take c := by
  apply List.ext_getElem
  · simp [Nat.min_eq_left hc]
  · intro i h1 h2
    simp only [List.length_map, List.length_range] at h1
    simp [List.getD_eq_getElem?_getD, List.getElem?_eq_getElem (lt_of_lt_of_le h1 hc)]

/-- An operating system that serves the records `ids` page by page makes
`GetAllApplicationIds` return success with exactly `ids`, in order. -/
theorem GetAllApplicationIds_loop_pagedRecords (ids : List Nat) (fuel k : Nat) (acc : List Nat)
    (hk : k ≤ ids.length) (hf : ids.length - k + 1 ≤ fuel) :
    GetAllApplicationIds.loop (pagedRecords ids) fuel (k : Int) acc = some (0, acc ++ ids.drop k) := by
  induction fuel generalizing k acc with
  | zero => omega
  | succ n ih =>
    unfold GetAllApplicationIds.loop
    simp only [pagedRecords, R_FAILED, Int.toNat_ofNat, bne_self_eq_false, Bool.false_eq_true,
      if_false]
    by_cases hz : ids.length - k = 0
    · have hd : ids.drop k = [] := List.drop_eq_nil_of_le (by omega)
      simp [hd]
    · have hlen : ((ids.drop k).take PAGE_SIZE).length = min PAGE_SIZE (ids.length - k) := by
        simp
      have hpos : 0 < min PAGE_SIZE (ids.length - k) := by
        simp only [PAGE_SIZE]; omega
      rw [if_neg (by rw [hlen]; exact_mod_cast Nat.not_le.mpr hpos)]
      have hmin : min (((ids.drop k).take PAGE_SIZE).length : Int) (PAGE_SIZE : Int) =
          ((min PAGE_SIZE (ids.length - k) : Nat) : Int) := by
        rw [hlen]
        have : min PAGE_SIZE (ids.length - k) ≤ PAGE_SIZE := Nat.min_le_left _ _
        exact min_eq_left (by exact_mod_cast this)
      simp only [hmin, Int.toNat_ofNat]
      have hcast : ((k : Int) + ((min PAGE_SIZE (ids.length - k) : Nat) : Int)) =
          ((k + min PAGE_SIZE (ids.length - k) : Nat) : Int) := by push_cast; rfl
      rw [hcast, ih (k + min PAGE_SIZE (ids.length - k)) _ (by omega) (by omega)]
      rw [range_map_getD_eq_take _ _ (by simp)]
      have : List.take (min PAGE_SIZE (ids.length - k)) (List.drop k ids) ++
          List.drop (k + min PAGE_SIZE (ids.length - k)) ids = List.drop k ids := by
        rw [← List.drop_drop, List.take_append_drop]
      rw [List.append_assoc, this]

theorem GetAllApplicationIds_pagedRecords (ids : List Nat) (fuel : Nat)
    (hf : ids.length + 1 ≤ fuel) :
    GetAllApplicationIds (pagedRecords ids) fuel = some (0, ids) := by
  have := GetAllApplicationIds_loop_pagedRecords ids fuel 0 [] (Nat.zero_le _) (by omega)
  simpa [GetAllApplicationIds] using this

theorem FastScanNames_body_entries (env : ScanEnv) (id count : Nat) (s : App) :
    (FastScanNames.body env id count s).entries =
      s.entries ++ [(scanEntry env s.default_icon_image s.corrupted_install id).1] := by
  unfold FastScanNames.body
  simp only
  split_ifs <;> rfl

theorem FastScanNames_body_frame (env : ScanEnv) (id count : Nat) (s : App) :
    (FastScanNames.body env id count s).scanned_count = s.scanned_count + 1 ∧
    (FastScanNames.body env id count s).total_count = s.total_count ∧
    (FastScanNames.body env id count s).default_icon_image = s.default_icon_image ∧
    (FastScanNames.body env id count s).corrupted_install = s.corrupted_install := by
  unfold FastScanNames.body
  simp only
  split_ifs <;> exact ⟨rfl, rfl, rfl, rfl⟩

/-- The scan loop when the stop request is first seen at the check before identifier
`n + 1` (or never, when `n` is the number of identifiers): exactly the first `n`
identifiers are appended, in order. -/
theorem FastScanNames_loop_spec (env : ScanEnv) (ids : List Nat) (count n : Nat) (s : App)
    (hn : n ≤ ids.length)
    (hbefore : ∀ j, j < n → env.stop_requested (count + j) = false)
    (hat : n < ids.length → env.stop_requested (count + n) = true) :
    (FastScanNames.loop env ids count s).entries =
      s.entries ++ (ids.take n).map
        (fun id => (scanEntry env s.default_icon_image s.corrupted_install id).1) ∧
    (FastScanNames.loop env ids count s).scanned_count = s.scanned_count + n ∧
    (FastScanNames.loop env ids count s).total_count = s.total_count := by
  induction ids generalizing count n s with
  | nil =>
    have : n = 0 := by simpa using hn
    subst this
    simp [FastScanNames.loop]
  | cons id rest ih =>
    cases n with
    | zero =>
      have h0 := hat (by simp)
      simp only [Nat.add_zero] at h0
      simp [FastScanNames.loop, h0]
    | succ m =>
      have h0 := hbefore 0 (by omega)
      simp only [Nat.add_zero] at h0
      obtain ⟨hsc, htc, hdi, hci⟩ := FastScanNames_body_frame env id count s
      have hih := ih (count + 1) m (FastScanNames.body env id count s)
        (by simpa using hn)
        (fun j hj => by
          have := hbefore (j + 1) (by omega)
          rwa [show count + (j + 1) = count + 1 + j by omega] at this)
        (fun hlt => by
          have := hat (by simpa using hlt)
          rwa [show count + (m + 1) = count + 1 + m by omega] at this)
      rw [FastScanNames_body_entries, hsc, htc, hdi, hci] at hih
      simp only [FastScanNames.loop, h0, Bool.false_eq_true, if_false]
      obtain ⟨h1, h2, h3⟩ := hih
      refine ⟨?_, ?_, h3⟩
      · rw [h1]; simp
      · rw [h2]; omega

theorem fill_size_id (e : ApplicationOccupiedSizeEntry) (entry : AppEntry) :
    (fill_size e entry).id = entry.id ∧ (fill_size e entry).name = entry.name ∧
    (fill_size e entry).image = entry.image ∧ (fill_size e entry).own_image = entry.own_image ∧
    (fill_size e entry).has_cached_icon = entry.has_cached_icon := by
  unfold fill_size
  split_ifs <;> exact ⟨rfl, rfl, rfl, rfl, rfl⟩

theorem GetAppSizeInfo_frame (env : ScanEnv) (id : Nat) (entry : AppEntry) :
    (GetAppSizeInfo env id entry).id = entry.id ∧
    (GetAppSizeInfo env id entry).name = entry.name ∧
    (GetAppSizeInfo env id entry).image = entry.image ∧
    (GetAppSizeInfo env id entry).own_image = entry.own_image ∧
    (GetAppSizeInfo env id entry).has_cached_icon = entry.has_cached_icon := by
  unfold GetAppSizeInfo
  simp only
  split_ifs
  · exact ⟨rfl, rfl, rfl, rfl, rfl⟩
  · obtain ⟨a1, a2, a3, a4, a5⟩ := fill_size_id
      (env.nsCalculateApplicationOccupiedSize id |>.entry 0) entry
    obtain ⟨b1, b2, b3, b4, b5⟩ := fill_size_id
      (env.nsCalculateApplicationOccupiedSize id |>.entry 1)
      (fill_size (env.nsCalculateApplicationOccupiedSize id |>.entry 0) entry)
    exact ⟨b1.trans a1, b2.trans a2, b3.trans a3, b4.trans a4, b5.trans a5⟩

/-- The basic-info fetch fails exactly when the title cache has no record and the
control data cannot be read; `entry` is then left as it was. -/
theorem TryGetAppBasicInfoWithIconCache_failed_iff (env : ScanEnv) (d : Int) (id : Nat)
    (entry : AppEntry) :
    (TryGetAppBasicInfoWithIconCache env d id entry).1 = false ↔
      (env.nxtcGetApplicationMetadataEntryById id = none ∧
        R_FAILED (env.nsGetApplicationControlData id).rc = true) := by
  unfold TryGetAppBasicInfoWithIconCache
  cases hc : env.nxtcGetApplicationMetadataEntryById id with
  | some md =>
    simp only
    cases hd : md.icon_data with
    | none => simp
    | some b => by_cases hs : md.icon_size > 0 <;> simp [hs]
  | none =>
    simp only
    by_cases hr : R_FAILED (env.nsGetApplicationControlData id).rc = true
    · simp [hr]
    · simp only [hr, Bool.false_eq_true, if_false, true_and]
      by_cases hj : (env.nsGetApplicationControlData id).jpeg_size > sizeof_NacpStruct <;>
        simp [hj]

theorem TryGetAppBasicInfoWithIconCache_failed_entry (env : ScanEnv) (d : Int) (id : Nat)
    (entry : AppEntry)
    (hfail : (TryGetAppBasicInfoWithIconCache env d id entry).1 = false) :
    (TryGetAppBasicInfoWithIconCache env d id entry).2 = entry := by
  obtain ⟨hc, hr⟩ := (TryGetAppBasicInfoWithIconCache_failed_iff env d id entry).mp hfail
  unfold TryGetAppBasicInfoWithIconCache
  simp [hc, hr]

theorem TryGetAppBasicInfoWithIconCache_id (env : ScanEnv) (d : Int) (id : Nat) (entry : AppEntry)
    (hok : (TryGetAppBasicInfoWithIconCache env d id entry).1 = true) :
    (TryGetAppBasicInfoWithIconCache env d id entry).2.id =
      match env.nxtcGetApplicationMetadataEntryById id with
      | some md => md.title_id
      | none => id := by
  unfold TryGetAppBasicInfoWithIconCache at hok ⊢
  cases hc : env.nxtcGetApplicationMetadataEntryById id with
  | some md =>
    simp only
    cases hd : md.icon_data with
    | none => simp
    | some b => by_cases hs : md.icon_size > 0 <;> simp [hs]
  | none =>
    rw [hc] at hok
    simp only at hok ⊢
    by_cases hr : R_FAILED (env.nsGetApplicationControlData id).rc = true
    · simp [hr] at hok
    · simp only [hr, Bool.false_eq_true, if_false]
      by_cases hj : (env.nsGetApplicationControlData id).jpeg_size > sizeof_NacpStruct <;>
        simp [hj]

/-- The entry the scan builds when the basic-info fetch fails: the corrupted
placeholder. -/
theorem scanEntry_of_fetch_failed (env : ScanEnv) (d : Int) (c : String) (id : Nat)
    (hfail : (TryGetAppBasicInfoWithIconCache env d id AppEntry.fresh).1 = false) :
    (scanEntry env d c id).1 =
      { AppEntry.fresh with name := c, id := id, image := d } ∧
    (scanEntry env d c id).2 = true := by
  have h2 := TryGetAppBasicInfoWithIconCache_failed_entry env d id AppEntry.fresh hfail
  unfold scanEntry
  simp only [hfail, h2, Bool.not_false, if_true, Bool.false_eq_true, if_false]
  exact ⟨rfl, trivial⟩

/-- The identifier stored in the entry the scan builds: the `title_id` of the cache
record when the title cache answers, the enumerated identifier otherwise. -/
theorem scanEntry_id (env : ScanEnv) (d : Int) (c : String) (id : Nat) :
    (scanEntry env d c id).1.id =
      match env.nxtcGetApplicationMetadataEntryById id with
      | some md => md.title_id
      | none => id := by
  cases hr : (TryGetAppBasicInfoWithIconCache env d id AppEntry.fresh).1 with
  | true =>
    have h := TryGetAppBasicInfoWithIconCache_id env d id AppEntry.fresh hr
    unfold scanEntry
    simp only [hr, Bool.not_true, Bool.false_eq_true, if_false, if_true]
    rw [(GetAppSizeInfo_frame env id _).1]
    exact h
  | false =>
    obtain ⟨hc, _⟩ := (TryGetAppBasicInfoWithIconCache_failed_iff env d id AppEntry.fresh).mp hr
    rw [(scanEntry_of_fetch_failed env d c id hr).1, hc]

/-- `FastScanNames` after a successful enumeration of `ids`, when the stop request is
first seen at the check before identifier `n + 1` (or never, for `n` the number of
identifiers). -/
theorem FastScanNames_of_enumerated (env : ScanEnv) (fuel : Nat) (s : App) (ids : List Nat)
    (n : Nat)
    (henum : GetAllApplicationIds env.nsListApplicationRecord fuel = some (0, ids))
    (hn : n ≤ ids.length)
    (hbefore : ∀ j, j < n → env.stop_requested j = false)
    (hat : n < ids.length → env.stop_requested n = true) :
    ∃ s1, FastScanNames env fuel s = some s1 ∧
      s1.entries = s.entries ++ (ids.take n).map
        (fun id => (scanEntry env s.default_icon_image s.corrupted_install id).1) ∧
      s1.scanned_count = n ∧ s1.total_count = ids.length ∧
      s1.is_scan_running = false ∧ s1.finished_scanning = true := by
  have hl := FastScanNames_loop_spec env ids 0 n
    { s with is_scan_running := true, scanned_count := 0, total_count := ids.length } hn
    (fun j hj => by simpa using hbefore j hj) (fun h => by simpa using hat h)
  simp only [Nat.zero_add] at hl
  obtain ⟨h1, h2, h3⟩ := hl
  unfold FastScanNames
  simp only [henum, R_FAILED, bne_self_eq_false, Bool.false_eq_true, if_false]
  by_cases he : ids = []
  · subst he
    have : n = 0 := by simpa using hn
    subst this
    exact ⟨_, rfl, by simp, rfl, rfl, rfl, rfl⟩
  · have hne : ids.isEmpty = false := by
      cases ids with
      | nil => exact absurd rfl he
      | cons a as => rfl
    simp only [hne, Bool.false_eq_true, if_false]
    exact ⟨_, rfl, h1, h2, h3, rfl, rfl⟩

/-- C3. An enumeration that returns the identifier list `ids` of length N, any outcome
of the per-item metadata and size calls, no stop request, a store that is empty when
the scan starts: `FastScanNames` returns, the store holds exactly N entries, the i-th of
them is the entry built for the i-th enumerated identifier (its `id` is that
identifier, or the `title_id` of the cache record found for it, which is the same
value when the title cache is keyed consistently), `scanned_count = total_count = N`,
`is_scan_running` is false and `finished_scanning` is true. -/
theorem C3_uninterrupted_scan_fills_store (env : ScanEnv) (fuel : Nat) (s : App)
    (ids : List Nat)
    (henum : GetAllApplicationIds env.nsListApplicationRecord fuel = some (0, ids))
    (hstop : ∀ k, env.stop_requested k = false)
    (hempty : s.entries = []) :
    ∃ s1, FastScanNames env fuel s = some s1 ∧
      s1.entries.length = ids.length ∧
      s1.entries = ids.map
        (fun id => (scanEntry env s.default_icon_image s.corrupted_install id).1) ∧
      s1.entries.map (fun e => e.id) = ids.map (fun id =>
        match env.nxtcGetApplicationMetadataEntryById id with
        | some md => md.title_id
        | none => id) ∧
      ((∀ id md, env.nxtcGetApplicationMetadataEntryById id = some md → md.title_id = id) →
        s1.entries.map (fun e => e.id) = ids) ∧
      s1.scanned_count = ids.length ∧ s1.total_count = ids.length ∧
      s1.is_scan_running = false ∧ s1.finished_scanning = true := by
  obtain ⟨s1, hrun, hent, hsc, htc, hr, hfin⟩ :=
    FastScanNames_of_enumerated env fuel s ids ids.length henum le_rfl
      (fun j _ => hstop j) (fun h => absurd h (lt_irrefl _))
  rw [hempty, List.take_length, List.nil_append] at hent
  have hids : s1.entries.map (fun e => e.id) = ids.map (fun id =>
      match env.nxtcGetApplicationMetadataEntryById id with
      | some md => md.title_id
      | none => id) := by
    rw [hent, List.map_map]
    apply List.map_congr_left
    intro id _
    exact scanEntry_id env _ _ id
  refine ⟨s1, hrun, by rw [hent, List.length_map], hent, hids, ?_, hsc, htc, hr, hfin⟩
  intro hcache
  rw [hids]
  conv_rhs => rw [← List.map_id ids]
  apply List.map_congr_left
  intro id _
  cases hc : env.nxtcGetApplicationMetadataEntryById id with
  | none => rfl
  | some md => exact hcache id md hc

/-- C3 on the catalog 1 … 10 of `demoEnv`: ten entries with the identifiers 1 … 10 in
enumeration order. -/
theorem C3_witness_ten_identifiers :
    ∃ s1, FastScanNames (demoEnv none) 11 {} = some s1 ∧
      s1.entries.length = (List.range' 1 10).length ∧
      s1.entries = (List.range' 1 10).map
        (fun id => (scanEntry (demoEnv none) ({} : App).default_icon_image
          ({} : App).corrupted_install id).1) ∧
      s1.entries.map (fun e => e.id) = (List.range' 1 10).map (fun id =>
        match (demoEnv none).nxtcGetApplicationMetadataEntryById id with
        | some md => md.title_id
        | none => id) ∧
      ((∀ id md, (demoEnv none).nxtcGetApplicationMetadataEntryById id = some md →
          md.title_id = id) →
        s1.entries.map (fun e => e.id) = List.range' 1 10) ∧
      s1.scanned_count = (List.range' 1 10).length ∧
      s1.total_count = (List.range' 1 10).length ∧
      s1.is_scan_running = false ∧ s1.finished_scanning = true :=
  C3_uninterrupted_scan_fills_store (demoEnv none) 11 {} (List.range' 1 10)
    (GetAllApplicationIds_pagedRecords (List.range' 1 10) 11 (by decide))
    (fun _ => rfl) rfl

/-- C4. In a scan over the enumerated list `ids`, started on an empty store, that visits
`k` identifiers (all of them when no stop is requested, `k = N`), an identifier among
them whose basic-info fetch fails gets the corrupted placeholder at its own position:
`id` is the enumerated identifier, `name` is the `corrupted_install` string, the three
sizes are 0, `image` is the default icon and `own_image` is false. The scan goes on with
the identifiers after it, and `scanned_count` counts every identifier visited, that one
included. -/
theorem C4_failed_fetch_appends_corrupted_placeholder (env : ScanEnv) (fuel : Nat) (s : App)
    (ids : List Nat) (k i : Nat)
    (henum : GetAllApplicationIds env.nsListApplicationRecord fuel = some (0, ids))
    (hk : k ≤ ids.length)
    (hbefore : ∀ j, j < k → env.stop_requested j = false)
    (hat : k < ids.length → env.stop_requested k = true)
    (hempty : s.entries = [])
    (hi : i < ids.length) (hik : i < k)
    (hfail : (TryGetAppBasicInfoWithIconCache env s.default_icon_image (ids.get ⟨i, hi⟩)
      AppEntry.fresh).1 = false) :
    ∃ s1 e, FastScanNames env fuel s = some s1 ∧ s1.entries[i]? = some e ∧
      e.id = ids.get ⟨i, hi⟩ ∧ e.name = s.corrupted_install ∧
      e.size_nand = 0 ∧ e.size_sd = 0 ∧ e.size_total = 0 ∧
      e.image = s.default_icon_image ∧ e.own_image = false ∧
      s1.entries.length = k ∧ s1.scanned_count = k := by
  obtain ⟨s1, hrun, hent, hsc, _, _, _⟩ :=
    FastScanNames_of_enumerated env fuel s ids k henum hk hbefore hat
  rw [hempty, List.nil_append] at hent
  have he := (scanEntry_of_fetch_failed env s.default_icon_image s.corrupted_install
    (ids.get ⟨i, hi⟩) hfail).1
  have hlen : s1.entries.length = k := by
    rw [hent, List.length_map, List.length_take]
    exact Nat.min_eq_left hk
  refine ⟨s1, (scanEntry env s.default_icon_image s.corrupted_install (ids.get ⟨i, hi⟩)).1,
    hrun, ?_, ?_, ?_, ?_, ?_, ?_, ?_, ?_, hlen, hsc⟩
  · rw [hent, List.getElem?_map, List.getElem?_take, if_pos hik, List.getElem?_eq_getElem hi]
    rfl
  all_goals (rw [he]; try rfl)

/-- C4, the scenario of the specification: ten identifiers, the fetch of the 7th fails;
entry 7 (index 6) is the corrupted placeholder with zero sizes and `scanned_count` is
10. -/
theorem C4_witness_seventh_fetch_fails :
    ∃ s1 e, FastScanNames (demoEnv none) 11 {} = some s1 ∧ s1.entries[6]? = some e ∧
      e.id = (List.range' 1 10).get ⟨6, by decide⟩ ∧ e.name = ({} : App).corrupted_install ∧
      e.size_nand = 0 ∧ e.size_sd = 0 ∧ e.size_total = 0 ∧
      e.image = ({} : App).default_icon_image ∧ e.own_image = false ∧
      s1.entries.length = 10 ∧ s1.scanned_count = 10 :=
  C4_failed_fetch_appends_corrupted_placeholder (demoEnv none) 11 {} (List.range' 1 10) 10 6
    (GetAllApplicationIds_pagedRecords (List.range' 1 10) 11 (by decide))
    (by decide) (fun _ _ => rfl) (by decide) rfl (by decide) (by decide) (by decide)

/-- C5, as the code behaves. When the paged enumeration fails, after collecting the
identifiers `ids` from the pages read before the failing one, the scan pass appends no
entry, sets `total_count` to the number of identifiers collected so far (0 when it is
the first page that fails), leaves `scanned_count` at 0 and still ends with
`is_scan_running = false` and `finished_scanning = true`. -/
theorem C5_enumeration_failure_ends_pass (env : ScanEnv) (fuel : Nat) (s : App)
    (rc : Nat) (ids : List Nat)
    (henum : GetAllApplicationIds env.nsListApplicationRecord fuel = some (rc, ids))
    (hfail : R_FAILED rc = true) :
    ∃ s1, FastScanNames env fuel s = some s1 ∧
      s1.entries = s.entries ∧ s1.total_count = ids.length ∧
      (R_FAILED (env.nsListApplicationRecord 0).rc = true → s1.total_count = 0) ∧
      s1.scanned_count = 0 ∧
      s1.is_scan_running = false ∧ s1.finished_scanning = true := by
  refine ⟨{ s with
      is_scan_running := false, scanned_count := 0, total_count := ids.length,
      finished_scanning := true },
    by simp only [FastScanNames, henum, hfail, if_true], rfl, rfl, ?_, rfl, rfl, rfl⟩
  intro h0
  cases fuel with
  | zero => simp [GetAllApplicationIds, GetAllApplicationIds.loop] at henum
  | succ n =>
    simp only [GetAllApplicationIds, GetAllApplicationIds.loop, h0, if_true,
      Option.some.injEq, Prod.mk.injEq] at henum
    simp [← henum.2]

/-- C5 where the second page fails after a first page of two records. -/
theorem C5_witness_second_page_fails :
    ∃ s1, FastScanNames secondPageFails 2 {} = some s1 ∧
      s1.entries = ({} : App).entries ∧ s1.total_count = [1, 2].length ∧
      (R_FAILED (secondPageFails.nsListApplicationRecord 0).rc = true → s1.total_count = 0) ∧
      s1.scanned_count = 0 ∧
      s1.is_scan_running = false ∧ s1.finished_scanning = true :=
  C5_enumeration_failure_ends_pass secondPageFails 2 {} 0x1234 [1, 2] (by decide) (by decide)

/-- C5 as stated fails: with the enumeration failing on its second page, the pass
ends with `total_count = 2` although `total_count` was 0 before the pass. -/
theorem C5_counterexample_total_count_overwritten :
    GetAllApplicationIds secondPageFails.nsListApplicationRecord 2 = some (0x1234, [1, 2]) ∧
    R_FAILED 0x1234 = true ∧
    ({} : App).total_count = 0 ∧
    (FastScanNames secondPageFails 2 {}).map (fun s1 => s1.total_count) = some 2 ∧
    ¬ ((FastScanNames secondPageFails 2 {}).map (fun s1 => s1.total_count) =
        some ({} : App).total_count) := by
  decide

/-- C6. A scan over the enumerated list `ids` of length N started on an empty store, in
which the stop request is first observed at the check that precedes identifier `k + 1`
(for `k = N` no check observes it): the scan ends with exactly the entries of the first
`k` identifiers in the store, in enumeration order, `scanned_count = k`, which is at
most `total_count = N`, `is_scan_running = false` and `finished_scanning = true`. -/
theorem C6_stopped_scan_keeps_prefix (env : ScanEnv) (fuel : Nat) (s : App)
    (ids : List Nat) (k : Nat)
    (henum : GetAllApplicationIds env.nsListApplicationRecord fuel = some (0, ids))
    (hk : k ≤ ids.length)
    (hbefore : ∀ j, j < k → env.stop_requested j = false)
    (hat : k < ids.length → env.stop_requested k = true)
    (hempty : s.entries = []) :
    ∃ s1, FastScanNames env fuel s = some s1 ∧
      s1.entries = (ids.take k).map
        (fun id => (scanEntry env s.default_icon_image s.corrupted_install id).1) ∧
      s1.entries.length = k ∧
      s1.scanned_count = k ∧ s1.scanned_count ≤ s1.total_count ∧
      s1.total_count = ids.length ∧
      s1.is_scan_running = false ∧ s1.finished_scanning = true := by
  obtain ⟨s1, hrun, hent, hsc, htc, hr, hfin⟩ :=
    FastScanNames_of_enumerated env fuel s ids k henum hk hbefore hat
  rw [hempty, List.nil_append] at hent
  refine ⟨s1, hrun, hent, ?_, hsc, by rw [hsc, htc]; exact hk, htc, hr, hfin⟩
  rw [hent, List.length_map, List.length_take]
  exact Nat.min_eq_left hk

/-- C6 on the catalog 1 … 10 with the stop request first seen before the 4th identifier:
three entries are kept. -/
theorem C6_witness_stop_before_fourth :
    ∃ s1, FastScanNames (demoEnv (some 3)) 11 {} = some s1 ∧
      s1.entries = ((List.range' 1 10).take 3).map
        (fun id => (scanEntry (demoEnv (some 3)) ({} : App).default_icon_image
          ({} : App).corrupted_install id).1) ∧
      s1.entries.length = 3 ∧
      s1.scanned_count = 3 ∧ s1.scanned_count ≤ s1.total_count ∧
      s1.total_count = (List.range' 1 10).length ∧
      s1.is_scan_running = false ∧ s1.finished_scanning = true :=
  C6_stopped_scan_keeps_prefix (demoEnv (some 3)) 11 {} (List.range' 1 10) 3
    (GetAllApplicationIds_pagedRecords (List.range' 1 10) 11 (by decide))
    (by decide) (by decide) (by decide) rfl

/-! ## Viewport prefetch -/

theorem GetVisibleRange_congr (s : App) (t : Int) (r : Nat × Nat) :
    GetVisibleRange { s with last_load_time := t } = GetVisibleRange s ∧
    GetVisibleRange { s with last_load_time := t, last_loaded_range := r } = GetVisibleRange s :=
  ⟨rfl, rfl⟩

/-- C7, as the code behaves. `LoadVisibleAreaIcons` is a no-op exactly when less than
100 ms have elapsed since the recorded timestamp, whatever the visible range. When
100 ms or more have elapsed and the computed range equals `last_loaded_range`, it
records the new timestamp only and submits nothing. When 100 ms or more have elapsed
and the range differs, it records the new range and timestamp and runs a submission
pass. -/
theorem C7_list_debounce_is_time_first (now : Int) (stamps : Nat → Int) (s : App) :
    (now - s.last_load_time < LOAD_DEBOUNCE_MS → LoadVisibleAreaIcons now stamps s = some s) ∧
    (¬ (now - s.last_load_time < LOAD_DEBOUNCE_MS) →
      LoadVisibleAreaIcons now stamps s ≠ some s) ∧
    (¬ (now - s.last_load_time < LOAD_DEBOUNCE_MS) → GetVisibleRange s = s.last_loaded_range →
      LoadVisibleAreaIcons now stamps s = some { s with last_load_time := now }) ∧
    (¬ (now - s.last_load_time < LOAD_DEBOUNCE_MS) → GetVisibleRange s ≠ s.last_loaded_range →
      LoadVisibleAreaIcons now stamps s =
        LoadVisibleAreaIcons.pass stamps (GetVisibleRange s).1 (GetVisibleRange s).2
          { s with last_load_time := now, last_loaded_range := GetVisibleRange s } ∧
      ∀ s1, LoadVisibleAreaIcons now stamps s = some s1 →
        s1.last_load_time = now ∧ s1.last_loaded_range = GetVisibleRange s) := by
  have hpass : ∀ (a b : Nat) (u s1 : App),
      LoadVisibleAreaIcons.pass stamps a b u = some s1 →
        s1.last_load_time = u.last_load_time ∧ s1.last_loaded_range = u.last_loaded_range := by
    intro a b u s1 h
    unfold LoadVisibleAreaIcons.pass at h
    simp only at h
    split_ifs at h <;> cases h <;> exact ⟨rfl, rfl⟩
  have hthird : ¬ (now - s.last_load_time < LOAD_DEBOUNCE_MS) →
      GetVisibleRange s = s.last_loaded_range →
      LoadVisibleAreaIcons now stamps s = some { s with last_load_time := now } := by
    intro ht hr
    unfold LoadVisibleAreaIcons
    simp only [if_neg ht, (GetVisibleRange_congr s now (0, 0)).1]
    rw [if_pos (by simp [hr])]
  have hfourth : ¬ (now - s.last_load_time < LOAD_DEBOUNCE_MS) →
      GetVisibleRange s ≠ s.last_loaded_range →
      LoadVisibleAreaIcons now stamps s =
        LoadVisibleAreaIcons.pass stamps (GetVisibleRange s).1 (GetVisibleRange s).2
          { s with last_load_time := now, last_loaded_range := GetVisibleRange s } := by
    intro ht hr
    unfold LoadVisibleAreaIcons
    simp only [if_neg ht, (GetVisibleRange_congr s now (0, 0)).1]
    rw [if_neg]
    intro hc
    apply hr
    exact (Prod.ext hc.1 hc.2).symm
  refine ⟨?_, ?_, hthird, ?_⟩
  · intro ht
    unfold LoadVisibleAreaIcons
    rw [if_pos ht]
  · intro ht heq
    have hne : now ≠ s.last_load_time := by
      intro h
      apply ht
      rw [h]
      simp [LOAD_DEBOUNCE_MS]
    by_cases hr : GetVisibleRange s = s.last_loaded_range
    · rw [hthird ht hr] at heq
      simp only [Option.some.injEq] at heq
      have := congrArg App.last_load_time heq
      exact hne this
    · rw [hfourth ht hr] at heq
      exact hne (hpass _ _ _ _ heq).1.symm
  · intro ht hr
    refine ⟨hfourth ht hr, ?_⟩
    intro s1 h1
    rw [hfourth ht hr] at h1
    exact hpass _ _ _ _ h1

/-- C7 evaluated: in `scrolledList` a call 50 ms after the last accepted one does
nothing, a call 120 ms after it records range (1, 5) and the timestamp and submits six
tasks; in `restingList` a call 200 ms after the last accepted one records the
timestamp only. -/
theorem C7_witness_three_cases :
    LoadVisibleAreaIcons 1050000000 (fun j => 1050000000 + j) scrolledList =
      some scrolledList ∧
    (LoadVisibleAreaIcons 1120000000 (fun j => 1120000000 + j) scrolledList).map
      (fun s1 => (s1.last_load_time, s1.last_loaded_range,
        s1.resource_manager.getPendingTaskCount)) = some (1120000000, (1, 5), 6) ∧
    LoadVisibleAreaIcons 1200000000 (fun j => 1200000000 + j) restingList =
      some { restingList with last_load_time := 1200000000 } :=
  ⟨(C7_list_debounce_is_time_first 1050000000 (fun j => 1050000000 + j) scrolledList).1
      (by decide),
   by decide,
   (C7_list_debounce_is_time_first 1200000000 (fun j => 1200000000 + j) restingList).2.2.1
      (by decide) (by decide)⟩

/-- C7 as stated fails. In `scrolledList` the visible range (1, 5) differs from the
recorded range (0, 4), yet a call 50 ms after the last accepted one is a no-op: nothing
is recorded and no pass runs. In `restingList` the range is unchanged and 200 ms have
elapsed, yet no submission pass runs (the pass itself would submit six tasks): only the
timestamp is recorded. -/
theorem C7_counterexample_changed_range_within_interval :
    GetVisibleRange scrolledList = (1, 5) ∧ scrolledList.last_loaded_range = (0, 4) ∧
    (1050000000 : Int) - scrolledList.last_load_time < LOAD_DEBOUNCE_MS ∧
    LoadVisibleAreaIcons 1050000000 (fun j => 1050000000 + j) scrolledList =
      some scrolledList ∧
    GetVisibleRange restingList = restingList.last_loaded_range ∧
    ¬ ((1200000000 : Int) - restingList.last_load_time < LOAD_DEBOUNCE_MS) ∧
    (LoadVisibleAreaIcons 1200000000 (fun j => 1200000000 + j) restingList).map
      (fun s1 => s1.resource_manager.getPendingTaskCount) = some 0 ∧
    (LoadVisibleAreaIcons.pass (fun j => 1200000000 + j) 0 4 restingList).map
      (fun s1 => s1.resource_manager.getPendingTaskCount) = some 6 := by
  decide

theorem filterMap_range'_eq_nil {β : Type} (f : Nat → Option β) (i n : Nat)
    (h : ∀ j, i ≤ j → f j = none) : (List.range' i n).filterMap f = [] := by
  rw [List.filterMap_eq_nil_iff]
  intro j hj
  exact h j (List.mem_range'_1.mp hj).1

/-- The collecting loop of the list view in closed form: the candidates are visited in
ascending order and each contributes at most one `LoadInfo`. -/
theorem LoadVisibleAreaIcons_collect_eq (s : App) (vs ve : Nat) (remaining i : Nat)
    (acc : List LoadInfo) :
    LoadVisibleAreaIcons.collect s vs ve remaining i acc =
      acc ++ (List.range' i remaining).filterMap (fun k =>
        match s.entries[k]? with
        | some entry =>
          if entry.image = s.default_icon_image ∧ entry.name ≠ s.corrupted_install then
            some { application_id := entry.id,
                   priority := if k < 4 then 0 else if vs ≤ k ∧ k < ve then 1 else 2 }
          else none
        | none => none) := by
  induction remaining generalizing i acc with
  | zero => simp [LoadVisibleAreaIcons.collect]
  | succ n ih =>
    rw [List.range'_succ, List.filterMap_cons]
    unfold LoadVisibleAreaIcons.collect
    cases he : s.entries[i]? with
    | none =>
      simp only
      rw [filterMap_range'_eq_nil]
      · simp
      · intro j hj
        have hlen : s.entries.length ≤ i := by
          by_contra hc
          rw [List.getElem?_eq_getElem (by omega)] at he
          exact absurd he (by simp)
        rw [List.getElem?_eq_none (by omega)]
    | some entry =>
      simp only
      by_cases hc : entry.image = s.default_icon_image ∧ entry.name ≠ s.corrupted_install
      · rw [if_pos hc, if_pos hc, ih]
        simp [FIRST_SCREEN_SIZE]
      · rw [if_neg hc, if_neg hc, ih]

/-- The collecting loop of the confirm view in closed form. -/
theorem LoadConfirmVisibleAreaIcons_collect_eq (s : App) (ve : Nat) (remaining i : Nat)
    (acc : List LoadInfo) :
    LoadConfirmVisibleAreaIcons.collect s ve remaining i acc =
      acc ++ (List.range' i remaining).filterMap (fun k =>
        match s.selected_indices[k]? with
        | some entry_index =>
          match s.entries[entry_index]? with
          | some entry =>
            if entry.image = s.default_icon_image ∧ entry.name ≠ s.corrupted_install then
              some { application_id := entry.id, priority := if k < ve then 1 else 2 }
            else none
          | none => none
        | none => none) := by
  induction remaining generalizing i acc with
  | zero => simp [LoadConfirmVisibleAreaIcons.collect]
  | succ n ih =>
    rw [List.range'_succ, List.filterMap_cons]
    unfold LoadConfirmVisibleAreaIcons.collect
    cases hs : s.selected_indices[i]? with
    | none =>
      simp only
      rw [filterMap_range'_eq_nil]
      · simp
      · intro j hj
        have hlen : s.selected_indices.length ≤ i := by
          by_contra hc
          rw [List.getElem?_eq_getElem (by omega)] at hs
          exact absurd hs (by simp)
        rw [List.getElem?_eq_none (by omega)]
    | some entry_index =>
      simp only
      cases he : s.entries[entry_index]? with
      | none => simp only; rw [ih]
      | some entry =>
        simp only
        by_cases hc : entry.image = s.default_icon_image ∧ entry.name ≠ s.corrupted_install
        · rw [if_pos hc, if_pos hc, ih]
          simp
        · rw [if_neg hc, if_neg hc, ih]

/-- The submitting loop appends one icon task per `LoadInfo`, in order, carrying its
identifier and priority. -/
theorem submitLoadInfos_pending (cb : Nat → LoadCallback) (stamps : Nat → Int)
    (infos : List LoadInfo) (j : Nat) (m : ResourceLoadManager) :
    ∃ new, (submitLoadInfos cb stamps infos j m).pending_tasks = m.pending_tasks ++ new ∧
      new.map (fun t => ({ application_id := t.application_id, priority := t.priority } :
        LoadInfo)) = infos ∧
      ∀ t ∈ new, t.task_type = ResourceTaskType.ICON ∧
        t.load_callback = some (cb t.application_id) := by
  induction infos generalizing j m with
  | nil => exact ⟨[], by simp [submitLoadInfos], rfl, by simp⟩
  | cons info rest ih =>
    obtain ⟨new, h1, h2, h3⟩ := ih (j + 1)
      (m.submitLoadTask
        { application_id := info.application_id,
          load_callback := some (cb info.application_id),
          submit_time := stamps j, priority := info.priority,
          task_type := ResourceTaskType.ICON })
    refine ⟨{ application_id := info.application_id,
              load_callback := some (cb info.application_id),
              submit_time := stamps j, priority := info.priority,
              task_type := ResourceTaskType.ICON } :: new, ?_, ?_, ?_⟩
    · rw [submitLoadInfos, h1]
      simp [ResourceLoadManager.submitLoadTask, priority_queue.push]
    · rw [List.map_cons, h2]
    · intro t ht
      rcases List.mem_cons.mp ht with h | h
      · rw [h]; exact ⟨rfl, rfl⟩
      · exact h3 t h

/-- What a list-view pass that returns leaves behind: the same state with the tasks of
the collected `LoadInfo`s appended to the queue. -/
theorem LoadVisibleAreaIcons_pass_spec (stamps : Nat → Int) (vs ve : Nat) (u s1 : App)
    (h : LoadVisibleAreaIcons.pass stamps vs ve u = some s1) :
    ∃ new, s1 = { u with resource_manager := ⟨u.resource_manager.pending_tasks ++ new⟩ } ∧
      new.map (fun t => ({ application_id := t.application_id, priority := t.priority } :
        LoadInfo)) =
        LoadVisibleAreaIcons.collect u vs ve
          (min ((ve + 2) % 2 ^ 64) u.entries.length - (vs - 2)) (vs - 2) [] ∧
      ∀ t ∈ new, t.task_type = ResourceTaskType.ICON ∧
        t.load_callback = some (LoadCallback.listIcon t.application_id) := by
  have hls : (if vs ≥ PRELOAD_BUFFER then vs - PRELOAD_BUFFER else 0) = vs - 2 := by
    simp only [PRELOAD_BUFFER]; split_ifs <;> omega
  unfold LoadVisibleAreaIcons.pass at h
  simp only [hls, Nat.min_self, min_assoc] at h
  simp only [PRELOAD_BUFFER] at h
  split_ifs at h with h1 h2
  · cases h
    refine ⟨[], by simp, ?_, by simp⟩
    simp only [List.map_nil]
    exact (List.isEmpty_iff.mp h2).symm
  · cases h
    obtain ⟨new, hp, hm, ht⟩ := submitLoadInfos_pending LoadCallback.listIcon stamps
      (LoadVisibleAreaIcons.collect u vs ve
        (min ((ve + 2) % 2 ^ 64) u.entries.length - (vs - 2)) (vs - 2) []) 0 u.resource_manager
    refine ⟨new, ?_, hm, ht⟩
    rw [← hp]

/-- What a confirm-view pass that returns leaves behind. -/
theorem LoadConfirmVisibleAreaIcons_pass_spec (stamps : Nat → Int) (vs ve : Nat) (u s1 : App)
    (h : LoadConfirmVisibleAreaIcons.pass stamps vs ve u = some s1) :
    ∃ new, s1 = { u with resource_manager := ⟨u.resource_manager.pending_tasks ++ new⟩ } ∧
      new.map (fun t => ({ application_id := t.application_id, priority := t.priority } :
        LoadInfo)) =
        LoadConfirmVisibleAreaIcons.collect u ve
          (min ((ve + 2) % 2 ^ 64) u.selected_indices.length - vs) vs [] ∧
      ∀ t ∈ new, t.task_type = ResourceTaskType.ICON ∧
        t.load_callback = some (LoadCallback.confirmIcon t.application_id) := by
  unfold LoadConfirmVisibleAreaIcons.pass at h
  simp only [PRELOAD_BUFFER] at h
  split_ifs at h with h1 h2
  · cases h
    refine ⟨[], by simp, ?_, by simp⟩
    simp only [List.map_nil]
    exact (List.isEmpty_iff.mp h2).symm
  · cases h
    obtain ⟨new, hp, hm, ht⟩ := submitLoadInfos_pending LoadCallback.confirmIcon stamps
      (LoadConfirmVisibleAreaIcons.collect u ve
        (min ((ve + 2) % 2 ^ 64) u.selected_indices.length - vs) vs []) 0 u.resource_manager
    refine ⟨new, ?_, hm, ht⟩
    rw [← hp]

theorem LoadVisibleAreaIcons_of_changed_range (now : Int) (stamps : Nat → Int) (s : App)
    (ht : ¬ (now - s.last_load_time < LOAD_DEBOUNCE_MS))
    (hr : GetVisibleRange s ≠ s.last_loaded_range) :
    LoadVisibleAreaIcons now stamps s =
      LoadVisibleAreaIcons.pass stamps (GetVisibleRange s).1 (GetVisibleRange s).2
        { s with last_load_time := now, last_loaded_range := GetVisibleRange s } := by
  unfold LoadVisibleAreaIcons
  simp only [if_neg ht, (GetVisibleRange_congr s now (0, 0)).1]
  rw [if_neg]
  intro hc
  apply hr
  exact (Prod.ext hc.1 hc.2).symm

theorem LoadVisibleAreaIcons_records_time (now : Int) (stamps : Nat → Int) (s s1 : App)
    (ht : ¬ (now - s.last_load_time < LOAD_DEBOUNCE_MS))
    (hrun : LoadVisibleAreaIcons now stamps s = some s1) : s1.last_load_time = now := by
  by_cases hr : GetVisibleRange s = s.last_loaded_range
  · unfold LoadVisibleAreaIcons at hrun
    simp only [if_neg ht, (GetVisibleRange_congr s now (0, 0)).1] at hrun
    rw [if_pos (by simp [hr])] at hrun
    cases hrun
    rfl
  · rw [LoadVisibleAreaIcons_of_changed_range now stamps s ht hr] at hrun
    obtain ⟨new, h1, _, _⟩ := LoadVisibleAreaIcons_pass_spec stamps _ _ _ _ hrun
    rw [h1]

theorem LoadConfirmVisibleAreaIcons_of_accepted (now : Int) (stamps : Nat → Int) (s : App)
    (hsel : s.selected_indices ≠ [])
    (hacc : ¬ (GetConfirmVisibleRange s = s.last_confirm_loaded_range ∧
      now - s.last_confirm_load_time < LOAD_DEBOUNCE_MS)) :
    LoadConfirmVisibleAreaIcons now stamps s =
      LoadConfirmVisibleAreaIcons.pass stamps (GetConfirmVisibleRange s).1
        (GetConfirmVisibleRange s).2
        { s with
          last_confirm_loaded_range := GetConfirmVisibleRange s,
          last_confirm_load_time := now } := by
  have hne : s.selected_indices.isEmpty = false := by
    cases h : s.selected_indices with
    | nil => exact absurd h hsel
    | cons a as => rfl
  unfold LoadConfirmVisibleAreaIcons
  simp only [hne, Bool.false_eq_true, if_false]
  rw [if_neg]
  intro hc
  apply hacc
  simpa using hc

/-- C8, as the code behaves. Two calls of the prefetch function on an unchanged cursor
state, the second less than 100 ms after the first: when the first call passed the
debounce test and recorded its timestamp (list view: at least 100 ms since the recorded
timestamp; confirm view: range changed or at least 100 ms since the recorded timestamp),
the second call submits no task and leaves the scheduler queue and the rest of the state
unchanged. -/
theorem C8_second_call_after_accepted_call_is_noop :
    (∀ (t1 t2 : Int) (st1 st2 : Nat → Int) (s s1 : App),
      ¬ (t1 - s.last_load_time < LOAD_DEBOUNCE_MS) →
      LoadVisibleAreaIcons t1 st1 s = some s1 →
      t2 - t1 < LOAD_DEBOUNCE_MS →
      LoadVisibleAreaIcons t2 st2 s1 = some s1) ∧
    (∀ (t1 t2 : Int) (st1 st2 : Nat → Int) (s s1 : App),
      ¬ (GetConfirmVisibleRange s = s.last_confirm_loaded_range ∧
        t1 - s.last_confirm_load_time < LOAD_DEBOUNCE_MS) →
      LoadConfirmVisibleAreaIcons t1 st1 s = some s1 →
      t2 - t1 < LOAD_DEBOUNCE_MS →
      LoadConfirmVisibleAreaIcons t2 st2 s1 = some s1) := by
  constructor
  · intro t1 t2 st1 st2 s s1 hacc hrun h2
    have ht := LoadVisibleAreaIcons_records_time t1 st1 s s1 hacc hrun
    unfold LoadVisibleAreaIcons
    rw [ht, if_pos h2]
  · intro t1 t2 st1 st2 s s1 hacc hrun h2
    by_cases hsel : s.selected_indices = []
    · have hs1 : s1 = s := by
        unfold LoadConfirmVisibleAreaIcons at hrun
        simp only [hsel, List.isEmpty_nil, if_true, Option.some.injEq] at hrun
        exact hrun.symm
      subst hs1
      unfold LoadConfirmVisibleAreaIcons
      simp [hsel]
    · rw [LoadConfirmVisibleAreaIcons_of_accepted t1 st1 s hsel hacc] at hrun
      obtain ⟨new, h1, _, _⟩ := LoadConfirmVisibleAreaIcons_pass_spec st1 _ _ _ _ hrun
      have hne : s.selected_indices.isEmpty = false := by
        cases h : s.selected_indices with
        | nil => exact absurd h hsel
        | cons a as => rfl
      subst h1
      unfold LoadConfirmVisibleAreaIcons
      simp only [hne, Bool.false_eq_true, if_false]
      have hr : GetConfirmVisibleRange
          { s with
            last_confirm_loaded_range := GetConfirmVisibleRange s,
            last_confirm_load_time := t1,
            resource_manager := ⟨s.resource_manager.pending_tasks ++ new⟩ } =
          GetConfirmVisibleRange s := rfl
      rw [if_pos]
      simp only [hr, ne_eq, not_true_eq_false, decide_False, Bool.not_false, Bool.true_and,
        decide_eq_true_eq]
      exact h2

/-- C8 evaluated: in `scrolledList` and `restingConfirm` a first call 120 ms after the
last accepted one is accepted and submits tasks, and a second call 70 ms later changes
nothing. -/
theorem C8_witness_accepted_then_repeated :
    (LoadVisibleAreaIcons 1120000000 (fun j => 1120000000 + j) scrolledList =
      some scrolledListAfter ∧
     LoadVisibleAreaIcons 1190000000 (fun j => 1190000000 + j) scrolledListAfter =
      some scrolledListAfter) ∧
    (LoadConfirmVisibleAreaIcons 1120000000 (fun j => 1120000000 + j) restingConfirm =
      some restingConfirmAfter ∧
     LoadConfirmVisibleAreaIcons 1190000000 (fun j => 1190000000 + j) restingConfirmAfter =
      some restingConfirmAfter) :=
  ⟨⟨by decide, C8_second_call_after_accepted_call_is_noop.1 1120000000 1190000000
      (fun j => 1120000000 + j) (fun j => 1190000000 + j) scrolledList scrolledListAfter
      (by decide) (by decide) (by decide)⟩,
   ⟨by decide, C8_second_call_after_accepted_call_is_noop.2 1120000000 1190000000
      (fun j => 1120000000 + j) (fun j => 1190000000 + j) restingConfirm restingConfirmAfter
      (by decide) (by decide) (by decide)⟩⟩

/-- C8 as stated fails, in both views. The cursor state is unchanged between the two
calls and the second call comes 70 ms after the first. The first call, 50 ms after the
last accepted request, is suppressed and submits nothing; the second call, 120 ms after
the last accepted request, is accepted and submits tasks (six in the list view, two in
the confirm view). -/
theorem C8_counterexample_second_call_submits :
    LoadVisibleAreaIcons 1050000000 (fun j => 1050000000 + j) scrolledList =
      some scrolledList ∧
    scrolledList.resource_manager.getPendingTaskCount = 0 ∧
    (1120000000 : Int) - 1050000000 < LOAD_DEBOUNCE_MS ∧
    (LoadVisibleAreaIcons 1120000000 (fun j => 1120000000 + j) scrolledList).map
      (fun s2 => s2.resource_manager.getPendingTaskCount) = some 6 ∧
    LoadConfirmVisibleAreaIcons 1050000000 (fun j => 1050000000 + j) restingConfirm =
      some restingConfirm ∧
    restingConfirm.resource_manager.getPendingTaskCount = 0 ∧
    (LoadConfirmVisibleAreaIcons 1120000000 (fun j => 1120000000 + j) restingConfirm).map
      (fun s2 => s2.resource_manager.getPendingTaskCount) = some 2 := by
  decide

/-- C9. In an accepted `LoadVisibleAreaIcons` pass with visible range
`[visible_start, visible_end)`, the tasks appended to the queue are, in ascending order of
catalog index `i` over the candidate range, one task per entry that qualifies, carrying
that entry's identifier and the priority 0 if `i < 4`, otherwise 1 if
`visible_start ≤ i < visible_end`, otherwise 2; so every priority assigned is 0, 1
or 2. -/
theorem C9_list_pass_priority_tiers (now : Int) (stamps : Nat → Int) (s s1 : App)
    (visible_start visible_end : Nat)
    (hvis : GetVisibleRange s = (visible_start, visible_end))
    (htime : ¬ (now - s.last_load_time < LOAD_DEBOUNCE_MS))
    (hrange : GetVisibleRange s ≠ s.last_loaded_range)
    (hrun : LoadVisibleAreaIcons now stamps s = some s1) :
    ∃ new, s1.resource_manager.pending_tasks = s.resource_manager.pending_tasks ++ new ∧
      new.map (fun t => (t.application_id, t.priority)) =
        (List.range' (visible_start - 2)
          (min ((visible_end + 2) % 2 ^ 64) s.entries.length - (visible_start - 2))).filterMap
          (fun i =>
            match s.entries[i]? with
            | some entry =>
              if entry.image = s.default_icon_image ∧ entry.name ≠ s.corrupted_install then
                some (entry.id,
                  if i < 4 then (0 : Int)
                  else if visible_start ≤ i ∧ i < visible_end then 1
                  else 2)
              else none
            | none => none) ∧
      ∀ t ∈ new, t.priority = 0 ∨ t.priority = 1 ∨ t.priority = 2 := by
  rw [LoadVisibleAreaIcons_of_changed_range now stamps s htime hrange, hvis] at hrun
  obtain ⟨new, h1, h2, _⟩ := LoadVisibleAreaIcons_pass_spec stamps _ _ _ _ hrun
  rw [LoadVisibleAreaIcons_collect_eq, List.nil_append] at h2
  have hmap : new.map (fun t => (t.application_id, t.priority)) =
      (new.map (fun t => ({ application_id := t.application_id, priority := t.priority } :
        LoadInfo))).map (fun x => (x.application_id, x.priority)) := by
    rw [List.map_map]; rfl
  have hEq : new.map (fun t => (t.application_id, t.priority)) =
      (List.range' (visible_start - 2)
        (min ((visible_end + 2) % 2 ^ 64) s.entries.length - (visible_start - 2))).filterMap
        (fun i =>
          match s.entries[i]? with
          | some entry =>
            if entry.image = s.default_icon_image ∧ entry.name ≠ s.corrupted_install then
              some (entry.id,
                if i < 4 then (0 : Int)
                else if visible_start ≤ i ∧ i < visible_end then 1
                else 2)
            else none
          | none => none) := by
    rw [hmap, h2, List.map_filterMap]
    congr 1
    funext i
    simp only
    cases s.entries[i]? with
    | none => rfl
    | some entry =>
      simp only
      split_ifs <;> rfl
  refine ⟨new, by rw [h1], hEq, ?_⟩
  intro t ht
  have hmem : (t.application_id, t.priority) ∈ new.map (fun t => (t.application_id, t.priority)) :=
    List.mem_map.mpr ⟨t, ht, rfl⟩
  rw [hEq, List.mem_filterMap] at hmem
  obtain ⟨i, _, hi⟩ := hmem
  cases he : s.entries[i]? with
  | none => rw [he] at hi; simp at hi
  | some entry =>
    rw [he] at hi
    simp only at hi
    split_ifs at hi with hc h4 hv
    · simp only [Option.some.injEq, Prod.mk.injEq] at hi; left; exact hi.2.symm
    · simp only [Option.some.injEq, Prod.mk.injEq] at hi; right; left; exact hi.2.symm
    · simp only [Option.some.injEq, Prod.mk.injEq] at hi; right; right; exact hi.2.symm

/-- C9 evaluated on `scrolledList` (visible range (1, 5), six placeholder entries):
identifiers 1 … 4 get priority 0, identifier 5 priority 1, identifier 6 priority 2. -/
theorem C9_witness_scrolled_list :
    (∃ new, scrolledListAfter.resource_manager.pending_tasks =
        scrolledList.resource_manager.pending_tasks ++ new ∧
      new.map (fun t => (t.application_id, t.priority)) =
        (List.range' (1 - 2)
          (min ((5 + 2) % 2 ^ 64) scrolledList.entries.length - (1 - 2))).filterMap
          (fun i =>
            match scrolledList.entries[i]? with
            | some entry =>
              if entry.image = scrolledList.default_icon_image ∧
                  entry.name ≠ scrolledList.corrupted_install then
                some (entry.id,
                  if i < 4 then (0 : Int)
                  else if 1 ≤ i ∧ i < 5 then 1
                  else 2)
              else none
            | none => none) ∧
      ∀ t ∈ new, t.priority = 0 ∨ t.priority = 1 ∨ t.priority = 2) ∧
    scrolledListAfter.resource_manager.pending_tasks.map
      (fun t => (t.application_id, t.priority)) =
      [(1, 0), (2, 0), (3, 0), (4, 0), (5, 1), (6, 2)] :=
  ⟨C9_list_pass_priority_tiers 1120000000 (fun j => 1120000000 + j) scrolledList
      scrolledListAfter 1 5 (by decide) (by decide) (by decide) (by decide), by decide⟩

theorem map_application_id_eq {new : List ResourceLoadTask} {infos : List LoadInfo}
    (h : new.map (fun t => ({ application_id := t.application_id, priority := t.priority } :
      LoadInfo)) = infos) :
    new.map (fun t => t.application_id) = infos.map (fun x => x.application_id) := by
  rw [← h, List.map_map]
  rfl

/-- C10. In an accepted prefetch pass the tasks appended to the queue are exactly, in
candidate order and one per candidate, the tasks for the candidates whose entry holds the
default icon and whose name is not the `corrupted_install` string (the test by which the
code recognises a corrupted entry); a candidate whose entry holds another icon or is
corrupted contributes no task. The candidates are the catalog indices from
`visible_start - 2` up to `min (visible_end + 2) n` in the list view, and the entries
`entries[selected_indices[i]]` for the positions `i` from `visible_start` up to
`min (visible_end + 2) |selected_indices|` in the confirm view. -/
theorem C10_pass_submits_for_placeholder_entries_only :
    (∀ (now : Int) (stamps : Nat → Int) (s s1 : App),
      ¬ (now - s.last_load_time < LOAD_DEBOUNCE_MS) →
      GetVisibleRange s ≠ s.last_loaded_range →
      LoadVisibleAreaIcons now stamps s = some s1 →
      ∃ new, s1.resource_manager.pending_tasks = s.resource_manager.pending_tasks ++ new ∧
        new.map (fun t => t.application_id) =
          (List.range' ((GetVisibleRange s).1 - 2)
            (min (((GetVisibleRange s).2 + 2) % 2 ^ 64) s.entries.length -
              ((GetVisibleRange s).1 - 2))).filterMap
            (fun i =>
              match s.entries[i]? with
              | some entry =>
                if entry.image = s.default_icon_image ∧ entry.name ≠ s.corrupted_install then
                  some entry.id
                else none
              | none => none)) ∧
    (∀ (now : Int) (stamps : Nat → Int) (s s1 : App),
      s.selected_indices ≠ [] →
      ¬ (GetConfirmVisibleRange s = s.last_confirm_loaded_range ∧
        now - s.last_confirm_load_time < LOAD_DEBOUNCE_MS) →
      LoadConfirmVisibleAreaIcons now stamps s = some s1 →
      ∃ new, s1.resource_manager.pending_tasks = s.resource_manager.pending_tasks ++ new ∧
        new.map (fun t => t.application_id) =
          (List.range' (GetConfirmVisibleRange s).1
            (min (((GetConfirmVisibleRange s).2 + 2) % 2 ^ 64) s.selected_indices.length -
              (GetConfirmVisibleRange s).1)).filterMap
            (fun i =>
              match s.selected_indices[i]? with
              | some entry_index =>
                match s.entries[entry_index]? with
                | some entry =>
                  if entry.image = s.default_icon_image ∧
                      entry.name ≠ s.corrupted_install then
                    some entry.id
                  else none
                | none => none
              | none => none)) := by
  constructor
  · intro now stamps s s1 htime hrange hrun
    rw [LoadVisibleAreaIcons_of_changed_range now stamps s htime hrange] at hrun
    obtain ⟨new, h1, h2, _⟩ := LoadVisibleAreaIcons_pass_spec stamps _ _ _ _ hrun
    rw [LoadVisibleAreaIcons_collect_eq, List.nil_append] at h2
    refine ⟨new, by rw [h1], ?_⟩
    rw [map_application_id_eq h2, List.map_filterMap]
    congr 1
    funext i
    simp only
    cases s.entries[i]? with
    | none => rfl
    | some entry =>
      simp only
      split_ifs <;> rfl
  · intro now stamps s s1 hsel hacc hrun
    rw [LoadConfirmVisibleAreaIcons_of_accepted now stamps s hsel hacc] at hrun
    obtain ⟨new, h1, h2, _⟩ := LoadConfirmVisibleAreaIcons_pass_spec stamps _ _ _ _ hrun
    rw [LoadConfirmVisibleAreaIcons_collect_eq, List.nil_append] at h2
    refine ⟨new, by rw [h1], ?_⟩
    rw [map_application_id_eq h2, List.map_filterMap]
    congr 1
    funext i
    simp only
    cases s.selected_indices[i]? with
    | none => rfl
    | some entry_index =>
      simp only
      cases s.entries[entry_index]? with
      | none => rfl
      | some entry =>
        simp only
        split_ifs <;> rfl

/-- C10 evaluated on `mixedEntries` in both views: of the four candidates only the two that
hold the default icon and are not corrupted (identifiers 1 and 4) get a task. -/
theorem C10_witness_mixed_entries :
    ((∃ new, mixedListAfter.resource_manager.pending_tasks =
        mixedList.resource_manager.pending_tasks ++ new ∧
        new.map (fun t => t.application_id) =
          (List.range' ((GetVisibleRange mixedList).1 - 2)
            (min (((GetVisibleRange mixedList).2 + 2) % 2 ^ 64) mixedList.entries.length -
              ((GetVisibleRange mixedList).1 - 2))).filterMap
            (fun i =>
              match mixedList.entries[i]? with
              | some entry =>
                if entry.image = mixedList.default_icon_image ∧
                    entry.name ≠ mixedList.corrupted_install then
                  some entry.id
                else none
              | none => none)) ∧
      mixedListAfter.resource_manager.pending_tasks.map (fun t => t.application_id) = [1, 4]) ∧
    ((∃ new, mixedConfirmAfter.resource_manager.pending_tasks =
        mixedConfirm.resource_manager.pending_tasks ++ new ∧
        new.map (fun t => t.application_id) =
          (List.range' (GetConfirmVisibleRange mixedConfirm).1
            (min (((GetConfirmVisibleRange mixedConfirm).2 + 2) % 2 ^ 64)
              mixedConfirm.selected_indices.length -
              (GetConfirmVisibleRange mixedConfirm).1)).filterMap
            (fun i =>
              match mixedConfirm.selected_indices[i]? with
              | some entry_index =>
                match mixedConfirm.entries[entry_index]? with
                | some entry =>
                  if entry.image = mixedConfirm.default_icon_image ∧
                      entry.name ≠ mixedConfirm.corrupted_install then
                    some entry.id
                  else none
                | none => none
              | none => none)) ∧
      mixedConfirmAfter.resource_manager.pending_tasks.map (fun t => t.application_id) =
        [1, 4]) :=
  ⟨⟨C10_pass_submits_for_placeholder_entries_only.1 1000000000 (fun j => 1000000000 + j)
      mixedList mixedListAfter (by decide) (by decide) (by decide), by decide⟩,
   ⟨C10_pass_submits_for_placeholder_entries_only.2 1000000000 (fun j => 1000000000 + j)
      mixedConfirm mixedConfirmAfter (by decide) (by decide) (by decide), by decide⟩⟩

/-! ## The deletion worker -/

theorem NsDeleteAppsAsync_loop_no_stop {σ : Type} (remove : Nat → Nat → Nat) (stop : Nat → Bool)
    (data : NsDeleteData σ) (rest : List Nat) (k : Nat) (st : σ)
    (hstop : ∀ j, j < rest.length → stop (k + j) = false) :
    NsDeleteAppsAsync.loop remove stop data rest k st =
      (itemCallbacks remove data.del_cb rest k st, itemEvents remove rest k, true) := by
  induction rest generalizing k st with
  | nil => rfl
  | cons p rest ih =>
    have h0 : stop k = false := by simpa using hstop 0 (by simp)
    have hrest : ∀ j, j < rest.length → stop (k + 1 + j) = false := by
      intro j hj
      have := hstop (j + 1) (by simpa using hj)
      rwa [show k + (j + 1) = k + 1 + j by omega] at this
    simp only [NsDeleteAppsAsync.loop, h0, Bool.false_eq_true, if_false, ih (k + 1) _ hrest,
      itemCallbacks, itemEvents]

theorem NsDeleteAppsAsync_loop_stop_at {σ : Type} (remove : Nat → Nat → Nat) (stop : Nat → Bool)
    (data : NsDeleteData σ) (rest : List Nat) (k n : Nat) (st : σ)
    (hn : n < rest.length)
    (hbefore : ∀ j, j < n → stop (k + j) = false) (hat : stop (k + n) = true) :
    NsDeleteAppsAsync.loop remove stop data rest k st =
      (itemCallbacks remove data.del_cb (rest.take (n + 1)) k st,
        itemEvents remove (rest.take (n + 1)) k, false) := by
  induction rest generalizing k n st with
  | nil => simp at hn
  | cons p rest ih =>
    cases n with
    | zero =>
      have h0 : stop k = true := by simpa using hat
      simp [NsDeleteAppsAsync.loop, h0, itemCallbacks, itemEvents]
    | succ m =>
      have h0 : stop k = false := by simpa using hbefore 0 (by omega)
      have hih := ih (k + 1) m (data.del_cb (R_FAILED (remove k p)) st)
        (by simpa using hn)
        (fun j hj => by
          have := hbefore (j + 1) (by omega)
          rwa [show k + (j + 1) = k + 1 + j by omega] at this)
        (by rwa [show k + (m + 1) = k + 1 + m by omega] at hat)
      simp only [NsDeleteAppsAsync.loop, h0, Bool.false_eq_true, if_false, hih,
        List.take_succ_cons, itemCallbacks, itemEvents]

theorem itemEvents_no_done (remove : Nat → Nat → Nat) (items : List Nat) (k : Nat) :
    WorkerEvent.done_cb ∉ itemEvents remove items k := by
  induction items generalizing k with
  | nil => simp [itemEvents]
  | cons p rest ih =>
    simp only [itemEvents, List.mem_cons, not_or]
    exact ⟨by simp, by simp, ih (k + 1)⟩

/-- C11. For every worklist, every outcome of the removal primitive and every pair of
callbacks: with no stop request `NsDeleteAppsAsync` produces, for each identifier in
worklist order, one removal call followed by one `del_cb` call carrying that item's
outcome, and after the last item exactly one `done_cb` call; the callbacks are applied
to the state in that order. When the stop request is observed at the check after item
`k`, the trace and the state are the same for the items 1 … k and `done_cb` is not
called. -/
theorem C11_worker_trace {σ : Type} (remove : Nat → Nat → Nat) (stop : Nat → Bool)
    (data : NsDeleteData σ) (st : σ) :
    ((∀ j, j < data.entries.length → stop j = false) →
      NsDeleteAppsAsync remove stop data st =
        (data.done_cb (itemCallbacks remove data.del_cb data.entries 0 st),
          itemEvents remove data.entries 0 ++ [WorkerEvent.done_cb]) ∧
      (NsDeleteAppsAsync remove stop data st).2.count WorkerEvent.done_cb = 1) ∧
    (∀ k, 1 ≤ k → k ≤ data.entries.length →
      (∀ j, j + 1 < k → stop j = false) → stop (k - 1) = true →
      NsDeleteAppsAsync remove stop data st =
        (itemCallbacks remove data.del_cb (data.entries.take k) 0 st,
          itemEvents remove (data.entries.take k) 0) ∧
      WorkerEvent.done_cb ∉ (NsDeleteAppsAsync remove stop data st).2) := by
  constructor
  · intro hstop
    have hl := NsDeleteAppsAsync_loop_no_stop remove stop data data.entries 0 st
      (fun j hj => by simpa using hstop j hj)
    have heq : NsDeleteAppsAsync remove stop data st =
        (data.done_cb (itemCallbacks remove data.del_cb data.entries 0 st),
          itemEvents remove data.entries 0 ++ [WorkerEvent.done_cb]) := by
      simp [NsDeleteAppsAsync, NsDeleteAppsAsync.resume, hl]
    refine ⟨heq, ?_⟩
    rw [heq]
    simp only [List.count_append, List.count_singleton_self]
    rw [List.count_eq_zero.mpr (itemEvents_no_done remove data.entries 0)]
  · intro k hk1 hk hbefore hat
    obtain ⟨n, rfl⟩ : ∃ n, k = n + 1 := ⟨k - 1, by omega⟩
    have hl := NsDeleteAppsAsync_loop_stop_at remove stop data data.entries 0 n st
      (by omega) (fun j hj => by simpa using hbefore j (by omega)) (by simpa using hat)
    have heq : NsDeleteAppsAsync remove stop data st =
        (itemCallbacks remove data.del_cb (data.entries.take (n + 1)) 0 st,
          itemEvents remove (data.entries.take (n + 1)) 0) := by
      simp [NsDeleteAppsAsync, NsDeleteAppsAsync.resume, hl]
    refine ⟨heq, ?_⟩
    rw [heq]
    exact itemEvents_no_done remove _ 0

/-- C11 on the worklist {1, 2} with callbacks that record their calls: the removal of 2
fails; without a stop request the trace ends with `done_cb`, with a stop request seen
after item 1 it ends after the first `del_cb`. -/
theorem C11_witness_two_items :
    (NsDeleteAppsAsync (removeFailsFor [2]) (fun _ => false)
        ({ entries := [1, 2], del_cb := fun error log => log ++ [some error],
           done_cb := fun log => log ++ [none] } : NsDeleteData (List (Option Bool))) [] =
      ([some false, some true, none],
        [WorkerEvent.removal 1, WorkerEvent.del_cb false, WorkerEvent.removal 2,
          WorkerEvent.del_cb true, WorkerEvent.done_cb])) ∧
    (NsDeleteAppsAsync (removeFailsFor [2]) (fun _ => true)
        ({ entries := [1, 2], del_cb := fun error log => log ++ [some error],
           done_cb := fun log => log ++ [none] } : NsDeleteData (List (Option Bool))) [] =
      ([some false], [WorkerEvent.removal 1, WorkerEvent.del_cb false])) :=
  ⟨((C11_worker_trace (removeFailsFor [2]) (fun _ => false)
      ({ entries := [1, 2], del_cb := fun error log => log ++ [some error],
         done_cb := fun log => log ++ [none] } : NsDeleteData (List (Option Bool))) []).1
      (fun _ _ => rfl)).1,
   ((C11_worker_trace (removeFailsFor [2]) (fun _ => true)
      ({ entries := [1, 2], del_cb := fun error log => log ++ [some error],
         done_cb := fun log => log ++ [none] } : NsDeleteData (List (Option Bool))) []).2
      1 (by decide) (by decide) (fun j hj => absurd hj (by omega)) rfl).1⟩

theorem eraseById_sublist (p : Nat) (es : List AppEntry) : (eraseById p es).1.Sublist es := by
  induction es with
  | nil => simp [eraseById]
  | cons e rest ih =>
    unfold eraseById
    by_cases h : e.id = p
    · simp only [h, if_true]; exact List.sublist_cons_self e rest
    · simp only [h, if_false]; exact ih.cons₂ e

theorem eraseById_filter_of_ne (p : Nat) (es : List AppEntry) (P : AppEntry → Bool)
    (h : ∀ e ∈ es, P e = true → e.id ≠ p) :
    (eraseById p es).1.filter P = es.filter P := by
  induction es with
  | nil => simp [eraseById]
  | cons e rest ih =>
    have hrest : ∀ x ∈ rest, P x = true → x.id ≠ p := fun x hx =>
      h x (List.mem_cons_of_mem _ hx)
    unfold eraseById
    by_cases he : e.id = p
    · simp only [he, if_true]
      have hP : P e = false := by
        by_contra hc
        exact h e (List.mem_cons_self _ _) (by simpa using hc) he
      rw [List.filter_cons_of_neg (by simp [hP])]
    · simp only [he, if_false]
      by_cases hP : P e = true
      · rw [List.filter_cons_of_pos hP, List.filter_cons_of_pos hP, ih hrest]
      · rw [List.filter_cons_of_neg hP, List.filter_cons_of_neg hP, ih hrest]

theorem eraseById_eq_filter (p : Nat) (es : List AppEntry)
    (hnodup : (es.map (fun e => e.id)).Nodup) :
    (eraseById p es).1 = es.filter (fun e => decide (e.id ≠ p)) := by
  induction es with
  | nil => simp [eraseById]
  | cons e rest ih =>
    simp only [List.map_cons, List.nodup_cons] at hnodup
    unfold eraseById
    by_cases he : e.id = p
    · simp only [he, if_true]
      rw [List.filter_cons_of_neg (by simp [he])]
      symm
      rw [List.filter_eq_self]
      intro x hx
      have : x.id ≠ e.id := by
        intro hc
        exact hnodup.1 (List.mem_map.mpr ⟨x, hx, hc⟩)
      simpa [he] using this
    · simp only [he, if_false]
      rw [List.filter_cons_of_pos (by simpa using he), ih hnodup.2]

theorem del_cb_body_frame (error : Bool) (p : Nat) (w : World) :
    (UpdateConfirm.del_cb_body error p w).app.delete_entries = w.app.delete_entries ∧
    (UpdateConfirm.del_cb_body error p w).app.delete_index = w.app.delete_index + 1 ∧
    (UpdateConfirm.del_cb_body error p w).app.scanned_count = w.app.scanned_count ∧
    (UpdateConfirm.del_cb_body error p w).app.finished_deleting = w.app.finished_deleting ∧
    (UpdateConfirm.del_cb_body error p w).app.deletion_interrupted =
      w.app.deletion_interrupted ∧
    (UpdateConfirm.del_cb_body error p w).app.delete_thread_valid =
      w.app.delete_thread_valid := by
  unfold UpdateConfirm.del_cb_body
  cases error <;> simp

theorem del_cb_body_entries (error : Bool) (p : Nat) (w : World) :
    (UpdateConfirm.del_cb_body error p w).app.entries =
      if error then w.app.entries else (eraseById p w.app.entries).1 := by
  unfold UpdateConfirm.del_cb_body
  cases error <;> simp

theorem afterItems_frame (remove : Nat → Nat → Nat) (items : List Nat) (k : Nat) (w : World) :
    (afterItems remove items k w).app.delete_entries = w.app.delete_entries ∧
    (afterItems remove items k w).app.delete_index = w.app.delete_index + items.length ∧
    (afterItems remove items k w).app.scanned_count = w.app.scanned_count ∧
    (afterItems remove items k w).app.finished_deleting = w.app.finished_deleting ∧
    (afterItems remove items k w).app.deletion_interrupted = w.app.deletion_interrupted ∧
    (afterItems remove items k w).app.delete_thread_valid = w.app.delete_thread_valid := by
  induction items generalizing k w with
  | nil => simp [afterItems]
  | cons p rest ih =>
    obtain ⟨a1, a2, a3, a4, a5, a6⟩ := ih (k + 1)
      (UpdateConfirm.del_cb_body (R_FAILED (remove k p)) p w)
    obtain ⟨b1, b2, b3, b4, b5, b6⟩ := del_cb_body_frame (R_FAILED (remove k p)) p w
    simp only [afterItems, List.length_cons]
    refine ⟨a1.trans b1, ?_, a3.trans b3, a4.trans b4, a5.trans b5, a6.trans b6⟩
    rw [a2, b2]; omega

theorem afterItems_sublist (remove : Nat → Nat → Nat) (items : List Nat) (k : Nat) (w : World) :
    (afterItems remove items k w).app.entries.Sublist w.app.entries := by
  induction items generalizing k w with
  | nil => simp [afterItems]
  | cons p rest ih =>
    simp only [afterItems]
    refine (ih (k + 1) _).trans ?_
    rw [del_cb_body_entries]
    split_ifs
    · exact List.Sublist.refl _
    · exact eraseById_sublist p _

/-- Entries that satisfy `P` survive the per-item callbacks, in order, when no entry
satisfying `P` carries the identifier of an item. -/
theorem afterItems_filter_of_disjoint (remove : Nat → Nat → Nat) (items : List Nat) (k : Nat)
    (w : World) (P : AppEntry → Bool)
    (h : ∀ e ∈ w.app.entries, P e = true → e.id ∉ items) :
    (afterItems remove items k w).app.entries.filter P = w.app.entries.filter P := by
  induction items generalizing k w with
  | nil => simp [afterItems]
  | cons p rest ih =>
    simp only [afterItems]
    have hstep : (UpdateConfirm.del_cb_body (R_FAILED (remove k p)) p w).app.entries.filter P =
        w.app.entries.filter P := by
      rw [del_cb_body_entries]
      split_ifs
      · rfl
      · exact eraseById_filter_of_ne p _ P (fun e he hP hc =>
          h e he hP (by rw [hc]; exact List.mem_cons_self _ _))
    rw [ih (k + 1) _ ?_, hstep]
    intro e he hP hmem
    have he0 : e ∈ w.app.entries := by
      have hs : (UpdateConfirm.del_cb_body (R_FAILED (remove k p)) p w).app.entries.Sublist
          w.app.entries := by
        rw [del_cb_body_entries]
        split_ifs
        · exact List.Sublist.refl _
        · exact eraseById_sublist p _
      exact hs.subset he
    exact h e he0 hP (List.mem_cons_of_mem _ hmem)

/-- With unique identifiers the per-item callbacks leave exactly the entries whose
identifier is not among the successfully removed ones, in their order. -/
theorem afterItems_entries (remove : Nat → Nat → Nat) (items : List Nat) (k : Nat) (w : World)
    (hnodup : (w.app.entries.map (fun e => e.id)).Nodup) :
    (afterItems remove items k w).app.entries =
      w.app.entries.filter (fun e => decide (e.id ∉ succeededIds remove items k)) := by
  induction items generalizing k w with
  | nil => simp [afterItems, succeededIds]
  | cons p rest ih =>
    simp only [afterItems, succeededIds]
    have hent := del_cb_body_entries (R_FAILED (remove k p)) p w
    by_cases hf : R_FAILED (remove k p) = true
    · rw [hf] at hent
      simp only [hf, if_true] at hent ⊢
      rw [ih (k + 1) _ (by rw [hent]; exact hnodup), hent]
    · have hf2 : R_FAILED (remove k p) = false := by simpa using hf
      rw [hf2] at hent
      simp only [hf2, Bool.false_eq_true, if_false] at hent ⊢
      have hent2 : (UpdateConfirm.del_cb_body false p w).app.entries =
          w.app.entries.filter (fun e => decide (e.id ≠ p)) := by
        rw [hent, eraseById_eq_filter p _ hnodup]
      have hnd : ((UpdateConfirm.del_cb_body false p w).app.entries.map
          (fun e => e.id)).Nodup := by
        rw [hent2]
        exact hnodup.sublist ((List.filter_sublist _).map _)
      rw [ih (k + 1) _ hnd, hent2, List.filter_filter]
      apply List.filter_congr
      intro e _
      simp only [List.mem_cons, not_or, decide_not, Bool.and_eq_true, Bool.not_eq_true',
        decide_eq_false_iff_not, decide_eq_true_eq, Bool.decide_and]
      by_cases h1 : e.id = p <;> by_cases h2 : e.id ∈ succeededIds remove rest (k + 1) <;>
        simp [h1, h2]

/-- An identifier is among the successfully removed ones exactly when the removal call
made for it at some position of the worklist succeeded. -/
theorem mem_succeededIds (remove : Nat → Nat → Nat) (items : List Nat) (k id : Nat) :
    id ∈ succeededIds remove items k ↔
      ∃ j, items[j]? = some id ∧ R_FAILED (remove (k + j) id) = false := by
  induction items generalizing k with
  | nil => simp [succeededIds]
  | cons p rest ih =>
    simp only [succeededIds]
    constructor
    · intro h
      by_cases hf : R_FAILED (remove k p) = true
      · rw [if_pos hf] at h
        obtain ⟨j, hj1, hj2⟩ := (ih (k + 1)).mp h
        exact ⟨j + 1, by simpa using hj1, by rwa [show k + (j + 1) = k + 1 + j by omega]⟩
      · rw [if_neg hf] at h
        rcases List.mem_cons.mp h with h1 | h1
        · exact ⟨0, by simp [h1], by simpa [h1] using hf⟩
        · obtain ⟨j, hj1, hj2⟩ := (ih (k + 1)).mp h1
          exact ⟨j + 1, by simpa using hj1, by rwa [show k + (j + 1) = k + 1 + j by omega]⟩
    · rintro ⟨j, hj1, hj2⟩
      cases j with
      | zero =>
        simp only [List.getElem?_cons_zero, Option.some.injEq] at hj1
        subst hj1
        simp only [Nat.add_zero] at hj2
        simp [hj2]
      | succ m =>
        simp only [List.getElem?_cons_succ] at hj1
        have hm : id ∈ succeededIds remove rest (k + 1) :=
          (ih (k + 1)).mpr ⟨m, hj1, by rwa [show k + 1 + m = k + (m + 1) by omega]⟩
        split_ifs
        · exact hm
        · exact List.mem_cons_of_mem _ hm

theorem del_cb_eq_body (error : Bool) (p : Nat) (w : World)
    (h : w.app.delete_entries[w.app.delete_index]? = some p) :
    UpdateConfirm.del_cb error w = some (UpdateConfirm.del_cb_body error p w) := by
  unfold UpdateConfirm.del_cb
  cases error
  · simp [h]
  · simp [UpdateConfirm.del_cb_body]

/-- The `del_cb` calls of the worker, each reading `delete_entries[delete_index]`, find the
identifier the worker is visiting as long as the worker list continues `delete_entries`
from `delete_index`. -/
theorem itemCallbacks_data (remove : Nat → Nat → Nat) (D items : List Nat) (k : Nat) (w : World)
    (hpre : ∀ j, j < items.length →
      w.app.delete_entries[w.app.delete_index + j]? = items[j]?) :
    itemCallbacks remove (UpdateConfirm.data D).del_cb items k (some w) =
      some (afterItems remove items k w) := by
  induction items generalizing k w with
  | nil => rfl
  | cons p rest ih =>
    have h0 : w.app.delete_entries[w.app.delete_index]? = some p := by
      simpa using hpre 0 (by simp)
    obtain ⟨b1, b2, _⟩ := del_cb_body_frame (R_FAILED (remove k p)) p w
    have hstep : (UpdateConfirm.data D).del_cb (R_FAILED (remove k p)) (some w) =
        some (UpdateConfirm.del_cb_body (R_FAILED (remove k p)) p w) := by
      simp only [UpdateConfirm.data, Option.some_bind]
      exact del_cb_eq_body _ p w h0
    simp only [itemCallbacks, afterItems, hstep]
    apply ih
    intro j hj
    rw [b1, b2]
    have := hpre (j + 1) (by simpa using hj)
    rw [show w.app.delete_index + (j + 1) = w.app.delete_index + 1 + j by omega] at this
    simpa using this

theorem start_frame (s : App) :
    (UpdateConfirm.start s).entries = s.entries ∧
    (UpdateConfirm.start s).delete_entries = s.delete_entries ∧
    (UpdateConfirm.start s).delete_index = 0 ∧
    (UpdateConfirm.start s).delete_count = s.delete_count ∧
    (UpdateConfirm.start s).finished_deleting = false :=
  ⟨rfl, rfl, rfl, rfl, rfl⟩

/-- The job run to its end without a stop request, from the state the start branch
leaves. -/
theorem job_no_stop (remove : Nat → Nat → Nat) (stop : Nat → Bool) (w : World)
    (hstop : ∀ j, j < w.app.delete_entries.length → stop j = false) :
    NsDeleteAppsAsync remove stop (UpdateConfirm.data w.app.delete_entries)
        (some { w with app := UpdateConfirm.start w.app }) =
      (some (UpdateConfirm.done_cb
          (afterItems remove w.app.delete_entries 0 { w with app := UpdateConfirm.start w.app })),
        itemEvents remove w.app.delete_entries 0 ++ [WorkerEvent.done_cb]) := by
  have hl := NsDeleteAppsAsync_loop_no_stop remove stop
    (UpdateConfirm.data w.app.delete_entries) w.app.delete_entries 0
    (some { w with app := UpdateConfirm.start w.app }) (fun j hj => by simpa using hstop j hj)
  have hc := itemCallbacks_data remove w.app.delete_entries w.app.delete_entries 0
    { w with app := UpdateConfirm.start w.app } (fun j _ => by
      simp [UpdateConfirm.start])
  simp only [NsDeleteAppsAsync, NsDeleteAppsAsync.resume, UpdateConfirm.data] at hl ⊢
  rw [hl]
  simp only [UpdateConfirm.data] at hc
  simp [hc]

/-- The job in which the stop request is first seen at the check after item `n + 1`. -/
theorem job_stop_at (remove : Nat → Nat → Nat) (stop : Nat → Bool) (w : World) (n : Nat)
    (hn : n < w.app.delete_entries.length)
    (hbefore : ∀ j, j < n → stop j = false) (hat : stop n = true) :
    NsDeleteAppsAsync remove stop (UpdateConfirm.data w.app.delete_entries)
        (some { w with app := UpdateConfirm.start w.app }) =
      (some (afterItems remove (w.app.delete_entries.take (n + 1)) 0
          { w with app := UpdateConfirm.start w.app }),
        itemEvents remove (w.app.delete_entries.take (n + 1)) 0) := by
  have hl := NsDeleteAppsAsync_loop_stop_at remove stop
    (UpdateConfirm.data w.app.delete_entries) w.app.delete_entries 0 n
    (some { w with app := UpdateConfirm.start w.app }) hn
    (fun j hj => by simpa using hbefore j hj) (by simpa using hat)
  have hc := itemCallbacks_data remove w.app.delete_entries
    (w.app.delete_entries.take (n + 1)) 0
    { w with app := UpdateConfirm.start w.app } (fun j hj => by
      simp only [List.length_take] at hj
      simp only [UpdateConfirm.start, Nat.zero_add, List.getElem?_take]
      rw [if_pos (by omega)])
  simp only [NsDeleteAppsAsync, NsDeleteAppsAsync.resume, UpdateConfirm.data] at hl ⊢
  rw [hl]
  simp only [UpdateConfirm.data] at hc
  simp [hc]

/-- Whatever the stop requests, the job leaves the world after the per-item callbacks of
some prefix of the worklist, followed by `done_cb` exactly when the prefix is the whole
worklist and no stop was seen. -/
theorem job_cases (remove : Nat → Nat → Nat) (stop : Nat → Bool) (w : World) :
    ∃ (items : List Nat) (fired : Bool), items <+: w.app.delete_entries ∧
      ((NsDeleteAppsAsync remove stop (UpdateConfirm.data w.app.delete_entries)
          (some { w with app := UpdateConfirm.start w.app })).1 =
        some (if fired then UpdateConfirm.done_cb
            (afterItems remove items 0 { w with app := UpdateConfirm.start w.app })
          else afterItems remove items 0 { w with app := UpdateConfirm.start w.app })) := by
  by_cases h : ∃ j, j < w.app.delete_entries.length ∧ stop j = true
  · classical
    have hn := Nat.find_spec h
    have hmin : ∀ j, j < Nat.find h → stop j = false := by
      intro j hj
      have := Nat.find_min h hj
      simp only [not_and, Bool.not_eq_true] at this
      by_cases hjl : j < w.app.delete_entries.length
      · exact this hjl
      · omega
    refine ⟨w.app.delete_entries.take (Nat.find h + 1), false, List.take_prefix _ _, ?_⟩
    rw [job_stop_at remove stop w (Nat.find h) hn.1 hmin hn.2]
    simp
  · refine ⟨w.app.delete_entries, true, List.prefix_refl _, ?_⟩
    rw [job_no_stop remove stop w (fun j hj => by
      by_contra hc
      exact h ⟨j, hj, by simpa using hc⟩)]
    simp

theorem usub_one (a : Nat) (h1 : 1 ≤ a) (h2 : a < 2 ^ 64) : usub a 1 = a - 1 := by
  unfold usub
  omega

theorem succeededIds_length_le (remove : Nat → Nat → Nat) (items : List Nat) (k : Nat) :
    (succeededIds remove items k).length ≤ items.length := by
  induction items generalizing k with
  | nil => simp [succeededIds]
  | cons p rest ih =>
    simp only [succeededIds]
    split_ifs
    · exact (ih (k + 1)).trans (by simp)
    · simpa using ih (k + 1)

/-- The two counters the per-item callbacks decrement go down by one for each successful
removal, as long as they do not pass zero. -/
theorem afterItems_counts (remove : Nat → Nat → Nat) (items : List Nat) (k : Nat) (w : World) :
    ((succeededIds remove items k).length ≤ w.app.delete_count → w.app.delete_count < 2 ^ 64 →
      (afterItems remove items k w).app.delete_count =
        w.app.delete_count - (succeededIds remove items k).length) ∧
    ((succeededIds remove items k).length ≤ w.app.total_count → w.app.total_count < 2 ^ 64 →
      (afterItems remove items k w).app.total_count =
        w.app.total_count - (succeededIds remove items k).length) := by
  induction items generalizing k w with
  | nil => simp [afterItems, succeededIds]
  | cons p rest ih =>
    obtain ⟨ih1, ih2⟩ := ih (k + 1) (UpdateConfirm.del_cb_body (R_FAILED (remove k p)) p w)
    simp only [afterItems, succeededIds]
    by_cases hf : R_FAILED (remove k p) = true
    · simp only [hf, if_true] at ih1 ih2 ⊢
      have e1 : (UpdateConfirm.del_cb_body true p w).app.delete_count = w.app.delete_count := by
        simp [UpdateConfirm.del_cb_body]
      have e2 : (UpdateConfirm.del_cb_body true p w).app.total_count = w.app.total_count := by
        simp [UpdateConfirm.del_cb_body]
      rw [e1] at ih1
      rw [e2] at ih2
      exact ⟨ih1, ih2⟩
    · have hf2 : R_FAILED (remove k p) = false := by simpa using hf
      simp only [hf2, Bool.false_eq_true, if_false, List.length_cons] at ih1 ih2 ⊢
      have e1 : (UpdateConfirm.del_cb_body false p w).app.delete_count =
          usub w.app.delete_count 1 := by
        simp [UpdateConfirm.del_cb_body]
      have e2 : (UpdateConfirm.del_cb_body false p w).app.total_count =
          usub w.app.total_count 1 := by
        simp [UpdateConfirm.del_cb_body]
      rw [e1] at ih1
      rw [e2] at ih2
      constructor
      · intro h1 h2
        rw [usub_one _ (by omega) h2] at ih1
        rw [ih1 (by omega) (by omega)]
        omega
      · intro h1 h2
        rw [usub_one _ (by omega) h2] at ih2
        rw [ih2 (by omega) (by omega)]
        omega

/-- A completed deletion job. A deletion job over a catalog with unique identifiers whose
worklist entries are selected, run to the end without a stop request from the state the
start branch leaves: the completion callback fires exactly once, as the last event; the
store holds exactly the entries outside the worklist plus the worklist entries whose
removal failed, in their order and unchanged, each of them still marked selected; and
`delete_count` is 0, because the completion callback resets it. Just before the
completion callback `delete_count` is the number of failed removals, provided it was the
number of worklist entries when the job started. -/
theorem completed_job_resets_delete_count (remove : Nat → Nat → Nat) (stop : Nat → Bool)
    (w : World)
    (hnodup : (w.app.entries.map (fun e => e.id)).Nodup)
    (hsel : ∀ e ∈ w.app.entries, e.id ∈ w.app.delete_entries → e.selected = true)
    (hstop : ∀ j, j < w.app.delete_entries.length → stop j = false) :
    ∃ w1 before, before = afterItems remove w.app.delete_entries 0
        { w with app := UpdateConfirm.start w.app } ∧
      w1 = UpdateConfirm.done_cb before ∧
      NsDeleteAppsAsync remove stop (UpdateConfirm.data w.app.delete_entries)
          (some { w with app := UpdateConfirm.start w.app }) =
        (some w1, itemEvents remove w.app.delete_entries 0 ++ [WorkerEvent.done_cb]) ∧
      (itemEvents remove w.app.delete_entries 0 ++ [WorkerEvent.done_cb]).count
        WorkerEvent.done_cb = 1 ∧
      w1.app.entries = w.app.entries.filter
        (fun e => decide (e.id ∉ succeededIds remove w.app.delete_entries 0)) ∧
      (∀ e, e ∈ w1.app.entries ↔ e ∈ w.app.entries ∧
        ¬ ∃ j, w.app.delete_entries[j]? = some e.id ∧ R_FAILED (remove j e.id) = false) ∧
      (∀ e ∈ w1.app.entries, e.id ∈ w.app.delete_entries → e.selected = true) ∧
      w1.app.delete_count = 0 ∧ w1.app.finished_deleting = true ∧
      (w.app.delete_count = w.app.delete_entries.length →
        w.app.delete_entries.length < 2 ^ 64 →
        before.app.delete_count = w.app.delete_entries.length -
          (succeededIds remove w.app.delete_entries 0).length) := by
  have hent := afterItems_entries remove w.app.delete_entries 0
    { w with app := UpdateConfirm.start w.app } hnodup
  have hent1 : (UpdateConfirm.done_cb (afterItems remove w.app.delete_entries 0
      { w with app := UpdateConfirm.start w.app })).app.entries =
      w.app.entries.filter
        (fun e => decide (e.id ∉ succeededIds remove w.app.delete_entries 0)) := hent
  refine ⟨_, _, rfl, rfl, job_no_stop remove stop w hstop, ?_, hent1, ?_, ?_, rfl, rfl, ?_⟩
  · simp only [List.count_append, List.count_singleton_self]
    rw [List.count_eq_zero.mpr (itemEvents_no_done remove _ 0)]
  · intro e
    rw [hent1, List.mem_filter]
    simp only [decide_eq_true_eq, mem_succeededIds, Nat.zero_add]
  · intro e he _
    rw [hent1] at he
    exact hsel e (List.mem_filter.mp he).1 ‹_›
  · intro hc hlt
    have h := (afterItems_counts remove w.app.delete_entries 0
      { w with app := UpdateConfirm.start w.app }).1
    have hle := succeededIds_length_le remove w.app.delete_entries 0
    have hc0 : ({ w with app := UpdateConfirm.start w.app } : World).app.delete_count =
        w.app.delete_entries.length := hc
    rw [hc0] at h
    exact h hle hlt

/-- C12, the code at the failing input. The job over {A, B} of `confirmAB` in which the
removal of B fails runs to its end and the completion callback fires once, as the last
event. The store then holds B, still selected, and C, and not A; one removal failed.
Before the completion callback `delete_count` is 1, the number of failed removals; the
completion callback sets it to 0, so afterwards it is 0 while one entry is selected. In
the confirm view that the next draw shows, `selected_indices` is [0], and a frame with X
clears the flag of B and decrements `delete_count`, which wraps around to 2^64 - 1. -/
theorem C12_done_cb_zeroes_count_of_failed_entry :
    (NsDeleteAppsAsync (removeFailsFor [2]) (fun _ => false)
        (UpdateConfirm.data confirmAB.app.delete_entries)
        (some { confirmAB with app := UpdateConfirm.start confirmAB.app })).1.map
      (fun w1 => (w1.app.entries.map (fun e => (e.id, e.selected)), w1.app.delete_count,
        w1.app.entries.countP (fun e => e.selected))) =
      some ([(2, true), (3, false)], 0, 1) ∧
    (NsDeleteAppsAsync (removeFailsFor [2]) (fun _ => false)
        (UpdateConfirm.data confirmAB.app.delete_entries)
        (some { confirmAB with app := UpdateConfirm.start confirmAB.app })).2 =
      [WorkerEvent.removal 1, WorkerEvent.del_cb false,
        WorkerEvent.removal 2, WorkerEvent.del_cb true, WorkerEvent.done_cb] ∧
    (confirmAB.app.delete_entries.filter
      (fun id => R_FAILED (removeFailsFor [2] 0 id))).length = 1 ∧
    (afterItems (removeFailsFor [2]) confirmAB.app.delete_entries 0
      { confirmAB with app := UpdateConfirm.start confirmAB.app }).app.delete_count = 1 ∧
    completedBFails.map (fun sys =>
      (sys.world.app.entries.map (fun e => (e.id, e.selected)), sys.world.app.delete_count,
        sys.world.app.selected_indices, sys.world.app.finished_deleting)) =
      some ([(2, true), (3, false)], 0, [0], true) ∧
    (completedBFails.bind
        (UpdateConfirm (removeFailsFor [2]) pressX (frameAt 2100000000))).map
      (fun sys =>
        (sys.world.app.entries.map (fun e => (e.id, e.selected)), sys.world.app.delete_count,
          sys.world.app.entries.countP (fun e => e.selected))) =
      some ([(2, false), (3, false)], 2 ^ 64 - 1, 0) := by
  decide

/-- C13. A deletion job whose worklist is disjoint from the identifiers of the unselected
entries, started from the state the start branch leaves and run with any pattern of stop
requests (run to completion or cancelled after any item): afterwards the entries that
were not selected are all present, each unchanged in every field (name, sizes and
selected flag among them), and in the same relative order. -/
theorem C13_unselected_entries_untouched (remove : Nat → Nat → Nat) (stop : Nat → Bool)
    (w : World)
    (hdisj : ∀ e ∈ w.app.entries, e.selected = false → e.id ∉ w.app.delete_entries) :
    ∃ w1, (NsDeleteAppsAsync remove stop (UpdateConfirm.data w.app.delete_entries)
        (some { w with app := UpdateConfirm.start w.app })).1 = some w1 ∧
      w1.app.entries.filter (fun e => !e.selected) =
        w.app.entries.filter (fun e => !e.selected) := by
  obtain ⟨items, fired, hpre, hres⟩ := job_cases remove stop w
  have hfil := afterItems_filter_of_disjoint remove items 0
    { w with app := UpdateConfirm.start w.app } (fun e => !e.selected)
    (fun e he hP hmem => hdisj e he (by simpa using hP) (hpre.subset hmem))
  refine ⟨_, hres, ?_⟩
  cases fired
  · simpa using hfil
  · simpa [UpdateConfirm.done_cb] using hfil

/-- C13 on `confirmAB`: with the worklist {A, B} and a stop request seen after the first
item, the unselected entry C is kept as it was. -/
theorem C13_witness_cancelled_job :
    ∃ w1, (NsDeleteAppsAsync (removeFailsFor [2]) (fun _ => true)
        (UpdateConfirm.data confirmAB.app.delete_entries)
        (some { confirmAB with app := UpdateConfirm.start confirmAB.app })).1 = some w1 ∧
      w1.app.entries.filter (fun e => !e.selected) =
        confirmAB.app.entries.filter (fun e => !e.selected) :=
  C13_unselected_entries_untouched (removeFailsFor [2]) (fun _ => true) confirmAB (by decide)

/-- The erase loop of `del_cb` passes the image of the first matching entry to
`nvgDeleteImage` whatever its `own_image` flag, and erases that entry. -/
theorem eraseById_releases (p : Nat) (es : List AppEntry) (e : AppEntry)
    (h : es.find? (fun x => x.id == p) = some e) :
    (eraseById p es).2 = [NvgCall.deleteImage e.image] ∧
      (eraseById p es).1.length + 1 = es.length := by
  induction es with
  | nil => simp at h
  | cons x rest ih =>
    unfold eraseById
    by_cases hx : x.id = p
    · simp only [List.find?_cons, hx, beq_self_eq_true, Option.some.injEq] at h
      subst h
      simp [hx]
    · have hb : (x.id == p) = false := by simpa using hx
      simp only [List.find?_cons, hb] at h
      obtain ⟨h1, h2⟩ := ih h
      simp only [hx, if_false, List.length_cons]
      exact ⟨h1, by omega⟩

/-- C14, the code at the failing input. In `confirmAB` the default icon is handle 1, entry
A owns its decoded icon 5 and entry B holds the default icon with `own_image = false`.
The successful deletion callback for A releases handle 5 and erases A. The successful
deletion callback for B (read at `delete_index = 1`) erases B and passes handle 1, the
shared default icon, to `nvgDeleteImage`, although B does not own it and entry C still
displays it. -/
theorem C14_del_cb_releases_default_icon :
    (UpdateConfirm.del_cb false confirmAB).map
      (fun w1 => (w1.app.entries.map (fun e => e.id), w1.nvg)) =
      some ([2, 3], [NvgCall.deleteImage 5]) ∧
    confirmAB.app.default_icon_image = 1 ∧
    confirmAB.app.entries.map (fun e => (e.id, e.image, e.own_image)) =
      [(1, 5, true), (2, 1, false), (3, 1, false)] ∧
    (UpdateConfirm.del_cb false
        { confirmAB with app := { confirmAB.app with delete_index := 1 } }).map
      (fun w1 => (w1.app.entries.map (fun e => (e.id, e.image)), w1.nvg)) =
      some ([(1, 5), (3, 1)], [NvgCall.deleteImage 1]) := by
  decide

/-! ## The confirm view -/

theorem sameJobState_refl (s : App) : sameJobState s s :=
  ⟨rfl, rfl, rfl, rfl, rfl, rfl, rfl, rfl, rfl, rfl, rfl, rfl⟩

theorem sameJobState_trans {a b c : App} (h1 : sameJobState a b) (h2 : sameJobState b c) :
    sameJobState a c := by
  obtain ⟨a1, a2, a3, a4, a5, a6, a7, a8, a9, a10, a11, a12⟩ := h1
  obtain ⟨b1, b2, b3, b4, b5, b6, b7, b8, b9, b10, b11, b12⟩ := h2
  exact ⟨b1.trans a1, b2.trans a2, b3.trans a3, b4.trans a4, b5.trans a5, b6.trans a6,
    b7.trans a7, b8.trans a8, b9.trans a9, b10.trans a10, b11.trans a11, b12.trans a12⟩

theorem LoadConfirmVisibleAreaIcons_sameJobState (now : Int) (stamps : Nat → Int) (s s1 : App)
    (h : LoadConfirmVisibleAreaIcons now stamps s = some s1) : sameJobState s s1 := by
  by_cases hsel : s.selected_indices = []
  · unfold LoadConfirmVisibleAreaIcons at h
    simp only [hsel, List.isEmpty_nil, if_true, Option.some.injEq] at h
    subst h
    exact sameJobState_refl s
  · by_cases hacc : GetConfirmVisibleRange s = s.last_confirm_loaded_range ∧
        now - s.last_confirm_load_time < LOAD_DEBOUNCE_MS
    · have hne : s.selected_indices.isEmpty = false := by
        cases hs : s.selected_indices with
        | nil => exact absurd hs hsel
        | cons a as => rfl
      unfold LoadConfirmVisibleAreaIcons at h
      simp only [hne, Bool.false_eq_true, if_false] at h
      rw [if_pos (by simpa using hacc)] at h
      cases h
      exact sameJobState_refl s
    · rw [LoadConfirmVisibleAreaIcons_of_accepted now stamps s hsel hacc] at h
      obtain ⟨new, h1, _, _⟩ := LoadConfirmVisibleAreaIcons_pass_spec stamps _ _ _ _ h
      subst h1
      exact ⟨rfl, rfl, rfl, rfl, rfl, rfl, rfl, rfl, rfl, rfl, rfl, rfl⟩

theorem LoadVisibleAreaIcons_sameJobState (now : Int) (stamps : Nat → Int) (s s1 : App)
    (h : LoadVisibleAreaIcons now stamps s = some s1) : sameJobState s s1 := by
  by_cases ht : now - s.last_load_time < LOAD_DEBOUNCE_MS
  · unfold LoadVisibleAreaIcons at h
    rw [if_pos ht] at h
    cases h
    exact sameJobState_refl s
  · by_cases hr : GetVisibleRange s = s.last_loaded_range
    · unfold LoadVisibleAreaIcons at h
      simp only [if_neg ht, (GetVisibleRange_congr s now (0, 0)).1] at h
      rw [if_pos (by simp [hr])] at h
      cases h
      exact ⟨rfl, rfl, rfl, rfl, rfl, rfl, rfl, rfl, rfl, rfl, rfl, rfl⟩
    · rw [LoadVisibleAreaIcons_of_changed_range now stamps s ht hr] at h
      obtain ⟨new, h1, _, _⟩ := LoadVisibleAreaIcons_pass_spec stamps _ _ _ _ h
      subst h1
      exact ⟨rfl, rfl, rfl, rfl, rfl, rfl, rfl, rfl, rfl, rfl, rfl, rfl⟩

theorem pageUp_sameJobState (clock : FrameClock) (s s1 : App)
    (h : UpdateConfirm.pageUp clock s = some s1) : sameJobState s s1 := by
  unfold UpdateConfirm.pageUp at h
  split_ifs at h
  all_goals first
    | (cases h; exact sameJobState_refl s)
    | (refine sameJobState_trans ?_ (LoadVisibleAreaIcons_sameJobState _ _ _ _ h)
       exact ⟨rfl, rfl, rfl, rfl, rfl, rfl, rfl, rfl, rfl, rfl, rfl, rfl⟩)

theorem pageDown_sameJobState (clock : FrameClock) (s s1 : App)
    (h : UpdateConfirm.pageDown clock s = some s1) : sameJobState s s1 := by
  unfold UpdateConfirm.pageDown at h
  split_ifs at h
  all_goals first
    | (cases h; exact sameJobState_refl s)
    | (refine sameJobState_trans ?_ (LoadVisibleAreaIcons_sameJobState _ _ _ _ h)
       exact ⟨rfl, rfl, rfl, rfl, rfl, rfl, rfl, rfl, rfl, rfl, rfl, rfl⟩)

theorem up_sameJobState (s : App) : sameJobState s (UpdateConfirm.up s) := by
  unfold UpdateConfirm.up
  split_ifs
  · exact ⟨rfl, rfl, rfl, rfl, rfl, rfl, rfl, rfl, rfl, rfl, rfl, rfl⟩
  · exact sameJobState_refl s

theorem down_sameJobState (s : App) : sameJobState s (UpdateConfirm.down s) := by
  unfold UpdateConfirm.down
  split_ifs
  · exact ⟨rfl, rfl, rfl, rfl, rfl, rfl, rfl, rfl, rfl, rfl, rfl, rfl⟩
  · exact sameJobState_refl s

theorem remove_while_running (s : App)
    (hv : s.delete_thread_valid = true) (hf : s.finished_deleting = false) :
    UpdateConfirm.remove s = some s := by
  unfold UpdateConfirm.remove
  rw [if_pos ⟨hv, hf⟩]


/-- The frame of the confirm view when the start condition holds after the prefetch. -/
theorem UpdateConfirm_of_start (remove : Nat → Nat → Nat) (controller : Controller)
    (clock : FrameClock) (sys : Sys) (s1 : App)
    (hp : LoadConfirmVisibleAreaIcons clock.confirm_now clock.confirm_stamps sys.world.app =
      some s1)
    (hc : controller.RIGHT_AND_A = true ∧ ¬ s1.delete_entries.isEmpty ∧
      (s1.delete_thread_valid = false ∨ s1.finished_deleting = true)) :
    UpdateConfirm remove controller clock sys =
      some (Sys.async s1.delete_entries { sys.world with app := UpdateConfirm.start s1 }) := by
  unfold UpdateConfirm
  rw [hp]
  simp only []
  rw [if_pos hc]

/-- The frame of the confirm view when the start condition fails after the prefetch: the
chain of the other buttons. -/
theorem UpdateConfirm_of_no_start (remove : Nat → Nat → Nat) (controller : Controller)
    (clock : FrameClock) (sys : Sys) (s1 : App)
    (hp : LoadConfirmVisibleAreaIcons clock.confirm_now clock.confirm_stamps sys.world.app =
      some s1)
    (hc : ¬ (controller.RIGHT_AND_A = true ∧ ¬ s1.delete_entries.isEmpty ∧
      (s1.delete_thread_valid = false ∨ s1.finished_deleting = true))) :
    UpdateConfirm remove controller clock sys =
      if controller.B then
        if s1.delete_thread_valid = true ∧ s1.finished_deleting = false then
          UpdateConfirm.cancel remove { sys with world := { sys.world with app := s1 } }
        else (UpdateConfirm.back clock s1).map
          (fun s2 => { sys with world := { sys.world with app := s2 } })
      else
        (if controller.L then UpdateConfirm.pageUp clock s1
          else if controller.R then UpdateConfirm.pageDown clock s1
          else if controller.UP then some (UpdateConfirm.up s1)
          else if controller.DOWN then some (UpdateConfirm.down s1)
          else if controller.X then UpdateConfirm.remove s1
          else some s1).map
          (fun s2 => { sys with world := { sys.world with app := s2 } }) := by
  unfold UpdateConfirm
  rw [hp]
  simp only []
  rw [if_neg hc]
  by_cases hB : controller.B = true
  · simp only [hB, if_true]
  · simp only [hB, Bool.false_eq_true, if_false]
    split_ifs <;> rfl

/-- A frame of the confirm view without B while a job is running keeps the worker, the
rendering log, the store and the bookkeeping of the job. -/
theorem UpdateConfirm_running_no_B (remove : Nat → Nat → Nat) (controller : Controller)
    (clock : FrameClock) (sys sys1 : Sys)
    (hv : sys.world.app.delete_thread_valid = true)
    (hf : sys.world.app.finished_deleting = false)
    (hB : controller.B = false)
    (h : UpdateConfirm remove controller clock sys = some sys1) :
    sys1.worker = sys.worker ∧ sys1.world.nvg = sys.world.nvg ∧
      sameJobState sys.world.app sys1.world.app := by
  cases hp : LoadConfirmVisibleAreaIcons clock.confirm_now clock.confirm_stamps sys.world.app with
  | none =>
    unfold UpdateConfirm at h
    rw [hp] at h
    cases h
  | some s1 =>
    have hs := LoadConfirmVisibleAreaIcons_sameJobState _ _ _ _ hp
    have hv1 : s1.delete_thread_valid = true := by rw [hs.2.2.2.2.2.1]; exact hv
    have hf1 : s1.finished_deleting = false := by rw [hs.2.2.2.1]; exact hf
    have hc : ¬ (controller.RIGHT_AND_A = true ∧ ¬ s1.delete_entries.isEmpty ∧
        (s1.delete_thread_valid = false ∨ s1.finished_deleting = true)) := by
      rw [hv1, hf1]
      simp
    rw [UpdateConfirm_of_no_start remove controller clock sys s1 hp hc] at h
    simp only [hB, Bool.false_eq_true, if_false, Option.map_eq_some'] at h
    obtain ⟨s2, h2, rfl⟩ := h
    refine ⟨rfl, rfl, sameJobState_trans hs ?_⟩
    split_ifs at h2
    · exact pageUp_sameJobState clock s1 s2 h2
    · exact pageDown_sameJobState clock s1 s2 h2
    · rw [← Option.some.inj h2]
      exact up_sameJobState s1
    · have e := Option.some.inj h2
      have hd := down_sameJobState s1
      rw [e] at hd
      exact hd
    · rw [remove_while_running s1 hv1 hf1] at h2
      rw [← Option.some.inj h2]
      exact sameJobState_refl s1
    · rw [← Option.some.inj h2]
      exact sameJobState_refl s1

/-- A frame of the confirm view starts a worker only through the start branch: when the
start condition fails, the worker position after the frame is the one before it, or there
is no worker any more. -/
theorem UpdateConfirm_no_start_worker (remove : Nat → Nat → Nat) (controller : Controller)
    (clock : FrameClock) (sys sys1 : Sys) (s1 : App)
    (hp : LoadConfirmVisibleAreaIcons clock.confirm_now clock.confirm_stamps sys.world.app =
      some s1)
    (hc : ¬ (controller.RIGHT_AND_A = true ∧ ¬ s1.delete_entries.isEmpty ∧
      (s1.delete_thread_valid = false ∨ s1.finished_deleting = true)))
    (h : UpdateConfirm remove controller clock sys = some sys1) :
    sys1.worker = sys.worker ∨ sys1.worker = none := by
  rw [UpdateConfirm_of_no_start remove controller clock sys s1 hp hc] at h
  by_cases hB : controller.B = true
  · simp only [hB, if_true] at h
    split_ifs at h
    · right
      unfold UpdateConfirm.cancel Sys.requestStopAndGet at h
      simp only [Option.map_eq_some'] at h
      obtain ⟨joined, hj, rfl⟩ := h
      have hjw : joined.worker = none := by
        split at hj
        · cases hj
          assumption
        · simp only [Option.map_eq_some'] at hj
          obtain ⟨_, _, rfl⟩ := hj
          rfl
      split_ifs <;> simp [hjw]
    · left
      simp only [Option.map_eq_some'] at h
      obtain ⟨_, _, rfl⟩ := h
      rfl
  · left
    simp only [hB, Bool.false_eq_true, if_false, Option.map_eq_some'] at h
    obtain ⟨_, _, rfl⟩ := h
    rfl


/-- C15. Take a frame of the confirm view whose prefetch returns. (1) If RIGHT+A is held,
the worklist is not empty and no job is running (the handle is not valid, or
`finished_deleting` is true), the request is accepted: the frame makes the assignments
of the start branch and starts a worker on the worklist. (2) If that condition fails,
the frame starts no worker: afterwards the worker is the one there was, or none. (3) If
a job is running (handle valid, `finished_deleting` false) and B is not pressed, then
whatever else is held, RIGHT+A included, the frame leaves the worker where it was and
leaves `delete_index`, `finished_deleting`, the byte totals `deleted_nand_bytes` and
`deleted_sd_bytes`, `deleted_app_count`, the worklist, the store and the handle
unchanged and makes no rendering call; and with neither L nor R pressed the frame
returns. -/
theorem C15_start_request_guard (remove : Nat → Nat → Nat) (controller : Controller)
    (clock : FrameClock) (sys : Sys) (s1 : App)
    (hp : LoadConfirmVisibleAreaIcons clock.confirm_now clock.confirm_stamps sys.world.app =
      some s1) :
    (controller.RIGHT_AND_A = true → sys.world.app.delete_entries ≠ [] →
      (sys.world.app.delete_thread_valid = false ∨ sys.world.app.finished_deleting = true) →
      UpdateConfirm remove controller clock sys =
        some (Sys.async sys.world.app.delete_entries
          { sys.world with app := UpdateConfirm.start s1 })) ∧
    (¬ (controller.RIGHT_AND_A = true ∧ sys.world.app.delete_entries ≠ [] ∧
        (sys.world.app.delete_thread_valid = false ∨
          sys.world.app.finished_deleting = true)) →
      ∀ sys1, UpdateConfirm remove controller clock sys = some sys1 →
        sys1.worker = sys.worker ∨ sys1.worker = none) ∧
    (sys.world.app.delete_thread_valid = true → sys.world.app.finished_deleting = false →
      controller.B = false →
      (∀ sys1, UpdateConfirm remove controller clock sys = some sys1 →
        sys1.worker = sys.worker ∧
        sys1.world.app.delete_index = sys.world.app.delete_index ∧
        sys1.world.app.finished_deleting = sys.world.app.finished_deleting ∧
        sys1.world.app.deleted_nand_bytes = sys.world.app.deleted_nand_bytes ∧
        sys1.world.app.deleted_sd_bytes = sys.world.app.deleted_sd_bytes ∧
        sys1.world.app.deleted_app_count = sys.world.app.deleted_app_count ∧
        sys1.world.app.delete_entries = sys.world.app.delete_entries ∧
        sys1.world.app.entries = sys.world.app.entries ∧
        sys1.world.app.delete_thread_valid = sys.world.app.delete_thread_valid ∧
        sys1.world.nvg = sys.world.nvg) ∧
      (controller.L = false → controller.R = false →
        ∃ sys1, UpdateConfirm remove controller clock sys = some sys1)) := by
  have hs := LoadConfirmVisibleAreaIcons_sameJobState _ _ _ _ hp
  have hde : s1.delete_entries = sys.world.app.delete_entries := hs.2.1
  have hfd : s1.finished_deleting = sys.world.app.finished_deleting := hs.2.2.2.1
  have hva : s1.delete_thread_valid = sys.world.app.delete_thread_valid := hs.2.2.2.2.2.1
  have hcond : (controller.RIGHT_AND_A = true ∧ ¬ s1.delete_entries.isEmpty ∧
        (s1.delete_thread_valid = false ∨ s1.finished_deleting = true)) ↔
      (controller.RIGHT_AND_A = true ∧ sys.world.app.delete_entries ≠ [] ∧
        (sys.world.app.delete_thread_valid = false ∨
          sys.world.app.finished_deleting = true)) := by
    rw [hde, hfd, hva]
    simp [List.isEmpty_iff]
  refine ⟨?_, ?_, ?_⟩
  · intro h1 h2 h3
    rw [UpdateConfirm_of_start remove controller clock sys s1 hp (hcond.mpr ⟨h1, h2, h3⟩), hde]
  · intro hc sys1 h
    exact UpdateConfirm_no_start_worker remove controller clock sys sys1 s1 hp
      (fun hc1 => hc (hcond.mp hc1)) h
  · intro hv hf hB
    refine ⟨?_, ?_⟩
    · intro sys1 h
      obtain ⟨hw, hn, a1, a2, a3, a4, a5, a6, a7, a8, a9, _⟩ :=
        UpdateConfirm_running_no_B remove controller clock sys sys1 hv hf hB h
      exact ⟨hw, a3, a4, a7, a8, a9, a2, a1, a6, hn⟩
    · intro hL hR
      have hc : ¬ (controller.RIGHT_AND_A = true ∧ ¬ s1.delete_entries.isEmpty ∧
          (s1.delete_thread_valid = false ∨ s1.finished_deleting = true)) := by
        rw [hva, hfd, hv, hf]
        simp
      rw [UpdateConfirm_of_no_start remove controller clock sys s1 hp hc]
      simp only [hB, hL, hR, Bool.false_eq_true, if_false]
      rw [remove_while_running s1 (hva.trans hv) (hfd.trans hf)]
      split_ifs <;> exact ⟨_, rfl⟩

/-- C15 on the job over {A, B} of `confirmAB`: in the frame at 1.000000001 s the prefetch
is debounced and returns; RIGHT+A held while the job is running starts nothing and
changes nothing, and the same frame on `confirmAB` with no job running starts the job. -/
theorem C15_witness_right_a_while_running :
    LoadConfirmVisibleAreaIcons (frameAt 1000000001).confirm_now
        (frameAt 1000000001).confirm_stamps runningAB.world.app = some runningAB.world.app ∧
    ((holdRightA.RIGHT_AND_A = true → runningAB.world.app.delete_entries ≠ [] →
      (runningAB.world.app.delete_thread_valid = false ∨
        runningAB.world.app.finished_deleting = true) →
      UpdateConfirm (removeFailsFor []) holdRightA (frameAt 1000000001) runningAB =
        some (Sys.async runningAB.world.app.delete_entries
          { runningAB.world with app := UpdateConfirm.start runningAB.world.app })) ∧
    (¬ (holdRightA.RIGHT_AND_A = true ∧ runningAB.world.app.delete_entries ≠ [] ∧
        (runningAB.world.app.delete_thread_valid = false ∨
          runningAB.world.app.finished_deleting = true)) →
      ∀ sys1, UpdateConfirm (removeFailsFor []) holdRightA (frameAt 1000000001) runningAB =
          some sys1 →
        sys1.worker = runningAB.worker ∨ sys1.worker = none) ∧
    (runningAB.world.app.delete_thread_valid = true →
      runningAB.world.app.finished_deleting = false →
      holdRightA.B = false →
      (∀ sys1, UpdateConfirm (removeFailsFor []) holdRightA (frameAt 1000000001) runningAB =
          some sys1 →
        sys1.worker = runningAB.worker ∧
        sys1.world.app.delete_index = runningAB.world.app.delete_index ∧
        sys1.world.app.finished_deleting = runningAB.world.app.finished_deleting ∧
        sys1.world.app.deleted_nand_bytes = runningAB.world.app.deleted_nand_bytes ∧
        sys1.world.app.deleted_sd_bytes = runningAB.world.app.deleted_sd_bytes ∧
        sys1.world.app.deleted_app_count = runningAB.world.app.deleted_app_count ∧
        sys1.world.app.delete_entries = runningAB.world.app.delete_entries ∧
        sys1.world.app.entries = runningAB.world.app.entries ∧
        sys1.world.app.delete_thread_valid = runningAB.world.app.delete_thread_valid ∧
        sys1.world.nvg = runningAB.world.nvg) ∧
      (holdRightA.L = false → holdRightA.R = false →
        ∃ sys1, UpdateConfirm (removeFailsFor []) holdRightA (frameAt 1000000001) runningAB =
          some sys1))) ∧
    UpdateConfirm (removeFailsFor []) holdRightA (frameAt 1000000001) ⟨confirmAB, none⟩ =
      some runningAB :=
  ⟨by decide,
    C15_start_request_guard (removeFailsFor []) holdRightA (frameAt 1000000001) runningAB
      runningAB.world.app (by decide),
    (C15_start_request_guard (removeFailsFor []) holdRightA (frameAt 1000000001)
      ⟨confirmAB, none⟩ confirmAB.app (by decide)).1 (by decide) (by decide) (by decide)⟩


/-! ## The worker thread and the join -/

/-- The worker left alone visits its next items one per step. -/
theorem workerSteps_items (remove : Nat → Nat → Nat) (items rest : List Nat) (k : Nat)
    (w : World)
    (hpre : ∀ j, j < items.length →
      w.app.delete_entries[w.app.delete_index + j]? = items[j]?) :
    Sys.workerSteps remove items.length ⟨w, some ⟨items ++ rest, k⟩⟩ =
      some ⟨afterItems remove items k w, some ⟨rest, k + items.length⟩⟩ := by
  induction items generalizing k w with
  | nil => rfl
  | cons p more ih =>
    have h0 : w.app.delete_entries[w.app.delete_index]? = some p := by
      simpa using hpre 0 (by simp)
    obtain ⟨b1, b2, _⟩ := del_cb_body_frame (R_FAILED (remove k p)) p w
    have hstep : Sys.workerStep remove ⟨w, some ⟨p :: more ++ rest, k⟩⟩ =
        some ⟨UpdateConfirm.del_cb_body (R_FAILED (remove k p)) p w,
          some ⟨more ++ rest, k + 1⟩⟩ := by
      simp only [Sys.workerStep, List.cons_append]
      rw [del_cb_eq_body _ p w h0]
      rfl
    simp only [List.length_cons, Sys.workerSteps, hstep, Option.some_bind, afterItems]
    rw [ih (k + 1) _ ?_]
    · rw [show k + 1 + more.length = k + (more.length + 1) by omega]
    · intro j hj
      rw [b1, b2]
      have := hpre (j + 1) (by simpa using hj)
      rw [show w.app.delete_index + (j + 1) = w.app.delete_index + 1 + j by omega] at this
      simpa using this

/-- The worker left alone for `j` steps after the start of a job. -/
theorem workerSteps_async (remove : Nat → Nat → Nat) (w : World) (j : Nat)
    (hj : j ≤ w.app.delete_entries.length) :
    Sys.workerSteps remove j
        (Sys.async w.app.delete_entries { w with app := UpdateConfirm.start w.app }) =
      some ⟨afterItems remove (w.app.delete_entries.take j) 0
          (Sys.async w.app.delete_entries { w with app := UpdateConfirm.start w.app }).world,
        some ⟨w.app.delete_entries.drop j, j⟩⟩ := by
  have h := workerSteps_items remove (w.app.delete_entries.take j) (w.app.delete_entries.drop j) 0
    (Sys.async w.app.delete_entries { w with app := UpdateConfirm.start w.app }).world
    (fun i hi => by
      simp only [List.length_take] at hi
      simp only [Sys.async, UpdateConfirm.start, Nat.zero_add, List.getElem?_take]
      rw [if_pos (by omega)])
  rw [List.take_append_drop, List.length_take, Nat.min_eq_left hj, Nat.zero_add] at h
  exact h

/-- The join with a stop request while the worker has an item before it: the worker
finishes that item, sees the request at the check after it and returns. -/
theorem requestStopAndGet_item (remove : Nat → Nat → Nat) (sys : Sys) (p : Nat)
    (rest : List Nat) (k : Nat)
    (hw : sys.worker = some ⟨p :: rest, k⟩)
    (h0 : sys.world.app.delete_entries[sys.world.app.delete_index]? = some p) :
    Sys.requestStopAndGet remove sys =
      some ⟨{ UpdateConfirm.del_cb_body (R_FAILED (remove k p)) p sys.world with
          app := { (UpdateConfirm.del_cb_body (R_FAILED (remove k p)) p sys.world).app with
            delete_thread_valid := false } }, none⟩ ∧
    (NsDeleteAppsAsync.resume remove (fun _ => true)
        (UpdateConfirm.data sys.world.app.delete_entries) ⟨p :: rest, k⟩ (some sys.world)).2 =
      [WorkerEvent.removal p, WorkerEvent.del_cb (R_FAILED (remove k p))] := by
  have hd : (UpdateConfirm.data sys.world.app.delete_entries).del_cb (R_FAILED (remove k p))
      (some sys.world) = some (UpdateConfirm.del_cb_body (R_FAILED (remove k p)) p sys.world) := by
    simp only [UpdateConfirm.data, Option.some_bind]
    exact del_cb_eq_body _ p sys.world h0
  constructor
  · unfold Sys.requestStopAndGet
    rw [hw]
    simp only [NsDeleteAppsAsync.resume, NsDeleteAppsAsync.loop, if_true, hd]
    rfl
  · simp only [NsDeleteAppsAsync.resume, NsDeleteAppsAsync.loop, if_true]
    rfl

/-- The join with a stop request while the worker is past its last item: no stop check is
left, `done_cb` fires and the worker returns. -/
theorem requestStopAndGet_done (remove : Nat → Nat → Nat) (sys : Sys) (k : Nat)
    (hw : sys.worker = some ⟨[], k⟩) :
    Sys.requestStopAndGet remove sys =
      some ⟨{ UpdateConfirm.done_cb sys.world with
          app := { (UpdateConfirm.done_cb sys.world).app with
            delete_thread_valid := false } }, none⟩ ∧
    (NsDeleteAppsAsync.resume remove (fun _ => true)
        (UpdateConfirm.data sys.world.app.delete_entries) ⟨[], k⟩ (some sys.world)).2 =
      [WorkerEvent.done_cb] := by
  constructor
  · unfold Sys.requestStopAndGet
    rw [hw]
    rfl
  · rfl


/-- The frame of the confirm view in which B is pressed while a job is running, the
worker having an item before it: the worker finishes that item and the job is labelled
interrupted. -/
theorem UpdateConfirm_cancel_item (remove : Nat → Nat → Nat) (controller : Controller)
    (clock : FrameClock) (sys : Sys) (s1 : App) (p : Nat) (rest : List Nat) (k : Nat)
    (hB : controller.B = true)
    (hv : sys.world.app.delete_thread_valid = true)
    (hf : sys.world.app.finished_deleting = false)
    (hw : sys.worker = some ⟨p :: rest, k⟩)
    (h0 : sys.world.app.delete_entries[sys.world.app.delete_index]? = some p)
    (hp : LoadConfirmVisibleAreaIcons clock.confirm_now clock.confirm_stamps sys.world.app =
      some s1) :
    ∃ sys1, UpdateConfirm remove controller clock sys = some sys1 ∧
      sys1.worker = none ∧
      sys1.world.nvg = (UpdateConfirm.del_cb_body (R_FAILED (remove k p)) p
        { sys.world with app := s1 }).nvg ∧
      sys1.world.app.entries = (UpdateConfirm.del_cb_body (R_FAILED (remove k p)) p
        { sys.world with app := s1 }).app.entries ∧
      sys1.world.app.delete_thread_valid = false ∧
      sys1.world.app.finished_deleting = false ∧
      sys1.world.app.deletion_interrupted = true := by
  have hs := LoadConfirmVisibleAreaIcons_sameJobState _ _ _ _ hp
  have hde : s1.delete_entries = sys.world.app.delete_entries := hs.2.1
  have hdi : s1.delete_index = sys.world.app.delete_index := hs.2.2.1
  have hfd : s1.finished_deleting = false := hs.2.2.2.1.trans hf
  have hva : s1.delete_thread_valid = true := hs.2.2.2.2.2.1.trans hv
  have hc : ¬ (controller.RIGHT_AND_A = true ∧ ¬ s1.delete_entries.isEmpty ∧
      (s1.delete_thread_valid = false ∨ s1.finished_deleting = true)) := by
    rw [hva, hfd]
    simp
  have hj := (requestStopAndGet_item remove { sys with world := { sys.world with app := s1 } }
    p rest k hw (by simpa [hde, hdi] using h0)).1
  have hfin : (UpdateConfirm.del_cb_body (R_FAILED (remove k p)) p
      { sys.world with app := s1 }).app.finished_deleting = false :=
    (del_cb_body_frame _ p _).2.2.2.1.trans hfd
  rw [UpdateConfirm_of_no_start remove controller clock sys s1 hp hc]
  simp only [hB, if_true]
  rw [if_pos ⟨hva, hfd⟩]
  unfold UpdateConfirm.cancel
  rw [hj]
  simp only [Option.map_some', hfin, Bool.false_eq_true, if_false]
  exact ⟨_, rfl, rfl, rfl, rfl, rfl, rfl, rfl⟩

/-- The frame of the confirm view in which B is pressed while a job is running, the
worker being past its last item: `done_cb` fires during the join and the job is left
completed. -/
theorem UpdateConfirm_cancel_done (remove : Nat → Nat → Nat) (controller : Controller)
    (clock : FrameClock) (sys : Sys) (s1 : App) (k : Nat)
    (hB : controller.B = true)
    (hv : sys.world.app.delete_thread_valid = true)
    (hf : sys.world.app.finished_deleting = false)
    (hw : sys.worker = some ⟨[], k⟩)
    (hp : LoadConfirmVisibleAreaIcons clock.confirm_now clock.confirm_stamps sys.world.app =
      some s1) :
    ∃ sys1, UpdateConfirm remove controller clock sys = some sys1 ∧
      sys1.worker = none ∧
      sys1.world.nvg = sys.world.nvg ∧
      sys1.world.app.entries = sys.world.app.entries ∧
      sys1.world.app.delete_thread_valid = false ∧
      sys1.world.app.finished_deleting = true ∧
      sys1.world.app.deletion_interrupted = sys.world.app.deletion_interrupted := by
  have hs := LoadConfirmVisibleAreaIcons_sameJobState _ _ _ _ hp
  have hfd : s1.finished_deleting = false := hs.2.2.2.1.trans hf
  have hva : s1.delete_thread_valid = true := hs.2.2.2.2.2.1.trans hv
  have hc : ¬ (controller.RIGHT_AND_A = true ∧ ¬ s1.delete_entries.isEmpty ∧
      (s1.delete_thread_valid = false ∨ s1.finished_deleting = true)) := by
    rw [hva, hfd]
    simp
  have hj := (requestStopAndGet_done remove { sys with world := { sys.world with app := s1 } }
    k hw).1
  rw [UpdateConfirm_of_no_start remove controller clock sys s1 hp hc]
  simp only [hB, if_true]
  rw [if_pos ⟨hva, hfd⟩]
  unfold UpdateConfirm.cancel
  rw [hj]
  simp only [Option.map_some', UpdateConfirm.done_cb, if_true]
  exact ⟨_, rfl, rfl, rfl, hs.1, rfl, rfl, hs.2.2.2.2.1⟩


/-- C16, as the code behaves. B is pressed in the confirm view while a job is running
(handle valid, `finished_deleting` false), the worker standing before the rest of the
worklist from `delete_index` on, and the prefetch of the frame returns. Then the frame
returns with the worker joined and the handle invalid; `done_cb` fires during the join
exactly when the worker had no item left; the job is labelled interrupted
(`deletion_interrupted` true, `finished_deleting` false) exactly when `done_cb` did not
fire; and when `done_cb` fired `finished_deleting` is true and `deletion_interrupted` is
left as it was before the frame. -/
theorem C16_cancel_join_label (remove : Nat → Nat → Nat) (controller : Controller)
    (clock : FrameClock) (sys : Sys) (wk : Worker) (s1 : App)
    (hB : controller.B = true)
    (hv : sys.world.app.delete_thread_valid = true)
    (hf : sys.world.app.finished_deleting = false)
    (hw : sys.worker = some wk)
    (hpos : wk.remaining = sys.world.app.delete_entries.drop sys.world.app.delete_index)
    (hp : LoadConfirmVisibleAreaIcons clock.confirm_now clock.confirm_stamps sys.world.app =
      some s1) :
    ∃ sys1, UpdateConfirm remove controller clock sys = some sys1 ∧
      sys1.worker = none ∧ sys1.world.app.delete_thread_valid = false ∧
      (WorkerEvent.done_cb ∈ (NsDeleteAppsAsync.resume remove (fun _ => true)
          (UpdateConfirm.data s1.delete_entries) wk (some { sys.world with app := s1 })).2 ↔
        wk.remaining = []) ∧
      ((sys1.world.app.deletion_interrupted = true ∧
          sys1.world.app.finished_deleting = false) ↔ wk.remaining ≠ []) ∧
      (wk.remaining = [] →
        sys1.world.app.finished_deleting = true ∧
        sys1.world.app.deletion_interrupted = sys.world.app.deletion_interrupted) := by
  obtain ⟨remaining, k⟩ := wk
  have hs := LoadConfirmVisibleAreaIcons_sameJobState _ _ _ _ hp
  cases remaining with
  | nil =>
    obtain ⟨sys1, h1, h2, _, _, h5, h6, h7⟩ :=
      UpdateConfirm_cancel_done remove controller clock sys s1 k hB hv hf hw hp
    refine ⟨sys1, h1, h2, h5, ?_, ?_, fun _ => ⟨h6, h7⟩⟩
    · rw [(requestStopAndGet_done remove { sys with world := { sys.world with app := s1 } }
        k hw).2]
      simp
    · rw [h6]
      simp
  | cons p rest =>
    have h0 : sys.world.app.delete_entries[sys.world.app.delete_index]? = some p := by
      have := congrArg List.head? hpos
      simp only [List.head?_cons, List.head?_drop] at this
      exact this.symm
    obtain ⟨sys1, h1, h2, _, _, h5, h6, h7⟩ :=
      UpdateConfirm_cancel_item remove controller clock sys s1 p rest k hB hv hf hw h0 hp
    refine ⟨sys1, h1, h2, h5, ?_, ?_, fun hc => by cases hc⟩
    · rw [(requestStopAndGet_item remove { sys with world := { sys.world with app := s1 } }
        p rest k hw (by simpa [hs.2.1, hs.2.2.1] using h0)).2]
      simp
    · rw [h6, h7]
      simp

/-- C16 on the job over {A, B} of `confirmAB` just started: B in the frame at
1.000000001 s joins a worker that has both items before it, `done_cb` does not fire and
the job is labelled interrupted. -/
theorem C16_witness_interrupted_before_first_item :
    ∃ sys1, UpdateConfirm (removeFailsFor []) pressB (frameAt 1000000001) runningAB =
        some sys1 ∧
      sys1.worker = none ∧ sys1.world.app.delete_thread_valid = false ∧
      (WorkerEvent.done_cb ∈ (NsDeleteAppsAsync.resume (removeFailsFor []) (fun _ => true)
          (UpdateConfirm.data runningAB.world.app.delete_entries) ⟨[1, 2], 0⟩
          (some { runningAB.world with app := runningAB.world.app })).2 ↔
        (⟨[1, 2], 0⟩ : Worker).remaining = []) ∧
      ((sys1.world.app.deletion_interrupted = true ∧
          sys1.world.app.finished_deleting = false) ↔
        (⟨[1, 2], 0⟩ : Worker).remaining ≠ []) ∧
      ((⟨[1, 2], 0⟩ : Worker).remaining = [] →
        sys1.world.app.finished_deleting = true ∧
        sys1.world.app.deletion_interrupted = runningAB.world.app.deletion_interrupted) :=
  C16_cancel_join_label (removeFailsFor []) pressB (frameAt 1000000001) runningAB ⟨[1, 2], 0⟩
    runningAB.world.app (by decide) (by decide) (by decide) (by decide) (by decide) (by decide)

/-- C16 as stated fails after a restart. In `restartedAB` a first job was interrupted and
a second one, started in the same confirm view, is running with the worker before the
call of `done_cb`. B pressed in that frame joins the worker, `done_cb` fires during the
join, and afterwards `finished_deleting` is true while `deletion_interrupted` is still
true, not false. -/
theorem C16_counterexample_completed_keeps_interrupted_flag :
    restartedAB.map (fun sys => (sys.world.app.delete_thread_valid,
        sys.world.app.finished_deleting, sys.world.app.deletion_interrupted, sys.worker)) =
      some (true, false, true, some ⟨[], 2⟩) ∧
    (restartedAB.bind (UpdateConfirm (removeFailsFor [1]) pressB (frameAt 1000000004))).map
        (fun sys1 => (sys1.world.app.delete_thread_valid, sys1.world.app.finished_deleting,
          sys1.world.app.deletion_interrupted, sys1.worker)) =
      some (false, true, true, none) := by
  decide


/-- The prefetch of the confirm view returns when the first visible row is within the
selection: the unsigned difference handed to `reserve` does not wrap around. -/
theorem LoadConfirmVisibleAreaIcons_returns (now : Int) (stamps : Nat → Int) (s : App)
    (hcur : s.confirm_start ≤ s.selected_indices.length)
    (hlen : s.selected_indices.length + 6 < 2 ^ 64) :
    ∃ s1, LoadConfirmVisibleAreaIcons now stamps s = some s1 := by
  have hm : LoadInfo.vector_max_size = 576460752303423487 := by
    norm_num [LoadInfo.vector_max_size]
  by_cases hsel : s.selected_indices = []
  · unfold LoadConfirmVisibleAreaIcons
    simp only [hsel, List.isEmpty_nil, if_true]
    exact ⟨_, rfl⟩
  · have hne : s.selected_indices.isEmpty = false := by
      cases hs : s.selected_indices with
      | nil => exact absurd hs hsel
      | cons a as => rfl
    by_cases hacc : GetConfirmVisibleRange s = s.last_confirm_loaded_range ∧
        now - s.last_confirm_load_time < LOAD_DEBOUNCE_MS
    · unfold LoadConfirmVisibleAreaIcons
      simp only [hne, Bool.false_eq_true, if_false]
      rw [if_pos (by simpa using hacc)]
      exact ⟨_, rfl⟩
    · rw [LoadConfirmVisibleAreaIcons_of_accepted now stamps s hsel hacc]
      simp only [LoadConfirmVisibleAreaIcons.pass, GetConfirmVisibleRange, hne,
        Bool.false_eq_true, if_false, MAX_VISIBLE_ITEMS, PRELOAD_BUFFER]
      rw [if_neg (by rw [hm]; omega)]
      split_ifs <;> exact ⟨_, rfl⟩

theorem del_cb_body_view_frame (error : Bool) (p : Nat) (w : World) :
    (UpdateConfirm.del_cb_body error p w).app.selected_indices = w.app.selected_indices ∧
    (UpdateConfirm.del_cb_body error p w).app.confirm_start = w.app.confirm_start := by
  unfold UpdateConfirm.del_cb_body
  cases error <;> simp

theorem afterItems_view_frame (remove : Nat → Nat → Nat) (items : List Nat) (k : Nat)
    (w : World) :
    (afterItems remove items k w).app.selected_indices = w.app.selected_indices ∧
    (afterItems remove items k w).app.confirm_start = w.app.confirm_start := by
  induction items generalizing k w with
  | nil => simp [afterItems]
  | cons p rest ih =>
    obtain ⟨a1, a2⟩ := ih (k + 1) (UpdateConfirm.del_cb_body (R_FAILED (remove k p)) p w)
    obtain ⟨b1, b2⟩ := del_cb_body_view_frame (R_FAILED (remove k p)) p w
    simp only [afterItems]
    exact ⟨a1.trans b1, a2.trans b2⟩

theorem afterItems_append (remove : Nat → Nat → Nat) (a b : List Nat) (k : Nat) (w : World) :
    afterItems remove (a ++ b) k w =
      afterItems remove b (k + a.length) (afterItems remove a k w) := by
  induction a generalizing k w with
  | nil => simp [afterItems]
  | cons p rest ih =>
    have e := ih (k + 1) (UpdateConfirm.del_cb_body (R_FAILED (remove k p)) p w)
    rw [show k + 1 + rest.length = k + (rest.length + 1) by omega] at e
    simp only [List.cons_append, afterItems, List.length_cons]
    exact e


/-- C17. A job over the worklist W of a catalog with unique identifiers is started, the
worker runs k - 1 items undisturbed (1 ≤ k ≤ |W|), and then B is pressed in the confirm
view, whose first visible row is within the selection: the frame requests the stop and
joins, the worker finishes item k, observes the request at the check after it and
returns. The worker steps and the frame return. Afterwards there is no worker, the
handle is invalid, `delete_thread.valid() && !finished_deleting` is false, and the store
is the initial store without exactly those entries whose identifier is among the first k
worklist items with a successful removal, in the initial order and unchanged: the
entries of failed removals among the first k and of the items after k are kept. -/
theorem C17_cancel_then_join (remove : Nat → Nat → Nat) (controller : Controller)
    (clock : FrameClock) (w : World) (k : Nat)
    (hnodup : (w.app.entries.map (fun e => e.id)).Nodup)
    (hk1 : 1 ≤ k) (hk : k ≤ w.app.delete_entries.length)
    (hB : controller.B = true)
    (hcur : w.app.confirm_start ≤ w.app.selected_indices.length)
    (hlen : w.app.selected_indices.length + 6 < 2 ^ 64) :
    ∃ sysB sys1,
      Sys.workerSteps remove (k - 1)
          (Sys.async w.app.delete_entries { w with app := UpdateConfirm.start w.app }) =
        some sysB ∧
      UpdateConfirm remove controller clock sysB = some sys1 ∧
      sys1.worker = none ∧
      sys1.world.app.delete_thread_valid = false ∧
      (sys1.world.app.delete_thread_valid && !sys1.world.app.finished_deleting) = false ∧
      sys1.world.app.entries = w.app.entries.filter
        (fun e => decide (e.id ∉ succeededIds remove (w.app.delete_entries.take k) 0)) ∧
      (∀ e, e ∈ sys1.world.app.entries ↔ e ∈ w.app.entries ∧
        ¬ ∃ j, j < k ∧ w.app.delete_entries[j]? = some e.id ∧
          R_FAILED (remove j e.id) = false) := by
  obtain ⟨j, rfl⟩ : ∃ j, k = j + 1 := ⟨k - 1, by omega⟩
  have hj : j < w.app.delete_entries.length := by omega
  have hsteps := workerSteps_async remove w j (by omega)
  obtain ⟨f1, f2, _, f4, _, f6⟩ := afterItems_frame remove (w.app.delete_entries.take j) 0
    (Sys.async w.app.delete_entries { w with app := UpdateConfirm.start w.app }).world
  obtain ⟨v1, v2⟩ := afterItems_view_frame remove (w.app.delete_entries.take j) 0
    (Sys.async w.app.delete_entries { w with app := UpdateConfirm.start w.app }).world
  have hdrop : w.app.delete_entries.drop j =
      w.app.delete_entries[j] :: w.app.delete_entries.drop (j + 1) :=
    List.drop_eq_getElem_cons hj
  rw [hdrop] at hsteps
  obtain ⟨s1, hp⟩ := LoadConfirmVisibleAreaIcons_returns clock.confirm_now clock.confirm_stamps
    (afterItems remove (w.app.delete_entries.take j) 0
      (Sys.async w.app.delete_entries { w with app := UpdateConfirm.start w.app }).world).app
    (by rw [v1, v2]; exact hcur) (by rw [v1]; exact hlen)
  have hs := LoadConfirmVisibleAreaIcons_sameJobState _ _ _ _ hp
  obtain ⟨sys1, h1, h2, _, h4, h5, _, _⟩ :=
    UpdateConfirm_cancel_item remove controller clock
      ⟨afterItems remove (w.app.delete_entries.take j) 0
          (Sys.async w.app.delete_entries { w with app := UpdateConfirm.start w.app }).world,
        some ⟨w.app.delete_entries[j] :: w.app.delete_entries.drop (j + 1), j⟩⟩
      s1 w.app.delete_entries[j] (w.app.delete_entries.drop (j + 1)) j hB
      (by rw [f6]; rfl) (by rw [f4]; rfl) rfl
      (by
        rw [f1, f2]
        simp only [Sys.async, UpdateConfirm.start, Nat.zero_add, List.length_take,
          Nat.min_eq_left (Nat.le_of_lt hj)]
        exact List.getElem?_eq_getElem hj)
      hp
  have hent : sys1.world.app.entries = w.app.entries.filter
      (fun e => decide (e.id ∉ succeededIds remove (w.app.delete_entries.take (j + 1)) 0)) := by
    rw [h4, del_cb_body_entries]
    have happ := afterItems_append remove (w.app.delete_entries.take j)
      [w.app.delete_entries[j]] 0
      (Sys.async w.app.delete_entries { w with app := UpdateConfirm.start w.app }).world
    have htake : w.app.delete_entries.take (j + 1) =
        w.app.delete_entries.take j ++ [w.app.delete_entries[j]] := by
      rw [List.take_succ, List.getElem?_eq_getElem hj]
      rfl
    have hall : (afterItems remove (w.app.delete_entries.take (j + 1)) 0
        (Sys.async w.app.delete_entries
          { w with app := UpdateConfirm.start w.app }).world).app.entries =
        w.app.entries.filter (fun e => decide (e.id ∉
          succeededIds remove (w.app.delete_entries.take (j + 1)) 0)) :=
      afterItems_entries remove (w.app.delete_entries.take (j + 1)) 0
        (Sys.async w.app.delete_entries { w with app := UpdateConfirm.start w.app }).world hnodup
    refine Eq.trans ?_ hall
    rw [htake, happ]
    simp only [afterItems, List.length_take, Nat.min_eq_left (Nat.le_of_lt hj), Nat.zero_add]
    rw [del_cb_body_entries]
    show (if R_FAILED (remove j w.app.delete_entries[j]) = true then s1.entries
      else (eraseById w.app.delete_entries[j] s1.entries).1) = _
    rw [hs.1]
  refine ⟨_, sys1, hsteps, h1, h2, h5, by rw [h5]; rfl, hent, ?_⟩
  intro e
  rw [hent, List.mem_filter]
  simp only [decide_eq_true_eq, mem_succeededIds, Nat.zero_add, List.getElem?_take]
  constructor
  · rintro ⟨he, hno⟩
    refine ⟨he, ?_⟩
    rintro ⟨i, hi, hget, hok⟩
    exact hno ⟨i, by rw [if_pos hi]; exact hget, hok⟩
  · rintro ⟨he, hno⟩
    refine ⟨he, ?_⟩
    rintro ⟨i, hget, hok⟩
    by_cases hi : i < j + 1
    · rw [if_pos hi] at hget
      exact hno ⟨i, hi, hget, hok⟩
    · rw [if_neg hi] at hget
      cases hget

/-- C17 on the job over {A, B} of `confirmAB` where every removal succeeds, with k = 1:
B is pressed before the worker has finished its first item. -/
theorem C17_witness_cancel_after_first_item :
    ∃ sysB sys1,
      Sys.workerSteps (removeFailsFor []) (1 - 1)
          (Sys.async confirmAB.app.delete_entries
            { confirmAB with app := UpdateConfirm.start confirmAB.app }) =
        some sysB ∧
      UpdateConfirm (removeFailsFor []) pressB (frameAt 1000000001) sysB = some sys1 ∧
      sys1.worker = none ∧
      sys1.world.app.delete_thread_valid = false ∧
      (sys1.world.app.delete_thread_valid && !sys1.world.app.finished_deleting) = false ∧
      sys1.world.app.entries = confirmAB.app.entries.filter
        (fun e => decide (e.id ∉
          succeededIds (removeFailsFor []) (confirmAB.app.delete_entries.take 1) 0)) ∧
      (∀ e, e ∈ sys1.world.app.entries ↔ e ∈ confirmAB.app.entries ∧
        ¬ ∃ j, j < 1 ∧ confirmAB.app.delete_entries[j]? = some e.id ∧
          R_FAILED (removeFailsFor [] j e.id) = false) :=
  C17_cancel_then_join (removeFailsFor []) pressB (frameAt 1000000001) confirmAB 1
    (by decide) (by decide) (by decide) (by decide) (by decide) (by decide)


/-! ## The counters -/

theorem FastScanNames_loop_counts (env : ScanEnv) (ids : List Nat) (count : Nat) (s : App) :
    (FastScanNames.loop env ids count s).scanned_count ≤ s.scanned_count + ids.length ∧
    (FastScanNames.loop env ids count s).total_count = s.total_count := by
  induction ids generalizing count s with
  | nil => simp [FastScanNames.loop]
  | cons id rest ih =>
    unfold FastScanNames.loop
    split_ifs
    · simp
    · obtain ⟨h1, h2⟩ := ih (count + 1) (FastScanNames.body env id count s)
      obtain ⟨b1, b2, _⟩ := FastScanNames_body_frame env id count s
      rw [b1] at h1
      rw [b2] at h2
      refine ⟨?_, h2⟩
      simp only [List.length_cons]
      omega

theorem FastScanNames_counts (env : ScanEnv) (fuel : Nat) (s s1 : App)
    (h : FastScanNames env fuel s = some s1) : s1.scanned_count ≤ s1.total_count := by
  unfold FastScanNames at h
  cases hg : GetAllApplicationIds env.nsListApplicationRecord fuel with
  | none => simp [hg] at h
  | some r =>
    obtain ⟨result, app_ids⟩ := r
    simp only [hg, Option.some.injEq] at h
    subst h
    split_ifs
    · exact Nat.zero_le _
    · exact Nat.zero_le _
    · have hl := FastScanNames_loop_counts env app_ids 0
        { s with is_scan_running := true, scanned_count := 0, total_count := app_ids.length }
      show (FastScanNames.loop env app_ids 0 _).scanned_count ≤
        (FastScanNames.loop env app_ids 0 _).total_count
      rw [hl.2]
      simpa using hl.1

/-- C18, as the code behaves. The scan leaves `scanned_count ≤ total_count` whatever the
enumeration returns and wherever a stop request ends it, and one scan step keeps the
bound while identifiers remain; `done_cb` and a `del_cb` call for a failed removal
change neither counter. A `del_cb` call for a successful removal leaves `scanned_count`
and decrements `total_count`, so after a complete scan (`scanned_count = total_count`)
it leaves `total_count < scanned_count`. -/
theorem C18_counters_under_scan_and_deletion (env : ScanEnv) (fuel : Nat) (s : App)
    (w : World) (p : Nat)
    (h0 : w.app.delete_entries[w.app.delete_index]? = some p) :
    (∀ s1, FastScanNames env fuel s = some s1 → s1.scanned_count ≤ s1.total_count) ∧
    (∀ id count, s.scanned_count < s.total_count →
      (FastScanNames.body env id count s).scanned_count ≤
        (FastScanNames.body env id count s).total_count) ∧
    ((UpdateConfirm.done_cb w).app.scanned_count = w.app.scanned_count ∧
      (UpdateConfirm.done_cb w).app.total_count = w.app.total_count) ∧
    (∃ w1, UpdateConfirm.del_cb true w = some w1 ∧
      w1.app.scanned_count = w.app.scanned_count ∧ w1.app.total_count = w.app.total_count) ∧
    (∃ w2, UpdateConfirm.del_cb false w = some w2 ∧
      w2.app.scanned_count = w.app.scanned_count ∧
      w2.app.total_count = usub w.app.total_count 1 ∧
      (w.app.scanned_count = w.app.total_count → 0 < w.app.total_count →
        w.app.total_count < 2 ^ 64 → w2.app.total_count < w2.app.scanned_count)) := by
  refine ⟨fun s1 h => FastScanNames_counts env fuel s s1 h, ?_, ⟨rfl, rfl⟩, ?_, ?_⟩
  · intro id count hlt
    obtain ⟨b1, b2, _⟩ := FastScanNames_body_frame env id count s
    rw [b1, b2]
    omega
  · exact ⟨_, rfl, rfl, rfl⟩
  · refine ⟨_, del_cb_eq_body false p w h0, rfl, rfl, ?_⟩
    intro he hpos hlt
    show usub w.app.total_count 1 < w.app.scanned_count
    rw [usub_one _ hpos hlt, he]
    omega

/-- C18 on `confirmAB`, whose scan is complete with three entries, and the scan of
`demoEnv` from the empty catalog. -/
theorem C18_witness_confirmAB :
    (∀ s1, FastScanNames (demoEnv none) 11 {} = some s1 →
      s1.scanned_count ≤ s1.total_count) ∧
    (∀ id count, ({} : App).scanned_count < ({} : App).total_count →
      (FastScanNames.body (demoEnv none) id count {}).scanned_count ≤
        (FastScanNames.body (demoEnv none) id count {}).total_count) ∧
    ((UpdateConfirm.done_cb confirmAB).app.scanned_count = confirmAB.app.scanned_count ∧
      (UpdateConfirm.done_cb confirmAB).app.total_count = confirmAB.app.total_count) ∧
    (∃ w1, UpdateConfirm.del_cb true confirmAB = some w1 ∧
      w1.app.scanned_count = confirmAB.app.scanned_count ∧
      w1.app.total_count = confirmAB.app.total_count) ∧
    (∃ w2, UpdateConfirm.del_cb false confirmAB = some w2 ∧
      w2.app.scanned_count = confirmAB.app.scanned_count ∧
      w2.app.total_count = usub confirmAB.app.total_count 1 ∧
      (confirmAB.app.scanned_count = confirmAB.app.total_count →
        0 < confirmAB.app.total_count →
        confirmAB.app.total_count < 2 ^ 64 → w2.app.total_count < w2.app.scanned_count)) :=
  C18_counters_under_scan_and_deletion (demoEnv none) 11 {} confirmAB 1 (by decide)

/-- C18 as stated fails on a per-item deletion callback. The complete scan of the ten
identifiers of `demoEnv` leaves both counters at 10; with the worklist {3}, the `del_cb`
call for the successful removal of 3 erases the entry and leaves `scanned_count` 10 and
`total_count` 9. -/
theorem C18_counterexample_successful_del_cb :
    scannedCatalog.map (fun s => (s.scanned_count, s.total_count, s.entries.length)) =
      some (10, 10, 10) ∧
    (scannedCatalog.bind (fun s =>
        UpdateConfirm.del_cb false ⟨{ s with delete_entries := [3], delete_count := 1 }, []⟩)).map
      (fun w => (w.app.scanned_count, w.app.total_count, w.app.entries.length)) =
      some (10, 9, 9) := by
  decide


/-! ## The icon-load unit of work -/

theorem IsValidJpegData_eq (data : List Nat) :
    IsValidJpegData data = some (decide (4 ≤ data.length ∧ data[0]? = some 0xFF ∧
      data[1]? = some 0xD8 ∧ data[data.length - 2]? = some 0xFF ∧
      data[data.length - 1]? = some 0xD9)) := by
  unfold IsValidJpegData
  by_cases h : data.length < 4
  · rw [if_pos h]
    congr 1
    symm
    rw [decide_eq_false_iff_not]
    omega
  · rw [if_neg h]
    have e0 : data[0]? = some data[0] := List.getElem?_eq_getElem (by omega)
    have e1 : data[1]? = some data[1] := List.getElem?_eq_getElem (by omega)
    have e2 : data[data.length - 2]? = some data[data.length - 2] :=
      List.getElem?_eq_getElem (by omega)
    have e3 : data[data.length - 1]? = some data[data.length - 1] :=
      List.getElem?_eq_getElem (by omega)
    rw [e0, e1, e2, e3]
    have h4 : 4 ≤ data.length := by omega
    by_cases c0 : data[0] = 0xFF <;> by_cases c1 : data[1] = 0xD8 <;>
      by_cases c2 : data[data.length - 2] = 0xFF <;>
      by_cases c3 : data[data.length - 1] = 0xD9 <;>
      simp [c0, c1, c2, c3, h4]

theorem swapImage_calls (d : Int) (id : Nat) (img : Int) (es : List AppEntry) :
    ∀ c ∈ (swapImage d id img es).2, ∃ h, c = NvgCall.deleteImage h := by
  induction es with
  | nil => simp [swapImage]
  | cons it rest ih =>
    unfold swapImage
    split_ifs
    · intro c hc
      simp only [List.mem_singleton] at hc
      exact ⟨_, hc⟩
    · intro c hc
      simp at hc
    · exact ih

/-- What one icon-load unit of work does to the rendering log and the entries: nothing, or
one decoder call on bytes that passed `IsValidJpegData`, followed when the decoder
returned a positive handle by the swap. -/
theorem load_callback_cases (decode : List Nat → Int) (id : Nat) (w : World) :
    load_callback decode id w = some w ∨
    ∃ it img r,
      w.app.entries.find? (fun entry => entry.id == id && entry.has_cached_icon) = some it ∧
      IsValidJpegData it.cached_icon_data = some true ∧
      img = decode it.cached_icon_data ∧
      r = swapImage w.app.default_icon_image id img w.app.entries ∧
      (load_callback decode id w =
          some { w with nvg := w.nvg ++ [NvgCall.createImageMem it.cached_icon_data img] } ∧
          ¬ 0 < img ∨
        load_callback decode id w =
          some { app := { w.app with entries := r.1 },
                 nvg := (w.nvg ++ [NvgCall.createImageMem it.cached_icon_data img]) ++ r.2 } ∧
          0 < img) := by
  unfold load_callback
  cases hfind : w.app.entries.find? (fun entry => entry.id == id && entry.has_cached_icon) with
  | none => left; rfl
  | some it =>
    simp only
    by_cases hemp : it.cached_icon_data.isEmpty = true
    · left
      rw [if_pos hemp]
    · rw [if_neg hemp, IsValidJpegData_eq]
      by_cases hv : (4 ≤ it.cached_icon_data.length ∧ it.cached_icon_data[0]? = some 0xFF ∧
          it.cached_icon_data[1]? = some 0xD8 ∧
          it.cached_icon_data[it.cached_icon_data.length - 2]? = some 0xFF ∧
          it.cached_icon_data[it.cached_icon_data.length - 1]? = some 0xD9)
      · right
        refine ⟨it, _, _, rfl, by rw [IsValidJpegData_eq, decide_eq_true hv], rfl, rfl, ?_⟩
        rw [decide_eq_true hv]
        simp only
        by_cases hpos : decode it.cached_icon_data > 0
        · right
          rw [if_pos hpos]
          exact ⟨rfl, hpos⟩
        · left
          rw [if_neg hpos]
          exact ⟨rfl, hpos⟩
      · left
        rw [decide_eq_false hv]

/-- C20. For every byte sequence, `IsValidJpegData` returns, reading only inside the
sequence, and its result is true exactly when the sequence has at least 4 bytes, starts
with 0xFF 0xD8 and ends with 0xFF 0xD9. An icon-load unit of work returns as well, and
it calls the decoder at most once and only on bytes for which `IsValidJpegData` is true:
the rendering log is left as it was or extended by one `nvgCreateImageMem` call on such
bytes, followed by `nvgDeleteImage` calls only. -/
theorem C20_jpeg_check_guards_decoder (data : List Nat) (decode : List Nat → Int)
    (application_id : Nat) (w : World) :
    IsValidJpegData data = some (decide (4 ≤ data.length ∧ data[0]? = some 0xFF ∧
      data[1]? = some 0xD8 ∧ data[data.length - 2]? = some 0xFF ∧
      data[data.length - 1]? = some 0xD9)) ∧
    ∃ w1, load_callback decode application_id w = some w1 ∧
      (w1.nvg = w.nvg ∨
        ∃ d releases, w1.nvg = w.nvg ++ NvgCall.createImageMem d (decode d) :: releases ∧
          IsValidJpegData d = some true ∧
          ∀ c ∈ releases, ∃ h, c = NvgCall.deleteImage h) := by
  refine ⟨IsValidJpegData_eq data, ?_⟩
  rcases load_callback_cases decode application_id w with
    h | ⟨it, img, r, _, hv, rfl, rfl, h | h⟩
  · exact ⟨w, h, Or.inl rfl⟩
  · exact ⟨_, h.1, Or.inr ⟨it.cached_icon_data, [], rfl, hv, by simp⟩⟩
  · refine ⟨_, h.1, Or.inr ⟨it.cached_icon_data,
      (swapImage w.app.default_icon_image application_id (decode it.cached_icon_data)
        w.app.entries).2, ?_, hv, swapImage_calls _ _ _ _⟩⟩
    simp


theorem TryGetAppBasicInfoWithIconCache_image (env : ScanEnv) (d : Int) (id : Nat)
    (entry : AppEntry) (h : (TryGetAppBasicInfoWithIconCache env d id entry).1 = true) :
    (TryGetAppBasicInfoWithIconCache env d id entry).2.image = d ∧
    (TryGetAppBasicInfoWithIconCache env d id entry).2.own_image = false := by
  unfold TryGetAppBasicInfoWithIconCache at h ⊢
  cases hc : env.nxtcGetApplicationMetadataEntryById id with
  | some md =>
    simp only [hc] at h ⊢
    cases hi : md.icon_data with
    | none => exact ⟨rfl, rfl⟩
    | some bytes =>
      simp only
      split_ifs <;> exact ⟨rfl, rfl⟩
  | none =>
    simp only [hc] at h ⊢
    split_ifs at h ⊢ <;> exact ⟨rfl, rfl⟩

/-- The entry a scan iteration appends shows the default icon and does not own it. -/
theorem scanEntry_image (env : ScanEnv) (d : Int) (c : String) (id : Nat) :
    (scanEntry env d c id).1.image = d ∧ (scanEntry env d c id).1.own_image = false := by
  cases hr : (TryGetAppBasicInfoWithIconCache env d id AppEntry.fresh).1 with
  | true =>
    obtain ⟨h1, h2⟩ := TryGetAppBasicInfoWithIconCache_image env d id AppEntry.fresh hr
    obtain ⟨_, _, g3, g4, _⟩ := GetAppSizeInfo_frame env id
      (TryGetAppBasicInfoWithIconCache env d id AppEntry.fresh).2
    unfold scanEntry
    simp only [hr, Bool.not_true, Bool.false_eq_true, if_false, if_true]
    exact ⟨g3.trans h1, g4.trans h2⟩
  | false =>
    unfold scanEntry
    simp [hr]

theorem swapImage_mem (d : Int) (id : Nat) (img : Int) (es : List AppEntry) :
    ∀ e ∈ (swapImage d id img es).1, e ∈ es ∨ (e.image = img ∧ e.own_image = true) := by
  induction es with
  | nil => simp [swapImage]
  | cons it rest ih =>
    intro e he
    by_cases hid : it.id = id
    · simp only [swapImage, hid, if_true] at he
      rcases List.mem_cons.mp he with h | h
      · right
        rw [h]
        exact ⟨rfl, rfl⟩
      · left
        exact List.mem_cons_of_mem _ h
    · simp only [swapImage, hid, if_false] at he
      rcases List.mem_cons.mp he with h | h
      · left
        rw [h]
        exact List.mem_cons_self _ _
      · rcases ih e h with h1 | h1
        · left
          exact List.mem_cons_of_mem _ h1
        · right
          exact h1

/-- The swap puts the new handle into an entry with the identifier when there is one. -/
theorem swapImage_swaps (d : Int) (id : Nat) (img : Int) (es : List AppEntry)
    (h : ∃ e ∈ es, e.id = id) :
    ∃ e ∈ (swapImage d id img es).1, e.id = id ∧ e.image = img ∧ e.own_image = true := by
  induction es with
  | nil =>
    obtain ⟨e, he, _⟩ := h
    cases he
  | cons it rest ih =>
    unfold swapImage
    by_cases hid : it.id = id
    · rw [if_pos hid]
      exact ⟨_, List.mem_cons_self _ _, hid, rfl, rfl⟩
    · rw [if_neg hid]
      obtain ⟨e, he, heid⟩ := h
      rcases List.mem_cons.mp he with h1 | h1
      · rw [h1] at heid
        exact absurd heid hid
      · obtain ⟨e1, he1, r⟩ := ih ⟨e, h1, heid⟩
        exact ⟨e1, List.mem_cons_of_mem _ he1, r⟩

/-- The invariant of the reachable states: an entry that does not own its image shows the
default icon; an entry that owns its image holds a positive handle, other than the
default icon, that a decoder call on checked bytes returned; and no positive handle a
decoder call returned is the default icon. -/
theorem CatalogReachable_inv (env : ScanEnv) (w : World) (h : CatalogReachable env w) :
    (∀ e ∈ w.app.entries,
      (e.own_image = false → e.image = w.app.default_icon_image) ∧
      (e.own_image = true → e.image ≠ w.app.default_icon_image ∧ 0 < e.image ∧
        ∃ data, IsValidJpegData data = some true ∧
          NvgCall.createImageMem data e.image ∈ w.nvg)) ∧
    (∀ data img, NvgCall.createImageMem data img ∈ w.nvg → 0 < img →
      img ≠ w.app.default_icon_image) := by
  induction h with
  | init w hentries hnvg =>
    rw [hentries, hnvg]
    refine ⟨?_, ?_⟩
    · intro e he
      cases he
    · intro data img hm
      cases hm
  | scan w id count _ ih =>
    obtain ⟨ih1, ih2⟩ := ih
    obtain ⟨_, _, bd, _⟩ := FastScanNames_body_frame env id count w.app
    have be := FastScanNames_body_entries env id count w.app
    refine ⟨?_, ?_⟩
    · intro e he
      show (e.own_image = false →
          e.image = (FastScanNames.body env id count w.app).default_icon_image) ∧
        (e.own_image = true →
          e.image ≠ (FastScanNames.body env id count w.app).default_icon_image ∧
          0 < e.image ∧ ∃ data, IsValidJpegData data = some true ∧
            NvgCall.createImageMem data e.image ∈ w.nvg)
      rw [bd]
      have he1 : e ∈ w.app.entries ++
          [(scanEntry env w.app.default_icon_image w.app.corrupted_install id).1] := by
        rw [← be]
        exact he
      rcases List.mem_append.mp he1 with h1 | h1
      · exact ih1 e h1
      · rw [List.mem_singleton] at h1
        obtain ⟨s1, s2⟩ := scanEntry_image env w.app.default_icon_image
          w.app.corrupted_install id
        rw [h1]
        refine ⟨fun _ => s1, fun ho => ?_⟩
        rw [s2] at ho
        cases ho
    · intro data img hm hpos
      show img ≠ (FastScanNames.body env id count w.app).default_icon_image
      rw [bd]
      exact ih2 data img hm hpos
  | load w w1 decode id _ hfresh hload ih =>
    obtain ⟨ih1, ih2⟩ := ih
    rcases load_callback_cases decode id w with
      hc | ⟨it, img, r, _, hv, rfl, rfl, hc | hc⟩
    · have e : w1 = w := Option.some.inj (hload.symm.trans hc)
      rw [e]
      exact ⟨ih1, ih2⟩
    · have e := Option.some.inj (hload.symm.trans hc.1)
      rw [e]
      refine ⟨?_, ?_⟩
      · intro e1 he1
        obtain ⟨a1, a2⟩ := ih1 e1 he1
        refine ⟨a1, fun ho => ?_⟩
        obtain ⟨b1, b2, data, b3, b4⟩ := a2 ho
        exact ⟨b1, b2, data, b3, List.mem_append_left _ b4⟩
      · intro data img hm hpos
        rcases List.mem_append.mp hm with h1 | h1
        · exact ih2 data img h1 hpos
        · rw [List.mem_singleton] at h1
          injection h1 with h2 h3
          rw [h3] at hpos
          exact absurd hpos hc.2
    · have e := Option.some.inj (hload.symm.trans hc.1)
      rw [e]
      refine ⟨?_, ?_⟩
      · intro e1 he1
        rcases swapImage_mem _ _ _ _ e1 he1 with h1 | ⟨h1, h2⟩
        · obtain ⟨a1, a2⟩ := ih1 e1 h1
          refine ⟨a1, fun ho => ?_⟩
          obtain ⟨b1, b2, data, b3, b4⟩ := a2 ho
          exact ⟨b1, b2, data, b3,
            List.mem_append_left _ (List.mem_append_left _ b4)⟩
        · refine ⟨fun ho => ?_, fun _ => ?_⟩
          · rw [h2] at ho
            cases ho
          · rw [h1]
            exact ⟨hfresh _ hc.2, hc.2, it.cached_icon_data, hv,
              List.mem_append_left _ (List.mem_append_right _ (List.mem_singleton.mpr rfl))⟩
      · intro data img hm hpos
        rcases List.mem_append.mp hm with h1 | h1
        · rcases List.mem_append.mp h1 with h2 | h2
          · exact ih2 data img h2 hpos
          · rw [List.mem_singleton] at h2
            injection h2 with h3 h4
            rw [h4]
            exact hfresh _ hc.2
        · obtain ⟨hh, hd⟩ := swapImage_calls _ _ _ _ _ h1
          cases hd


/-- An icon-load unit of work whose bytes pass the check and whose decoder call returns a
positive handle swaps that handle into an entry with the identifier and marks it
owned. -/
theorem load_callback_swaps (decode : List Nat → Int) (id : Nat) (w : World) (it : AppEntry)
    (hfind : w.app.entries.find? (fun entry => entry.id == id && entry.has_cached_icon) =
      some it)
    (hv : IsValidJpegData it.cached_icon_data = some true)
    (hpos : 0 < decode it.cached_icon_data) :
    ∃ w1, load_callback decode id w = some w1 ∧
      ∃ e ∈ w1.app.entries, e.id = id ∧ e.image = decode it.cached_icon_data ∧
        e.own_image = true := by
  have hne : it.cached_icon_data.isEmpty = false := by
    rw [IsValidJpegData_eq] at hv
    have h4 := (of_decide_eq_true (Option.some.inj hv)).1
    cases hd : it.cached_icon_data with
    | nil => rw [hd] at h4; simp at h4
    | cons a as => rfl
  have hmem : ∃ e ∈ w.app.entries, e.id = id := by
    refine ⟨it, List.mem_of_find?_eq_some hfind, ?_⟩
    have := List.find?_some hfind
    simp only [Bool.and_eq_true, beq_iff_eq] at this
    exact this.1
  obtain ⟨e, he, r⟩ := swapImage_swaps w.app.default_icon_image id
    (decode it.cached_icon_data) w.app.entries hmem
  unfold load_callback
  rw [hfind]
  simp only [hne, Bool.false_eq_true, if_false, hv]
  rw [if_pos hpos]
  exact ⟨_, rfl, e, he, r⟩

/-- C19. In every state reachable from an empty store by scan iterations and icon-load
units of work, for every entry: if its image is the default icon then `own_image` is
false; if `own_image` is true its image is not the default icon; and `own_image` is true
exactly when its image is a positive handle that a decoder call on checked bytes
returned. Moreover, in such a state an icon-load unit of work whose bytes pass the check
and whose decoder call returns a positive handle returns with that handle swapped into
an entry with the identifier, marked owned. -/
theorem C19_ownership_invariant (env : ScanEnv) (w : World) (h : CatalogReachable env w) :
    (∀ e ∈ w.app.entries,
      (e.image = w.app.default_icon_image → e.own_image = false) ∧
      (e.own_image = true → e.image ≠ w.app.default_icon_image) ∧
      (e.own_image = true ↔ 0 < e.image ∧
        ∃ data, IsValidJpegData data = some true ∧
          NvgCall.createImageMem data e.image ∈ w.nvg)) ∧
    (∀ (decode : List Nat → Int) (application_id : Nat) (it : AppEntry),
      w.app.entries.find?
          (fun entry => entry.id == application_id && entry.has_cached_icon) = some it →
      IsValidJpegData it.cached_icon_data = some true →
      0 < decode it.cached_icon_data →
      ∃ w1, load_callback decode application_id w = some w1 ∧
        ∃ e ∈ w1.app.entries, e.id = application_id ∧
          e.image = decode it.cached_icon_data ∧ e.own_image = true) := by
  obtain ⟨inv1, inv2⟩ := CatalogReachable_inv env w h
  refine ⟨?_, fun decode id it hfind hv hpos => load_callback_swaps decode id w it hfind hv hpos⟩
  intro e he
  obtain ⟨a1, a2⟩ := inv1 e he
  refine ⟨?_, fun ho => (a2 ho).1, ?_⟩
  · intro hd
    cases ho : e.own_image with
    | false => rfl
    | true => exact absurd hd (a2 ho).1
  · constructor
    · intro ho
      exact (a2 ho).2
    · rintro ⟨hpos, data, _, hm⟩
      cases ho : e.own_image with
      | true => rfl
      | false => exact absurd (a1 ho) (inv2 data e.image hm hpos)

/-- C19 on the catalog reached from `emptyCatalog` (default icon 1) by the scan iteration
for identifier 1 and the icon load for it in which the decoder answers handle 5: the one
entry holds handle 5 and owns it. -/
theorem C19_witness_scan_then_load :
    CatalogReachable (demoEnv none) loadedOne ∧
    loadedOne.app.entries.map (fun e => (e.id, e.image, e.own_image)) = [(1, 5, true)] ∧
    ((∀ e ∈ loadedOne.app.entries,
      (e.image = loadedOne.app.default_icon_image → e.own_image = false) ∧
      (e.own_image = true → e.image ≠ loadedOne.app.default_icon_image) ∧
      (e.own_image = true ↔ 0 < e.image ∧
        ∃ data, IsValidJpegData data = some true ∧
          NvgCall.createImageMem data e.image ∈ loadedOne.nvg)) ∧
    (∀ (decode : List Nat → Int) (application_id : Nat) (it : AppEntry),
      loadedOne.app.entries.find?
          (fun entry => entry.id == application_id && entry.has_cached_icon) = some it →
      IsValidJpegData it.cached_icon_data = some true →
      0 < decode it.cached_icon_data →
      ∃ w1, load_callback decode application_id loadedOne = some w1 ∧
        ∃ e ∈ w1.app.entries, e.id = application_id ∧
          e.image = decode it.cached_icon_data ∧ e.own_image = true)) :=
  ⟨CatalogReachable.load scannedOne loadedOne decodeFive 1
      (CatalogReachable.scan emptyCatalog 1 0 (CatalogReachable.init emptyCatalog rfl rfl))
      (fun _ _ => show (5 : Int) ≠ scannedOne.app.default_icon_image by decide) (by decide),
    by decide,
    C19_ownership_invariant (demoEnv none) loadedOne
      (CatalogReachable.load scannedOne loadedOne decodeFive 1
        (CatalogReachable.scan emptyCatalog 1 0 (CatalogReachable.init emptyCatalog rfl rfl))
        (fun _ _ => show (5 : Int) ≠ scannedOne.app.default_icon_image by decide) (by decide))⟩


/-! ## The frame of an icon load -/

/-- The swap in closed form: the first entry with the identifier gets the handle and the
ownership flag, and its previous image is released when the entry owned it and it is
not the default icon; without such an entry nothing happens. -/
theorem swapImage_spec (d : Int) (id : Nat) (img : Int) (es : List AppEntry) :
    (∃ pre it post, es = pre ++ it :: post ∧ it.id = id ∧ (∀ e ∈ pre, e.id ≠ id) ∧
      (swapImage d id img es).1 = pre ++ { it with image := img, own_image := true } :: post ∧
      (swapImage d id img es).2 =
        if it.own_image = true ∧ it.image ≠ d then [NvgCall.deleteImage it.image] else []) ∨
    ((∀ e ∈ es, e.id ≠ id) ∧ swapImage d id img es = (es, [])) := by
  induction es with
  | nil => right; exact ⟨by simp, rfl⟩
  | cons x rest ih =>
    by_cases hid : x.id = id
    · left
      refine ⟨[], x, rest, rfl, hid, by simp, ?_, ?_⟩
      · simp only [swapImage, hid, if_true, List.nil_append]
      · simp only [swapImage, hid, if_true]
    · rcases ih with ⟨pre, it, post, h1, h2, h3, h4, h5⟩ | ⟨h1, h2⟩
      · left
        refine ⟨x :: pre, it, post, by rw [h1]; rfl, h2, ?_, ?_, ?_⟩
        · intro e he
          rcases List.mem_cons.mp he with h | h
          · rw [h]; exact hid
          · exact h3 e h
        · simp only [swapImage, hid, if_false, h4, List.cons_append]
        · simp only [swapImage, hid, if_false, h5]
      · right
        refine ⟨?_, ?_⟩
        · intro e he
          rcases List.mem_cons.mp he with h | h
          · rw [h]; exact hid
          · exact h1 e h
        · simp only [swapImage, hid, if_false, h2]

/-- The icon-load unit of work on bytes that pass the check, when the decoder returns a
positive handle. -/
theorem load_callback_of_decoded (decode : List Nat → Int) (id : Nat) (w : World)
    (src : AppEntry)
    (hfind : w.app.entries.find? (fun entry => entry.id == id && entry.has_cached_icon) =
      some src)
    (hv : IsValidJpegData src.cached_icon_data = some true)
    (hpos : 0 < decode src.cached_icon_data) :
    load_callback decode id w =
      some { app := { w.app with entries := (swapImage w.app.default_icon_image id
                (decode src.cached_icon_data) w.app.entries).1 },
             nvg := (w.nvg ++
                [NvgCall.createImageMem src.cached_icon_data (decode src.cached_icon_data)]) ++
               (swapImage w.app.default_icon_image id
                (decode src.cached_icon_data) w.app.entries).2 } := by
  have hne : src.cached_icon_data.isEmpty = false := by
    rw [IsValidJpegData_eq] at hv
    have h4 := (of_decide_eq_true (Option.some.inj hv)).1
    cases hd : src.cached_icon_data with
    | nil => rw [hd] at h4; simp at h4
    | cons a as => rfl
  unfold load_callback
  rw [hfind]
  simp only [hne, Bool.false_eq_true, if_false, hv]
  rw [if_pos hpos]


/-- C21. An icon-load unit of work for identifier `x` finds cached bytes (those of `src`,
the first entry with the identifier that has cached bytes) which pass the check and
decode to a positive handle. Then it returns, and the store is the previous one with
the first entry `it` of identifier `x` given the handle and `own_image = true`: the
entries before and after it, their order, the length and every other field of every
entry are unchanged, and so is the rest of the state. The rendering calls made are the
decoder call and, after it, the release of the previous image of `it` exactly when
`it` owned an image other than the default icon; for an entry that obeys the ownership
invariant (an owned image is not the default icon) that is exactly when `it` owned its
image. -/
theorem C21_successful_load_frame (decode : List Nat → Int) (x : Nat) (w : World)
    (src : AppEntry)
    (hfind : w.app.entries.find? (fun entry => entry.id == x && entry.has_cached_icon) =
      some src)
    (hv : IsValidJpegData src.cached_icon_data = some true)
    (hpos : 0 < decode src.cached_icon_data) :
    ∃ w1 pre it post released,
      load_callback decode x w = some w1 ∧
      w.app.entries = pre ++ it :: post ∧ it.id = x ∧ (∀ e ∈ pre, e.id ≠ x) ∧
      w1.app = { w.app with
        entries := pre ++
          { it with image := decode src.cached_icon_data, own_image := true } :: post } ∧
      w1.app.entries.length = w.app.entries.length ∧
      w1.app.entries.map (fun e => (e.name, e.author, e.display_version, e.size_nand,
          e.size_sd, e.size_total, e.id, e.selected, e.cached_icon_data, e.has_cached_icon)) =
        w.app.entries.map (fun e => (e.name, e.author, e.display_version, e.size_nand,
          e.size_sd, e.size_total, e.id, e.selected, e.cached_icon_data, e.has_cached_icon)) ∧
      w1.nvg = w.nvg ++
        NvgCall.createImageMem src.cached_icon_data (decode src.cached_icon_data) ::
          released ∧
      released = (if it.own_image = true ∧ it.image ≠ w.app.default_icon_image then
        [NvgCall.deleteImage it.image] else []) ∧
      ((it.own_image = true → it.image ≠ w.app.default_icon_image) →
        (released = [NvgCall.deleteImage it.image] ↔ it.own_image = true)) := by
  have hmem : ∃ e ∈ w.app.entries, e.id = x := by
    refine ⟨src, List.mem_of_find?_eq_some hfind, ?_⟩
    have := List.find?_some hfind
    simp only [Bool.and_eq_true, beq_iff_eq] at this
    exact this.1
  have hload := load_callback_of_decoded decode x w src hfind hv hpos
  rcases swapImage_spec w.app.default_icon_image x (decode src.cached_icon_data)
      w.app.entries with ⟨pre, it, post, h1, h2, h3, h4, h5⟩ | ⟨h1, _⟩
  · refine ⟨_, pre, it, post, _, hload, h1, h2, h3, ?_, ?_, ?_, ?_, rfl, ?_⟩
    · show ({ w.app with entries := _ } : App) = _
      rw [h4]
    · show (swapImage _ _ _ _).1.length = _
      rw [h4, h1]
      simp
    · show (swapImage _ _ _ _).1.map _ = _
      rw [h4, h1]
      simp
    · show (w.nvg ++ _) ++ (swapImage _ _ _ _).2 = _
      rw [h5]
      simp
    · intro hinv
      by_cases ho : it.own_image = true
      · rw [if_pos ⟨ho, hinv ho⟩]
        simp [ho]
      · rw [if_neg (fun hc => ho hc.1)]
        simp [ho]
  · obtain ⟨e, he, hid⟩ := hmem
    exact absurd hid (h1 e he)

/-- C21 on `scannedOne`: the entry of identifier 1 shows the default icon 1 and does not
own it; the load in which the decoder answers handle 5 gives it handle 5, marks it owned
and releases nothing. -/
theorem C21_witness_first_load :
    scannedOne.app.entries.find? (fun entry => entry.id == 1 && entry.has_cached_icon) =
      some (scannedOne.app.entries.getD 0 AppEntry.fresh) ∧
    ∃ w1 pre it post released,
      load_callback decodeFive 1 scannedOne = some w1 ∧
      scannedOne.app.entries = pre ++ it :: post ∧ it.id = 1 ∧ (∀ e ∈ pre, e.id ≠ 1) ∧
      w1.app = { scannedOne.app with
        entries := pre ++
          { it with
            image := decodeFive (scannedOne.app.entries.getD 0 AppEntry.fresh).cached_icon_data,
            own_image := true } :: post } ∧
      w1.app.entries.length = scannedOne.app.entries.length ∧
      w1.app.entries.map (fun e => (e.name, e.author, e.display_version, e.size_nand,
          e.size_sd, e.size_total, e.id, e.selected, e.cached_icon_data, e.has_cached_icon)) =
        scannedOne.app.entries.map (fun e => (e.name, e.author, e.display_version,
          e.size_nand, e.size_sd, e.size_total, e.id, e.selected, e.cached_icon_data,
          e.has_cached_icon)) ∧
      w1.nvg = scannedOne.nvg ++
        NvgCall.createImageMem (scannedOne.app.entries.getD 0 AppEntry.fresh).cached_icon_data
          (decodeFive (scannedOne.app.entries.getD 0 AppEntry.fresh).cached_icon_data) ::
          released ∧
      released = (if it.own_image = true ∧ it.image ≠ scannedOne.app.default_icon_image then
        [NvgCall.deleteImage it.image] else []) ∧
      ((it.own_image = true → it.image ≠ scannedOne.app.default_icon_image) →
        (released = [NvgCall.deleteImage it.image] ↔ it.own_image = true)) :=
  ⟨by decide,
    C21_successful_load_frame decodeFive 1 scannedOne
      (scannedOne.app.entries.getD 0 AppEntry.fresh) (by decide) (by decide) (by decide)⟩

/-- C22. An icon-load unit of work for identifier `x` that cannot succeed: no entry with
the identifier has cached bytes (in particular when no entry with the identifier
exists), or the bytes of the entry found are empty or fail the check, or the decoder
returns no positive handle. Then it returns with the state unchanged and releases no
image handle; the decoder is called only in the last case, and not at all when the
identifier is absent, has no cached bytes, or the bytes fail the check. -/
theorem C22_failed_load_is_noop (decode : List Nat → Int) (x : Nat) (w : World)
    (hfail :
      w.app.entries.find? (fun entry => entry.id == x && entry.has_cached_icon) = none ∨
      ∃ src, w.app.entries.find? (fun entry => entry.id == x && entry.has_cached_icon) =
          some src ∧
        (src.cached_icon_data = [] ∨ IsValidJpegData src.cached_icon_data = some false ∨
          decode src.cached_icon_data ≤ 0)) :
    ∃ w1, load_callback decode x w = some w1 ∧ w1.app = w.app ∧
      (∀ h, NvgCall.deleteImage h ∈ w1.nvg → NvgCall.deleteImage h ∈ w.nvg) ∧
      (w1.nvg = w.nvg ∨
        ∃ src, w.app.entries.find? (fun entry => entry.id == x && entry.has_cached_icon) =
            some src ∧ IsValidJpegData src.cached_icon_data = some true ∧
          decode src.cached_icon_data ≤ 0 ∧
          w1.nvg = w.nvg ++
            [NvgCall.createImageMem src.cached_icon_data (decode src.cached_icon_data)]) ∧
      ((∀ e ∈ w.app.entries, e.id ≠ x) → w1 = w) ∧
      ((∀ e ∈ w.app.entries, e.id = x → e.has_cached_icon = false) → w1 = w) ∧
      ((∃ src, w.app.entries.find? (fun entry => entry.id == x && entry.has_cached_icon) =
            some src ∧
          (src.cached_icon_data = [] ∨ IsValidJpegData src.cached_icon_data = some false)) →
        w1 = w) := by
  have hnone : (∀ e ∈ w.app.entries, e.id = x → e.has_cached_icon = false) →
      w.app.entries.find? (fun entry => entry.id == x && entry.has_cached_icon) = none := by
    intro h
    rw [List.find?_eq_none]
    intro e he
    simp only [Bool.and_eq_true, beq_iff_eq, not_and, Bool.not_eq_true]
    exact h e he
  cases hfind : w.app.entries.find? (fun entry => entry.id == x && entry.has_cached_icon) with
  | none =>
    have hl : load_callback decode x w = some w := by
      unfold load_callback
      rw [hfind]
    exact ⟨w, hl, rfl, fun _ h => h, Or.inl rfl, fun _ => rfl, fun _ => rfl, fun _ => rfl⟩
  | some src =>
    have habs1 : ¬ (∀ e ∈ w.app.entries, e.id = x → e.has_cached_icon = false) := by
      intro h
      rw [hnone h] at hfind
      cases hfind
    have habs2 : ¬ (∀ e ∈ w.app.entries, e.id ≠ x) :=
      fun h => habs1 (fun e he hid => absurd hid (h e he))
    by_cases hemp : src.cached_icon_data = []
    · have hl : load_callback decode x w = some w := by
        unfold load_callback
        rw [hfind]
        simp [hemp]
      exact ⟨w, hl, rfl, fun _ h => h, Or.inl rfl, fun h => absurd h habs2,
        fun h => absurd h habs1, fun _ => rfl⟩
    · have hne : src.cached_icon_data.isEmpty = false := by
        cases hd : src.cached_icon_data with
        | nil => exact absurd hd hemp
        | cons a as => rfl
      cases hval : IsValidJpegData src.cached_icon_data with
      | none =>
        rw [IsValidJpegData_eq] at hval
        cases hval
      | some b =>
        cases b with
        | false =>
          have hl : load_callback decode x w = some w := by
            unfold load_callback
            rw [hfind]
            simp only [hne, Bool.false_eq_true, if_false, hval]
          exact ⟨w, hl, rfl, fun _ h => h, Or.inl rfl, fun h => absurd h habs2,
            fun h => absurd h habs1, fun _ => rfl⟩
        | true =>
          have hdec : decode src.cached_icon_data ≤ 0 := by
            rcases hfail with h | ⟨src1, h1, h2⟩
            · rw [hfind] at h
              cases h
            · rw [hfind] at h1
              have e := Option.some.inj h1
              subst e
              rcases h2 with h | h | h
              · exact absurd h hemp
              · rw [hval] at h
                cases h
              · exact h
          have hl : load_callback decode x w = some { w with nvg := w.nvg ++
              [NvgCall.createImageMem src.cached_icon_data (decode src.cached_icon_data)] } := by
            unfold load_callback
            rw [hfind]
            simp only [hne, Bool.false_eq_true, if_false, hval]
            rw [if_neg (by omega)]
          refine ⟨_, hl, rfl, ?_, Or.inr ⟨src, rfl, hval, hdec, rfl⟩, fun h => absurd h habs2,
            fun h => absurd h habs1, ?_⟩
          · intro h hm
            rcases List.mem_append.mp hm with h1 | h1
            · exact h1
            · simp at h1
          · rintro ⟨src1, h1, h2⟩
            have e := Option.some.inj h1
            subst e
            rcases h2 with h | h
            · exact absurd h hemp
            · rw [hval] at h
              cases h

/-- C22 on `emptiedOne`, the catalog `loadedOne` after its only entry was removed: the
task for identifier 1 finds no entry and changes nothing. -/
theorem C22_witness_entry_removed :
    emptiedOne.app.entries.find? (fun entry => entry.id == 1 && entry.has_cached_icon) =
      none ∧
    ∃ w1, load_callback decodeFive 1 emptiedOne = some w1 ∧ w1.app = emptiedOne.app ∧
      (∀ h, NvgCall.deleteImage h ∈ w1.nvg → NvgCall.deleteImage h ∈ emptiedOne.nvg) ∧
      (w1.nvg = emptiedOne.nvg ∨
        ∃ src, emptiedOne.app.entries.find?
              (fun entry => entry.id == 1 && entry.has_cached_icon) = some src ∧
          IsValidJpegData src.cached_icon_data = some true ∧
          decodeFive src.cached_icon_data ≤ 0 ∧
          w1.nvg = emptiedOne.nvg ++
            [NvgCall.createImageMem src.cached_icon_data (decodeFive src.cached_icon_data)]) ∧
      ((∀ e ∈ emptiedOne.app.entries, e.id ≠ 1) → w1 = emptiedOne) ∧
      ((∀ e ∈ emptiedOne.app.entries, e.id = 1 → e.has_cached_icon = false) →
        w1 = emptiedOne) ∧
      ((∃ src, emptiedOne.app.entries.find?
              (fun entry => entry.id == 1 && entry.has_cached_icon) = some src ∧
          (src.cached_icon_data = [] ∨ IsValidJpegData src.cached_icon_data = some false)) →
        w1 = emptiedOne) :=
  ⟨by decide, C22_failed_load_is_noop decodeFive 1 emptiedOne (Or.inl (by decide))⟩


/-! ## The candidate range of the list prefetch -/

/-- The pass of the list prefetch written with its locals `load_start` and `load_end`. -/
theorem LoadVisibleAreaIcons_pass_eq (stamps : Nat → Int) (vs ve : Nat) (s : App) :
    LoadVisibleAreaIcons.pass stamps vs ve s =
      if (LoadVisibleAreaIcons.load_end ve s.entries.length + 2 ^ 64 -
          LoadVisibleAreaIcons.load_start vs) % 2 ^ 64 > LoadInfo.vector_max_size then none
      else
        if (LoadVisibleAreaIcons.collect s vs ve
            (min (LoadVisibleAreaIcons.load_end ve s.entries.length) s.entries.length -
              LoadVisibleAreaIcons.load_start vs)
            (LoadVisibleAreaIcons.load_start vs) []).isEmpty then some s
        else
          some { s with
            resource_manager :=
              submitLoadInfos LoadCallback.listIcon stamps
                (LoadVisibleAreaIcons.collect s vs ve
                  (min (LoadVisibleAreaIcons.load_end ve s.entries.length) s.entries.length -
                    LoadVisibleAreaIcons.load_start vs)
                  (LoadVisibleAreaIcons.load_start vs) []) 0 s.resource_manager } :=
  rfl

/-- The ranges of the list prefetch when the first visible row is inside the catalog. -/
theorem LoadVisibleAreaIcons_ranges (s : App)
    (hs : s.start < s.entries.length) (hb : s.entries.length + 6 < 2 ^ 64) :
    GetVisibleRange s = (s.start, min (s.start + 4) s.entries.length) ∧
    LoadVisibleAreaIcons.load_start s.start = s.start - 2 ∧
    LoadVisibleAreaIcons.load_end (min (s.start + 4) s.entries.length) s.entries.length =
      min (min (s.start + 4) s.entries.length + 2) s.entries.length := by
  have hne : s.entries.isEmpty = false := by
    cases he : s.entries with
    | nil => rw [he] at hs; simp at hs
    | cons a as => rfl
  refine ⟨?_, ?_, ?_⟩
  · unfold GetVisibleRange
    simp only [hne, Bool.false_eq_true, if_false, MAX_VISIBLE_ITEMS]
    rw [Nat.mod_eq_of_lt (by omega)]
  · unfold LoadVisibleAreaIcons.load_start
    simp only [PRELOAD_BUFFER]
    split_ifs <;> omega
  · unfold LoadVisibleAreaIcons.load_end
    simp only [PRELOAD_BUFFER]
    rw [Nat.mod_eq_of_lt (by omega)]

/-- The list prefetch pass returns when the first visible row is inside the catalog. -/
theorem LoadVisibleAreaIcons_pass_returns (stamps : Nat → Int) (s : App)
    (hs : s.start < s.entries.length) (hb : s.entries.length + 6 < 2 ^ 64) :
    ∃ s1, LoadVisibleAreaIcons.pass stamps s.start (min (s.start + 4) s.entries.length) s =
      some s1 := by
  obtain ⟨_, r2, r3⟩ := LoadVisibleAreaIcons_ranges s hs hb
  have hm : LoadInfo.vector_max_size = 576460752303423487 := by
    norm_num [LoadInfo.vector_max_size]
  rw [LoadVisibleAreaIcons_pass_eq, r2, r3, if_neg (by rw [hm]; omega)]
  split_ifs <;> exact ⟨_, rfl⟩

/-- C23. For a catalog of n ≥ 1 entries (n within the capacity of a vector) and a scroll
position `start < n`: `GetVisibleRange` is `[start, min(start + 4, n))`; the pass of the
list prefetch computes `load_start = max(start - 2, 0)` and
`load_end = min(min(start + 4, n) + 2, n)` with `load_start ≤ load_end ≤ n`, so the
unsigned difference handed to `reserve` is the true difference and is at most 8; the pass
returns, and the entries it looks at are those at the indices from `load_start` up to
`load_end`, all below n. -/
theorem C23_candidate_range (stamps : Nat → Int) (s : App)
    (hn : 1 ≤ s.entries.length) (hs : s.start < s.entries.length)
    (hb : s.entries.length + 6 < 2 ^ 64) :
    ∃ visible_start visible_end load_start load_end s1 new,
      GetVisibleRange s = (visible_start, visible_end) ∧
      load_start = LoadVisibleAreaIcons.load_start visible_start ∧
      load_end = LoadVisibleAreaIcons.load_end visible_end s.entries.length ∧
      visible_start = s.start ∧ visible_end = min (s.start + 4) s.entries.length ∧
      (load_start : Int) = max ((s.start : Int) - 2) 0 ∧
      load_end = min (min (s.start + 4) s.entries.length + 2) s.entries.length ∧
      load_start ≤ load_end ∧ load_end ≤ s.entries.length ∧
      (load_end + 2 ^ 64 - load_start) % 2 ^ 64 = load_end - load_start ∧
      load_end - load_start ≤ 8 ∧
      (∀ i, load_start ≤ i → i < load_end → i < s.entries.length) ∧
      LoadVisibleAreaIcons.pass stamps visible_start visible_end s = some s1 ∧
      s1 = { s with resource_manager := ⟨s.resource_manager.pending_tasks ++ new⟩ } ∧
      new.map (fun t => ({ application_id := t.application_id, priority := t.priority } :
          LoadInfo)) =
        (List.range' load_start (load_end - load_start)).filterMap (fun k =>
          match s.entries[k]? with
          | some entry =>
            if entry.image = s.default_icon_image ∧ entry.name ≠ s.corrupted_install then
              some { application_id := entry.id,
                     priority := if k < 4 then 0
                       else if visible_start ≤ k ∧ k < visible_end then 1 else 2 }
            else none
          | none => none) := by
  obtain ⟨r1, r2, r3⟩ := LoadVisibleAreaIcons_ranges s hs hb
  obtain ⟨s1, hp⟩ := LoadVisibleAreaIcons_pass_returns stamps s hs hb
  obtain ⟨new, h1, h2, _⟩ := LoadVisibleAreaIcons_pass_spec stamps _ _ s s1 hp
  refine ⟨s.start, min (s.start + 4) s.entries.length, s.start - 2,
    min (min (s.start + 4) s.entries.length + 2) s.entries.length, s1, new,
    r1, r2.symm, r3.symm, rfl, rfl, by omega, rfl, by omega, by omega, by omega, by omega,
    fun i _ hi => by omega, hp, h1, ?_⟩
  rw [h2, LoadVisibleAreaIcons_collect_eq]
  have e : (min (s.start + 4) s.entries.length + 2) % 2 ^ 64 =
      min (s.start + 4) s.entries.length + 2 := Nat.mod_eq_of_lt (by omega)
  simp only [e, List.nil_append]

/-- C23 on `scrolledList`, six entries scrolled to row 1: the visible range is [1, 5),
`load_start` is 0 and `load_end` is 6. -/
theorem C23_witness_scrolled_list :
    (GetVisibleRange scrolledList = (1, 5) ∧
      LoadVisibleAreaIcons.load_start 1 = 0 ∧ LoadVisibleAreaIcons.load_end 5 6 = 6) ∧
    ∃ visible_start visible_end load_start load_end s1 new,
      GetVisibleRange scrolledList = (visible_start, visible_end) ∧
      load_start = LoadVisibleAreaIcons.load_start visible_start ∧
      load_end = LoadVisibleAreaIcons.load_end visible_end scrolledList.entries.length ∧
      visible_start = scrolledList.start ∧
      visible_end = min (scrolledList.start + 4) scrolledList.entries.length ∧
      (load_start : Int) = max ((scrolledList.start : Int) - 2) 0 ∧
      load_end =
        min (min (scrolledList.start + 4) scrolledList.entries.length + 2)
          scrolledList.entries.length ∧
      load_start ≤ load_end ∧ load_end ≤ scrolledList.entries.length ∧
      (load_end + 2 ^ 64 - load_start) % 2 ^ 64 = load_end - load_start ∧
      load_end - load_start ≤ 8 ∧
      (∀ i, load_start ≤ i → i < load_end → i < scrolledList.entries.length) ∧
      LoadVisibleAreaIcons.pass (fun j => 1120000000 + j) visible_start visible_end
        scrolledList = some s1 ∧
      s1 = { scrolledList with
        resource_manager := ⟨scrolledList.resource_manager.pending_tasks ++ new⟩ } ∧
      new.map (fun t => ({ application_id := t.application_id, priority := t.priority } :
          LoadInfo)) =
        (List.range' load_start (load_end - load_start)).filterMap (fun k =>
          match scrolledList.entries[k]? with
          | some entry =>
            if entry.image = scrolledList.default_icon_image ∧
                entry.name ≠ scrolledList.corrupted_install then
              some { application_id := entry.id,
                     priority := if k < 4 then 0
                       else if visible_start ≤ k ∧ k < visible_end then 1 else 2 }
            else none
          | none => none) :=
  ⟨by decide,
    C23_candidate_range (fun j => 1120000000 + j) scrolledList (by decide) (by decide)
      (by decide)⟩


/-! ## The first batch of icon tasks -/

/-- The flag `is_corrupted` of a scan iteration is the negation of the result of the
basic-info fetch. -/
theorem scanEntry_is_corrupted (env : ScanEnv) (d : Int) (c : String) (id : Nat) :
    (scanEntry env d c id).2 = !(TryGetAppBasicInfoWithIconCache env d id AppEntry.fresh).1 := by
  unfold scanEntry
  simp only
  split_ifs <;> rfl

/-- The queue after one iteration of the scan loop. -/
theorem FastScanNames_body_pending (env : ScanEnv) (id count : Nat) (s : App) :
    (FastScanNames.body env id count s).resource_manager.pending_tasks =
      s.resource_manager.pending_tasks ++
        (FastScanNames.submitted env s.default_icon_image s.corrupted_install count id).toList := by
  unfold FastScanNames.body FastScanNames.submitted
  simp only
  split_ifs <;>
    simp [ResourceLoadManager.submitLoadTask, priority_queue.push]

/-- The queue after the scan loop when the stop request is first seen at the check before
identifier `n + 1` (or never, when `n` is the number of identifiers). -/
theorem FastScanNames_loop_pending (env : ScanEnv) (ids : List Nat) (count n : Nat) (s : App)
    (hn : n ≤ ids.length)
    (hbefore : ∀ j, j < n → env.stop_requested (count + j) = false)
    (hat : n < ids.length → env.stop_requested (count + n) = true) :
    (FastScanNames.loop env ids count s).resource_manager.pending_tasks =
      s.resource_manager.pending_tasks ++
        ((ids.take n).enumFrom count).filterMap (fun p =>
          FastScanNames.submitted env s.default_icon_image s.corrupted_install p.1 p.2) := by
  induction ids generalizing count n s with
  | nil =>
    have : n = 0 := by simpa using hn
    subst this
    simp [FastScanNames.loop]
  | cons id rest ih =>
    cases n with
    | zero =>
      have h0 := hat (by simp)
      simp only [Nat.add_zero] at h0
      simp [FastScanNames.loop, h0]
    | succ m =>
      have h0 : env.stop_requested count = false := by simpa using hbefore 0 (by omega)
      obtain ⟨_, _, bd, bc⟩ := FastScanNames_body_frame env id count s
      have hih := ih (count + 1) m (FastScanNames.body env id count s)
        (by simpa using hn)
        (fun j hj => by
          have := hbefore (j + 1) (by omega)
          rwa [show count + (j + 1) = count + 1 + j by omega] at this)
        (fun h => by
          have := hat (by simpa using h)
          rwa [show count + (m + 1) = count + 1 + m by omega] at this)
      simp only [FastScanNames.loop, h0, Bool.false_eq_true, if_false, hih, bd, bc,
        FastScanNames_body_pending, List.take_succ_cons, List.enumFrom_cons,
        List.filterMap_cons, List.append_assoc]
      cases FastScanNames.submitted env s.default_icon_image s.corrupted_install count id <;>
        simp

theorem enumFrom_filterMap_length_le {β : Type} (l : List Nat) (k bound : Nat)
    (f : Nat × Nat → Option β) (hf : ∀ p, bound ≤ p.1 → f p = none) :
    ((l.enumFrom k).filterMap f).length ≤ bound - k := by
  induction l generalizing k with
  | nil => simp
  | cons a rest ih =>
    rw [List.enumFrom_cons, List.filterMap_cons]
    have hrest := ih (k + 1)
    cases hfa : f (k, a) with
    | none =>
      simp only
      omega
    | some b =>
      have hk : k < bound := by
        by_contra hc
        rw [hf (k, a) (by simpa using hc)] at hfa
        cases hfa
      simp only [List.length_cons]
      omega

theorem FastScanNames_submitted_eq (env : ScanEnv) (d : Int) (c : String) (count id : Nat) :
    FastScanNames.submitted env d c count id =
      if count + 1 ≤ 4 ∧ (TryGetAppBasicInfoWithIconCache env d id AppEntry.fresh).1 = true ∧
          (scanEntry env d c id).1.has_cached_icon = true then
        some { application_id := id, load_callback := some (LoadCallback.scanIcon id),
               submit_time := env.now count, priority := 0,
               task_type := ResourceTaskType.ICON }
      else none := by
  unfold FastScanNames.submitted
  simp only [scanEntry_is_corrupted, BATCH_SIZE, Bool.not_eq_false']

/-- C24. One iteration of the scan loop, for the identifier at enumeration position
`count + 1`, submits one icon task of priority 0 for that identifier exactly when the
position is at most 4, the basic-info fetch succeeded and the entry has cached icon
bytes, and submits nothing otherwise. Over the whole loop, when the stop request is
first seen at the check before identifier `n + 1` (or never, for `n` the number of
identifiers), the tasks submitted are those of the positions among the first `n`, in
enumeration order, that meet the three conditions; there are at most 4 of them. -/
theorem C24_first_batch_tasks (env : ScanEnv) (ids : List Nat) (n : Nat) (s : App)
    (hn : n ≤ ids.length)
    (hbefore : ∀ j, j < n → env.stop_requested j = false)
    (hat : n < ids.length → env.stop_requested n = true) :
    (∀ (id count : Nat) (a : App),
      (FastScanNames.body env id count a).resource_manager.pending_tasks =
        a.resource_manager.pending_tasks ++
          if count + 1 ≤ 4 ∧
              (TryGetAppBasicInfoWithIconCache env a.default_icon_image id
                AppEntry.fresh).1 = true ∧
              (scanEntry env a.default_icon_image a.corrupted_install id).1.has_cached_icon =
                true then
            [{ application_id := id, load_callback := some (LoadCallback.scanIcon id),
               submit_time := env.now count, priority := 0,
               task_type := ResourceTaskType.ICON }]
          else []) ∧
    ∃ new, (FastScanNames.loop env ids 0 s).resource_manager.pending_tasks =
        s.resource_manager.pending_tasks ++ new ∧
      new = ((ids.take n).enumFrom 0).filterMap (fun p =>
        if p.1 + 1 ≤ 4 ∧
            (TryGetAppBasicInfoWithIconCache env s.default_icon_image p.2
              AppEntry.fresh).1 = true ∧
            (scanEntry env s.default_icon_image s.corrupted_install p.2).1.has_cached_icon =
              true then
          some { application_id := p.2, load_callback := some (LoadCallback.scanIcon p.2),
                 submit_time := env.now p.1, priority := 0,
                 task_type := ResourceTaskType.ICON }
        else none) ∧
      new.length ≤ 4 ∧ ∀ t ∈ new, t.priority = 0 ∧ t.task_type = ResourceTaskType.ICON := by
  refine ⟨?_, ?_⟩
  · intro id count a
    rw [FastScanNames_body_pending, FastScanNames_submitted_eq]
    split_ifs <;> rfl
  · have hl := FastScanNames_loop_pending env ids 0 n s hn
      (fun j hj => by simpa using hbefore j hj) (fun h => by simpa using hat h)
    simp only [FastScanNames_submitted_eq] at hl
    refine ⟨_, hl, rfl, ?_, ?_⟩
    · refine enumFrom_filterMap_length_le (ids.take n) 0 4 _ ?_
      intro p hp
      rw [if_neg (fun hc => by omega)]
    · intro t ht
      rw [List.mem_filterMap] at ht
      obtain ⟨p, _, hp⟩ := ht
      split_ifs at hp
      cases hp
      exact ⟨rfl, rfl⟩

/-- C24 on the catalog 1 … 10 of `demoEnv` scanned without a stop request: tasks are
submitted for the identifiers 1, 2, 3 and 4 only. -/
theorem C24_witness_ten_identifiers :
    (FastScanNames.loop (demoEnv none) (List.range' 1 10) 0 {}).resource_manager.pending_tasks
        = (List.range' 1 4).map (fun id =>
          { application_id := id, load_callback := some (LoadCallback.scanIcon id),
            submit_time := 999 + id, priority := 0, task_type := ResourceTaskType.ICON }) ∧
    ((∀ (id count : Nat) (a : App),
      (FastScanNames.body (demoEnv none) id count a).resource_manager.pending_tasks =
        a.resource_manager.pending_tasks ++
          if count + 1 ≤ 4 ∧
              (TryGetAppBasicInfoWithIconCache (demoEnv none) a.default_icon_image id
                AppEntry.fresh).1 = true ∧
              (scanEntry (demoEnv none) a.default_icon_image a.corrupted_install
                id).1.has_cached_icon = true then
            [{ application_id := id, load_callback := some (LoadCallback.scanIcon id),
               submit_time := (demoEnv none).now count, priority := 0,
               task_type := ResourceTaskType.ICON }]
          else []) ∧
    ∃ new, (FastScanNames.loop (demoEnv none) (List.range' 1 10) 0
          {}).resource_manager.pending_tasks =
        ({} : App).resource_manager.pending_tasks ++ new ∧
      new = (((List.range' 1 10).take 10).enumFrom 0).filterMap (fun p =>
        if p.1 + 1 ≤ 4 ∧
            (TryGetAppBasicInfoWithIconCache (demoEnv none) ({} : App).default_icon_image p.2
              AppEntry.fresh).1 = true ∧
            (scanEntry (demoEnv none) ({} : App).default_icon_image
              ({} : App).corrupted_install p.2).1.has_cached_icon = true then
          some { application_id := p.2, load_callback := some (LoadCallback.scanIcon p.2),
                 submit_time := (demoEnv none).now p.1, priority := 0,
                 task_type := ResourceTaskType.ICON }
        else none) ∧
      new.length ≤ 4 ∧ ∀ t ∈ new, t.priority = 0 ∧ t.task_type = ResourceTaskType.ICON) :=
  ⟨by decide,
    C24_first_batch_tasks (demoEnv none) (List.range' 1 10) 10 {} (by decide)
      (fun _ _ => rfl) (fun h => absurd h (by decide))⟩

/-! ## A failed size computation -/

/-- The entry a scan iteration builds when the basic-info fetch succeeds and the
occupied-size computation fails: the fetched entry with its sizes set to zero, not
marked corrupted. -/
theorem scanEntry_of_size_failed (env : ScanEnv) (d : Int) (c : String) (id : Nat)
    (hfetch : (TryGetAppBasicInfoWithIconCache env d id AppEntry.fresh).1 = true)
    (hsize : R_FAILED (env.nsCalculateApplicationOccupiedSize id).rc = true) :
    scanEntry env d c id =
      ({ (TryGetAppBasicInfoWithIconCache env d id AppEntry.fresh).2 with
          size_total := 0, size_nand := 0, size_sd := 0 }, false) := by
  unfold scanEntry GetAppSizeInfo
  simp only [hfetch, hsize, Bool.not_true, Bool.false_eq_true, if_false, if_true]

/-- C26, as the code behaves. In a scan that is not stopped, for an enumerated identifier
whose basic-info fetch succeeds and whose occupied-size computation fails: the scan is
not aborted (it returns with one entry appended for every enumerated identifier, in
order), and the entry appended for the identifier is the fetched entry with the three
sizes set to zero: it keeps the fetched name, shows the default icon without owning it,
keeps its cached icon bytes and is not treated as corrupted. -/
theorem C26_size_failure_keeps_fetched_name (env : ScanEnv) (fuel : Nat) (s : App)
    (ids : List Nat) (id : Nat)
    (henum : GetAllApplicationIds env.nsListApplicationRecord fuel = some (0, ids))
    (hstop : ∀ j, env.stop_requested j = false)
    (hid : id ∈ ids)
    (hfetch : (TryGetAppBasicInfoWithIconCache env s.default_icon_image id
      AppEntry.fresh).1 = true)
    (hsize : R_FAILED (env.nsCalculateApplicationOccupiedSize id).rc = true) :
    ∃ s1 entry, FastScanNames env fuel s = some s1 ∧
      s1.entries = s.entries ++ ids.map
        (fun i => (scanEntry env s.default_icon_image s.corrupted_install i).1) ∧
      s1.scanned_count = ids.length ∧
      scanEntry env s.default_icon_image s.corrupted_install id = (entry, false) ∧
      entry ∈ s1.entries ∧
      entry = { (TryGetAppBasicInfoWithIconCache env s.default_icon_image id
          AppEntry.fresh).2 with size_total := 0, size_nand := 0, size_sd := 0 } ∧
      entry.name = (TryGetAppBasicInfoWithIconCache env s.default_icon_image id
        AppEntry.fresh).2.name ∧
      entry.size_total = 0 ∧ entry.size_nand = 0 ∧ entry.size_sd = 0 ∧
      entry.image = s.default_icon_image ∧ entry.own_image = false := by
  obtain ⟨s1, hrun, hent, hsc, _⟩ :=
    FastScanNames_of_enumerated env fuel s ids ids.length henum le_rfl
      (fun j _ => hstop j) (fun h => absurd h (lt_irrefl _))
  rw [List.take_length] at hent
  have hse := scanEntry_of_size_failed env s.default_icon_image s.corrupted_install id
    hfetch hsize
  obtain ⟨i1, i2⟩ := TryGetAppBasicInfoWithIconCache_image env s.default_icon_image id
    AppEntry.fresh hfetch
  refine ⟨s1, _, hrun, hent, hsc, hse, ?_, rfl, rfl, rfl, rfl, rfl, i1, i2⟩
  rw [hent]
  apply List.mem_append_right
  rw [List.mem_map]
  exact ⟨id, hid, by rw [hse]⟩

/-- C26 on `sizeFailsForThree`: the scan of the ten identifiers returns with ten entries,
and the entry of identifier 3 keeps the fetched name with zero sizes. -/
theorem C26_witness_size_fails_for_three :
    ∃ s1 entry, FastScanNames sizeFailsForThree 11 {} = some s1 ∧
      s1.entries = ({} : App).entries ++ (List.range' 1 10).map
        (fun i => (scanEntry sizeFailsForThree ({} : App).default_icon_image
          ({} : App).corrupted_install i).1) ∧
      s1.scanned_count = (List.range' 1 10).length ∧
      scanEntry sizeFailsForThree ({} : App).default_icon_image ({} : App).corrupted_install 3 =
        (entry, false) ∧
      entry ∈ s1.entries ∧
      entry = { (TryGetAppBasicInfoWithIconCache sizeFailsForThree
          ({} : App).default_icon_image 3 AppEntry.fresh).2 with
          size_total := 0, size_nand := 0, size_sd := 0 } ∧
      entry.name = (TryGetAppBasicInfoWithIconCache sizeFailsForThree
        ({} : App).default_icon_image 3 AppEntry.fresh).2.name ∧
      entry.size_total = 0 ∧ entry.size_nand = 0 ∧ entry.size_sd = 0 ∧
      entry.image = ({} : App).default_icon_image ∧ entry.own_image = false :=
  C26_size_failure_keeps_fetched_name sizeFailsForThree 11 {} (List.range' 1 10) 3
    (GetAllApplicationIds_pagedRecords (List.range' 1 10) 11 (by decide))
    (fun _ => rfl) (by decide) (by decide) (by decide)

/-- C26 as stated fails on `sizeFailsForThree`: the entry appended for identifier 3, whose
size computation fails, has zero sizes but the fetched name "app", not the
`corrupted_install` string, and keeps its cached icon bytes; the corrupted placeholder is
what identifier 7, whose fetch fails, gets. -/
theorem C26_counterexample_name_is_kept :
    (FastScanNames sizeFailsForThree 11 {}).map (fun s1 =>
        (s1.entries.length,
          (s1.entries.filter (fun e => e.id == 3 || e.id == 7)).map
            (fun e => (e.id, e.name, e.size_total, e.has_cached_icon)))) =
      some (10, [(3, "app", 0, true), (7, "Corrupted", 0, false)]) ∧
    ({} : App).corrupted_install = "Corrupted" ∧
    R_FAILED (sizeFailsForThree.nsCalculateApplicationOccupiedSize 3).rc = true ∧
    (TryGetAppBasicInfoWithIconCache sizeFailsForThree 0 3 AppEntry.fresh).1 = true := by
  decide


/-! ## Sorting -/

theorem sizeGreater_strictWeak :
    StrictWeakOrdering (fun a b : AppEntry => decide (a.size_total > b.size_total)) := by
  refine ⟨?_, ?_, ?_⟩
  · intro a
    simp
  · intro a b c h1 h2
    simp only [decide_eq_true_eq] at h1 h2 ⊢
    omega
  · intro a b c h1 h2 h3 h4
    simp only [decide_eq_false_iff_not] at h1 h2 h3 h4 ⊢
    omega

theorem nameLess_strictWeak :
    StrictWeakOrdering (fun a b : AppEntry => decide (a.name < b.name)) := by
  refine ⟨?_, ?_, ?_⟩
  · intro a
    simp
  · intro a b c h1 h2
    simp only [decide_eq_true_eq] at h1 h2 ⊢
    exact lt_trans h1 h2
  · intro a b c h1 h2 h3 h4
    simp only [decide_eq_false_iff_not, not_lt] at h1 h2 h3 h4 ⊢
    exact ⟨le_trans h3 h1, le_trans h2 h4⟩

/-- Insertion sort keeps the contract of `std::ranges::sort`. -/
theorem insertionSortBy_contract : SortContract insertionSortBy := by
  intro comp l ⟨hirr, htr, hinc⟩
  have hasym : ∀ a b, comp a b = true → comp b a = false := by
    intro a b hab
    cases hba : comp b a with
    | false => rfl
    | true =>
      have := htr a b a hab hba
      rw [hirr a] at this
      cases this
  haveI : IsTotal AppEntry (fun a b => comp b a = false) := ⟨by
    intro a b
    cases hba : comp b a with
    | false => left; rfl
    | true => right; exact hasym b a hba⟩
  haveI : IsTrans AppEntry (fun a b => comp b a = false) := ⟨by
    intro a b c hab hbc
    show comp c a = false
    cases hca : comp c a with
    | false => rfl
    | true =>
      cases hab2 : comp a b with
      | true =>
        have := htr c a b hca hab2
        rw [hbc] at this
        cases this
      | false =>
        cases hbc2 : comp b c with
        | true =>
          have := htr b c a hbc2 hca
          rw [hab] at this
          cases this
        | false =>
          have := (hinc a b c hab2 hab hbc2 hbc).2
          rw [hca] at this
          cases this⟩
  exact ⟨List.perm_insertionSort _ l, List.sorted_insertionSort _ l⟩

/-- C25. For every store content and every sorting algorithm that keeps the contract of
`std::ranges::sort`, the two comparators `Sort` uses being strict weak orderings as that
contract requires: `Sort` changes nothing but the order of the entries, the entries
afterwards are a permutation of those before, ordered by non-decreasing `name` when the
sort type is `Alphabetical` and by non-increasing `size_total` for `Size_BigSmall` and
for every other value of the sort type. -/
theorem C25_Sort_permutes_and_orders
    (sort : (AppEntry → AppEntry → Bool) → List AppEntry → List AppEntry)
    (hsort : SortContract sort) (s : App) :
    StrictWeakOrdering (fun a b : AppEntry => decide (a.size_total > b.size_total)) ∧
    StrictWeakOrdering (fun a b : AppEntry => decide (a.name < b.name)) ∧
    App.Sort sort s = { s with entries := (App.Sort sort s).entries } ∧
    (App.Sort sort s).entries.Perm s.entries ∧
    (s.sort_type = SortType.Alphabetical →
      (App.Sort sort s).entries.Pairwise (fun a b => a.name ≤ b.name)) ∧
    (s.sort_type ≠ SortType.Alphabetical →
      (App.Sort sort s).entries.Pairwise (fun a b => a.size_total ≥ b.size_total)) := by
  obtain ⟨p1, o1⟩ := hsort _ s.entries sizeGreater_strictWeak
  obtain ⟨p2, o2⟩ := hsort _ s.entries nameLess_strictWeak
  have o1' : (sort (fun a b => decide (a.size_total > b.size_total)) s.entries).Pairwise
      (fun a b => a.size_total ≥ b.size_total) :=
    o1.imp (fun h => by simpa using h)
  have o2' : (sort (fun a b => decide (a.name < b.name)) s.entries).Pairwise
      (fun a b => a.name ≤ b.name) :=
    o2.imp (fun h => by simpa using h)
  refine ⟨sizeGreater_strictWeak, nameLess_strictWeak, ?_, ?_, ?_, ?_⟩
  · unfold App.Sort
    split_ifs <;> rfl
  · unfold App.Sort
    split_ifs
    · exact p1
    · exact p2
    · exact p1
  · intro h
    unfold App.Sort
    rw [if_neg (by rw [h]; decide), if_pos h]
    exact o2'
  · intro h
    unfold App.Sort
    split_ifs
    · exact o1'
    · exact o1'

/-- C25 with insertion sort on the three entries A (100 bytes), B (30), C (7) in the
order B, C, A: by size they come out A, B, C. -/
theorem C25_witness_three_entries :
    SortContract insertionSortBy ∧
    (App.Sort insertionSortBy { entries := entriesABC.rotate 1 }).entries.map
      (fun e => (e.name, e.size_total)) = [("A", 100), ("B", 30), ("C", 7)] ∧
    (StrictWeakOrdering (fun a b : AppEntry => decide (a.size_total > b.size_total)) ∧
    StrictWeakOrdering (fun a b : AppEntry => decide (a.name < b.name)) ∧
    App.Sort insertionSortBy { entries := entriesABC.rotate 1, sort_type := 1 } =
      { ({ entries := entriesABC.rotate 1, sort_type := 1 } : App) with
        entries :=
          (App.Sort insertionSortBy { entries := entriesABC.rotate 1, sort_type := 1 }).entries } ∧
    (App.Sort insertionSortBy { entries := entriesABC.rotate 1, sort_type := 1 }).entries.Perm
      ({ entries := entriesABC.rotate 1, sort_type := 1 } : App).entries ∧
    (({ entries := entriesABC.rotate 1, sort_type := 1 } : App).sort_type =
        SortType.Alphabetical →
      (App.Sort insertionSortBy { entries := entriesABC.rotate 1, sort_type := 1 }).entries.Pairwise
        (fun a b => a.name ≤ b.name)) ∧
    (({ entries := entriesABC.rotate 1, sort_type := 1 } : App).sort_type ≠
        SortType.Alphabetical →
      (App.Sort insertionSortBy { entries := entriesABC.rotate 1, sort_type := 1 }).entries.Pairwise
        (fun a b => a.size_total ≥ b.size_total))) :=
  ⟨insertionSortBy_contract, by decide,
    C25_Sort_permutes_and_orders insertionSortBy insertionSortBy_contract
      { entries := entriesABC.rotate 1, sort_type := 1 }⟩


/-! ## The list view -/

/-- What the list prefetch can change: the scheduler queue and its own two records. -/
theorem LoadVisibleAreaIcons_frame (now : Int) (stamps : Nat → Int) (s s1 : App)
    (h : LoadVisibleAreaIcons now stamps s = some s1) :
    ∃ rm r t, s1 = { s with
      resource_manager := rm, last_loaded_range := r, last_load_time := t } := by
  by_cases ht : now - s.last_load_time < LOAD_DEBOUNCE_MS
  · unfold LoadVisibleAreaIcons at h
    rw [if_pos ht] at h
    cases h
    exact ⟨_, _, _, rfl⟩
  · by_cases hr : GetVisibleRange s = s.last_loaded_range
    · unfold LoadVisibleAreaIcons at h
      simp only [if_neg ht, (GetVisibleRange_congr s now (0, 0)).1] at h
      rw [if_pos (by simp [hr])] at h
      cases h
      exact ⟨_, _, _, rfl⟩
    · rw [LoadVisibleAreaIcons_of_changed_range now stamps s ht hr] at h
      obtain ⟨new, h1, _, _⟩ := LoadVisibleAreaIcons_pass_spec stamps _ _ _ _ h
      subst h1
      exact ⟨_, _, _, rfl⟩

/-- The list prefetch returns when the catalog is empty or the first visible row is
inside it. -/
theorem LoadVisibleAreaIcons_returns (now : Int) (stamps : Nat → Int) (s : App)
    (hs : s.entries = [] ∨ s.start < s.entries.length)
    (hb : s.entries.length + 6 < 2 ^ 64) :
    ∃ s1, LoadVisibleAreaIcons now stamps s = some s1 := by
  by_cases ht : now - s.last_load_time < LOAD_DEBOUNCE_MS
  · unfold LoadVisibleAreaIcons
    rw [if_pos ht]
    exact ⟨_, rfl⟩
  · by_cases hr : GetVisibleRange s = s.last_loaded_range
    · unfold LoadVisibleAreaIcons
      simp only [if_neg ht, (GetVisibleRange_congr s now (0, 0)).1]
      rw [if_pos (by simp [hr])]
      exact ⟨_, rfl⟩
    · rw [LoadVisibleAreaIcons_of_changed_range now stamps s ht hr]
      have hm : LoadInfo.vector_max_size = 576460752303423487 := by
        norm_num [LoadInfo.vector_max_size]
      rcases hs with he | hs
      · have hg : GetVisibleRange s = (0, 0) := by
          unfold GetVisibleRange
          simp [he]
        rw [hg, LoadVisibleAreaIcons_pass_eq]
        simp only [LoadVisibleAreaIcons.load_end, LoadVisibleAreaIcons.load_start,
          PRELOAD_BUFFER, he, List.length_nil]
        rw [if_neg (by rw [hm]; decide)]
        split_ifs <;> exact ⟨_, rfl⟩
      · obtain ⟨r1, r2, r3⟩ := LoadVisibleAreaIcons_ranges s hs hb
        rw [r1, LoadVisibleAreaIcons_pass_eq]
        simp only [r2, r3]
        rw [if_neg (by rw [hm]; omega)]
        split_ifs <;> exact ⟨_, rfl⟩

theorem usub_of_le (a b : Nat) (h : b ≤ a) (ha : a < 2 ^ 64) : usub a b = a - b := by
  unfold usub
  omega

/-- The prefetch that ends a cursor move returns and keeps the cursor and the entries. -/
theorem cursor_after_prefetch (now : Int) (stamps : Nat → Int) (u : App)
    (hu : cursorInvariant u) (hb : u.entries.length + 6 < 2 ^ 64) :
    ∃ s1, LoadVisibleAreaIcons now stamps u = some s1 ∧ cursorInvariant s1 ∧
      s1.entries = u.entries := by
  obtain ⟨h1, h2, h3, h4⟩ := hu
  obtain ⟨s1, hs1⟩ := LoadVisibleAreaIcons_returns now stamps u (Or.inr (by omega)) hb
  obtain ⟨rm, r, t, hf⟩ := LoadVisibleAreaIcons_frame now stamps u s1 hs1
  refine ⟨s1, hs1, ?_, by rw [hf]⟩
  rw [hf]
  exact ⟨h1, h2, h3, h4⟩

theorem UpdateList_down_cursor (clock : FrameClock) (s : App)
    (hs : cursorInvariant s) (hb : s.entries.length + 6 < 2 ^ 64) :
    ∃ s1, UpdateList.down clock s = some s1 ∧ cursorInvariant s1 ∧
      s1.entries = s.entries := by
  obtain ⟨h1, h2, h3, h4⟩ := hs
  unfold UpdateList.down
  by_cases hg : s.index < usub s.entries.length 1
  · rw [if_pos hg]
    rw [usub_of_le _ _ (by omega) (by omega)] at hg
    simp only
    by_cases hsc : s.ypos + 120 + 120 > 646
    · rw [if_pos hsc]
      have hu : cursorInvariant { s with
          index := s.index + 1, ypos := s.ypos + 120 - 120,
          yoff := s.ypos + 120 - 120 - (usub (usub (s.index + 1) s.start) 1 : Int) * 120,
          start := (s.start + 1) % 2 ^ 64 } := by
        unfold cursorInvariant
        dsimp only
        rw [Nat.mod_eq_of_lt (by omega)]
        refine ⟨by omega, by omega, by omega, ?_⟩
        push_cast
        omega
      exact cursor_after_prefetch _ _ _ hu hb
    · rw [if_neg hsc]
      have hu : cursorInvariant { s with index := s.index + 1, ypos := s.ypos + 120 } := by
        unfold cursorInvariant
        dsimp only
        refine ⟨by omega, by omega, by omega, ?_⟩
        push_cast
        omega
      exact cursor_after_prefetch _ _ _ hu hb
  · rw [if_neg hg]
    exact ⟨s, rfl, ⟨h1, h2, h3, h4⟩, rfl⟩

theorem UpdateList_up_cursor (clock : FrameClock) (s : App)
    (hs : cursorInvariant s) (hb : s.entries.length + 6 < 2 ^ 64) :
    ∃ s1, UpdateList.up clock s = some s1 ∧ cursorInvariant s1 ∧
      s1.entries = s.entries := by
  obtain ⟨h1, h2, h3, h4⟩ := hs
  unfold UpdateList.up
  by_cases hg : s.index ≠ 0 ∧ s.entries.length ≠ 0
  · rw [if_pos hg]
    simp only
    by_cases hsc : s.ypos - 120 < 86
    · rw [if_pos hsc]
      have hst : 1 ≤ s.start := by omega
      have hu : cursorInvariant { s with
          index := s.index - 1, ypos := s.ypos - 120 + 120,
          yoff := s.ypos - 120 + 120, start := usub s.start 1 } := by
        unfold cursorInvariant
        dsimp only
        rw [usub_of_le _ _ hst (by omega)]
        refine ⟨by omega, by omega, by omega, ?_⟩
        omega
      exact cursor_after_prefetch _ _ _ hu hb
    · rw [if_neg hsc]
      have hu : cursorInvariant { s with index := s.index - 1, ypos := s.ypos - 120 } := by
        unfold cursorInvariant
        dsimp only
        refine ⟨by omega, by omega, by omega, ?_⟩
        omega
      exact cursor_after_prefetch _ _ _ hu hb
  · rw [if_neg hg]
    exact ⟨s, rfl, ⟨h1, h2, h3, h4⟩, rfl⟩

theorem UpdateList_pageUp_cursor (clock : FrameClock) (s : App)
    (hs : cursorInvariant s) (hb : s.entries.length + 6 < 2 ^ 64) :
    ∃ s1, UpdateList.pageUp clock s = some s1 ∧ cursorInvariant s1 ∧
      s1.entries = s.entries := by
  obtain ⟨h1, h2, h3, h4⟩ := hs
  unfold UpdateList.pageUp
  rw [if_pos (by omega)]
  simp only
  refine cursor_after_prefetch _ _ _ ?_ hb
  unfold cursorInvariant
  dsimp only
  by_cases c1 : s.index ≥ 4 <;> by_cases c2 : s.start ≥ 4 <;>
    simp only [c1, c2, if_true, if_false] <;>
    split_ifs <;>
    (try rw [usub_of_le _ _ (by omega) (by omega)]) <;>
    refine ⟨by omega, by omega, by omega, ?_⟩ <;>
    push_cast <;> omega

theorem UpdateList_pageDown_cursor (clock : FrameClock) (s : App)
    (hs : cursorInvariant s) (hb : s.entries.length + 6 < 2 ^ 64) :
    ∃ s1, UpdateList.pageDown clock s = some s1 ∧ cursorInvariant s1 ∧
      s1.entries = s.entries := by
  obtain ⟨h1, h2, h3, h4⟩ := hs
  unfold UpdateList.pageDown
  rw [if_pos (by omega)]
  simp only
  refine cursor_after_prefetch _ _ _ ?_ hb
  unfold cursorInvariant
  dsimp only
  rw [Nat.mod_eq_of_lt (show s.index + 4 < 2 ^ 64 by omega),
    Nat.mod_eq_of_lt (show s.start + 4 < 2 ^ 64 by omega)]
  split_ifs <;>
    dsimp only <;>
    (try rw [usub_of_le _ _ (by omega) (by omega)]) <;>
    refine ⟨by omega, by omega, by omega, ?_⟩ <;>
    push_cast <;> omega

/-- A frame of the list view in which one cursor key is pressed, from a state in which
the cursor invariant holds. -/
theorem UpdateList_cursor_step (remove : Nat → Nat → Nat)
    (sort : (AppEntry → AppEntry → Bool) → List AppEntry → List AppEntry)
    (key : CursorKey) (clock : FrameClock) (sys : Sys)
    (hs : cursorInvariant sys.world.app) (hb : sys.world.app.entries.length + 6 < 2 ^ 64) :
    ∃ sys1, UpdateList remove sort key.controller clock sys = some sys1 ∧
      cursorInvariant sys1.world.app ∧
      sys1.world.app.entries = sys.world.app.entries := by
  cases key with
  | UP =>
    obtain ⟨s1, h1, h2, h3⟩ := UpdateList_up_cursor clock sys.world.app hs hb
    refine ⟨{ sys with world := { sys.world with app := s1 } }, ?_, h2, h3⟩
    simp [UpdateList, CursorKey.controller, h1]
  | DOWN =>
    obtain ⟨s1, h1, h2, h3⟩ := UpdateList_down_cursor clock sys.world.app hs hb
    refine ⟨{ sys with world := { sys.world with app := s1 } }, ?_, h2, h3⟩
    simp [UpdateList, CursorKey.controller, h1]
  | L =>
    obtain ⟨s1, h1, h2, h3⟩ := UpdateList_pageUp_cursor clock sys.world.app hs hb
    refine ⟨{ sys with world := { sys.world with app := s1 } }, ?_, h2, h3⟩
    simp [UpdateList, CursorKey.controller, h1]
  | R =>
    obtain ⟨s1, h1, h2, h3⟩ := UpdateList_pageDown_cursor clock sys.world.app hs hb
    refine ⟨{ sys with world := { sys.world with app := s1 } }, ?_, h2, h3⟩
    simp [UpdateList, CursorKey.controller, h1]

theorem UpdateList_run_cursor (remove : Nat → Nat → Nat)
    (sort : (AppEntry → AppEntry → Bool) → List AppEntry → List AppEntry)
    (keys : List (CursorKey × FrameClock)) (sys : Sys)
    (hs : cursorInvariant sys.world.app) (hb : sys.world.app.entries.length + 6 < 2 ^ 64) :
    ∃ sys1, UpdateList.run remove sort (keys.map (fun k => (k.1.controller, k.2))) sys =
        some sys1 ∧
      cursorInvariant sys1.world.app ∧
      sys1.world.app.entries = sys.world.app.entries := by
  induction keys generalizing sys with
  | nil => exact ⟨sys, rfl, hs, rfl⟩
  | cons k rest ih =>
    obtain ⟨sys1, h1, h2, h3⟩ := UpdateList_cursor_step remove sort k.1 k.2 sys hs hb
    obtain ⟨sys2, g1, g2, g3⟩ := ih sys1 h2 (by rw [h3]; exact hb)
    refine ⟨sys2, ?_, g2, g3.trans h3⟩
    simp only [List.map_cons, UpdateList.run, h1, Option.some_bind]
    exact g1

/-- C28. For a catalog of n ≥ 1 entries (n within the capacity of a vector) and every
finite sequence of frames of `UpdateList` in each of which one of UP, DOWN, L, R is
pressed, with any clock readings, from the initial cursor `index = start = 0`,
`ypos = 130` (whatever `yoff`): every frame returns, the entries stay as they are, and the state
reached satisfies `start ≤ index ≤ start + 3`, `index < n` and
`ypos = 130 + 120 * (index - start)`. The subtractions the handlers make on `index` and
`start` do not underflow in such a state: `index - start` and `index - start - 1` after
`index++` have `start ≤ index`, `entries.size() - 1` has `n ≥ 1`, `index--` is guarded
by `index != 0`, `start--` is made only when `ypos - 120 < 86`, where `start ≥ 1`, and
the subtractions of 4 are guarded by their tests. -/
theorem C28_cursor_invariant (remove : Nat → Nat → Nat)
    (sort : (AppEntry → AppEntry → Bool) → List AppEntry → List AppEntry)
    (keys : List (CursorKey × FrameClock)) (sys : Sys)
    (hn : 1 ≤ sys.world.app.entries.length)
    (hb : sys.world.app.entries.length + 6 < 2 ^ 64)
    (hindex : sys.world.app.index = 0) (hstart : sys.world.app.start = 0)
    (hypos : sys.world.app.ypos = 130) :
    ∃ sys1, UpdateList.run remove sort (keys.map (fun k => (k.1.controller, k.2))) sys =
        some sys1 ∧
      sys1.world.app.entries = sys.world.app.entries ∧
      sys1.world.app.start ≤ sys1.world.app.index ∧
      sys1.world.app.index ≤ sys1.world.app.start + 3 ∧
      sys1.world.app.index < sys.world.app.entries.length ∧
      sys1.world.app.ypos =
        130 + 120 * ((sys1.world.app.index : Int) - (sys1.world.app.start : Int)) ∧
      (sys1.world.app.ypos - 120 < 86 → sys1.world.app.index ≠ 0 →
        1 ≤ sys1.world.app.start) ∧
      usub sys1.world.app.index sys1.world.app.start =
        sys1.world.app.index - sys1.world.app.start ∧
      usub sys1.world.app.entries.length 1 = sys1.world.app.entries.length - 1 := by
  have hs : cursorInvariant sys.world.app := by
    unfold cursorInvariant
    rw [hindex, hstart, hypos]
    exact ⟨le_rfl, by omega, by omega, by norm_num⟩
  obtain ⟨sys1, h1, ⟨a1, a2, a3, a4⟩, h3⟩ := UpdateList_run_cursor remove sort keys sys hs hb
  rw [h3] at a3
  refine ⟨sys1, h1, h3, a1, a2, a3, a4, by omega, ?_, ?_⟩
  · exact usub_of_le _ _ a1 (by omega)
  · rw [h3]
    exact usub_of_le _ _ hn (by omega)

/-- C28 on twelve entries with the keys DOWN ×5, R, R, UP, L: the cursor ends on row 6
with the list scrolled to row 4. -/
theorem C28_witness_twelve_entries :
    (UpdateList.run (removeFailsFor []) insertionSortBy
        ([(CursorKey.DOWN, frameAt 2000000000), (CursorKey.DOWN, frameAt 3000000000),
          (CursorKey.DOWN, frameAt 4000000000), (CursorKey.DOWN, frameAt 5000000000),
          (CursorKey.DOWN, frameAt 6000000000), (CursorKey.R, frameAt 7000000000),
          (CursorKey.R, frameAt 8000000000), (CursorKey.UP, frameAt 9000000000),
          (CursorKey.L, frameAt 10000000000)].map (fun k => (k.1.controller, k.2)))
        twelveRows).map
      (fun sys1 => (sys1.world.app.index, sys1.world.app.start, sys1.world.app.ypos)) =
      some (6, 4, 370) ∧
    ∃ sys1, UpdateList.run (removeFailsFor []) insertionSortBy
        ([(CursorKey.DOWN, frameAt 2000000000), (CursorKey.DOWN, frameAt 3000000000),
          (CursorKey.DOWN, frameAt 4000000000), (CursorKey.DOWN, frameAt 5000000000),
          (CursorKey.DOWN, frameAt 6000000000), (CursorKey.R, frameAt 7000000000),
          (CursorKey.R, frameAt 8000000000), (CursorKey.UP, frameAt 9000000000),
          (CursorKey.L, frameAt 10000000000)].map (fun k => (k.1.controller, k.2)))
        twelveRows = some sys1 ∧
      sys1.world.app.entries = twelveRows.world.app.entries ∧
      sys1.world.app.start ≤ sys1.world.app.index ∧
      sys1.world.app.index ≤ sys1.world.app.start + 3 ∧
      sys1.world.app.index < twelveRows.world.app.entries.length ∧
      sys1.world.app.ypos =
        130 + 120 * ((sys1.world.app.index : Int) - (sys1.world.app.start : Int)) ∧
      (sys1.world.app.ypos - 120 < 86 → sys1.world.app.index ≠ 0 →
        1 ≤ sys1.world.app.start) ∧
      usub sys1.world.app.index sys1.world.app.start =
        sys1.world.app.index - sys1.world.app.start ∧
      usub sys1.world.app.entries.length 1 = sys1.world.app.entries.length - 1 :=
  ⟨by decide,
    C28_cursor_invariant (removeFailsFor []) insertionSortBy _ twelveRows
      (by decide) (by decide) (by decide) (by decide) (by decide)⟩


/-- C29, the code at the failing input. A scan over an operating system without
application records finishes with an empty store, and the loading view then enters the
list view with `index = 0`. In that list view a frame with DOWN moves `index` to 1,
because `entries.size() - 1` wraps around, and a frame with A reads `entries[0]` of the
empty vector, which is undefined behaviour (`none`). -/
theorem C29_empty_list_view_cursor :
    (FastScanNames emptyEnv 1 {}).map (fun s => (s.entries.length, s.finished_scanning)) =
      some (0, true) ∧
    emptyListView.map (fun s => (s.entries.length, s.menu_mode, s.index)) =
      some (0, MenuMode.LIST, 0) ∧
    (emptyListView.bind (fun s => UpdateList (removeFailsFor []) insertionSortBy pressDown
        (frameAt 200000000) ⟨⟨s, []⟩, none⟩)).map
      (fun sys1 => (sys1.world.app.index, sys1.world.app.entries.length)) = some (1, 0) ∧
    emptyListView.bind (fun s => UpdateList (removeFailsFor []) insertionSortBy pressA
        (frameAt 200000000) ⟨⟨s, []⟩, none⟩) = none := by
  decide


/-! ## The selection counter -/

theorem countP_set_selected (l : List AppEntry) (i : Nat) (e : AppEntry) (b : Bool)
    (h : l[i]? = some e) :
    (l.set i { e with selected := b }).countP (fun x => x.selected) +
        (if e.selected then 1 else 0) =
      l.countP (fun x => x.selected) + (if b then 1 else 0) := by
  induction l generalizing i with
  | nil => simp at h
  | cons x rest ih =>
    cases i with
    | zero =>
      simp only [List.getElem?_cons_zero, Option.some.injEq] at h
      subst h
      simp only [List.set_cons_zero, List.countP_cons]
      cases x.selected <;> cases b <;> simp
    | succ j =>
      simp only [List.getElem?_cons_succ] at h
      have := ih j h
      simp only [List.set_cons_succ, List.countP_cons]
      omega

theorem countP_selected_le (l : List AppEntry) :
    l.countP (fun x => x.selected) ≤ l.length :=
  List.countP_le_length _

theorem UpdateList_toggle_selection (s s1 : App) (hs : selectionInvariant s)
    (hb : s.entries.length < 2 ^ 64) (h : UpdateList.toggle s = some s1) :
    selectionInvariant s1 := by
  unfold UpdateList.toggle at h
  cases he : s.entries[s.index]? with
  | none => rw [he] at h; cases h
  | some entry =>
    rw [he] at h
    simp only [Option.map_some', Option.some.injEq] at h
    unfold selectionInvariant at hs ⊢
    have hle := countP_selected_le s.entries
    by_cases hsel : entry.selected = true
    · have hc := countP_set_selected s.entries s.index entry false he
      rw [if_pos hsel] at h
      rw [← h]
      dsimp only
      simp only [hsel, if_true, Bool.false_eq_true, if_false] at hc
      rw [usub_of_le _ _ (by omega) (by omega)]
      omega
    · have hc := countP_set_selected s.entries s.index entry true he
      rw [if_neg hsel] at h
      rw [← h]
      dsimp only
      simp only [hsel, if_true, Bool.false_eq_true, if_false] at hc
      have hlen : (s.entries.set s.index { entry with selected := true }).length =
          s.entries.length := List.length_set _ _ _
      have hle2 := countP_selected_le (s.entries.set s.index { entry with selected := true })
      rw [Nat.mod_eq_of_lt (by omega)]
      omega

theorem UpdateList_toggle_returns (s : App) (h : s.index < s.entries.length) :
    ∃ s1, UpdateList.toggle s = some s1 := by
  unfold UpdateList.toggle
  rw [List.getElem?_eq_getElem h]
  exact ⟨_, rfl⟩

theorem UpdateList_selectAll_selection (s : App) :
    selectionInvariant (UpdateList.selectAll s) := by
  unfold selectionInvariant UpdateList.selectAll
  split_ifs
  · simp [List.countP_map, Function.comp_def]
  · simp [List.countP_map, Function.comp_def]

theorem foldl_count_selected (l : List AppEntry) (c : Nat)
    (h : c + l.length < 2 ^ 64) :
    l.foldl (fun delete_count a =>
        if a.selected then (delete_count + 1) % 2 ^ 64 else delete_count) c =
      c + l.countP (fun x => x.selected) := by
  induction l generalizing c with
  | nil => simp
  | cons x rest ih =>
    simp only [List.length_cons] at h
    simp only [List.foldl_cons, List.countP_cons]
    by_cases hx : x.selected = true
    · simp only [hx, if_true]
      rw [Nat.mod_eq_of_lt (by omega), ih (c + 1) (by omega)]
      omega
    · simp only [hx, Bool.false_eq_true, if_false]
      rw [ih c (by omega)]
      omega

theorem UpdateList_invert_selection (s : App) (hb : s.entries.length < 2 ^ 64) :
    selectionInvariant (UpdateList.invert s) := by
  unfold selectionInvariant UpdateList.invert
  dsimp only
  rw [foldl_count_selected _ 0 (by simpa using hb)]
  simp

theorem App_Sort_selection
    (sort : (AppEntry → AppEntry → Bool) → List AppEntry → List AppEntry)
    (hsort : SortContract sort) (s : App) :
    (App.Sort sort s).entries.countP (fun e => e.selected) =
        s.entries.countP (fun e => e.selected) ∧
      (App.Sort sort s).delete_count = s.delete_count := by
  obtain ⟨p1, _⟩ := hsort _ s.entries sizeGreater_strictWeak
  obtain ⟨p2, _⟩ := hsort _ s.entries nameLess_strictWeak
  unfold App.Sort
  split_ifs
  · exact ⟨p1.countP_eq _, rfl⟩
  · exact ⟨p2.countP_eq _, rfl⟩
  · exact ⟨p1.countP_eq _, rfl⟩

/-- A state that differs from one with the selection invariant only outside the entries
and the counter has it too. -/
theorem selectionInvariant_of_eq (s s1 : App) (hs : selectionInvariant s)
    (he : s1.entries = s.entries) (hc : s1.delete_count = s.delete_count) :
    selectionInvariant s1 := by
  unfold selectionInvariant at hs ⊢
  rw [he, hc]
  exact hs

theorem selectionInvariant_after_prefetch (now : Int) (stamps : Nat → Int) (u s1 : App)
    (hu : selectionInvariant u) (h : LoadVisibleAreaIcons now stamps u = some s1) :
    selectionInvariant s1 := by
  obtain ⟨rm, r, t, hf⟩ := LoadVisibleAreaIcons_frame now stamps u s1 h
  exact selectionInvariant_of_eq u s1 hu (by rw [hf]) (by rw [hf])

theorem UpdateList_start_selection (remove : Nat → Nat → Nat) (sys sys1 : Sys)
    (hs : selectionInvariant sys.world.app) (hw : sys.worker = none)
    (h : UpdateList.start remove sys = some sys1) : selectionInvariant sys1.world.app := by
  unfold UpdateList.start at h
  simp only at h
  split_ifs at h with h1 h2
  · rw [← Option.some.inj h]
    exact selectionInvariant_of_eq _ _ hs rfl rfl
  · simp only [Sys.get, hw, Option.map_some', Option.some.injEq] at h
    rw [← h]
    exact selectionInvariant_of_eq _ _ hs rfl rfl
  · simp only [Option.map_some', Option.some.injEq] at h
    rw [← h]
    exact selectionInvariant_of_eq _ _ hs rfl rfl

theorem UpdateList_lift_selection (sys sys1 : Sys) (r : Option App)
    (hr : ∀ s1, r = some s1 → selectionInvariant s1)
    (h : r.map (fun s1 => { sys with world := { sys.world with app := s1 } }) = some sys1) :
    selectionInvariant sys1.world.app := by
  cases r with
  | none => exact absurd h (by simp)
  | some s1 =>
    rw [← Option.some.inj h]
    exact hr s1 rfl

theorem UpdateList_down_selection (clock : FrameClock) (s s1 : App)
    (hs : selectionInvariant s) (h1 : UpdateList.down clock s = some s1) :
    selectionInvariant s1 := by
  unfold UpdateList.down at h1
  simp only at h1
  split_ifs at h1 <;> first
    | (rw [← Option.some.inj h1]; exact hs)
    | (refine selectionInvariant_after_prefetch _ _ _ _ ?_ h1
       exact selectionInvariant_of_eq _ _ hs rfl rfl)

theorem UpdateList_up_selection (clock : FrameClock) (s s1 : App)
    (hs : selectionInvariant s) (h1 : UpdateList.up clock s = some s1) :
    selectionInvariant s1 := by
  unfold UpdateList.up at h1
  simp only at h1
  split_ifs at h1 <;> first
    | (rw [← Option.some.inj h1]; exact hs)
    | (refine selectionInvariant_after_prefetch _ _ _ _ ?_ h1
       exact selectionInvariant_of_eq _ _ hs rfl rfl)

theorem UpdateList_sort_selection
    (sort : (AppEntry → AppEntry → Bool) → List AppEntry → List AppEntry)
    (hsort : SortContract sort) (clock : FrameClock) (s s1 : App)
    (hs : selectionInvariant s) (h1 : UpdateList.sort sort clock s = some s1) :
    selectionInvariant s1 := by
  unfold UpdateList.sort at h1
  simp only [Option.map_eq_some'] at h1
  obtain ⟨s2, h2, rfl⟩ := h1
  have hsorted := App_Sort_selection sort hsort
    { s with
      sort_type := if (s.sort_type + 1) % 256 = SortType.MAX then 0
        else (s.sort_type + 1) % 256 }
  have hu := selectionInvariant_after_prefetch _ _ _ _
    (show selectionInvariant _ from by
      unfold selectionInvariant at hs ⊢
      dsimp only
      rw [hsorted.1, hsorted.2]
      exact hs) h2
  exact selectionInvariant_of_eq _ _ hu rfl rfl

theorem UpdateList_pageUp_selection (clock : FrameClock) (s s1 : App)
    (hs : selectionInvariant s) (h1 : UpdateList.pageUp clock s = some s1) :
    selectionInvariant s1 := by
  unfold UpdateList.pageUp at h1
  simp only at h1
  split_ifs at h1 <;> first
    | (rw [← Option.some.inj h1]; exact hs)
    | (refine selectionInvariant_after_prefetch _ _ _ _ ?_ h1
       exact selectionInvariant_of_eq _ _ hs rfl rfl)

theorem UpdateList_pageDown_selection (clock : FrameClock) (s s1 : App)
    (hs : selectionInvariant s) (h1 : UpdateList.pageDown clock s = some s1) :
    selectionInvariant s1 := by
  unfold UpdateList.pageDown at h1
  simp only at h1
  split_ifs at h1 <;> first
    | (rw [← Option.some.inj h1]; exact hs)
    | (refine selectionInvariant_after_prefetch _ _ _ _ ?_ h1
       exact selectionInvariant_of_eq _ _ hs rfl rfl)

/-- Every frame of the list view keeps the selection invariant, when no deletion worker is
running. -/
theorem UpdateList_selection (remove : Nat → Nat → Nat)
    (sort : (AppEntry → AppEntry → Bool) → List AppEntry → List AppEntry)
    (hsort : SortContract sort)
    (controller : Controller) (clock : FrameClock) (sys sys1 : Sys)
    (hs : selectionInvariant sys.world.app) (hb : sys.world.app.entries.length < 2 ^ 64)
    (hw : sys.worker = none)
    (h : UpdateList remove sort controller clock sys = some sys1) :
    selectionInvariant sys1.world.app := by
  unfold UpdateList at h
  simp only at h
  by_cases c1 : controller.B = true
  · rw [if_pos c1] at h
    exact UpdateList_lift_selection sys sys1 _
      (fun s1 e => by rw [← Option.some.inj e]; exact selectionInvariant_of_eq _ _ hs rfl rfl) h
  rw [if_neg c1] at h
  by_cases c2 : controller.A = true
  · rw [if_pos c2] at h
    exact UpdateList_lift_selection sys sys1 _
      (fun s1 e => UpdateList_toggle_selection _ _ hs hb e) h
  rw [if_neg c2] at h
  by_cases c3 : sys.world.app.is_scan_running = false ∧ controller.START = true
  · rw [if_pos c3] at h
    exact UpdateList_start_selection remove sys sys1 hs hw h
  rw [if_neg c3] at h
  by_cases c4 : controller.DOWN = true
  · rw [if_pos c4] at h
    exact UpdateList_lift_selection sys sys1 _
      (fun s1 e => UpdateList_down_selection clock _ _ hs e) h
  rw [if_neg c4] at h
  by_cases c5 : controller.UP = true
  · rw [if_pos c5] at h
    exact UpdateList_lift_selection sys sys1 _
      (fun s1 e => UpdateList_up_selection clock _ _ hs e) h
  rw [if_neg c5] at h
  by_cases c6 : sys.world.app.is_scan_running = false ∧ controller.Y = true
  · rw [if_pos c6] at h
    exact UpdateList_lift_selection sys sys1 _
      (fun s1 e => UpdateList_sort_selection sort hsort clock _ _ hs e) h
  rw [if_neg c6] at h
  by_cases c7 : sys.world.app.is_scan_running = false ∧ controller.L2 = true
  · rw [if_pos c7] at h
    exact UpdateList_lift_selection sys sys1 _
      (fun s1 e => by rw [← Option.some.inj e]; exact UpdateList_selectAll_selection _) h
  rw [if_neg c7] at h
  by_cases c8 : sys.world.app.is_scan_running = false ∧ controller.R2 = true
  · rw [if_pos c8] at h
    exact UpdateList_lift_selection sys sys1 _
      (fun s1 e => by rw [← Option.some.inj e]; exact UpdateList_invert_selection _ hb) h
  rw [if_neg c8] at h
  by_cases c9 : controller.L = true
  · rw [if_pos c9] at h
    exact UpdateList_lift_selection sys sys1 _
      (fun s1 e => UpdateList_pageUp_selection clock _ _ hs e) h
  rw [if_neg c9] at h
  by_cases c10 : controller.R = true
  · rw [if_pos c10] at h
    exact UpdateList_lift_selection sys sys1 _
      (fun s1 e => UpdateList_pageDown_selection clock _ _ hs e) h
  rw [if_neg c10] at h
  rw [← Option.some.inj h]
  exact hs

theorem DrawConfirm_selected_indices_mem (es : List AppEntry) (i j : Nat)
    (h : j ∈ DrawConfirm.selected_indices es i) :
    i ≤ j ∧ ∃ e, es[j - i]? = some e ∧ e.selected = true := by
  induction es generalizing i with
  | nil => simp [DrawConfirm.selected_indices] at h
  | cons x rest ih =>
    unfold DrawConfirm.selected_indices at h
    have hrec : j ∈ DrawConfirm.selected_indices rest (i + 1) →
        i ≤ j ∧ ∃ e, (x :: rest)[j - i]? = some e ∧ e.selected = true := by
      intro hm
      obtain ⟨h1, e, h2, h3⟩ := ih (i + 1) hm
      refine ⟨by omega, e, ?_, h3⟩
      have hji : j - i = (j - (i + 1)) + 1 := by omega
      rw [hji, List.getElem?_cons_succ]
      exact h2
    by_cases hx : x.selected = true
    · rw [if_pos hx] at h
      rcases List.mem_cons.mp h with h0 | hm
      · subst h0
        exact ⟨le_refl _, x, by simp, hx⟩
      · exact hrec hm
    · rw [if_neg hx] at h
      exact hrec h

/-- Clearing the flag of the entry that position `k` of the rebuilt `selected_indices`
names, and erasing position `k`, gives the list a rebuild would give. -/
theorem DrawConfirm_selected_indices_erase (es : List AppEntry) (i k j : Nat)
    (entry : AppEntry)
    (h : (DrawConfirm.selected_indices es i)[k]? = some j)
    (he : es[j - i]? = some entry) :
    DrawConfirm.selected_indices (es.set (j - i) { entry with selected := false }) i =
      (DrawConfirm.selected_indices es i).eraseIdx k := by
  induction es generalizing i k with
  | nil => simp [DrawConfirm.selected_indices] at h
  | cons x rest ih =>
    have hrec : ∀ k1, (DrawConfirm.selected_indices rest (i + 1))[k1]? = some j →
        (x :: rest).set (j - i) { entry with selected := false } =
          x :: rest.set (j - (i + 1)) { entry with selected := false } ∧
        DrawConfirm.selected_indices (rest.set (j - (i + 1)) { entry with selected := false })
            (i + 1) =
          (DrawConfirm.selected_indices rest (i + 1)).eraseIdx k1 := by
      intro k1 hk
      have hm := DrawConfirm_selected_indices_mem rest (i + 1) j (List.getElem?_mem hk)
      have hji : j - i = (j - (i + 1)) + 1 := by omega
      have he1 : rest[j - (i + 1)]? = some entry := by
        rw [hji, List.getElem?_cons_succ] at he
        exact he
      refine ⟨?_, ih (i + 1) k1 hk he1⟩
      rw [hji, List.set_cons_succ]
    by_cases hx : x.selected = true
    · have hl : DrawConfirm.selected_indices (x :: rest) i =
          i :: DrawConfirm.selected_indices rest (i + 1) := by
        rw [DrawConfirm.selected_indices, if_pos hx]
      rw [hl] at h ⊢
      cases k with
      | zero =>
        simp only [List.getElem?_cons_zero, Option.some.injEq] at h
        subst h
        simp only [Nat.sub_self, List.getElem?_cons_zero, Option.some.injEq] at he
        subst he
        simp only [Nat.sub_self, List.set_cons_zero, List.eraseIdx_cons_zero]
        rw [DrawConfirm.selected_indices, if_neg (by simp)]
      | succ k1 =>
        rw [List.getElem?_cons_succ] at h
        obtain ⟨e1, e2⟩ := hrec k1 h
        rw [e1, List.eraseIdx_cons_succ, DrawConfirm.selected_indices, if_pos hx, e2]
    · have hl : DrawConfirm.selected_indices (x :: rest) i =
          DrawConfirm.selected_indices rest (i + 1) := by
        rw [DrawConfirm.selected_indices, if_neg hx]
      rw [hl] at h ⊢
      obtain ⟨e1, e2⟩ := hrec k h
      rw [e1, DrawConfirm.selected_indices, if_neg hx, e2]

theorem LoadConfirmVisibleAreaIcons_selection (now : Int) (stamps : Nat → Int) (s s1 : App)
    (h : LoadConfirmVisibleAreaIcons now stamps s = some s1) :
    s1.entries = s.entries ∧ s1.delete_count = s.delete_count ∧
      s1.selected_indices = s.selected_indices := by
  by_cases hsel : s.selected_indices = []
  · unfold LoadConfirmVisibleAreaIcons at h
    simp only [hsel, List.isEmpty_nil, if_true, Option.some.injEq] at h
    subst h
    exact ⟨rfl, rfl, rfl⟩
  · by_cases hacc : GetConfirmVisibleRange s = s.last_confirm_loaded_range ∧
        now - s.last_confirm_load_time < LOAD_DEBOUNCE_MS
    · have hne : s.selected_indices.isEmpty = false := by
        cases hs : s.selected_indices with
        | nil => exact absurd hs hsel
        | cons a as => rfl
      unfold LoadConfirmVisibleAreaIcons at h
      simp only [hne, Bool.false_eq_true, if_false] at h
      rw [if_pos (by simpa using hacc)] at h
      cases h
      exact ⟨rfl, rfl, rfl⟩
    · rw [LoadConfirmVisibleAreaIcons_of_accepted now stamps s hsel hacc] at h
      obtain ⟨new, h1, _, _⟩ := LoadConfirmVisibleAreaIcons_pass_spec stamps _ _ _ _ h
      subst h1
      exact ⟨rfl, rfl, rfl⟩

/-- The X handler of the confirm view, from a state whose `selected_indices` is the list
`DrawConfirm` builds: it returns, keeps the selection invariant and keeps
`selected_indices` the list a rebuild would give. -/
theorem UpdateConfirm_remove_selection (s : App) (hs : selectionInvariant s)
    (hb : s.entries.length < 2 ^ 64)
    (hsel : s.selected_indices = DrawConfirm.selected_indices s.entries 0) :
    ∃ s1, UpdateConfirm.remove s = some s1 ∧ selectionInvariant s1 ∧
      s1.selected_indices = DrawConfirm.selected_indices s1.entries 0 := by
  unfold UpdateConfirm.remove
  by_cases hrun : s.delete_thread_valid = true ∧ s.finished_deleting = false
  · rw [if_pos hrun]
    exact ⟨s, rfl, hs, hsel⟩
  rw [if_neg hrun]
  by_cases hcur : ¬ s.selected_indices.isEmpty ∧ s.confirm_index < s.selected_indices.length
  swap
  · rw [if_neg hcur]
    exact ⟨s, rfl, hs, hsel⟩
  rw [if_pos hcur]
  obtain ⟨j, hj⟩ : ∃ j, s.selected_indices[s.confirm_index]? = some j :=
    ⟨_, List.getElem?_eq_getElem hcur.2⟩
  have hj0 : (DrawConfirm.selected_indices s.entries 0)[s.confirm_index]? = some j := by
    rw [← hsel]
    exact hj
  obtain ⟨_, entry, he, hsd⟩ :=
    DrawConfirm_selected_indices_mem s.entries 0 j (List.getElem?_mem hj0)
  rw [Nat.sub_zero] at he
  have herase := DrawConfirm_selected_indices_erase s.entries 0 s.confirm_index j entry hj0
    (by rw [Nat.sub_zero]; exact he)
  rw [Nat.sub_zero, ← hsel] at herase
  have hlt : j < s.entries.length := by
    rcases Nat.lt_or_ge j s.entries.length with h | h
    · exact h
    · rw [List.getElem?_eq_none h] at he
      exact absurd he (by simp)
  have hcount := countP_set_selected s.entries j entry false he
  have hpos : 1 ≤ s.delete_count := by
    unfold selectionInvariant at hs
    rw [hs]
    have := List.countP_pos_iff.mpr ⟨entry, List.getElem?_mem he, by simpa using hsd⟩
    exact this
  have hinv1 : selectionInvariant
      { s with
        entries := s.entries.set j { entry with selected := false },
        delete_count := usub s.delete_count 1,
        delete_entries := s.delete_entries.erase entry.id } := by
    unfold selectionInvariant at hs ⊢
    dsimp only
    rw [usub_of_le _ _ hpos (by rw [hs]; exact lt_of_le_of_lt (countP_selected_le _) hb)]
    rw [hsd] at hcount
    simp only [if_true, Bool.false_eq_true, if_false, Nat.add_zero] at hcount
    omega
  rw [hj]
  simp only [Option.map_some', he]
  by_cases hem : (s.selected_indices.eraseIdx s.confirm_index).isEmpty = true
  · rw [if_pos hem]
    exact ⟨_, rfl, selectionInvariant_of_eq _ _ hinv1 rfl rfl, herase.symm⟩
  · rw [if_neg hem]
    exact ⟨_, rfl, selectionInvariant_of_eq _ _ hinv1 rfl rfl, herase.symm⟩

/-- A frame of the confirm view in which X alone is pressed keeps the selection invariant
and the agreement of `selected_indices` with the selected entries. -/
theorem UpdateConfirm_pressX_selection (remove : Nat → Nat → Nat) (clock : FrameClock)
    (sys sys1 : Sys) (hs : selectionInvariant sys.world.app)
    (hb : sys.world.app.entries.length < 2 ^ 64)
    (hsel : sys.world.app.selected_indices =
      DrawConfirm.selected_indices sys.world.app.entries 0)
    (h : UpdateConfirm remove pressX clock sys = some sys1) :
    selectionInvariant sys1.world.app ∧
      sys1.world.app.selected_indices =
        DrawConfirm.selected_indices sys1.world.app.entries 0 := by
  cases hp : LoadConfirmVisibleAreaIcons clock.confirm_now clock.confirm_stamps
      sys.world.app with
  | none =>
    unfold UpdateConfirm at h
    rw [hp] at h
    exact absurd h (by simp)
  | some s0 =>
    rw [UpdateConfirm_of_no_start remove pressX clock sys s0 hp
      (by simp [pressX])] at h
    obtain ⟨e1, e2, e3⟩ := LoadConfirmVisibleAreaIcons_selection _ _ _ _ hp
    obtain ⟨s1, g1, g2, g3⟩ := UpdateConfirm_remove_selection s0
      (selectionInvariant_of_eq _ _ hs e1 e2) (by rw [e1]; exact hb)
      (by rw [e1, e3]; exact hsel)
    simp only [pressX, Bool.false_eq_true, if_false, if_true, g1, Option.map_some',
      Option.some.injEq] at h
    rw [← h]
    exact ⟨g2, g3⟩

/-- The selection handlers keep `delete_count` equal to the number of selected entries
under the conditions of their views. From a state with that property (n entries, n
within the capacity of a vector): the A handler of the list view, with the cursor on an
entry, returns a state with the same property; so do the ZL (select all / deselect all)
and ZR (invert) handlers; and the X handler of the confirm view, entered with
`selected_indices` as `DrawConfirm` builds it (the indices of the selected entries,
ascending), returns a state with the same property in which `selected_indices` is again
the list a rebuild gives. The same holds of whole frames: every frame of `UpdateList`
that returns while no deletion thread is attached, whatever is pressed, with a
`std::ranges::sort` that meets its contract, and every frame of `UpdateConfirm` in which
X alone is pressed. -/
theorem selection_counter_preserved (remove : Nat → Nat → Nat)
    (sort : (AppEntry → AppEntry → Bool) → List AppEntry → List AppEntry)
    (controller : Controller) (clock : FrameClock) (sys : Sys)
    (hinv : selectionInvariant sys.world.app)
    (hb : sys.world.app.entries.length < 2 ^ 64) :
    (sys.world.app.index < sys.world.app.entries.length →
      ∃ s1, UpdateList.toggle sys.world.app = some s1 ∧ selectionInvariant s1) ∧
    selectionInvariant (UpdateList.selectAll sys.world.app) ∧
    selectionInvariant (UpdateList.invert sys.world.app) ∧
    (sys.world.app.selected_indices = DrawConfirm.selected_indices sys.world.app.entries 0 →
      ∃ s1, UpdateConfirm.remove sys.world.app = some s1 ∧ selectionInvariant s1 ∧
        s1.selected_indices = DrawConfirm.selected_indices s1.entries 0) ∧
    (∀ sys1, SortContract sort → sys.worker = none →
      UpdateList remove sort controller clock sys = some sys1 →
      selectionInvariant sys1.world.app) ∧
    (∀ sys1,
      sys.world.app.selected_indices = DrawConfirm.selected_indices sys.world.app.entries 0 →
      UpdateConfirm remove pressX clock sys = some sys1 →
      selectionInvariant sys1.world.app ∧
        sys1.world.app.selected_indices =
          DrawConfirm.selected_indices sys1.world.app.entries 0) := by
  refine ⟨?_, UpdateList_selectAll_selection _, UpdateList_invert_selection _ hb,
    fun hsel => UpdateConfirm_remove_selection _ hinv hb hsel,
    fun sys1 hsort hw h =>
      UpdateList_selection remove sort hsort controller clock sys sys1 hinv hb hw h,
    fun sys1 hsel h => UpdateConfirm_pressX_selection remove clock sys sys1 hinv hb hsel h⟩
  intro hi
  obtain ⟨s1, h1⟩ := UpdateList_toggle_returns _ hi
  exact ⟨s1, h1, UpdateList_toggle_selection _ _ hinv hb h1⟩

/-- C27, the code at the failing input. In `confirmAB` the entries A and B are selected,
`delete_count` is 2 and `selected_indices` is [0, 1], the list `DrawConfirm` builds. A
frame with RIGHT+A starts the job over {A, B}; the draw of that frame builds [0, 1]
again. The worker then removes A and B and calls `done_cb` before the next draw: the
store holds the unselected entry C alone, `delete_count` is 0, the number of selected
entries, and `selected_indices` is still [0, 1]. In the next frame X is not blocked,
since `finished_deleting` is set; it reads index 0 from `selected_indices`, clears the
flag of C, which was clear, and decrements `delete_count`, which wraps around to
2^64 - 1 while no entry is selected. -/
theorem C27_remove_after_completed_job :
    confirmAB.app.selected_indices = DrawConfirm.selected_indices confirmAB.app.entries 0 ∧
    (UpdateConfirm (removeFailsFor []) holdRightA (frameAt 2000000000)
        ⟨confirmAB, none⟩).map
      (fun sys => DrawConfirm.selected_indices sys.world.app.entries 0) = some [0, 1] ∧
    completedAB.map (fun sys =>
      (sys.world.app.entries.map (fun e => (e.id, e.selected)), sys.world.app.delete_count,
        sys.world.app.entries.countP (fun e => e.selected))) =
      some ([(3, false)], 0, 0) ∧
    completedAB.map (fun sys =>
      (sys.world.app.selected_indices, sys.world.app.finished_deleting,
        sys.world.app.menu_mode)) =
      some ([0, 1], true, MenuMode.CONFIRM) ∧
    (completedAB.bind
        (UpdateConfirm (removeFailsFor []) pressX (frameAt 2100000000))).map
      (fun sys =>
        (sys.world.app.entries.map (fun e => (e.id, e.selected)), sys.world.app.delete_count,
          sys.world.app.entries.countP (fun e => e.selected))) =
      some ([(3, false)], 2 ^ 64 - 1, 0) := by
  decide


/-! ## The language file parser -/

theorem skipWhitespace_loop_ge (l : List Char) (start : Nat) :
    start ≤ parseSimpleJSON.skipWhitespace.loop l start := by
  induction l generalizing start with
  | nil => exact le_refl _
  | cons c rest ih =>
    unfold parseSimpleJSON.skipWhitespace.loop
    split_ifs
    · exact le_trans (Nat.le_succ _) (ih (start + 1))
    · exact le_refl _

theorem skipWhitespace_ge (jsonStr : CString) (start : Nat) :
    start ≤ parseSimpleJSON.skipWhitespace jsonStr start :=
  skipWhitespace_loop_ge _ _

theorem findFrom_ge (p : Char → Bool) (l : List Char) (pos q : Nat)
    (h : CString.findFrom p l pos = some q) : pos ≤ q := by
  induction l generalizing pos with
  | nil => simp [CString.findFrom] at h
  | cons c rest ih =>
    unfold CString.findFrom at h
    split_ifs at h
    · exact le_of_eq (Option.some.inj h)
    · exact le_trans (Nat.le_succ _) (ih (pos + 1) h)

theorem closingQuote_ge (l : List Char) ( inEscape : Bool) (keyEnd : Nat) :
    keyEnd ≤ parseSimpleJSON.closingQuote l inEscape keyEnd := by
  induction l generalizing inEscape keyEnd with
  | nil => exact le_refl _
  | cons c rest ih =>
    unfold parseSimpleJSON.closingQuote
    split_ifs
    · exact le_trans (Nat.le_succ _) (ih true (keyEnd + 1))
    · exact le_refl _
    · exact le_trans (Nat.le_succ _) (ih false (keyEnd + 1))

theorem skipPair_progress (jsonStr : CString) (pos q : Nat) (textMap r : TextMap)
    (h : parseSimpleJSON.skipPair jsonStr pos textMap = ParseStep.next q r) : pos ≤ q := by
  unfold parseSimpleJSON.skipPair at h
  cases hf : CString.find_first_of_comma_rbrace jsonStr pos with
  | none => rw [hf] at h; simp at h
  | some p =>
    rw [hf] at h
    have hp : pos ≤ p := findFrom_ge _ _ _ _ hf
    simp only at h
    split_ifs at h
    · have e := (ParseStep.next.inj h).1
      omega
    · have e := (ParseStep.next.inj h).1
      omega

theorem value_progress (jsonStr key : CString) (keyEnd q : Nat) (textMap r : TextMap)
    (h : parseSimpleJSON.value jsonStr key keyEnd textMap = ParseStep.next q r) :
    keyEnd < q := by
  unfold parseSimpleJSON.value at h
  simp only at h
  have h1 := skipWhitespace_ge jsonStr (keyEnd + 1)
  have h2 := skipWhitespace_ge jsonStr (parseSimpleJSON.skipWhitespace jsonStr (keyEnd + 1) + 1)
  split_ifs at h with c1 c2 c3 c4
  · have := skipPair_progress _ _ _ _ _ h
    omega
  · have := skipPair_progress _ _ _ _ _ h
    omega
  · have e := (ParseStep.next.inj h).1
    have h3 := closingQuote_ge
      (List.drop
        (parseSimpleJSON.skipWhitespace jsonStr
          (parseSimpleJSON.skipWhitespace jsonStr (keyEnd + 1) + 1) + 1) jsonStr) false
      (parseSimpleJSON.skipWhitespace jsonStr
          (parseSimpleJSON.skipWhitespace jsonStr (keyEnd + 1) + 1) + 1)
    have h4 := skipWhitespace_ge jsonStr
      (parseSimpleJSON.closingQuote
        (List.drop
          (parseSimpleJSON.skipWhitespace jsonStr
            (parseSimpleJSON.skipWhitespace jsonStr (keyEnd + 1) + 1) + 1) jsonStr) false
        (parseSimpleJSON.skipWhitespace jsonStr
          (parseSimpleJSON.skipWhitespace jsonStr (keyEnd + 1) + 1) + 1) + 1)
    omega
  · have e := (ParseStep.next.inj h).1
    have h3 := closingQuote_ge
      (List.drop
        (parseSimpleJSON.skipWhitespace jsonStr
          (parseSimpleJSON.skipWhitespace jsonStr (keyEnd + 1) + 1) + 1) jsonStr) false
      (parseSimpleJSON.skipWhitespace jsonStr
          (parseSimpleJSON.skipWhitespace jsonStr (keyEnd + 1) + 1) + 1)
    have h4 := skipWhitespace_ge jsonStr
      (parseSimpleJSON.closingQuote
        (List.drop
          (parseSimpleJSON.skipWhitespace jsonStr
            (parseSimpleJSON.skipWhitespace jsonStr (keyEnd + 1) + 1) + 1) jsonStr) false
        (parseSimpleJSON.skipWhitespace jsonStr
          (parseSimpleJSON.skipWhitespace jsonStr (keyEnd + 1) + 1) + 1) + 1)
    omega

/-- Every pass through the loop body that does not leave the loop moves `pos` forward. -/
theorem body_progress (jsonStr : CString) (pos q : Nat) (textMap r : TextMap)
    (h : parseSimpleJSON.body jsonStr pos textMap = ParseStep.next q r) : pos < q := by
  unfold parseSimpleJSON.body at h
  simp only at h
  have h1 := skipWhitespace_ge jsonStr pos
  split_ifs at h with c1 c2
  · cases hf : CString.find jsonStr charQuote (parseSimpleJSON.skipWhitespace jsonStr pos) with
    | none => rw [hf] at h; simp at h
    | some p =>
      rw [hf] at h
      simp only at h
      have hp : parseSimpleJSON.skipWhitespace jsonStr pos ≤ p := findFrom_ge _ _ _ _ hf
      split_ifs at h
      have hv := value_progress _ _ _ _ _ _ h
      have hk := closingQuote_ge (List.drop (p + 1) jsonStr) false (p + 1)
      omega
  · simp only at h
    split_ifs at h
    have hv := value_progress _ _ _ _ _ _ h
    have hk := closingQuote_ge
      (List.drop (parseSimpleJSON.skipWhitespace jsonStr pos + 1) jsonStr) false
      (parseSimpleJSON.skipWhitespace jsonStr pos + 1)
    omega

theorem parseSimpleJSON_loop_step (jsonStr : CString) (fuel pos : Nat) (textMap : TextMap)
    (h : pos < jsonStr.length) :
    parseSimpleJSON.loop jsonStr (fuel + 1) pos textMap =
      match parseSimpleJSON.body jsonStr pos textMap with
      | ParseStep.stop textMap => some textMap
      | ParseStep.next pos textMap => parseSimpleJSON.loop jsonStr fuel pos textMap := by
  rw [parseSimpleJSON.loop, if_pos h]

theorem parseSimpleJSON_loop_end (jsonStr : CString) (fuel pos : Nat) (textMap : TextMap)
    (h : ¬ pos < jsonStr.length) :
    parseSimpleJSON.loop jsonStr fuel pos textMap = some textMap := by
  unfold parseSimpleJSON.loop
  rw [if_neg h]

/-- The loop returns when it is allowed one pass per character still ahead of `pos`. -/
theorem parseSimpleJSON_loop_returns (jsonStr : CString) (fuel pos : Nat)
    (textMap : TextMap) (h : jsonStr.length < fuel + pos) :
    ∃ r, parseSimpleJSON.loop jsonStr fuel pos textMap = some r := by
  induction fuel generalizing pos textMap with
  | zero =>
    exact ⟨textMap, parseSimpleJSON_loop_end _ _ _ _ (by omega)⟩
  | succ fuel ih =>
    by_cases hp : pos < jsonStr.length
    · rw [parseSimpleJSON_loop_step _ _ _ _ hp]
      cases hb : parseSimpleJSON.body jsonStr pos textMap with
      | stop r => exact ⟨r, rfl⟩
      | next q r =>
        have := body_progress _ _ _ _ _ hb
        exact ih q r (by omega)
    · exact ⟨textMap, parseSimpleJSON_loop_end _ _ _ _ hp⟩

/-- `parseSimpleJSON` returns on every text. -/
theorem parseSimpleJSON_returns (jsonStr : CString) :
    ∃ r, parseSimpleJSON jsonStr = some r := by
  unfold parseSimpleJSON
  cases CString.find jsonStr charLBrace 0 with
  | none => exact ⟨_, rfl⟩
  | some pos =>
    obtain ⟨r, hr⟩ := parseSimpleJSON_loop_returns jsonStr (jsonStr.length + 1) (pos + 1) []
      (by omega)
    exact ⟨(!r.isEmpty, r), by simp only [hr, Option.map_some']⟩

theorem skipWhitespace_loop_spec (ws rest : List Char) (start : Nat) (hws : whitespace ws)
    (hrest : ∀ c r, rest = c :: r → isWhitespace c = false) :
    parseSimpleJSON.skipWhitespace.loop (ws ++ rest) start = start + ws.length := by
  induction ws generalizing start with
  | nil =>
    cases rest with
    | nil => rfl
    | cons c r =>
      simp only [List.nil_append, parseSimpleJSON.skipWhitespace.loop, hrest c r rfl,
        Bool.false_eq_true, if_false, List.length_nil, Nat.add_zero]
  | cons c ws ih =>
    have hc : isWhitespace c = true := hws c (List.mem_cons_self _ _)
    rw [List.cons_append, parseSimpleJSON.skipWhitespace.loop, if_pos hc,
      ih (start + 1) (fun d hd => hws d (List.mem_cons_of_mem _ hd)), List.length_cons]
    omega

theorem skipWhitespace_at (s p ws rest : List Char) (pos : Nat)
    (hs : s = p ++ (ws ++ rest)) (hpos : pos = p.length) (hws : whitespace ws)
    (hrest : ∀ c r, rest = c :: r → isWhitespace c = false) :
    parseSimpleJSON.skipWhitespace s pos = pos + ws.length := by
  subst hs hpos
  unfold parseSimpleJSON.skipWhitespace
  rw [List.drop_left]
  exact skipWhitespace_loop_spec ws rest _ hws hrest

theorem getElem?_at (s p rest : List Char) (c : Char) (pos : Nat)
    (hs : s = p ++ c :: rest) (hpos : pos = p.length) : s[pos]? = some c := by
  subst hs hpos
  rw [List.getElem?_append_right (le_refl _), Nat.sub_self, List.getElem?_cons_zero]

theorem closingQuote_plain (k rest : List Char) (pos : Nat) (hk : plainString k) :
    parseSimpleJSON.closingQuote (k ++ charQuote :: rest) false pos = pos + k.length := by
  induction k generalizing pos with
  | nil =>
    have h1 : (charQuote == charBackslash) = false := by decide
    simp [parseSimpleJSON.closingQuote, h1]
  | cons c k ih =>
    have hc := hk c (List.mem_cons_self _ _)
    have h1 : (c == charBackslash) = false := by simpa using hc.2
    have h2 : (c == charQuote) = false := by simpa using hc.1
    rw [List.cons_append, parseSimpleJSON.closingQuote, h1, h2]
    simp only [Bool.not_false, Bool.and_false, Bool.false_eq_true, if_false]
    rw [ih (pos + 1) (fun d hd => hk d (List.mem_cons_of_mem _ hd)), List.length_cons]
    omega

theorem closingQuote_at (s p k rest : List Char) (pos : Nat)
    (hs : s = p ++ (k ++ charQuote :: rest)) (hpos : pos = p.length) (hk : plainString k) :
    parseSimpleJSON.closingQuote (s.drop pos) false pos = pos + k.length := by
  subst hs hpos
  rw [List.drop_left]
  exact closingQuote_plain k rest _ hk

theorem substr_at (s p k rest : List Char) (pos n : Nat)
    (hs : s = p ++ (k ++ rest)) (hpos : pos = p.length) (hn : n = k.length) :
    CString.substr s pos n = k := by
  subst hs hpos hn
  unfold CString.substr
  rw [List.drop_left, List.take_left]

theorem processedValue_plain (v : List Char) (hv : plainString v) :
    parseSimpleJSON.processedValue v = v := by
  induction v with
  | nil => rfl
  | cons c t ih =>
    cases t with
    | nil => rfl
    | cons d rest =>
      have hc := (hv c (List.mem_cons_self _ _)).2
      rw [parseSimpleJSON.processedValue, if_neg hc,
        ih (fun x hx => hv x (List.mem_cons_of_mem _ hx))]

theorem findFrom_spec (p : Char → Bool) (l rest : List Char) (d : Char) (pos : Nat)
    (hl : ∀ c ∈ l, p c = false) (hd : p d = true) :
    CString.findFrom p (l ++ d :: rest) pos = some (pos + l.length) := by
  induction l generalizing pos with
  | nil => simp [CString.findFrom, hd]
  | cons c l ih =>
    rw [List.cons_append, CString.findFrom, hl c (List.mem_cons_self _ _)]
    simp only [Bool.false_eq_true, if_false]
    rw [ih (pos + 1) (fun x hx => hl x (List.mem_cons_of_mem _ hx)), List.length_cons]
    congr 1
    omega

/-- The part of the loop body after the key, on the text of a well-formed member: the
pair is stored and `pos` moves to the first character after the whitespace that follows
the value, and past it when it is a comma. -/
theorem parseSimpleJSON_value_member (s p key ws1 ws2 value ws3 rest : List Char)
    (keyEnd : Nat) (c : Char) (textMap : TextMap)
    (hs : s = p ++ (charQuote :: (ws1 ++ (charColon :: (ws2 ++ (charQuote :: (value ++
      (charQuote :: (ws3 ++ c :: rest)))))))))
    (hpos : keyEnd = p.length) (hws1 : whitespace ws1) (hws2 : whitespace ws2)
    (hws3 : whitespace ws3) (hv : plainString value) (hc : isWhitespace c = false) :
    parseSimpleJSON.value s key keyEnd textMap =
      ParseStep.next
        (keyEnd + ws1.length + ws2.length + value.length + ws3.length + 4 +
          if c = charComma then 1 else 0)
        (TextMap.assign textMap key value) := by
  have e1 : parseSimpleJSON.skipWhitespace s (keyEnd + 1) = keyEnd + 1 + ws1.length :=
    skipWhitespace_at s (p ++ [charQuote]) ws1
      (charColon :: (ws2 ++ (charQuote :: (value ++ (charQuote :: (ws3 ++ c :: rest))))))
      _ (by rw [hs]; simp) (by rw [hpos]; simp) hws1
      (fun d r hd => by
        have : d = charColon := (List.cons.inj hd).1.symm
        rw [this]; decide)
  have e2 : s[keyEnd + 1 + ws1.length]? = some charColon :=
    getElem?_at s (p ++ charQuote :: ws1)
      (ws2 ++ (charQuote :: (value ++ (charQuote :: (ws3 ++ c :: rest))))) charColon _
      (by rw [hs]; simp) (by rw [hpos]; simp; omega)
  have e3 : parseSimpleJSON.skipWhitespace s (keyEnd + 1 + ws1.length + 1) =
      keyEnd + 1 + ws1.length + 1 + ws2.length :=
    skipWhitespace_at s (p ++ charQuote :: (ws1 ++ [charColon])) ws2
      (charQuote :: (value ++ (charQuote :: (ws3 ++ c :: rest)))) _
      (by rw [hs]; simp) (by rw [hpos]; simp; omega) hws2
      (fun d r hd => by
        have : d = charQuote := (List.cons.inj hd).1.symm
        rw [this]; decide)
  have e4 : s[keyEnd + 1 + ws1.length + 1 + ws2.length]? = some charQuote :=
    getElem?_at s (p ++ charQuote :: (ws1 ++ charColon :: ws2))
      (value ++ (charQuote :: (ws3 ++ c :: rest))) charQuote _
      (by rw [hs]; simp) (by rw [hpos]; simp; omega)
  have e5 : parseSimpleJSON.closingQuote
      (s.drop (keyEnd + 1 + ws1.length + 1 + ws2.length + 1)) false
      (keyEnd + 1 + ws1.length + 1 + ws2.length + 1) =
      keyEnd + 1 + ws1.length + 1 + ws2.length + 1 + value.length :=
    closingQuote_at s (p ++ charQuote :: (ws1 ++ charColon :: (ws2 ++ [charQuote]))) value
      (ws3 ++ c :: rest) _ (by rw [hs]; simp) (by rw [hpos]; simp; omega) hv
  have e6 : keyEnd + 1 + ws1.length + 1 + ws2.length + 1 + value.length < s.length := by
    rw [hs, hpos]
    simp
    omega
  have e7 : CString.substr s (keyEnd + 1 + ws1.length + 1 + ws2.length + 1)
      (keyEnd + 1 + ws1.length + 1 + ws2.length + 1 + value.length -
        (keyEnd + 1 + ws1.length + 1 + ws2.length + 1)) = value :=
    substr_at s (p ++ charQuote :: (ws1 ++ charColon :: (ws2 ++ [charQuote]))) value
      (charQuote :: (ws3 ++ c :: rest)) _ _
      (by rw [hs]; simp) (by rw [hpos]; simp; omega) (by omega)
  have e8 : parseSimpleJSON.skipWhitespace s
      (keyEnd + 1 + ws1.length + 1 + ws2.length + 1 + value.length + 1) =
      keyEnd + 1 + ws1.length + 1 + ws2.length + 1 + value.length + 1 + ws3.length :=
    skipWhitespace_at s
      (p ++ charQuote :: (ws1 ++ charColon :: (ws2 ++ charQuote :: (value ++ [charQuote]))))
      ws3 (c :: rest) _ (by rw [hs]; simp) (by rw [hpos]; simp; omega) hws3
      (fun d r hd => by
        have : d = c := (List.cons.inj hd).1.symm
        rw [this]; exact hc)
  have e9 : s[keyEnd + 1 + ws1.length + 1 + ws2.length + 1 + value.length + 1 +
      ws3.length]? = some c :=
    getElem?_at s
      (p ++ charQuote :: (ws1 ++ charColon :: (ws2 ++ charQuote :: (value ++
        charQuote :: ws3)))) rest c _
      (by rw [hs]; simp) (by rw [hpos]; simp; omega)
  unfold parseSimpleJSON.value
  simp only [e1, e2, e3, e4, e5, e7, e8, e9, not_le.mpr e6, ne_eq,
    not_true_eq_false, if_false, ge_iff_le, processedValue_plain value hv,
    Option.some.injEq]
  split_ifs
  · congr 1
    omega
  · congr 1
    omega

/-- The loop body on the text of a well-formed member that is followed by whitespace and
a character `c` that is not whitespace: the pair is stored and `pos` moves to `c`, and
past it when it is a comma. -/
theorem parseSimpleJSON_body_member (s pre rest wsB : List Char) (m : Member)
    (pos : Nat) (c : Char) (textMap : TextMap)
    (hs : s = pre ++ (m.ws0 ++ charQuote :: (m.key ++ charQuote :: (m.ws1 ++ (charColon ::
      (m.ws2 ++ (charQuote :: (m.value ++ (charQuote :: ((m.ws3 ++ wsB) ++ c :: rest))))))))))
    (hpos : pos = pre.length) (hm : m.wellFormed) (hB : whitespace wsB)
    (hc : isWhitespace c = false) :
    parseSimpleJSON.body s pos textMap =
      ParseStep.next
        (pos + m.ws0.length + 1 + m.key.length + m.ws1.length + m.ws2.length +
          m.value.length + (m.ws3 ++ wsB).length + 4 + if c = charComma then 1 else 0)
        (TextMap.assign textMap m.key m.value) := by
  obtain ⟨hk, hv, h0, h1, h2, h3⟩ := hm
  have e1 : parseSimpleJSON.skipWhitespace s pos = pos + m.ws0.length :=
    skipWhitespace_at s pre m.ws0 _ _ hs hpos h0
      (fun d r hd => by
        have : d = charQuote := (List.cons.inj hd).1.symm
        rw [this]; decide)
  have e2 : s[pos + m.ws0.length]? = some charQuote :=
    getElem?_at s (pre ++ m.ws0)
      (m.key ++ charQuote :: (m.ws1 ++ (charColon ::
        (m.ws2 ++ (charQuote :: (m.value ++ (charQuote :: ((m.ws3 ++ wsB) ++ c :: rest))))))))
      charQuote _ (by rw [hs]; simp) (by rw [hpos]; simp)
  have e3 : parseSimpleJSON.closingQuote (s.drop (pos + m.ws0.length + 1)) false
      (pos + m.ws0.length + 1) = pos + m.ws0.length + 1 + m.key.length :=
    closingQuote_at s (pre ++ (m.ws0 ++ [charQuote])) m.key
      (m.ws1 ++ (charColon ::
        (m.ws2 ++ (charQuote :: (m.value ++ (charQuote :: ((m.ws3 ++ wsB) ++ c :: rest)))))))
      _ (by rw [hs]; simp) (by rw [hpos]; simp; omega) hk
  have e4 : pos + m.ws0.length + 1 + m.key.length < s.length := by
    rw [hs, hpos]
    simp
    omega
  have e5 : CString.substr s (pos + m.ws0.length + 1)
      (pos + m.ws0.length + 1 + m.key.length - (pos + m.ws0.length + 1)) = m.key :=
    substr_at s (pre ++ (m.ws0 ++ [charQuote])) m.key
      (charQuote :: (m.ws1 ++ (charColon ::
        (m.ws2 ++ (charQuote :: (m.value ++ (charQuote :: ((m.ws3 ++ wsB) ++ c :: rest))))))))
      _ _ (by rw [hs]; simp) (by rw [hpos]; simp; omega) (by omega)
  have hB3 : whitespace (m.ws3 ++ wsB) := by
    intro d hd
    rcases List.mem_append.mp hd with h | h
    · exact h3 d h
    · exact hB d h
  have e6 := parseSimpleJSON_value_member s (pre ++ (m.ws0 ++ charQuote :: m.key)) m.key
    m.ws1 m.ws2 m.value (m.ws3 ++ wsB) rest (pos + m.ws0.length + 1 + m.key.length) c textMap
    (by rw [hs]; simp) (by rw [hpos]; simp; omega) h1 h2 hB3 hv hc
  have hq1 : ¬ (some charQuote = some charRBrace) := by decide
  unfold parseSimpleJSON.body
  simp only [e1, e2, e3, e5, e6, not_le.mpr e4, ne_eq, not_true_eq_false, if_false,
    ge_iff_le, hq1, or_false, reduceCtorEq]

/-- The loop body at the whitespace before the closing brace leaves the loop. -/
theorem parseSimpleJSON_body_close (s p ws tail : List Char) (pos : Nat)
    (textMap : TextMap) (hs : s = p ++ (ws ++ charRBrace :: tail)) (hpos : pos = p.length)
    (hws : whitespace ws) :
    parseSimpleJSON.body s pos textMap = ParseStep.stop textMap := by
  have e1 : parseSimpleJSON.skipWhitespace s pos = pos + ws.length :=
    skipWhitespace_at s p ws _ _ hs hpos hws
      (fun d r hd => by
        have : d = charRBrace := (List.cons.inj hd).1.symm
        rw [this]; decide)
  have e2 : s[pos + ws.length]? = some charRBrace :=
    getElem?_at s (p ++ ws) tail charRBrace _ (by rw [hs]; simp) (by rw [hpos]; simp)
  unfold parseSimpleJSON.body
  simp only [e1, e2, or_true, if_true]

theorem parseSimpleJSON_loop_close (s p ws tail : List Char) (fuel pos : Nat)
    (textMap : TextMap) (hs : s = p ++ (ws ++ charRBrace :: tail)) (hpos : pos = p.length)
    (hws : whitespace ws) (hfuel : 1 ≤ fuel) :
    parseSimpleJSON.loop s fuel pos textMap = some textMap := by
  obtain ⟨f, rfl⟩ : ∃ f, fuel = f + 1 := ⟨fuel - 1, by omega⟩
  have hlt : pos < s.length := by
    rw [hs, hpos]
    simp
  rw [parseSimpleJSON_loop_step _ _ _ _ hlt,
    parseSimpleJSON_body_close s p ws tail pos textMap hs hpos hws]

/-- The loop over the members of a well-formed object text stores their pairs in order. -/
theorem parseSimpleJSON_loop_members (members : List Member) (inner tail : List Char)
    (hinner : whitespace inner) (s pre : List Char) (fuel pos : Nat) (textMap : TextMap)
    (hm : ∀ m ∈ members, m.wellFormed)
    (hs : s = pre ++ membersText members (inner ++ charRBrace :: tail))
    (hpos : pos = pre.length) (hfuel : s.length < fuel + pos) :
    parseSimpleJSON.loop s fuel pos textMap =
      some (members.foldl (fun t m => TextMap.assign t m.key m.value) textMap) := by
  induction members generalizing pre fuel pos textMap with
  | nil =>
    have hlt : pos < s.length := by
      rw [hs, hpos]
      simp [membersText]
    exact parseSimpleJSON_loop_close s pre inner tail fuel pos textMap hs hpos hinner
      (by omega)
  | cons m rest ih =>
    have hmw := hm m (List.mem_cons_self _ _)
    cases rest with
    | nil =>
      have hs1 : s = pre ++ (m.ws0 ++ charQuote :: (m.key ++ charQuote :: (m.ws1 ++
          (charColon :: (m.ws2 ++ (charQuote :: (m.value ++ (charQuote ::
            ((m.ws3 ++ inner) ++ charRBrace :: tail))))))))) := by
        rw [hs]
        simp [membersText, Member.text]
      have hb := parseSimpleJSON_body_member s pre tail inner m pos charRBrace textMap hs1
        hpos hmw hinner (by decide)
      have hlt : pos < s.length := by
        rw [hs1, hpos]
        simp
      obtain ⟨f, rfl⟩ : ∃ f, fuel = f + 1 := ⟨fuel - 1, by omega⟩
      rw [parseSimpleJSON_loop_step _ _ _ _ hlt, hb]
      have hne : ¬ charRBrace = charComma := by decide
      simp only [hne, if_false, Nat.add_zero, List.foldl_cons, List.foldl_nil]
      have hlen : s.length = pre.length + m.ws0.length + 1 + m.key.length + m.ws1.length +
          m.ws2.length + m.value.length + (m.ws3 ++ inner).length + 4 + 1 + tail.length := by
        rw [hs1]
        simp
        omega
      exact parseSimpleJSON_loop_close s
        (pre ++ (m.ws0 ++ charQuote :: (m.key ++ charQuote :: (m.ws1 ++
          (charColon :: (m.ws2 ++ (charQuote :: (m.value ++ (charQuote ::
            (m.ws3 ++ inner))))))))))
        [] tail f _ _ (by rw [hs1]; simp) (by rw [hpos]; simp; omega)
        (fun d hd => absurd hd (List.not_mem_nil d)) (by omega)
    | cons m2 rest2 =>
      have hs1 : s = pre ++ (m.ws0 ++ charQuote :: (m.key ++ charQuote :: (m.ws1 ++
          (charColon :: (m.ws2 ++ (charQuote :: (m.value ++ (charQuote ::
            ((m.ws3 ++ []) ++ charComma ::
              membersText (m2 :: rest2) (inner ++ charRBrace :: tail)))))))))) := by
        rw [hs]
        simp [membersText, Member.text]
      have hb := parseSimpleJSON_body_member s pre _ [] m pos charComma textMap hs1
        hpos hmw (fun d hd => absurd hd (List.not_mem_nil d)) (by decide)
      have hlt : pos < s.length := by
        rw [hs1, hpos]
        simp
      obtain ⟨f, rfl⟩ : ∃ f, fuel = f + 1 := ⟨fuel - 1, by omega⟩
      rw [parseSimpleJSON_loop_step _ _ _ _ hlt, hb]
      rw [if_pos rfl, List.foldl_cons]
      exact ih (pre ++ (m.text ++ [charComma])) f _ _
        (fun x hx => hm x (List.mem_cons_of_mem _ hx))
        (by rw [hs]; simp [membersText])
        (by rw [hpos]; simp [Member.text]; omega) (by omega)

theorem isWhitespace_ne_lbrace (c : Char) (h : isWhitespace c = true) :
    (c == charLBrace) = false := by
  by_cases hc : c = charLBrace
  · subst hc
    exact absurd h (by decide)
  · simpa using hc

theorem TextMap_assign_ne_nil (t : TextMap) (key value : CString) :
    TextMap.assign t key value ≠ [] := by
  cases t with
  | nil => simp [TextMap.assign]
  | cons p rest =>
    obtain ⟨k, v⟩ := p
    unfold TextMap.assign
    split_ifs <;> simp

theorem TextMap_foldl_isEmpty (members : List Member) (t : TextMap) :
    (members.foldl (fun t m => TextMap.assign t m.key m.value) t).isEmpty =
      (t.isEmpty && members.isEmpty) := by
  induction members generalizing t with
  | nil => simp
  | cons m rest ih =>
    rw [List.foldl_cons, ih]
    have := TextMap_assign_ne_nil t m.key m.value
    cases h : TextMap.assign t m.key m.value with
    | nil => exact absurd h this
    | cons a b => simp

theorem TextMap_find_assign (t : TextMap) (k value key : CString) :
    TextMap.find (TextMap.assign t k value) key =
      if k = key then some value else TextMap.find t key := by
  induction t with
  | nil => simp [TextMap.assign, TextMap.find]
  | cons p rest ih =>
    obtain ⟨k1, v1⟩ := p
    unfold TextMap.assign
    by_cases h1 : k1 = k
    · rw [if_pos h1]
      subst h1
      by_cases h2 : k1 = key
      · simp [TextMap.find, h2]
      · simp [TextMap.find, h2]
    · rw [if_neg h1]
      by_cases h2 : k1 = key
      · have h3 : ¬ k = key := fun e => h1 (h2.trans e.symm)
        simp [TextMap.find, h2, h3]
      · simp only [TextMap.find, h2, if_false, ih]

theorem TextMap_find_foldl (members : List Member) (t : TextMap) (key : CString) :
    TextMap.find (members.foldl (fun t m => TextMap.assign t m.key m.value) t) key =
      (lastValue members key).orElse (fun _ => TextMap.find t key) := by
  induction members generalizing t with
  | nil => simp [lastValue]
  | cons m rest ih =>
    rw [List.foldl_cons, ih, TextMap_find_assign]
    unfold lastValue
    rw [List.reverse_cons, List.find?_append]
    cases hr : List.find? (fun m => decide (m.key = key)) rest.reverse with
    | some x => simp
    | none =>
      by_cases hk : m.key = key
      · simp [hk]
      · simp [hk]

/-- The keys of the map built by successive assignments are pairwise different. -/
theorem TextMap_assign_nodup (t : TextMap) (key value : CString)
    (h : (t.map (fun p => p.1)).Nodup) :
    ((TextMap.assign t key value).map (fun p => p.1)).Nodup ∧
      ∀ k, k ∈ (TextMap.assign t key value).map (fun p => p.1) →
        k = key ∨ k ∈ t.map (fun p => p.1) := by
  induction t with
  | nil => simp [TextMap.assign]
  | cons p rest ih =>
    obtain ⟨k1, v1⟩ := p
    rw [List.map_cons, List.nodup_cons] at h
    obtain ⟨ih1, ih2⟩ := ih h.2
    unfold TextMap.assign
    by_cases h1 : k1 = key
    · rw [if_pos h1]
      refine ⟨?_, ?_⟩
      · rw [List.map_cons, List.nodup_cons]
        exact h
      · intro k hk
        exact Or.inr hk
    · rw [if_neg h1]
      refine ⟨?_, ?_⟩
      · rw [List.map_cons, List.nodup_cons]
        refine ⟨fun hmem => ?_, ih1⟩
        rcases ih2 k1 hmem with e | e
        · exact h1 e
        · exact h.1 e
      · intro k hk
        rw [List.map_cons, List.mem_cons] at hk
        rcases hk with e | e
        · exact Or.inr (by rw [e]; exact List.mem_cons_self _ _)
        · rcases ih2 k e with e1 | e1
          · exact Or.inl e1
          · exact Or.inr (List.mem_cons_of_mem _ e1)

theorem TextMap_foldl_nodup (members : List Member) (t : TextMap)
    (h : (t.map (fun p => p.1)).Nodup) :
    ((members.foldl (fun t m => TextMap.assign t m.key m.value) t).map
      (fun p => p.1)).Nodup := by
  induction members generalizing t with
  | nil => exact h
  | cons m rest ih =>
    rw [List.foldl_cons]
    exact ih _ (TextMap_assign_nodup t m.key m.value h).1

/-- `parseSimpleJSON` on a well-formed flat object text. -/
theorem parseSimpleJSON_objectText (lead inner tail : List Char) (members : List Member)
    (hlead : whitespace lead) (hinner : whitespace inner)
    (hm : ∀ m ∈ members, m.wellFormed) :
    parseSimpleJSON (objectText lead members inner tail) =
      some (!members.isEmpty,
        members.foldl (fun t m => TextMap.assign t m.key m.value) []) := by
  have hf : CString.find (objectText lead members inner tail) charLBrace 0 =
      some lead.length := by
    unfold CString.find objectText
    rw [List.drop_zero, findFrom_spec _ lead _ charLBrace 0
      (fun c hc => isWhitespace_ne_lbrace c (hlead c hc)) (by decide), Nat.zero_add]
  have hl := parseSimpleJSON_loop_members members inner tail hinner
    (objectText lead members inner tail) (lead ++ [charLBrace])
    ((objectText lead members inner tail).length + 1) (lead.length + 1) [] hm
    (by simp [objectText]) (by simp) (by omega)
  unfold parseSimpleJSON
  rw [hf]
  simp only [hl, Option.map_some', TextMap_foldl_isEmpty, List.isEmpty_nil, Bool.true_and]

/-- C30. `parseSimpleJSON` returns on every text `jsonStr` (each pass of its loop moves
`pos` forward, so the loop makes at most one pass per character). On a flat object
text, that is whitespace, an opening brace, members (a double-quoted key, a colon, a
double-quoted value) separated by commas, whitespace, a closing brace and anything after
it, where keys and values hold neither a quote nor a backslash and any run of spaces,
tabs and line breaks may stand between the tokens, it returns true exactly when there is
at least one member, and the map it leaves holds for every key the value of the last
member with that key, and no entry for a key that no member has; no key is stored
twice. -/
theorem C30_parseSimpleJSON_flat_object (jsonStr lead inner tail : List Char)
    (members : List Member) (hlead : whitespace lead) (hinner : whitespace inner)
    (hm : ∀ m ∈ members, m.wellFormed) :
    (∃ r, parseSimpleJSON jsonStr = some r) ∧
    ∃ textMap,
      parseSimpleJSON (objectText lead members inner tail) =
        some (decide (members ≠ []), textMap) ∧
      (∀ key, TextMap.find textMap key = lastValue members key) ∧
      (textMap.map (fun p => p.1)).Nodup := by
  refine ⟨parseSimpleJSON_returns jsonStr,
    members.foldl (fun t m => TextMap.assign t m.key m.value) [], ?_, ?_, ?_⟩
  · rw [parseSimpleJSON_objectText lead inner tail members hlead hinner hm]
    cases members with
    | nil => rfl
    | cons m rest => simp
  · intro key
    rw [TextMap_find_foldl]
    cases lastValue members key with
    | none => rfl
    | some v => rfl
  · exact TextMap_foldl_nodup members [] List.nodup_nil

/-- C30 on the sample object text with the members `a : x`, `b : y`, `a : z`: the parser
returns true with the map a ↦ z, b ↦ y. -/
theorem C30_witness_sample_object :
    whitespace [charLF] ∧ (∀ m ∈ sampleMembers, m.wellFormed) ∧
    parseSimpleJSON sampleObject = some (true, [(['a'], ['z']), (['b'], ['y'])]) ∧
    ∃ textMap,
      parseSimpleJSON sampleObject = some (decide (sampleMembers ≠ []), textMap) ∧
      (∀ key, TextMap.find textMap key = lastValue sampleMembers key) ∧
      (textMap.map (fun p => p.1)).Nodup :=
  ⟨by decide, by decide, by decide,
    (C30_parseSimpleJSON_flat_object [] [charLF] [charLF] [charLF] sampleMembers
      (by decide) (by decide) (by decide)).2⟩

end tj
